import Mathlib

/-!
# Daily notes: parsing and indexing (`notes.go`)

A shallow embedding of the note parser and corpus loader of `notes.go`,
followed by theorems about it.

Conventions of the embedding.

* A Go `string` is a list of characters (`Str`).  Every delimiter the code
  searches for (space, `#`, `:`, the fence and separator markers) is ASCII, so
  cutting at a byte offset and cutting at a character offset give the same
  pieces.
* A Go slice is a list.  In-place writes (`lines[w] = lines[i]`) are kept as
  explicit `List.set` steps on the list that stands for the backing array.
* A Go `int` result with the sentinel `-1` is an `Option Nat`.
* A call that may `panic` returns `Option`; `none` is the panic.
* `time.Time` values in this program are always midnights in UTC, so a time
  is the number of days since 1970-01-01 (`Time := Int`).
* Library functions whose code is not part of the program (Unicode lower
  casing, the highlighter, the URL matcher, the sanitizer, the random token
  and id generators, `u.RemoveDuplicateStrings`, `urlify`) are fields of `Env`.
* The package-level counters touched while parsing are fields of `World`,
  passed through explicitly.
-/

namespace Notes

/-- A Go string. -/
abbrev Str := List Char

/-- The external functions the parser calls. -/
structure Env where
  /-- `unicode.ToLower` on one character; `strings.ToLower` maps it over a string. -/
  toLower : Char → Char
  /-- `syntaxhighlight.AsHTML`; `none` is a returned error. -/
  highlight : Str → Option Str
  /-- `xurls.Relaxed.FindAllString(s, -1)`. -/
  findAllURLs : Str → List Str
  /-- `sanitize.HTMLAllowing`. -/
  sanitize : Str → Str
  /-- `u.RemoveDuplicateStrings`. -/
  removeDuplicateStrings : List Str → List Str
  /-- `sort.Slice(urls, less)` with `less` telling the longer string: the
  strings by descending length.  The sort is not stable, so the library does
  not fix the order among strings of one length. -/
  sortLongestFirst : List Str → List Str
  /-- The result of the n-th call of `genRandomString`. -/
  genRandomString : Nat → Str
  /-- The result of the n-th call of `xid.New().String()`. -/
  xidNew : Nat → Str
  /-- The function `urlify`, defined in another file of the package. -/
  urlify : Str → Str

/-- The counters that parsing advances. -/
structure World where
  /-- The package variable `nTotalNotes`. -/
  nTotalNotes : Nat
  /-- How many times `genRandomString` has been called. -/
  nRandom : Nat
  /-- How many times `xid.New` has been called. -/
  nXid : Nat
deriving DecidableEq, Repr

/-! ## The `strings` package -/

namespace strings

/-- `strings.HasPrefix(s, p)`. -/
def HasPrefix (s p : Str) : Bool := p.isPrefixOf s

/-- `strings.Index(s, c)` for a one-character `c`: offset of the first `c`. -/
def Index : Str → Char → Option Nat
  | [], _ => none
  | x :: xs, c => if x = c then some 0 else (Index xs c).map (· + 1)

/-- `strings.LastIndex(s, c)` for a one-character `c`: offset of the last `c`. -/
def LastIndex : Str → Char → Option Nat
  | [], _ => none
  | x :: xs, c =>
    match LastIndex xs c with
    | some i => some (i + 1)
    | none => if x = c then some 0 else none

/-- `strings.TrimLeft(s, cutset)`. -/
def TrimLeft (s cutset : Str) : Str := s.dropWhile (fun c => decide (c ∈ cutset))

/-- `strings.TrimRight(s, cutset)`. -/
def TrimRight (s cutset : Str) : Str := s.rdropWhile (fun c => decide (c ∈ cutset))

/-- `unicode.IsSpace`: the Latin-1 spaces and the characters with the Unicode
White Space property. -/
def IsSpace (c : Char) : Bool :=
  let n := c.toNat
  (9 ≤ n && n ≤ 13) || n = 32 || n = 0x85 || n = 0xA0 || n = 0x1680 ||
  (0x2000 ≤ n && n ≤ 0x200a) || n = 0x2028 || n = 0x2029 || n = 0x202f ||
  n = 0x205f || n = 0x3000

/-- `strings.TrimSpace(s)`. -/
def TrimSpace (s : Str) : Str := (s.dropWhile IsSpace).rdropWhile IsSpace

/-- `strings.ToLower(s)`. -/
def ToLower (env : Env) (s : Str) : Str := s.map env.toLower

/-- `strings.Join(a, sep)`. -/
def Join (a : List Str) (sep : Str) : Str := sep.intercalate a

/-- The loop of `strings.Replace(s, old, new, -1)` for a non-empty `old`:
`skip` counts the characters of a match that are still to be passed over. -/
def ReplaceAux (old new : Str) : Str → Nat → Str
  | [], _ => []
  | _ :: cs, skip + 1 => ReplaceAux old new cs skip
  | c :: cs, 0 =>
    if old.isPrefixOf (c :: cs) then new ++ ReplaceAux old new cs (old.length - 1)
    else c :: ReplaceAux old new cs 0

/-- `strings.Replace(s, old, new, -1)`: every non-overlapping occurrence of
`old`, from the left, becomes `new`; an empty `old` matches before every
character and at the end. -/
def Replace (s old new : Str) : Str :=
  if old = [] then new ++ (s.map fun c => c :: new).flatten
  else ReplaceAux old new s 0

end strings

/-! ## Tags -/

/-- The scan of `findWordEnd` from offset `i` over the rest of the string. -/
def findWordEndAux : Str → Nat → Option Nat
  | [], _ => none
  | c :: cs, i => if c = ' ' then some (i + 1) else findWordEndAux cs (i + 1)

/-- `findWordEnd(s, start)`: one past the first space at or after `start`. -/
def findWordEnd (s : Str) (start : Nat) : Option Nat :=
  findWordEndAux (s.drop start) start

/-- The loop "remove hashtags from start" of `removeHashTags`.  The flag is
`true` when the loop executed `return "", tags`.  `fuel` bounds the number of
iterations. -/
def removeHashTags_start : Nat → Str → List Str → Bool × Str × List Str
  | 0, s, tags => (false, s, tags)
  | fuel + 1, s, tags =>
    if strings.HasPrefix s "#".toList then
      match findWordEnd s 0 with
      | none => (true, [], tags ++ [s.drop 1])
      | some idx =>
        removeHashTags_start fuel (strings.TrimLeft (s.drop idx) " ".toList)
          (tags ++ [(s.take (idx - 1)).drop 1])
    else (false, s, tags)

/-- The loop "remove hashtags from end" of `removeHashTags`.  `fuel` bounds the
number of iterations. -/
def removeHashTags_end : Nat → Str → List Str → Str × List Str
  | 0, s, tags => (s, tags)
  | fuel + 1, s, tags =>
    match strings.LastIndex s '#' with
    | none => (s, tags)
    | some idx =>
      if (findWordEnd s idx).isSome then (s, tags)
      else if 0 < idx ∧ s[idx - 1]? ≠ some ' ' then (s, tags)
      else
        removeHashTags_end fuel (strings.TrimRight (s.take idx) " ".toList)
          (tags ++ [s.drop (idx + 1)])

/-- `removeHashTags(s)`.  The deferred function lowercases the collected tags
in the returned slice.  Each loop iteration shortens `s`, so the length of `s`
plus one bounds the iterations of either loop. -/
def removeHashTags (env : Env) (s : Str) : Str × List Str :=
  match removeHashTags_start (s.length + 1) s [] with
  | (true, s1, tags) => (s1, tags.map (strings.ToLower env))
  | (false, s1, tags) =>
    let s2 := strings.TrimRight s1 " ".toList
    let r := removeHashTags_end (s2.length + 1) s2 tags
    (r.1, r.2.map (strings.ToLower env))

/-! ## Body, metadata, code blocks -/

/-- `lastLineEmpty(lines)`. -/
def lastLineEmpty (lines : List Str) : Bool :=
  match lines.getLast? with
  | none => false
  | some line => line.length = 0

/-- `removeLastLine(lines)`. -/
def removeLastLine (lines : List Str) : List Str := lines.take (lines.length - 1)

/-- The first loop of `buildBodyFromLines`: every line is replaced by what
`removeHashTags` leaves of it and the tags are appended to `resTags`. -/
def buildBodyFromLines_strip (env : Env) : List Str → List Str → List Str × List Str
  | [], resTags => ([], resTags)
  | line :: rest, resTags =>
    let r := removeHashTags env line
    let q := buildBodyFromLines_strip env rest (resTags ++ r.2)
    (r.1 :: q.1, q.2)

/-- One iteration, at index `i`, of the loop of `buildBodyFromLines` that
collapses empty lines in place; the state is the array and `currWrite`. -/
def buildBodyFromLines_collapseStep (st : List Str × Nat) (i : Nat) : List Str × Nat :=
  let lines := st.1
  let currWrite := st.2
  let prev := lines.getD (currWrite - 1) []
  let curr := lines.getD i []
  if prev.length = 0 ∧ curr.length = 0 then (lines, currWrite)
  else (lines.set currWrite curr, currWrite + 1)

/-- The loop `for len(lines[0]) == 0 { lines = lines[1:] }`; indexing an empty
slice panics. -/
def buildBodyFromLines_dropFront : List Str → Option (List Str)
  | [] => none
  | l :: ls => if l.length = 0 then buildBodyFromLines_dropFront ls else some (l :: ls)

/-- The loop `for lastLineEmpty(lines) { lines = removeLastLine(lines) }`, at
most `fuel` iterations. -/
def buildBodyFromLines_dropBack : Nat → List Str → List Str
  | 0, lines => lines
  | fuel + 1, lines =>
    if lastLineEmpty lines then buildBodyFromLines_dropBack fuel (removeLastLine lines)
    else lines

/-- `buildBodyFromLines(lines)`.  The slice is taken with capacity equal to its
length, as it is when `newNote` passes the empty result of
`extractCodeSnippets`, so `lines[:currWrite]` panics on an empty slice. -/
def buildBodyFromLines (env : Env) (lines : List Str) : Option (Str × List Str) :=
  let r := buildBodyFromLines_strip env lines []
  let lines := r.1
  let resTags := env.removeDuplicateStrings r.2
  let st := (List.range' 1 (lines.length - 1)).foldl buildBodyFromLines_collapseStep (lines, 1)
  let currWrite := st.2
  if lines.length < currWrite then none
  else
    let lines := st.1.take currWrite
    if lines.length = 0 then some ([], resTags)
    else
      match buildBodyFromLines_dropFront lines with
      | none => none
      | some lines =>
        let lines := buildBodyFromLines_dropBack lines.length lines
        some (strings.Join lines "\n".toList, resTags)

/-- The Go struct `noteMetadata`. -/
structure noteMetadata where
  ID : Str
  Title : Str
deriving DecidableEq, Repr

/-- One iteration, at index `i`, of the loop of `extractMetaDataFromLines`;
the state is the array, `writeIdx` and the metadata found so far. -/
def extractMetaDataFromLines_step (env : Env) (st : List Str × Nat × noteMetadata) (i : Nat) :
    List Str × Nat × noteMetadata :=
  let lines := st.1
  let writeIdx := st.2.1
  let res := st.2.2
  let s := lines.getD i []
  let found : noteMetadata × Bool :=
    match strings.Index s ':' with
    | none => (res, false)
    | some idx =>
      let name := strings.ToLower env (s.take idx)
      let val := strings.TrimSpace (s.drop (idx + 1))
      if name = "id".toList then ({ res with ID := val }, true)
      else if name = "title".toList then ({ res with Title := val }, true)
      else (res, false)
  let res := found.1
  let skipLine := found.2
  if skipLine ∨ writeIdx = i then (lines, writeIdx, res)
  else (lines.set writeIdx (lines.getD i []), writeIdx + 1, res)

/-- `extractMetaDataFromLines(lines)`. -/
def extractMetaDataFromLines (env : Env) (lines : List Str) : List Str × noteMetadata :=
  let st := (List.range lines.length).foldl (extractMetaDataFromLines_step env)
    (lines, 0, { ID := [], Title := [] })
  (st.1.take st.2.1, st.2.2)


/-- The first loop of `noteToHTML`: each URL gets a fresh anchor, recorded in
`urlToAnchor`, and its occurrences in `s` are replaced by the anchor. -/
def noteToHTML_toAnchors (env : Env) :
    List Str → Str → List (Str × Str) → World → Str × List (Str × Str) × World
  | [], s, urlToAnchor, w => (s, urlToAnchor, w)
  | url :: rest, s, urlToAnchor, w =>
    let anchor := env.genRandomString w.nRandom
    noteToHTML_toAnchors env rest (strings.Replace s url anchor)
      ((url, anchor) :: urlToAnchor) { w with nRandom := w.nRandom + 1 }

/-- The second loop of `noteToHTML`: each anchor becomes the link markup of its
URL.  `urlToAnchor` holds the newest entry of a key first. -/
def noteToHTML_toLinks (urlToAnchor : List (Str × Str)) : List Str → Str → Str
  | [], s => s
  | url :: rest, s =>
    let replacement := "<a href=\"".toList ++ url ++ "\">".toList ++ url ++ "</a>".toList
    let anchor := (urlToAnchor.lookup url).getD []
    noteToHTML_toLinks urlToAnchor rest (strings.Replace s anchor replacement)

/-- `noteToHTML(s)`. -/
def noteToHTML (env : Env) (s : Str) (w : World) : Str × World :=
  let urls := env.sortLongestFirst (env.removeDuplicateStrings (env.findAllURLs s))
  let r := noteToHTML_toAnchors env urls s [] w
  (env.sanitize (noteToHTML_toLinks r.2.1 urls r.1), r.2.2)

/-- The Go struct `codeSnippetInfo`. -/
structure codeSnippetInfo where
  anchor : Str
  codeHTML : Str
deriving DecidableEq, Repr

/-- The constant `noteSeparator`. -/
def noteSeparator : Str := "---".toList

/-- The constant `codeBlockStart`. -/
def codeBlockStart : Str := "```".toList

/-- The local variables of `extractCodeSnippets` and the counters. -/
structure ExtractState where
  resLines : List Str
  codeSnippets : List codeSnippetInfo
  codeLineStart : Option Nat
  world : World
deriving DecidableEq, Repr

/-- The loop of `extractCodeSnippets` over the lines from index `i` on;
`lines` is the whole slice, from which a closed block is cut. -/
def extractCodeSnippets_loop (env : Env) (lines : List Str) :
    List Str → Nat → ExtractState → Option ExtractState
  | [], _, st => some st
  | s :: rest, i, st =>
    if strings.HasPrefix s codeBlockStart then
      match st.codeLineStart with
      | none => extractCodeSnippets_loop env lines rest (i + 1) { st with codeLineStart := some i }
      | some start =>
        let codeLines := (lines.take i).drop (start + 1)
        let code := strings.Join codeLines "\n".toList
        match env.highlight code with
        | none => none
        | some codeHTML =>
          let anchor := env.genRandomString st.world.nRandom
          extractCodeSnippets_loop env lines rest (i + 1)
            { resLines := st.resLines ++ [anchor]
              codeSnippets := st.codeSnippets ++ [{ anchor := anchor, codeHTML := codeHTML }]
              codeLineStart := none
              world := { st.world with nRandom := st.world.nRandom + 1 } }
    else
      match st.codeLineStart with
      | none => extractCodeSnippets_loop env lines rest (i + 1)
          { st with resLines := st.resLines ++ [s] }
      | some _ => extractCodeSnippets_loop env lines rest (i + 1) st

/-- `extractCodeSnippets(lines)`; it panics when the highlighter fails and when
a block is still open at the end. -/
def extractCodeSnippets (env : Env) (lines : List Str) (w : World) :
    Option (List Str × List codeSnippetInfo × World) :=
  match extractCodeSnippets_loop env lines lines 0
      { resLines := [], codeSnippets := [], codeLineStart := none, world := w } with
  | none => none
  | some st =>
    match st.codeLineStart with
    | some _ => none
    | none => some (st.resLines, st.codeSnippets, st.world)

/-- `trimEmptyLines(a)`, first loop: drops empty lines at the start and every
empty line that follows an empty line. -/
def trimEmptyLines_loop : List Str → Bool → List Str
  | [], _ => []
  | s :: rest, prevWasEmpty =>
    let currIsEmpty : Bool := s.length = 0
    if currIsEmpty ∧ prevWasEmpty then trimEmptyLines_loop rest prevWasEmpty
    else s :: trimEmptyLines_loop rest currIsEmpty

/-- `trimEmptyLines(a)`, second loop: drops the empty lines at the end. -/
def trimEmptyLines_end : Nat → List Str → List Str
  | 0, res => res
  | fuel + 1, res =>
    if 0 < res.length then
      if (res.getD (res.length - 1) []).length ≠ 0 then res
      else trimEmptyLines_end fuel (res.take (res.length - 1))
    else res

/-- `trimEmptyLines(a)`. -/
def trimEmptyLines (a : List Str) : List Str :=
  let res := trimEmptyLines_loop a true
  trimEmptyLines_end (res.length + 1) res

/-- `dupStringArray(a)`. -/
def dupStringArray (a : List Str) : List Str := [] ++ a

/-- A time: days since 1970-01-01, at midnight UTC. -/
abbrev Time := Int

/-- The zero value of `time.Time`, January 1 of year 1. -/
def zeroTime : Time := -719162

/-- The Go struct `note`. -/
structure note where
  Day : Time
  DayStr : Str
  DayWithNameStr : Str
  ID : Str
  Title : Str
  URL : Str
  HTMLBody : Str
  Tags : List Str
  rawLines : List Str
deriving DecidableEq, Repr

/-- The lines and metadata `newNote` hands on after `extractMetaDataFromLines`,
and the result of `extractCodeSnippets` on them: the first two stages of
`newNote`. -/
def newNote_snippets (env : Env) (lines : List Str) (w : World) :
    Option (List Str × List codeSnippetInfo × World) :=
  extractCodeSnippets env (extractMetaDataFromLines env lines).1
    { w with nTotalNotes := w.nTotalNotes + 1 }

/-- `newNote(lines)`. -/
def newNote (env : Env) (lines : List Str) (w : World) : Option (note × World) :=
  let rawLines := dupStringArray lines
  let lm := extractMetaDataFromLines env lines
  match newNote_snippets env lines w with
  | none => none
  | some (lines, codeSnippets, w) =>
    match buildBodyFromLines env lines with
    | none => none
    | some (s, tags) =>
      let r := noteToHTML env s w
      let body := codeSnippets.foldl (fun body codeSnippet =>
        strings.Replace body codeSnippet.anchor
          ("<pre class=\"note-code\">".toList ++ codeSnippet.codeHTML ++ "</pre>".toList)) r.1
      some ({ Day := zeroTime, DayStr := [], DayWithNameStr := [], URL := []
              Tags := tags, HTMLBody := body, ID := lm.2.ID, Title := lm.2.Title
              rawLines := rawLines }, r.2)

/-- The statements `if len(curr) > 0 { part := newNote(curr); res = append(res,
part) }`, which `linesToNotes` runs at every separator and after its loop. -/
def linesToNotes_flush (env : Env) (res : List note) (curr : List Str) (w : World) :
    Option (List note × World) :=
  if 0 < curr.length then
    match newNote env curr w with
    | none => none
    | some (part, w) => some (res ++ [part], w)
  else some (res, w)

/-- The loop of `linesToNotes`; `curr` holds the lines since the last separator. -/
def linesToNotes_loop (env : Env) :
    List Str → List note → List Str → World → Option (List note × List Str × World)
  | [], res, curr, w => some (res, curr, w)
  | line :: rest, res, curr, w =>
    if line = noteSeparator then
      match linesToNotes_flush env res curr w with
      | none => none
      | some (res, w) => linesToNotes_loop env rest res [] w
    else linesToNotes_loop env rest res (curr ++ [line]) w

/-- `linesToNotes(lines)`. -/
def linesToNotes (env : Env) (lines : List Str) (w : World) : Option (List note × World) :=
  match linesToNotes_loop env lines [] [] w with
  | none => none
  | some (res, curr, w) => linesToNotes_flush env res curr w

/-! ## Calendar days (`time`) -/

/-- Whether `y` is a leap year of the proleptic Gregorian calendar. -/
def isLeap (y : Int) : Bool := y % 4 = 0 ∧ (y % 100 ≠ 0 ∨ y % 400 = 0)

/-- `daysIn(m, year)` of package `time`. -/
def daysIn (m y : Int) : Int :=
  if m = 2 then (if isLeap y then 29 else 28)
  else if m = 4 ∨ m = 6 ∨ m = 9 ∨ m = 11 then 30 else 31

/-- The day number (days since 1970-01-01) of the civil date `y-m-d`. -/
def daysFromCivil (y m d : Int) : Time :=
  let y := if m ≤ 2 then y - 1 else y
  let era := y / 400
  let yoe := y - era * 400
  let doy := (153 * (if 2 < m then m - 3 else m + 9) + 2) / 5 + d - 1
  let doe := yoe * 365 + yoe / 4 - yoe / 100 + doy
  era * 146097 + doe - 719468

/-- The civil date (year, month, day) of a day number. -/
def civilFromDays (t : Time) : Int × Int × Int :=
  let z := t + 719468
  let era := z / 146097
  let doe := z - era * 146097
  let yoe := (doe - doe / 1460 + doe / 36524 - doe / 146096) / 365
  let y := yoe + era * 400
  let doy := doe - (365 * yoe + yoe / 4 - yoe / 100)
  let mp := (5 * doy + 2) / 153
  let d := doy - (153 * mp + 2) / 5 + 1
  let m := if mp < 10 then mp + 3 else mp - 9
  (if m ≤ 2 then y + 1 else y, m, d)

/-- The value of a decimal digit. -/
def digitVal (c : Char) : Option Int :=
  if 48 ≤ c.toNat ∧ c.toNat ≤ 57 then some ((c.toNat : Int) - 48) else none

/-- `time.Parse("2006-01-02", s)`: four digits, `-`, two digits of a month
1..12, `-`, two digits of a day of that month, and nothing else; `none` is a
returned error. -/
def timeParse (s : Str) : Option Time :=
  match s with
  | [y1, y2, y3, y4, s1, m1, m2, s2, d1, d2] =>
    match digitVal y1, digitVal y2, digitVal y3, digitVal y4,
        digitVal m1, digitVal m2, digitVal d1, digitVal d2 with
    | some a, some b, some c, some d, some e, some f, some g, some h =>
      let year := a * 1000 + b * 100 + c * 10 + d
      let month := e * 10 + f
      let day := g * 10 + h
      if s1 = '-' ∧ s2 = '-' ∧ 1 ≤ month ∧ month ≤ 12 ∧ 1 ≤ day ∧ day ≤ daysIn month year
      then some (daysFromCivil year month day) else none
    | _, _, _, _, _, _, _, _ => none
  | _ => none

/-- `appendInt(b, x, width)` of package `time`: decimal, zero padded to `width`
digits, with a leading `-` for a negative number. -/
def appendInt (x : Int) (width : Nat) : Str :=
  let digits := Nat.toDigits 10 x.natAbs
  (if x < 0 then ['-'] else []) ++ List.replicate (width - digits.length) '0' ++ digits

/-- `t.Format("2006-01-02")`. -/
def timeFormat (t : Time) : Str :=
  let c := civilFromDays t
  appendInt c.1 4 ++ ['-'] ++ appendInt c.2.1 2 ++ ['-'] ++ appendInt c.2.2 2

/-- `t.Weekday()`: 0 is Sunday, 6 is Saturday. -/
def Weekday (t : Time) : Int := (t + 4) % 7

/-- The three-letter day names of package `time`. -/
def shortDayName (wd : Int) : Str :=
  (["Sun", "Mon", "Tue", "Wed", "Thu", "Fri", "Sat"].getD wd.toNat "").toList

/-- `t.Format("2006-01-02 Mon")`. -/
def timeFormatWithName (t : Time) : Str :=
  timeFormat t ++ [' '] ++ shortDayName (Weekday t)

/-- The largest `time.Duration`, in nanoseconds. -/
def maxDuration : Int := 2 ^ 63 - 1

/-- The smallest `time.Duration`, in nanoseconds. -/
def minDuration : Int := -(2 ^ 63)

/-- `t.Sub(u)` in nanoseconds; a difference that does not fit a `Duration` is
replaced by the largest or smallest duration. -/
def timeSub (t u : Time) : Int :=
  let d := (t - u) * 86400000000000
  if maxDuration < d then maxDuration else if d < minDuration then minDuration else d

/-- `calcWeekStart(t)`: `t.Add(dayOffset)` with
`dayOffset = Duration(wd - 1) * Hour * -24`, a whole number of days. -/
def calcWeekStart (t : Time) : Time :=
  let wd := Weekday t
  let dayOffset := (wd - 1) * -1
  t + dayOffset

/-! ## Days -/

/-- The Go struct `notesForDay`. -/
structure notesForDay where
  Day : Time
  DayStr : Str
  Notes : List note
  lines : List Str
deriving DecidableEq, Repr

/-- The local variables of `readNotesFoDay` and the counters.  `seenDays` lists
the keys set in the map of that name. -/
structure ReadState where
  seenDays : List Str
  notes : List notesForDay
  curr : Option notesForDay
  lines : List Str
  world : World
deriving DecidableEq, Repr

/-- The statements `curr.lines = lines; curr.Notes = linesToNotes(lines);
notes = append(notes, curr)` of `readNotesFoDay`. -/
def readNotesFoDay_flush (env : Env) (curr : notesForDay) (st : ReadState) :
    Option (List notesForDay × World) :=
  match linesToNotes env st.lines st.world with
  | none => none
  | some (ns, w) => some (st.notes ++ [{ curr with lines := st.lines, Notes := ns }], w)

/-- The scanner loop of `readNotesFoDay` over the lines the scanner yields. -/
def readNotesFoDay_loop (env : Env) : List Str → ReadState → Option ReadState
  | [], st => some st
  | text :: rest, st =>
    let s := strings.TrimRight text "\n\r\t ".toList
    match timeParse s with
    | some day =>
      let dayStr := s
      if dayStr ∈ st.seenDays then none
      else
        let next : notesForDay := { DayStr := dayStr, Day := day, Notes := [], lines := [] }
        match st.curr with
        | some curr =>
          match readNotesFoDay_flush env curr st with
          | none => none
          | some (notes, w) =>
            readNotesFoDay_loop env rest
              { seenDays := dayStr :: st.seenDays, notes := notes, curr := some next
                lines := [], world := w }
        | none =>
          readNotesFoDay_loop env rest
            { st with seenDays := dayStr :: st.seenDays, curr := some next, lines := [] }
    | none => readNotesFoDay_loop env rest { st with lines := st.lines ++ [s] }

/-- `readNotesFoDay(path)` on a file that opens and is scanned without error;
`fileLines` are the lines the scanner yields.  After the loop `curr.lines` is
a nil pointer dereference when no day header was seen. -/
def readNotesFoDay (env : Env) (fileLines : List Str) (w : World) :
    Option (List notesForDay × World) :=
  match readNotesFoDay_loop env fileLines
      { seenDays := [], notes := [], curr := none, lines := [], world := w } with
  | none => none
  | some st =>
    match st.curr with
    | none => none
    | some curr => readNotesFoDay_flush env curr st

/-! ## Identifier back-fill -/

/-- The inner loop of `notesGenIDIfNecessary` over the notes of one day, from
index `idx` on.  The state is `lines`, `updatedNotes` and the counters. -/
def notesGenIDIfNecessary_notes (env : Env) (lastNoteIdx : Nat) :
    List note → Nat → List Str → List note → World → List Str × List note × World
  | [], _, lines, updatedNotes, w => (lines, updatedNotes, w)
  | n :: rest, idx, lines, updatedNotes, w =>
    let r : List Str × List note × World :=
      if n.ID = [] then
        let id := env.xidNew w.nXid
        let idLine := "Id: ".toList ++ id
        (lines ++ [idLine], updatedNotes ++ [{ n with ID := id }], { w with nXid := w.nXid + 1 })
      else (lines, updatedNotes, w)
    let rawLines := trimEmptyLines n.rawLines
    let lines := r.1 ++ rawLines
    let lines := if idx ≠ lastNoteIdx then lines ++ [[], noteSeparator, []] else lines
    notesGenIDIfNecessary_notes env lastNoteIdx rest (idx + 1) lines r.2.1 r.2.2

/-- The outer loop of `notesGenIDIfNecessary` over the days. -/
def notesGenIDIfNecessary_days (env : Env) :
    List notesForDay → List Str → List note → World → List Str × List note × World
  | [], lines, updatedNotes, w => (lines, updatedNotes, w)
  | dayNotes :: rest, lines, updatedNotes, w =>
    let lines := lines ++ [dayNotes.DayStr]
    let notes := dayNotes.Notes
    let r := notesGenIDIfNecessary_notes env (notes.length - 1) notes 0 lines updatedNotes w
    notesGenIDIfNecessary_days env rest (r.1 ++ [[]]) r.2.1 r.2.2

/-- The lines and the updated notes that `notesGenIDIfNecessary` computes from
the parsed days. -/
def notesGenIDIfNecessary_lines (env : Env) (notesPerDay : List notesForDay) (w : World) :
    List Str × List note × World :=
  notesGenIDIfNecessary_days env notesPerDay [] [] w

/-- `notesGenIDIfNecessary()` on a file with the lines `fileLines`: the text
written back to the file, if any (the process then exits). -/
def notesGenIDIfNecessary (env : Env) (fileLines : List Str) (w : World) :
    Option (Option Str × World) :=
  match readNotesFoDay env fileLines w with
  | none => none
  | some (notesPerDay, w) =>
    let r := notesGenIDIfNecessary_lines env notesPerDay w
    if 0 < r.2.1.length then some (some (strings.Join r.1 "\n".toList), r.2.2)
    else some (none, r.2.2)

/-! ## Loading the corpus -/

/-- The Go struct `tagWithCount`. -/
structure tagWithCount where
  Tag : Str
  Count : Nat
deriving DecidableEq, Repr

/-- A Go map with string keys: its entries, each key once, in the order in
which the keys were first set. -/
abbrev GoMap (α : Type) := List (Str × α)

/-- The lookup `m[k]`; `none` when the key is absent. -/
def mapGet {α : Type} (m : GoMap α) (k : Str) : Option α := m.lookup k

/-- The assignment `m[k] = v`. -/
def mapSet {α : Type} (m : GoMap α) (k : Str) (v : α) : GoMap α :=
  if (m.lookup k).isSome then m.map (fun e => if e.1 = k then (k, v) else e)
  else m ++ [(k, v)]

/-- The keys a `range` over the map yields, here in the order of first
assignment (Go leaves the order open; both uses sort the keys afterwards). -/
def mapKeys {α : Type} (m : GoMap α) : List Str := m.map Prod.fst

/-- The package-level variables of `notes.go` (the counter `nTotalNotes` is in
`World`). -/
structure Globals where
  notesDays : List notesForDay
  notesTagToNotes : GoMap (List note)
  notesIDToNote : GoMap note
  notesTagCounts : List tagWithCount
  notesAllNotes : List note
  notesWeekStartDayToNotes : GoMap (List note)
  notesWeekStarts : List Str
deriving DecidableEq, Repr

/-- The comparison `a < b` of Go strings. -/
def strLess : Str → Str → Bool
  | _, [] => false
  | [], _ :: _ => true
  | a :: as, b :: bs => a < b || (a = b && strLess as bs)

/-- `sort.Strings(a)`. -/
def sortStrings (a : List Str) : List Str :=
  a.insertionSort (fun x y => strLess y x = false)

/-- One iteration, at index `i`, of the loop of `reverseStringArray`. -/
def reverseStringArray_step (a : List Str) (i : Nat) : List Str :=
  let last := a.length - i - 1
  (a.set i (a.getD last [])).set last (a.getD i [])

/-- `reverseStringArray(a)`: the array after the in-place swaps. -/
def reverseStringArray (a : List Str) : List Str :=
  (List.range (a.length / 2)).foldl reverseStringArray_step a

/-- The loop of `readNotes` that verifies the order of the days: the error it
returns, if any. -/
def readNotes_chronology : List notesForDay → Option Str
  | [] => none
  | [_] => none
  | notesForDay :: notesForPrevDay :: rest =>
    let diff := timeSub notesForDay.Day notesForPrevDay.Day
    if diff < 0 then
      some ("Note '".toList ++ notesForDay.DayStr ++ "' should be later than '".toList ++
        notesForPrevDay.DayStr ++ "'".toList)
    else readNotes_chronology (notesForPrevDay :: rest)

/-- The fields `readNotes` writes into a note of the day `day`. -/
def readNotes_stamp (env : Env) (day : notesForDay) (n : note) : note :=
  let id := n.ID
  let url := "/dailynotes/note/".toList ++ id
  { n with
    Day := day.Day
    DayStr := timeFormat day.Day
    DayWithNameStr := timeFormatWithName day.Day
    URL := if n.Title ≠ [] then url ++ "-".toList ++ env.urlify n.Title else url }

/-- The loop of `readNotes` over the tags of a note. -/
def readNotes_tags (n : note) : List Str → GoMap (List note) → GoMap (List note)
  | [], m => m
  | tag :: rest, m =>
    let a := (mapGet m tag).getD []
    readNotes_tags n rest (mapSet m tag (a ++ [n]))

/-- The loop of `readNotes` over the notes of one day.  The globals hold
pointers to the notes, so every index sees the fields written into a note; the
notes of the day are returned as they are after the loop. -/
def readNotes_notes (env : Env) (day : notesForDay) (weekStartDay : Str) :
    List note → Globals → Nat → Option (List note × Globals × Nat)
  | [], g, nNotes => some ([], g, nNotes)
  | n :: rest, g, nNotes =>
    let id := n.ID
    if (mapGet g.notesIDToNote id).isSome then none
    else
      let n1 := readNotes_stamp env day n
      let a := (mapGet g.notesWeekStartDayToNotes weekStartDay).getD []
      let g1 : Globals :=
        { g with
          notesAllNotes := g.notesAllNotes ++ [n1]
          notesIDToNote := mapSet g.notesIDToNote id n1
          notesTagToNotes := readNotes_tags n1 n1.Tags g.notesTagToNotes
          notesWeekStartDayToNotes := mapSet g.notesWeekStartDayToNotes weekStartDay (a ++ [n1]) }
      match readNotes_notes env day weekStartDay rest g1 (nNotes + 1) with
      | none => none
      | some (ns, g2, k) => some (n1 :: ns, g2, k)

/-- The loop of `readNotes` over the days ("update date and id on notes"). -/
def readNotes_days (env : Env) :
    List notesForDay → Globals → Nat → Option (List notesForDay × Globals × Nat)
  | [], g, nNotes => some ([], g, nNotes)
  | day :: rest, g, nNotes =>
    let weekStartTime := calcWeekStart day.Day
    let weekStartDay := timeFormat weekStartTime
    match readNotes_notes env day weekStartDay day.Notes g nNotes with
    | none => none
    | some (ns, g1, k) =>
      match readNotes_days env rest g1 k with
      | none => none
      | some (ds, g2, k2) => some ({ day with Notes := ns } :: ds, g2, k2)

/-- `readNotes(path)` on a file that opens and is scanned without error;
`fileLines` are the lines the scanner yields.  The result is the returned
error, if any, with the globals and counters after the call. -/
def readNotes (env : Env) (g : Globals) (fileLines : List Str) (w : World) :
    Option (Option Str × Globals × World) :=
  if 0 < g.notesAllNotes.length then some (none, g, w)
  else
    match readNotesFoDay env fileLines w with
    | none => none
    | some (days, w) =>
      let g0 : Globals :=
        { notesDays := days, notesTagToNotes := [], notesIDToNote := [], notesTagCounts := []
          notesAllNotes := [], notesWeekStartDayToNotes := [], notesWeekStarts := [] }
      match readNotes_chronology days with
      | some err => some (some err, g0, w)
      | none =>
        match readNotes_days env days g0 0 with
        | none => none
        | some (days1, g1, _) =>
          let weekStarts := mapKeys g1.notesWeekStartDayToNotes
          let tags := sortStrings (mapKeys g1.notesTagToNotes)
          let tagCounts := tags.map fun tag =>
            ({ Tag := tag, Count := ((mapGet g1.notesTagToNotes tag).getD []).length } : tagWithCount)
          some (none,
            { g1 with
              notesDays := days1
              notesTagCounts := tagCounts
              notesWeekStarts := reverseStringArray (sortStrings weekStarts) }, w)

/-- The globals before the first load. -/
def noGlobals : Globals :=
  { notesDays := [], notesTagToNotes := [], notesIDToNote := [], notesTagCounts := []
    notesAllNotes := [], notesWeekStartDayToNotes := [], notesWeekStarts := [] }

/-- Removal of duplicates that keeps the first occurrence of every string. -/
def dedupFirst : List Str → List Str
  | [] => []
  | x :: xs => x :: (dedupFirst xs).filter (fun y => decide (y ≠ x))

/-- The sort of the example environment only: an insertion sort by descending
length.  `sort.Slice` is not stable, and this is one of the orders it may
give; no statement about `noteToHTML` relies on the order it gives to strings
of one length. -/
def demoSortLongestFirst (urls : List Str) : List Str :=
  urls.insertionSort (fun a b => a.length ≥ b.length)

/-- An environment with ASCII lower casing, a highlighter and a sanitizer that
return their input, no URL detection, and numbered tokens. -/
def demoEnv : Env where
  toLower := Char.toLower
  highlight := fun s => some s
  findAllURLs := fun _ => []
  sanitize := fun s => s
  removeDuplicateStrings := dedupFirst
  sortLongestFirst := demoSortLongestFirst
  genRandomString := fun n => "anchor".toList ++ (Nat.repr n).toList
  xidNew := fun n => "xid".toList ++ (Nat.repr n).toList
  urlify := fun s => s

/-! ## Vocabulary of the statements -/

/-- Whether `s` is a metadata line: it has a colon and the text before the
first colon lowercases to `id` or `title`. -/
def isMetaDataLine (env : Env) (s : Str) : Bool :=
  match strings.Index s ':' with
  | none => false
  | some idx =>
    strings.ToLower env (s.take idx) = "id".toList ∨
      strings.ToLower env (s.take idx) = "title".toList

/-- The metadata after one more line `s`: a metadata line overwrites its field. -/
def metaDataAfter (env : Env) (res : noteMetadata) (s : Str) : noteMetadata :=
  match strings.Index s ':' with
  | none => res
  | some idx =>
    if strings.ToLower env (s.take idx) = "id".toList then
      { res with ID := strings.TrimSpace (s.drop (idx + 1)) }
    else if strings.ToLower env (s.take idx) = "title".toList then
      { res with Title := strings.TrimSpace (s.drop (idx + 1)) }
    else res

/-- Whether `s` is a fence line: it starts with three backticks. -/
def isFenceLine (s : Str) : Bool := strings.HasPrefix s codeBlockStart

/-- The fenced blocks of a list of lines, read from the lines alone: `cur` is
the content collected so far of the block that is open, if one is.  A block
is listed when its closing fence is met. -/
def fencedBlocksAux : List Str → Option (List Str) → List (List Str)
  | [], _ => []
  | s :: rest, none =>
    if isFenceLine s then fencedBlocksAux rest (some []) else fencedBlocksAux rest none
  | s :: rest, some cur =>
    if isFenceLine s then cur :: fencedBlocksAux rest none
    else fencedBlocksAux rest (some (cur ++ [s]))

/-- For every closed fenced block of `lines`, in order, the lines strictly
between its opening and its closing fence. -/
def fencedBlocks (lines : List Str) : List (List Str) := fencedBlocksAux lines none

/-- The number of fence lines. -/
def fenceCount (lines : List Str) : Nat := (lines.filter isFenceLine).length

/-! ## Example corpora -/

/-- The counters at program start. -/
def world0 : World := ⟨0, 0, 0⟩

/-- A corpus whose two days are in ascending order. -/
def corpusAscending : List Str :=
  ["2020-01-01".toList, "Id: a".toList, "first".toList,
   "2020-01-02".toList, "Id: b".toList, "second".toList]

/-- A corpus whose two days are in descending order. -/
def corpusDescending : List Str :=
  ["2020-01-02".toList, "Id: b".toList, "second".toList,
   "2020-01-01".toList, "Id: a".toList, "first".toList]

/-- The parse of `corpusAscending`. -/
def parsedAscending : List notesForDay × World :=
  (readNotesFoDay demoEnv corpusAscending world0).getD ([], world0)

/-- A note with a metadata line inside a fenced block. -/
def noteWithIdInCode : List Str :=
  ["Id: 1".toList, "```".toList, "Id: x".toList, "code".toList, "```".toList]

/-- A corpus with one note, whose `Id:` line has no value. -/
def corpusEmptyId : List Str := ["2020-01-01".toList, "Id:".toList, "hello".toList]

/-- The lines the back-fill pass computes for the file `fileLines`. -/
def backfillLines (env : Env) (fileLines : List Str) (w : World) : Option (List Str) :=
  (readNotesFoDay env fileLines w).map fun r => (notesGenIDIfNecessary_lines env r.1 r.2).1

/-- The IDs of the notes of a parsed corpus, day by day. -/
def parsedIDs (r : Option (List notesForDay × World)) : Option (List (List Str)) :=
  r.map fun q => q.1.map fun d => d.Notes.map fun n => n.ID

/-- The IDs of the notes of a list of days, in file order. -/
def corpusIDs (days : List notesForDay) : List Str :=
  (days.map fun d => d.Notes.map fun n => n.ID).flatten

/-- The notes of a list of days, in file order, as `readNotes` leaves them. -/
def corpusNotes (env : Env) (days : List notesForDay) : List note :=
  (days.map fun d => d.Notes.map (readNotes_stamp env d)).flatten

/-- The map that has, for every note of the list, the entry from its ID to it. -/
def idEntries (notes : List note) : GoMap note := notes.map fun n => (n.ID, n)

/-- The text of the leading tags `#t1 #t2 ... #tn `, each followed by one space. -/
def leadingTagText (ts : List Str) : Str := (ts.map fun t => '#' :: t ++ [' ']).flatten

/-- The text of the trailing tags ` #u1 #u2 ... #um`, each preceded by one space. -/
def trailingTagText (us : List Str) : Str := (us.map fun u => ' ' :: '#' :: u).flatten

/-- The loop "remove hashtags from end" stops at `x`: there is no `#`, or the
last `#` has a space after it, or it is preceded by a character other than a
space. -/
def trailingLoopStops (x : Str) : Prop :=
  match strings.LastIndex x '#' with
  | none => True
  | some idx => (findWordEnd x idx).isSome = true ∨ (0 < idx ∧ x[idx - 1]? ≠ some ' ')

/-- Whether a line is empty. -/
def isBlank (s : Str) : Bool := decide (s.length = 0)

/-- The runs of lines between separator lines, the empty runs left out;
`curr` is the run collected so far. -/
def noteRunsAux : List Str → List Str → List (List Str)
  | [], curr => if 0 < curr.length then [curr] else []
  | line :: rest, curr =>
    if line = noteSeparator then
      (if 0 < curr.length then [curr] else []) ++ noteRunsAux rest []
    else noteRunsAux rest (curr ++ [line])

/-- The non-empty runs of lines between the separator lines of `lines`. -/
def noteRuns (lines : List Str) : List (List Str) := noteRunsAux lines []

/-- A line as `readNotesFoDay` reads it: without trailing white space. -/
def scanTrim (text : Str) : Str := strings.TrimRight text "\n\r\t ".toList

/-- The day headers of a file, each with its day and with the lines up to the
next header; `curr` is the header of the open day and `lines` its lines so
far.  Lines before the first header belong to no day. -/
def dayGroupsAux :
    List Str → Option (Str × Time) → List Str → List ((Str × Time) × List Str)
  | [], curr, lines =>
    match curr with
    | none => []
    | some c => [(c, lines)]
  | text :: rest, curr, lines =>
    match timeParse (scanTrim text) with
    | some day =>
      (match curr with
        | none => []
        | some c => [(c, lines)]) ++ dayGroupsAux rest (some (scanTrim text, day)) []
    | none => dayGroupsAux rest curr (lines ++ [scanTrim text])

/-- The note `n` is what `newNote` returns for the lines `run`. -/
def BuiltFrom (env : Env) (n : note) (run : List Str) : Prop :=
  ∃ w1 w2, newNote env run w1 = some (n, w2)

/-- The day entry `d` has the header and lines of the group `grp`, and its
notes are built from the runs of those lines. -/
def DayBuiltFrom (env : Env) (d : notesForDay) (grp : (Str × Time) × List Str) : Prop :=
  d.DayStr = grp.1.1 ∧ d.Day = grp.1.2 ∧ d.lines = grp.2 ∧
    List.Forall₂ (BuiltFrom env) d.Notes (noteRuns grp.2)

/-- What the first parse guarantees of a day entry: its header reads back as
its day, and every raw line of its notes reads back as itself, is not a day
header and is not the separator; no note is without raw lines. -/
def GoodDay (d : notesForDay) : Prop :=
  timeParse d.DayStr = some d.Day ∧ scanTrim d.DayStr = d.DayStr ∧
    ∀ n ∈ d.Notes, n.rawLines ≠ [] ∧
      ∀ l ∈ n.rawLines, timeParse l = none ∧ scanTrim l = l ∧ l ≠ noteSeparator

/-- The `Id:` line the back-fill pass writes for the `k`-th generated id. -/
def idLineOf (env : Env) (k : Nat) : Str := "Id: ".toList ++ env.xidNew k

/-- The lines the back-fill pass writes for one note, when `k` ids have been
generated before: the `Id:` line if the note has no ID, then the trimmed raw
lines. -/
def rewrittenNote (env : Env) (n : note) (k : Nat) : List Str :=
  (if n.ID = [] then [idLineOf env k] else []) ++ trimEmptyLines n.rawLines

/-- The number of ids generated after the notes `notes`, starting from `k`. -/
def xidAfter : List note → Nat → Nat
  | [], k => k
  | n :: rest, k => xidAfter rest (if n.ID = [] then k + 1 else k)

/-- The written lines of the notes of one day, note by note. -/
def rewrittenNotes (env : Env) : List note → Nat → List (List Str)
  | [], _ => []
  | n :: rest, k => rewrittenNote env n k :: rewrittenNotes env rest (if n.ID = [] then k + 1 else k)

/-- Blocks of lines joined with an empty line, the separator and an empty line
between two blocks. -/
def joinBlocks : List (List Str) → List Str
  | [] => []
  | [b] => b
  | b :: b2 :: bs => b ++ [[], noteSeparator, []] ++ joinBlocks (b2 :: bs)

/-- The lines the back-fill pass writes for the days `days`, when `k` ids have
been generated before: for each day its header, its notes and an empty line. -/
def rewrittenDays (env : Env) : List notesForDay → Nat → List Str
  | [], _ => []
  | d :: rest, k =>
    d.DayStr :: (joinBlocks (rewrittenNotes env d.Notes k) ++ [[]]) ++
      rewrittenDays env rest (xidAfter d.Notes k)

/-- The runs of the lines `joinBlocks blocks ++ [[]]` when `curr` has been
collected before: every block with the empty lines around it. -/
def expectedRuns : List (List Str) → List Str → List (List Str)
  | [], curr => [curr ++ [[]]]
  | [b], curr => [curr ++ b ++ [[]]]
  | b :: b2 :: bs, curr => (curr ++ b ++ [[]]) :: expectedRuns (b2 :: bs) [[]]

/-- The raw lines of the re-parsed note `n2` are those of the note `n`, both
with empty lines trimmed, after the `Id:` line written for `n` if `n` had no
ID. -/
def NoteKept (env : Env) (n2 n : note) : Prop :=
  ∃ k, trimEmptyLines n2.rawLines =
    (if n.ID = [] then [scanTrim (idLineOf env k)] else []) ++ trimEmptyLines n.rawLines

/-- The re-parsed day `d2` has the header of the day `d` and as many notes,
each kept in the sense of `NoteKept`. -/
def DayKept (env : Env) (d2 d : notesForDay) : Prop :=
  d2.DayStr = d.DayStr ∧ d2.Day = d.Day ∧ List.Forall₂ (NoteKept env) d2.Notes d.Notes

/-- A corpus with one note that has no ID and two empty lines in its middle. -/
def corpusDoubleBlank : List Str :=
  ["2020-01-01".toList, "first".toList, "x".toList, [], [], "y".toList]

/-- The raw lines of the notes of a parsed corpus, day by day. -/
def parsedRawLines (r : Option (List notesForDay × World)) : Option (List (List (List Str))) :=
  r.map fun q => q.1.map fun d => d.Notes.map fun n => n.rawLines

/-- A corpus of two days with three notes, two of them without ID. -/
def corpusTwoDays : List Str :=
  ["2020-01-02".toList, "Title: t".toList, "a #x".toList, [], [], "b".toList, "---".toList,
   "Id: 5".toList, "c".toList, "2020-01-01".toList, [], "first".toList, "y".toList]

/-- The parse of `corpusTwoDays`. -/
def parsedTwoDays : List notesForDay × World :=
  (readNotesFoDay demoEnv corpusTwoDays world0).getD ([], world0)

/-- A corpus whose first day has no note. -/
def corpusEmptyDay : List Str :=
  ["2020-01-02".toList, "2020-01-01".toList, "a".toList, "b".toList]

/-- A corpus with one note, without `Id:` line, whose first line is a fence. -/
def corpusLeadingFence : List Str :=
  ["2020-01-01".toList, "```".toList, "a".toList, "```".toList, "b".toList, "```".toList]

/-- The lines with every closed fenced block replaced by one placeholder:
a line outside a block is kept, the lines of a block from its opening fence on
are dropped, and its closing fence gives the placeholder `anchor k`, where `k`
counts the blocks closed so far.  `inside` tells whether a block is open. -/
def replaceBlocksAux (anchor : Nat → Str) : List Str → Bool → Nat → List Str
  | [], _, _ => []
  | s :: rest, false, k =>
    if isFenceLine s then replaceBlocksAux anchor rest true k
    else s :: replaceBlocksAux anchor rest false k
  | s :: rest, true, k =>
    if isFenceLine s then anchor k :: replaceBlocksAux anchor rest false (k + 1)
    else replaceBlocksAux anchor rest true k

/-- The lines with every fenced block replaced by one placeholder line. -/
def replaceBlocks (anchor : Nat → Str) (lines : List Str) (k : Nat) : List Str :=
  replaceBlocksAux anchor lines false k

/-- Whether a block is open after the lines: every fence line toggles. -/
def insideBlockAfter (lines : List Str) (inside : Bool) : Bool :=
  lines.foldl (fun inside s => if isFenceLine s then !inside else inside) inside

/-- The runs of lines between the separator lines (and the ends of the list):
the pieces that splitting at every line equal to the separator leaves. -/
def separatorRuns (lines : List Str) : List (List Str) :=
  lines.splitOnP (fun line => decide (line = noteSeparator))

/-- The non-empty runs between the separator lines, in order. -/
def nonEmptyRuns (lines : List Str) : List (List Str) :=
  (separatorRuns lines).filter (fun run => decide (run ≠ []))

/-- The notes built from the runs `runs`, one after the other: `newNote` on
each run, the counters handed on; none when `newNote` panics on a run. -/
def notesFromRuns (env : Env) : List (List Str) → World → Option (List note × World)
  | [], w => some ([], w)
  | run :: rest, w =>
    match newNote env run w with
    | none => none
    | some (n, w1) =>
      match notesFromRuns env rest w1 with
      | none => none
      | some (ns, w2) => some (n :: ns, w2)

/-- Whether a line is a day header: it parses as a date. -/
def isDayHeader (line : Str) : Bool := (timeParse line).isSome

/-- The day-header lines, in order. -/
def dayHeaders (lines : List Str) : List Str := lines.filter isDayHeader

/-- For every day-header line, in order: the header, its day, and the lines
that follow it up to the next header or the end. -/
def dayGroups : List Str → List ((Str × Time) × List Str)
  | [] => []
  | line :: rest =>
    match timeParse line with
    | some day => ((line, day), rest.takeWhile (fun l => !isDayHeader l)) :: dayGroups rest
    | none => dayGroups rest

/-- The day entries built from the groups `groups`, one after the other:
`linesToNotes` on the lines of each group, the counters handed on; none when
`linesToNotes` panics on a group. -/
def daysFromGroups (env : Env) :
    List ((Str × Time) × List Str) → World → Option (List notesForDay × World)
  | [], w => some ([], w)
  | grp :: rest, w =>
    match linesToNotes env grp.2 w with
    | none => none
    | some (ns, w1) =>
      match daysFromGroups env rest w1 with
      | none => none
      | some (ds, w2) =>
        some ({ DayStr := grp.1.1, Day := grp.1.2, Notes := ns, lines := grp.2 } :: ds, w2)

/-- The rest of `readNotesFoDay` from the state `st`: the scanner loop over the
lines `rest`, then the statements after the loop. -/
def readNotesFoDay_from (env : Env) (rest : List Str) (st : ReadState) :
    Option (List notesForDay × World) :=
  match readNotesFoDay_loop env rest st with
  | none => none
  | some st1 =>
    match st1.curr with
    | none => none
    | some curr => readNotesFoDay_flush env curr st1

/-- Whether the last line written is empty: the last line of `ys`, or `p` when
`ys` has no line. -/
def lastIsBlank (ys : List Str) (p : Bool) : Bool :=
  match ys.getLast? with
  | none => p
  | some l => isBlank l

/-- The lines with every run of consecutive empty lines collapsed to one empty
line: a line is dropped when it is empty and the line kept before it is. -/
def collapseBlankRuns (lines : List Str) : List Str :=
  lines.destutter (fun a b => (isBlank a && isBlank b) = false)

/-- The normal form of body lines: every run of two or more consecutive empty
lines collapsed to one, then the empty lines at the start and at the end
removed. -/
def normalizeBlankLines (lines : List Str) : List Str :=
  ((collapseBlankRuns lines).dropWhile isBlank).rdropWhile isBlank

/-- The lines after the per-line tag stripping of `buildBodyFromLines`. -/
def strippedLines (env : Env) (lines : List Str) : List Str :=
  lines.map (fun l => (removeHashTags env l).1)

/-- The statements `a := m[k]; a = append(a, n); m[k] = a`. -/
def mapAppend (m : GoMap (List note)) (k : Str) (n : note) : GoMap (List note) :=
  mapSet m k ((mapGet m k).getD [] ++ [n])

/-- The map `m` groups the events `evs`, pairs of a key and a note: its keys
are the keys of the events, each once, and the list at a key is the notes of
the events with that key, in order. -/
def GroupedBy (m : GoMap (List note)) (evs : List (Str × note)) : Prop :=
  (mapKeys m).Nodup ∧ (∀ k, k ∈ mapKeys m ↔ k ∈ evs.map Prod.fst) ∧
    ∀ k, (mapGet m k).getD [] = (evs.filter (fun e => decide (e.1 = k))).map Prod.snd

/-- The week-start key of a note: the formatted week start of its day. -/
def weekKey (n : note) : Str := timeFormat (calcWeekStart n.Day)

/-- One event per note: its week-start key and the note. -/
def weekEvents (notes : List note) : List (Str × note) := notes.map fun n => (weekKey n, n)

/-- One event per tag of every note: the tag and the note. -/
def tagEvents (notes : List note) : List (Str × note) :=
  (notes.map fun n => n.Tags.map fun t => (t, n)).flatten

/-- A corpus of three days in two weeks, newest day first, with tagged notes. -/
def corpusWeeks : List Str :=
  ["2020-01-08".toList, "Id: c".toList, "#work third".toList,
   "2020-01-07".toList, "Id: b".toList, "second #work #idea".toList,
   "2020-01-01".toList, "Id: a".toList, "first #idea".toList]

/-- The result of loading `corpusWeeks`. -/
def loadedWeeks : Option Str × Globals × World :=
  (readNotes demoEnv noGlobals corpusWeeks world0).getD (none, noGlobals, world0)

/-- The pieces of `s` between the occurrences of a non-empty `old`, taken from
the left without overlap; `skip` counts the characters of an occurrence that
are still to be passed over.  There is one piece more than occurrences. -/
def piecesAux (old : Str) : Str → Nat → List Str
  | [], _ => [[]]
  | _ :: cs, skip + 1 => piecesAux old cs skip
  | c :: cs, 0 =>
    if old.isPrefixOf (c :: cs) then [] :: piecesAux old cs (old.length - 1)
    else (piecesAux old cs 0).modifyHead (List.cons c)

/-- The pieces of `s` between the occurrences of `old`. -/
def pieces (old s : Str) : List Str := piecesAux old s 0

/-- The anchor markup of a URL. -/
def linkMarkup (url : Str) : Str :=
  "<a href=\"".toList ++ url ++ "\">".toList ++ url ++ "</a>".toList

/-- The text with the URLs of the list made links, the first URL first: the
text is cut at the occurrences of the first URL, every occurrence becomes the
markup of that URL, and the pieces between them are treated in the same way
with the other URLs. -/
def linkAll : List Str → Str → Str
  | [], s => s
  | url :: rest, s => strings.Join ((pieces url s).map (linkAll rest)) (linkMarkup url)

/-- The text before sanitizing: the two loops of `noteToHTML` on a given list
of URLs. -/
def noteToHTML_substitute (env : Env) (urls : List Str) (s : Str) (w : World) : Str :=
  let r := noteToHTML_toAnchors env urls s [] w
  noteToHTML_toLinks r.2.1 urls r.1

/-- The first loop of `noteToHTML` on given pairs of a URL and its anchor. -/
def toAnchorsPairs (ps : List (Str × Str)) (s : Str) : Str :=
  ps.foldl (fun s p => strings.Replace s p.1 p.2) s

/-- The second loop of `noteToHTML` on given pairs of a URL and its anchor. -/
def toLinksPairs (ps : List (Str × Str)) (s : Str) : Str :=
  ps.foldl (fun s p => strings.Replace s p.2 (linkMarkup p.1)) s

/-- The anchors that `n` calls of `genRandomString` return from the counter
value `k` on. -/
def anchorsFrom (env : Env) (k n : Nat) : List Str :=
  (List.range' k n).map env.genRandomString

/-- An environment for the examples of the substitution: the URL matcher
returns `urls`, and the `n`-th anchor is `anchors[n]`. -/
def linkEnv (urls anchors : List Str) : Env :=
  { demoEnv with
    findAllURLs := fun _ => urls
    genRandomString := fun n => anchors.getD n [] }

/-- The order of civil dates: by year, then month, then day. -/
def civilLt (a b : Int × Int × Int) : Prop :=
  a.1 < b.1 ∨ (a.1 = b.1 ∧ (a.2.1 < b.2.1 ∨ (a.2.1 = b.2.1 ∧ a.2.2 < b.2.2)))

/-- The number of days from 0000-03-01 to the first of March of the year `y`. -/
def marchStart (y : Int) : Int := 365 * y + y / 4 - y / 100 + y / 400

/-- The first day `timeFormat` writes with a four-digit year: 0000-01-01. -/
def firstFourDigitDay : Time := daysFromCivil 0 1 1

/-- The last day `timeFormat` writes with a four-digit year: 9999-12-31. -/
def lastFourDigitDay : Time := daysFromCivil 9999 12 31

/-- Every `#` of the string is followed by a character that is not a space. -/
def hashesBeginWords : Str → Bool
  | [] => true
  | [c] => c != '#'
  | c :: d :: rest => (c != '#' || d != ' ') && hashesBeginWords (d :: rest)

/-- The function `dropCR` of package `bufio`: the line without one trailing
carriage return. -/
def dropCR (line : Str) : Str := if line.getLast? = some '\r' then line.dropLast else line

/-- The tokens of `bufio.ScanLines` over the rest of a file; `curr` holds the
characters of the line read so far.  Every newline ends a line; at the end of
the file the characters after the last newline are a line unless there are
none. -/
def scanLinesAux : Str → Str → List Str
  | [], curr => if curr = [] then [] else [dropCR curr]
  | c :: cs, curr =>
    if c = '\n' then dropCR curr :: scanLinesAux cs [] else scanLinesAux cs (curr ++ [c])

/-- The lines that `bufio.Scanner`, with its default split function
`ScanLines`, yields for a file with the content `data`. -/
def scanLines (data : Str) : List Str := scanLinesAux data []

/-- The lines the scanner yields for the file that `notesGenIDIfNecessary`
writes for the parsed days: the content is `strings.Join(lines, "\n")`. -/
def writtenFileLines (env : Env) (days : List notesForDay) (w : World) : List Str :=
  scanLines (strings.Join (notesGenIDIfNecessary_lines env days w).1 "\n".toList)

/-- The lines without their last element when that is an empty line. -/
def dropFinalEmpty (lines : List Str) : List Str :=
  if lines.getLast? = some [] then lines.dropLast else lines

/-- The lines of the written file as the scanner yields them, in closed form:
the lines of `rewrittenDays` without the empty line after the last day. -/
def scannedDays (env : Env) : List notesForDay → Nat → List Str
  | [], _ => []
  | [d], k => d.DayStr :: joinBlocks (rewrittenNotes env d.Notes k)
  | d :: d2 :: rest, k =>
    d.DayStr :: (joinBlocks (rewrittenNotes env d.Notes k) ++ [[]]) ++
      scannedDays env (d2 :: rest) (xidAfter d.Notes k)

/-- The day groups that reading the scanned lines gives: as `expectedGroups`,
but the last day has no empty line after its notes. -/
def expectedGroupsScanned (env : Env) :
    List notesForDay → Nat → List ((Str × Time) × List Str)
  | [], _ => []
  | [d], k => [((d.DayStr, d.Day), (joinBlocks (rewrittenNotes env d.Notes k)).map scanTrim)]
  | d :: d2 :: rest, k =>
    ((d.DayStr, d.Day), (joinBlocks (rewrittenNotes env d.Notes k) ++ [[]]).map scanTrim) ::
      expectedGroupsScanned env (d2 :: rest) (xidAfter d.Notes k)

/-- The runs of the lines `joinBlocks blocks` when `curr` has been collected
before: as `expectedRuns`, but no empty line follows the last block. -/
def expectedRunsLast : List (List Str) → List Str → List (List Str)
  | [], curr => if 0 < curr.length then [curr] else []
  | [b], curr => if 0 < (curr ++ b).length then [curr ++ b] else []
  | b :: b2 :: bs, curr => (curr ++ b ++ [[]]) :: expectedRunsLast (b2 :: bs) [[]]

/-- A corpus whose last day has no note. -/
def corpusLastDayEmpty : List Str :=
  ["2020-01-02".toList, "a".toList, "b".toList, "2020-01-01".toList]

/-- The parse of `corpusLastDayEmpty`. -/
def parsedLastDayEmpty : List notesForDay × World :=
  (readNotesFoDay demoEnv corpusLastDayEmpty world0).getD ([], world0)

/-- The parse of the lines the scanner yields for the file that the back-fill
pass writes for `corpusLastDayEmpty`. -/
def reparsedLastDayEmpty : List notesForDay × World :=
  (readNotesFoDay demoEnv (writtenFileLines demoEnv parsedLastDayEmpty.1 parsedLastDayEmpty.2)
    world0).getD ([], world0)

/-- The parse of the lines the scanner yields for the file that the back-fill
pass writes for `corpusTwoDays`. -/
def reparsedTwoDays : List notesForDay × World :=
  (readNotesFoDay demoEnv (writtenFileLines demoEnv parsedTwoDays.1 parsedTwoDays.2)
    world0).getD ([], world0)

/-- Some non-empty beginning of `sep` ends `old`. -/
def endsWithStartOf (old sep : Str) : Bool :=
  (List.range sep.length).any fun k => decide (sep.take (k + 1) <:+ old)

/-- Some non-empty end of `sep` begins `old`. -/
def startsWithEndOf (old sep : Str) : Bool :=
  (List.range sep.length).any fun k => decide (sep.drop k <+: old)

/-- The strings `old` and `sep` are apart: no occurrence of `old` in a text
can share characters with an occurrence of `sep`.  No non-empty beginning of
`sep` ends `old`, no non-empty end of `sep` begins `old`, and neither string
occurs in the other. -/
def apart (old sep : Str) : Bool :=
  !endsWithStartOf old sep && !startsWithEndOf old sep &&
    !decide (sep <:+: old) && !decide (old <:+: sep)

/-- The separator `a` occurs in the gaps joined with `a` only as the
separator: not in the last gap, and in no other gap followed by `a`, except
at the end. -/
def SepOnly (a : Str) : List Str → Prop
  | [] => True
  | [g] => ¬ a <:+: g
  | g :: g2 :: gs => ¬ a <:+: g ++ a.dropLast ∧ SepOnly a (g2 :: gs)

/-- The character occurs in one of the placeholders. -/
def soft (anchors : List Str) (c : Char) : Bool := anchors.any fun a => decide (c ∈ a)

/-- A piece of text between URL occurrences; `l` and `r` tell whether a
placeholder is put directly before and directly after it.  The piece is fit
when its character next to a placeholder occurs in no placeholder, and when,
being empty, it does not stand between two placeholders. -/
def edgeOK (anchors : List Str) (l r : Bool) (f : Str) : Bool :=
  match f.head?, f.getLast? with
  | some c, some d => (!l || !soft anchors c) && (!r || !soft anchors d)
  | _, _ => !(l && r)

/-- The test `D` on every piece of a list: a placeholder stands between two
pieces, and before the first and after the last piece as `l` and `r` tell. -/
def edgesList (D : Bool → Bool → Str → Bool) : Bool → Bool → List Str → Bool
  | _, _, [] => true
  | l, r, [p] => D l r p
  | l, r, p :: q :: ps => D l true p && edgesList D true r (q :: ps)

/-- The URL occurrences that the substitution replaces in `text` are
delimited: the text is cut at the occurrences of the first URL, the pieces at
those of the next one, and so on; in the pieces left at the end the character
next to a replaced occurrence occurs in no placeholder, and no two replaced
occurrences touch. -/
def delimited (anchors : List Str) : List Str → Bool → Bool → Str → Bool
  | [], l, r, f => edgeOK anchors l r f
  | u :: rest, l, r, text => edgesList (delimited anchors rest) l r (pieces u text)

/-- What `edgeOK` says, for use in proofs. -/
def Edge (anchors : List Str) (l r : Bool) (X : Str) : Prop :=
  (X = [] → ¬ (l = true ∧ r = true)) ∧
  (l = true → ∀ c, X.head? = some c → soft anchors c = false) ∧
  (r = true → ∀ c, X.getLast? = some c → soft anchors c = false)

/-- The property `Edge` of every string of a list, with the flags of
`edgesList`. -/
def EdgeList (anchors : List Str) : Bool → Bool → List Str → Prop
  | _, _, [] => True
  | l, r, [X] => Edge anchors l r X
  | l, r, X :: Y :: Ys => Edge anchors l true X ∧ EdgeList anchors true r (Y :: Ys)

/-- The placeholders of the pairs `ps` of a URL and its placeholder are inert
in `text`: no URL and no placeholder is empty and no placeholder occurs in the
text; a URL is apart from the placeholder of every URL before it, a
placeholder is apart from the anchor markup of every URL before it and does
not hold the placeholder of a URL before it; and the replaced URL occurrences
are delimited. -/
def Inert (ps : List (Str × Str)) (text : Str) : Prop :=
  (∀ p ∈ ps, p.1 ≠ [] ∧ p.2 ≠ [] ∧ ¬ p.2 <:+: text) ∧
  ps.Pairwise (fun p q =>
    apart q.1 p.2 = true ∧ apart q.2 (linkMarkup p.1) = true ∧ ¬ p.2 <:+: q.2) ∧
  delimited (ps.map Prod.snd) (ps.map Prod.fst) false false text = true

/-- Three placeholders of forty hexadecimal digits, as `genRandomString`
makes them. -/
def hexAnchors : List Str :=
  ["f8b4c0bf8e704eb5a6162ac20172de3d4a5152cd".toList,
   "ffc0268bbc9387abb50cd107d1c6375281d8fb1e".toList,
   "b6a9eff75eb56708a570173b40a837ffb8e5e918".toList]

/-- A text with two URLs, one the beginning of the other. -/
def textTwoURLs : Str := "http://foo.com http://foo.com/longer".toList

/-- A text with three URLs, each the beginning of the next. -/
def textThreeURLs : Str :=
  "http://foo.com http://foo.com/longer http://foo.com/longer/more".toList

/-! # Theorems -/

/-! ## The chronology check -/

theorem maxDuration_eq : maxDuration = 9223372036854775807 := by norm_num [maxDuration]

theorem minDuration_eq : minDuration = -9223372036854775808 := by norm_num [minDuration]

theorem timeSub_neg_iff (t u : Time) : timeSub t u < 0 ↔ t < u := by
  simp only [timeSub, maxDuration_eq, minDuration_eq]
  unfold Time at *
  split_ifs <;> omega

theorem readNotes_chronology_eq_none_iff (days : List notesForDay) :
    readNotes_chronology days = none ↔ days.Chain' (fun a b => b.Day ≤ a.Day) := by
  induction days with
  | nil => simp [readNotes_chronology]
  | cons a rest ih =>
    cases rest with
    | nil => simp [readNotes_chronology]
    | cons b rest =>
      simp only [readNotes_chronology, List.chain'_cons]
      by_cases h : timeSub a.Day b.Day < 0
      · have h2 := (timeSub_neg_iff _ _).mp h
        simp only [h, if_true, reduceCtorEq, false_iff, not_and]
        intro h3
        exact absurd h3 (not_le.mpr h2)
      · have h2 : ¬ a.Day < b.Day := fun h3 => h ((timeSub_neg_iff _ _).mpr h3)
        simp only [h, if_false, ih]
        constructor
        · intro h3
          exact ⟨not_lt.mp h2, h3⟩
        · intro h3
          exact h3.2

theorem chain_iff_pairwise_days (days : List notesForDay) :
    days.Chain' (fun a b => b.Day ≤ a.Day) ↔ days.Pairwise (fun a b => b.Day ≤ a.Day) := by
  haveI : IsTrans notesForDay (fun a b => b.Day ≤ a.Day) :=
    ⟨fun a b c hab hbc => le_trans hbc hab⟩
  exact List.chain'_iff_pairwise

/-- C1 (counterexample): the corpus with the day 2020-01-01 before the day
2020-01-02 (ascending file order) is refused with the chronology error, and
the corpus with 2020-01-02 before 2020-01-01 loads without error. -/
theorem readNotes_ascending_is_refused :
    (readNotes demoEnv noGlobals corpusAscending world0).map (fun r => r.1)
      = some (some "Note '2020-01-01' should be later than '2020-01-02'".toList) ∧
    (readNotes demoEnv noGlobals corpusDescending world0).map (fun r => r.1) = some none := by
  decide

/-- C1 (amended): when no corpus is loaded yet and the file parses into the
days `r.1`, `readNotes` returns an error exactly when the days are not in
descending order, that is, when some day is followed by a later day. -/
theorem readNotes_error_iff_not_descending (env : Env) (g : Globals) (fileLines : List Str)
    (w : World) (r : List notesForDay × World)
    (hg : g.notesAllNotes = [])
    (hd : readNotesFoDay env fileLines w = some r) :
    (∃ msg g1 w1, readNotes env g fileLines w = some (some msg, g1, w1)) ↔
      ¬ r.1.Pairwise (fun a b => b.Day ≤ a.Day) := by
  obtain ⟨days, w0⟩ := r
  rw [← chain_iff_pairwise_days, ← readNotes_chronology_eq_none_iff]
  simp only [readNotes, hg, List.length_nil, lt_self_iff_false, if_false, hd]
  cases hc : readNotes_chronology days with
  | some err => simp
  | none =>
    simp only [not_true_eq_false, iff_false]
    rintro ⟨msg, g1, w1, h⟩
    cases hx : readNotes_days env days
        { notesDays := days, notesTagToNotes := [], notesIDToNote := [], notesTagCounts := []
          notesAllNotes := [], notesWeekStartDayToNotes := [], notesWeekStarts := [] } 0 with
    | none => simp [hx] at h
    | some v => simp [hx] at h

/-- C1 (witness): the amended statement at the ascending corpus. -/
theorem readNotes_error_iff_not_descending_witness :
    noGlobals.notesAllNotes = [] ∧
    readNotesFoDay demoEnv corpusAscending world0 = some parsedAscending ∧
    ((∃ msg g1 w1, readNotes demoEnv noGlobals corpusAscending world0 = some (some msg, g1, w1)) ↔
      ¬ parsedAscending.1.Pairwise (fun a b => b.Day ≤ a.Day)) :=
  ⟨rfl, by decide,
    readNotes_error_iff_not_descending demoEnv noGlobals corpusAscending world0 parsedAscending
      rfl (by decide)⟩

/-! ## Metadata -/

theorem extractMetaDataFromLines_step_eq (env : Env) (lines : List Str) (writeIdx : Nat)
    (res : noteMetadata) (i : Nat) :
    extractMetaDataFromLines_step env (lines, writeIdx, res) i =
      if isMetaDataLine env (lines.getD i []) ∨ writeIdx = i then
        (lines, writeIdx, metaDataAfter env res (lines.getD i []))
      else (lines.set writeIdx (lines.getD i []), writeIdx + 1,
        metaDataAfter env res (lines.getD i [])) := by
  simp only [extractMetaDataFromLines_step, isMetaDataLine, metaDataAfter]
  generalize lines.getD i [] = s
  cases strings.Index s ':' with
  | none => simp
  | some idx =>
    dsimp only
    generalize strings.ToLower env (s.take idx) = name
    by_cases h1 : name = "id".toList
    · simp only [h1, if_true, true_or, decide_True]
    · by_cases h2 : name = "title".toList
      · subst h2
        simp only [show ¬ ("title".toList = "id".toList) by decide, if_false, if_true, true_or]
        simp
      · simp only [h1, h2, if_false, or_self, decide_False, Bool.false_eq_true, false_or]

/-- The state of the loop of `extractMetaDataFromLines` after the first `k`
lines: the lines kept so far fill the front of the array, the lines not yet
read are untouched. -/
theorem extractMetaDataFromLines_loop_inv (env : Env) (lines : List Str) (k : Nat)
    (hk : k ≤ lines.length) :
    ∃ arr : List Str,
      (List.range k).foldl (extractMetaDataFromLines_step env) (lines, 0, ⟨[], []⟩) =
        (arr, (((lines.take k).drop 1).filter (fun s => !isMetaDataLine env s)).length,
          (lines.take k).foldl (metaDataAfter env) ⟨[], []⟩) ∧
      arr.length = lines.length ∧
      arr.take (((lines.take k).drop 1).filter (fun s => !isMetaDataLine env s)).length =
        ((lines.take k).drop 1).filter (fun s => !isMetaDataLine env s) ∧
      arr.drop k = lines.drop k := by
  induction k with
  | zero => exact ⟨lines, by simp⟩
  | succ k ih =>
    obtain ⟨arr, hfold, hlen, htake, hdrop⟩ := ih (by omega)
    have hklt : k < lines.length := by omega
    have hget : arr.getD k [] = lines[k] := by
      have h1 : (arr.drop k)[0]? = (lines.drop k)[0]? := by rw [hdrop]
      simp only [List.getElem?_drop, add_zero] at h1
      rw [List.getD_eq_getElem?_getD, h1, List.getElem?_eq_getElem hklt]
      rfl
    have htk : lines.take (k + 1) = lines.take k ++ [lines[k]] := by
      rw [List.take_succ, List.getElem?_eq_getElem hklt]
      rfl
    have hwle : (((lines.take k).drop 1).filter (fun s => !isMetaDataLine env s)).length ≤ k - 1 := by
      refine le_trans (List.length_filter_le _ _) ?_
      simp only [List.length_drop, List.length_take]
      omega
    rw [List.range_succ, List.foldl_append, hfold]
    simp only [List.foldl_cons, List.foldl_nil, extractMetaDataFromLines_step_eq, hget, htk,
      List.foldl_append]
    cases k with
    | zero =>
      refine ⟨arr, ?_, hlen, ?_, ?_⟩
      · simp
      · simp
      · have := congrArg (List.drop 1) hdrop
        simpa using this
    | succ k =>
      have hd1 : (lines.take (k + 1) ++ [lines[k + 1]]).drop 1 =
          (lines.take (k + 1)).drop 1 ++ [lines[k + 1]] := by
        rw [List.drop_append_of_le_length]
        simp only [List.length_take]
        omega
      rw [hd1, List.filter_append]
      set kept := ((lines.take (k + 1)).drop 1).filter (fun s => !isMetaDataLine env s) with hkept
      have hne : kept.length ≠ k + 1 := by omega
      by_cases hm : isMetaDataLine env lines[k + 1] = true
      · refine ⟨arr, ?_, hlen, ?_, ?_⟩
        · simp [hm]
        · simpa [hm] using htake
        · have := congrArg (List.drop 1) hdrop
          simpa [List.drop_drop, add_comm] using this
      · simp only [hm, false_or, hne, if_false]
        refine ⟨arr.set kept.length lines[k + 1], ?_, by simpa using hlen, ?_, ?_⟩
        · simp [hm]
        · have hlt : kept.length < arr.length := by omega
          simp only [hm, Bool.not_false, List.filter_cons_of_pos, List.filter_nil,
            List.length_append, List.length_singleton, Bool.false_eq_true, not_false_eq_true]
          rw [List.take_succ, List.set_take, List.set_eq_of_length_le (by simp), htake]
          simp [List.getElem?_set_self hlt]
        · rw [List.drop_set_of_lt _ _ (by omega)]
          have := congrArg (List.drop 1) hdrop
          simpa [List.drop_drop, add_comm] using this

/-- What `extractMetaDataFromLines` returns: the first line is always dropped;
of the other lines exactly those that are not metadata lines are kept, in
order; and every metadata line (the first line included) sets its field. -/
theorem extractMetaDataFromLines_eq (env : Env) (lines : List Str) :
    extractMetaDataFromLines env lines =
      ((lines.drop 1).filter (fun s => !isMetaDataLine env s),
        lines.foldl (metaDataAfter env) ⟨[], []⟩) := by
  obtain ⟨arr, hfold, _, htake, _⟩ :=
    extractMetaDataFromLines_loop_inv env lines lines.length (le_refl _)
  simp only [extractMetaDataFromLines, hfold]
  simp only [List.take_length] at htake ⊢
  rw [htake]

/-- C2 (the code at the failing input): of the lines `hello`, `Id: 1`, `a: b`
the function keeps only `a: b`; the first line `hello`, which is not a
metadata line, is lost. -/
theorem extractMetaDataFromLines_loses_first_line :
    (extractMetaDataFromLines demoEnv ["hello".toList, "Id: 1".toList, "a: b".toList]).1
      = ["a: b".toList] ∧
    isMetaDataLine demoEnv "hello".toList = false := by
  decide

/-! ## Week starts -/

/-- C3 (the code at the failing input): 2020-01-05 is a Sunday (weekday 0);
`calcWeekStart` maps it to 2020-01-06, the Monday after it, while the Saturday
2020-01-04 of the same ISO week is mapped to 2019-12-30, the Monday that begins
that week. -/
theorem calcWeekStart_sunday_next_monday :
    timeParse "2020-01-05".toList = some 18266 ∧ Weekday 18266 = 0 ∧
    timeFormat (calcWeekStart 18266) = "2020-01-06".toList ∧
    timeParse "2020-01-04".toList = some 18265 ∧
    timeFormat (calcWeekStart 18265) = "2019-12-30".toList := by
  decide

/-- On every Sunday `calcWeekStart` returns the following day. -/
theorem calcWeekStart_of_sunday (t : Time) (h : Weekday t = 0) : calcWeekStart t = t + 1 := by
  simp only [calcWeekStart, h]
  unfold Time at *
  omega

/-! ## Code blocks -/

theorem extractCodeSnippets_loop_spec (env : Env) (rest : List Str) :
    ∀ (pre : List Str) (st : ExtractState) (cur : Option (List Str)),
      cur = st.codeLineStart.map (fun start => pre.drop (start + 1)) →
      (∀ start, st.codeLineStart = some start → start < pre.length) →
      (∀ b ∈ fencedBlocksAux rest cur, (env.highlight (strings.Join b "\n".toList)).isSome) →
      ∃ st1, extractCodeSnippets_loop env (pre ++ rest) rest pre.length st = some st1 ∧
        st1.codeSnippets.map (fun c => some c.codeHTML) =
          st.codeSnippets.map (fun c => some c.codeHTML) ++
            (fencedBlocksAux rest cur).map (fun b => env.highlight (strings.Join b "\n".toList)) ∧
        st1.codeLineStart.isSome = (st.codeLineStart.isSome != decide (fenceCount rest % 2 = 1)) := by
  induction rest with
  | nil =>
    intro pre st cur _ _ _
    exact ⟨st, by simp [extractCodeSnippets_loop, fencedBlocksAux, fenceCount]⟩
  | cons s rest ih =>
    intro pre st cur hcur hinv hhl
    have happ : pre ++ s :: rest = (pre ++ [s]) ++ rest := by simp
    have hlen : pre.length + 1 = (pre ++ [s]).length := by simp
    by_cases hf : isFenceLine s = true
    · have hf2 : strings.HasPrefix s codeBlockStart = true := hf
      cases hst : st.codeLineStart with
      | none =>
        have hc : cur = none := by simpa [hst] using hcur
        subst hc
        simp only [fencedBlocksAux, hf, if_true] at hhl ⊢
        obtain ⟨st1, h1, h2, h3⟩ := ih (pre ++ [s]) { st with codeLineStart := some pre.length }
          (some []) (by simp) (by simp) hhl
        refine ⟨st1, ?_, h2, ?_⟩
        · simp only [extractCodeSnippets_loop, hf2, if_true, hst]
          rw [happ, hlen]
          exact h1
        · rw [h3]
          simp only [fenceCount, List.filter_cons, hf, if_true, List.length_cons, Option.isSome_some,
            Option.isSome_none]
          by_cases hp : (List.filter isFenceLine rest).length % 2 = 1
          · have : ¬ ((List.filter isFenceLine rest).length + 1) % 2 = 1 := by omega
            simp [hp, this]
          · have : ((List.filter isFenceLine rest).length + 1) % 2 = 1 := by omega
            simp [hp, this]
      | some start =>
        have hlt : start < pre.length := hinv start hst
        have hc : cur = some (pre.drop (start + 1)) := by simpa [hst] using hcur
        subst hc
        simp only [fencedBlocksAux, hf, if_true] at hhl ⊢
        have hcode : ((pre ++ s :: rest).take pre.length).drop (start + 1) = pre.drop (start + 1) := by
          rw [List.take_left]
        have hsome := hhl (pre.drop (start + 1)) (List.mem_cons_self _ _)
        obtain ⟨html, hhtml⟩ := Option.isSome_iff_exists.mp hsome
        obtain ⟨st1, h1, h2, h3⟩ := ih (pre ++ [s])
          { resLines := st.resLines ++ [env.genRandomString st.world.nRandom]
            codeSnippets := st.codeSnippets ++
              [{ anchor := env.genRandomString st.world.nRandom, codeHTML := html }]
            codeLineStart := none
            world := { st.world with nRandom := st.world.nRandom + 1 } }
          none (by simp) (by simp) (fun b hb => hhl b (List.mem_cons_of_mem _ hb))
        refine ⟨st1, ?_, ?_, ?_⟩
        · simp only [extractCodeSnippets_loop, hf2, if_true, hst, hcode, hhtml]
          rw [happ, hlen]
          exact h1
        · rw [h2]
          simp only [List.map_append, List.map_cons, List.map_nil, List.append_assoc, hhtml,
            List.singleton_append]
        · rw [h3]
          simp only [fenceCount, List.filter_cons, hf, if_true, List.length_cons, Option.isSome_some,
            Option.isSome_none]
          by_cases hp : (List.filter isFenceLine rest).length % 2 = 1
          · have : ¬ ((List.filter isFenceLine rest).length + 1) % 2 = 1 := by omega
            simp [hp, this]
          · have : ((List.filter isFenceLine rest).length + 1) % 2 = 1 := by omega
            simp [hp, this]
    · have hf2 : strings.HasPrefix s codeBlockStart = false := by
        simpa [isFenceLine] using hf
      have hcount : fenceCount (s :: rest) = fenceCount rest := by
        simp [fenceCount, List.filter_cons, hf]
      cases hst : st.codeLineStart with
      | none =>
        have hc : cur = none := by simpa [hst] using hcur
        subst hc
        simp only [fencedBlocksAux, hf, if_false, Bool.false_eq_true] at hhl ⊢
        obtain ⟨st1, h1, h2, h3⟩ := ih (pre ++ [s]) { st with resLines := st.resLines ++ [s] }
          none (by simp [hst]) (by simp [hst]) hhl
        refine ⟨st1, ?_, h2, ?_⟩
        · simp only [extractCodeSnippets_loop, hf2, hst, Bool.false_eq_true, if_false]
          rw [happ, hlen]
          rw [hst] at h1
          exact h1
        · rw [h3, hcount]
          simp [hst]
      | some start =>
        have hlt : start < pre.length := hinv start hst
        have hc : cur = some (pre.drop (start + 1)) := by simpa [hst] using hcur
        subst hc
        simp only [fencedBlocksAux, hf, if_false, Bool.false_eq_true] at hhl ⊢
        have hd : (pre ++ [s]).drop (start + 1) = pre.drop (start + 1) ++ [s] := by
          rw [List.drop_append_of_le_length (by omega)]
        obtain ⟨st1, h1, h2, h3⟩ := ih (pre ++ [s]) st (some (pre.drop (start + 1) ++ [s]))
          (by simp [hst, hd]) (by intro st0 h0; rw [hst] at h0; cases h0; simp; omega) hhl
        refine ⟨st1, ?_, h2, ?_⟩
        · simp only [extractCodeSnippets_loop, hf2, hst, Bool.false_eq_true, if_false]
          rw [happ, hlen]
          exact h1
        · rw [h3, hcount, hst]

theorem extractCodeSnippets_codeHTML (env : Env) (lines : List Str) (w : World)
    (hbal : fenceCount lines % 2 = 0)
    (hhl : ∀ b ∈ fencedBlocks lines, (env.highlight (strings.Join b "\n".toList)).isSome) :
    ∃ r, extractCodeSnippets env lines w = some r ∧
      r.2.1.map (fun c => some c.codeHTML) =
        (fencedBlocks lines).map (fun b => env.highlight (strings.Join b "\n".toList)) := by
  obtain ⟨st1, h1, h2, h3⟩ := extractCodeSnippets_loop_spec env lines []
    { resLines := [], codeSnippets := [], codeLineStart := none, world := w } none
    (by simp) (by simp) hhl
  simp only [List.nil_append, List.length_nil] at h1
  have hnone : st1.codeLineStart = none := by
    have : ¬ fenceCount lines % 2 = 1 := by omega
    simpa [this] using h3
  refine ⟨(st1.resLines, st1.codeSnippets, st1.world), ?_, ?_⟩
  · simp only [extractCodeSnippets, h1, hnone]
  · simpa [fencedBlocks] using h2

theorem isFenceLine_iff (s : Str) :
    isFenceLine s = true ↔ ∃ t, s = '`' :: '`' :: '`' :: t := by
  simp only [isFenceLine, strings.HasPrefix, codeBlockStart, List.isPrefixOf_iff_prefix]
  constructor
  · rintro ⟨t, ht⟩
    exact ⟨t, ht.symm⟩
  · rintro ⟨t, ht⟩
    exact ⟨t, ht.symm⟩

/-- A fence line is never a metadata line, whatever the lower casing does. -/
theorem isMetaDataLine_of_isFenceLine (env : Env) (s : Str) (h : isFenceLine s = true) :
    isMetaDataLine env s = false := by
  obtain ⟨t, rfl⟩ := (isFenceLine_iff s).mp h
  have h1 : strings.Index ('`' :: '`' :: '`' :: t) ':' = (strings.Index t ':').map (· + 3) := by
    simp only [strings.Index, show ¬ ('`' = ':') by decide, if_false, Option.map_map]
    rfl
  simp only [isMetaDataLine, h1]
  cases strings.Index t ':' with
  | none => rfl
  | some k =>
    simp only [Option.map_some', strings.ToLower, List.take_succ_cons, List.map_cons]
    have ha : ¬ (env.toLower '`' :: env.toLower '`' :: env.toLower '`' ::
        List.map env.toLower (List.take k t) = "id".toList) := by
      intro hc
      have := congrArg List.length hc
      simp at this
    have hb : ¬ (env.toLower '`' :: env.toLower '`' :: env.toLower '`' ::
        List.map env.toLower (List.take k t) = "title".toList) := by
      intro hc
      have h0 : env.toLower '`' = 't' := (List.cons.inj hc).1
      have h1 : env.toLower '`' = 'i' := (List.cons.inj (List.cons.inj hc).2).1
      rw [h0] at h1
      exact absurd h1 (by decide)
    simp only [ha, hb, or_self, decide_False]

theorem fencedBlocksAux_filter (p : Str → Bool) (hp : ∀ s, isFenceLine s = true → p s = true)
    (rest : List Str) :
    ∀ cur : Option (List Str),
      fencedBlocksAux (rest.filter p) (cur.map (List.filter p)) =
        (fencedBlocksAux rest cur).map (List.filter p) := by
  induction rest with
  | nil => intro cur; simp [fencedBlocksAux]
  | cons s rest ih =>
    intro cur
    by_cases hf : isFenceLine s = true
    · have hps := hp s hf
      cases cur with
      | none =>
        have := ih (some [])
        simpa [fencedBlocksAux, List.filter_cons, hps, hf] using this
      | some c =>
        have := ih none
        simpa [fencedBlocksAux, List.filter_cons, hps, hf] using this
    · by_cases hps : p s = true
      · cases cur with
        | none =>
          have := ih none
          simpa [fencedBlocksAux, List.filter_cons, hps, hf] using this
        | some c =>
          have := ih (some (c ++ [s]))
          simpa [fencedBlocksAux, List.filter_cons, List.filter_append, hps, hf] using this
      · cases cur with
        | none =>
          have := ih none
          simpa [fencedBlocksAux, List.filter_cons, hps, hf] using this
        | some c =>
          have := ih (some (c ++ [s]))
          simpa [fencedBlocksAux, List.filter_cons, List.filter_append, hps, hf] using this

theorem fenceCount_filter (p : Str → Bool) (hp : ∀ s, isFenceLine s = true → p s = true)
    (lines : List Str) : fenceCount (lines.filter p) = fenceCount lines := by
  simp only [fenceCount, List.filter_filter]
  congr 1
  apply List.filter_congr
  intro s _
  cases hf : isFenceLine s
  · simp
  · simp [hp s hf]

theorem fencedBlocks_drop_one (lines : List Str)
    (hfirst : lines.head?.map isFenceLine ≠ some true) :
    fencedBlocks (lines.drop 1) = fencedBlocks lines ∧
      fenceCount (lines.drop 1) = fenceCount lines := by
  cases lines with
  | nil => simp
  | cons s rest =>
    have hf : ¬ isFenceLine s = true := by simpa using hfirst
    simp [fencedBlocks, fencedBlocksAux, fenceCount, List.filter_cons, hf]

/-- C4 (counterexample): in the note `Id: 1`, fence, `Id: x`, `code`, fence the
lines between the fences are `Id: x` and `code`, but the highlighter (here the
identity) is handed only `code`, and the note gets the ID `x`, not `1`. -/
theorem newNote_code_line_taken_as_metadata :
    fencedBlocks noteWithIdInCode = [["Id: x".toList, "code".toList]] ∧
    (newNote_snippets demoEnv noteWithIdInCode world0).map (fun r => r.2.1.map (·.codeHTML))
      = some ["code".toList] ∧
    (newNote demoEnv noteWithIdInCode world0).map (fun r => r.1.ID) = some "x".toList := by
  decide

/-- C4 (amended): for a note whose fences are balanced and whose first raw line
is not a fence line, when the highlighter accepts the texts below, the first
two stages of `newNote` return, and the text handed to the highlighter for
each fenced block is the raw lines strictly between its fences that are not
metadata lines, joined by newlines; every metadata line of the note, in a
block or not, sets the metadata (the last one of each key wins). -/
theorem newNote_snippets_code (env : Env) (lines : List Str) (w : World)
    (hbal : fenceCount lines % 2 = 0)
    (hfirst : lines.head?.map isFenceLine ≠ some true)
    (hhl : ∀ b ∈ fencedBlocks lines,
      (env.highlight
        (strings.Join (b.filter (fun s => !isMetaDataLine env s)) "\n".toList)).isSome) :
    (∃ r, newNote_snippets env lines w = some r ∧
      r.2.1.map (fun c => some c.codeHTML) =
        (fencedBlocks lines).map (fun b =>
          env.highlight (strings.Join (b.filter (fun s => !isMetaDataLine env s)) "\n".toList))) ∧
    (∀ n w1, newNote env lines w = some (n, w1) →
      n.ID = (lines.foldl (metaDataAfter env) ⟨[], []⟩).ID ∧
      n.Title = (lines.foldl (metaDataAfter env) ⟨[], []⟩).Title) := by
  have hp : ∀ s, isFenceLine s = true → (fun s => !isMetaDataLine env s) s = true := by
    intro s hs
    simp [isMetaDataLine_of_isFenceLine env s hs]
  obtain ⟨hd1, hd2⟩ := fencedBlocks_drop_one lines hfirst
  have hblocks : fencedBlocks ((lines.drop 1).filter (fun s => !isMetaDataLine env s)) =
      (fencedBlocks lines).map (List.filter (fun s => !isMetaDataLine env s)) := by
    have := fencedBlocksAux_filter _ hp (lines.drop 1) none
    simp only [Option.map_none'] at this
    rw [← hd1]
    exact this
  constructor
  · simp only [newNote_snippets, extractMetaDataFromLines_eq]
    obtain ⟨r, hr1, hr2⟩ := extractCodeSnippets_codeHTML env
      ((lines.drop 1).filter (fun s => !isMetaDataLine env s))
      { w with nTotalNotes := w.nTotalNotes + 1 }
      (by rw [fenceCount_filter _ hp, hd2]; exact hbal)
      (by
        rw [hblocks]
        intro b hb
        obtain ⟨b0, hb0, rfl⟩ := List.mem_map.mp hb
        exact hhl b0 hb0)
    refine ⟨r, hr1, ?_⟩
    rw [hr2, hblocks, List.map_map]
    rfl
  · intro n w1 hn
    simp only [newNote, extractMetaDataFromLines_eq] at hn
    cases h1 : newNote_snippets env lines w with
    | none => simp [h1] at hn
    | some r =>
      obtain ⟨ls, cs, w2⟩ := r
      simp only [h1] at hn
      cases h2 : buildBodyFromLines env ls with
      | none => simp [h2] at hn
      | some q =>
        obtain ⟨body, tags⟩ := q
        simp only [h2, Option.some.injEq, Prod.mk.injEq] at hn
        obtain ⟨hn1, _⟩ := hn
        subst hn1
        exact ⟨rfl, rfl⟩

/-- C4 (witness): the amended statement at the note `Id: 1`, fence, `Id: x`,
`code`, fence. -/
theorem newNote_snippets_code_witness :
    fenceCount noteWithIdInCode % 2 = 0 ∧
    noteWithIdInCode.head?.map isFenceLine ≠ some true ∧
    (∃ r, newNote_snippets demoEnv noteWithIdInCode world0 = some r ∧
      r.2.1.map (fun c => some c.codeHTML) =
        (fencedBlocks noteWithIdInCode).map (fun b =>
          demoEnv.highlight
            (strings.Join (b.filter (fun s => !isMetaDataLine demoEnv s)) "\n".toList))) :=
  ⟨by decide, by decide,
    (newNote_snippets_code demoEnv noteWithIdInCode world0 (by decide) (by decide)
      (by decide)).1⟩

/-! ## Identifier back-fill -/

/-- C5 (the code at the failing input): the corpus with the single note
`Id:`, `hello` parses, its note has the empty ID, the back-fill pass writes a
generated `Id: xid0` line above the note, and the note parsed again from the
written lines still has the empty ID, because the later line `Id:` overwrites
the generated one; the back-fill pass run on the written lines writes the
file again.  The same holds of the lines the scanner yields for the written
file, which are the written lines without the final empty line. -/
theorem backfill_leaves_empty_id :
    parsedIDs (readNotesFoDay demoEnv corpusEmptyId world0) = some [[[]]] ∧
    backfillLines demoEnv corpusEmptyId world0 =
      some ["2020-01-01".toList, "Id: xid0".toList, "Id:".toList, "hello".toList, []] ∧
    parsedIDs (readNotesFoDay demoEnv
      ["2020-01-01".toList, "Id: xid0".toList, "Id:".toList, "hello".toList, []] world0)
      = some [[[]]] ∧
    ((notesGenIDIfNecessary demoEnv
      ["2020-01-01".toList, "Id: xid0".toList, "Id:".toList, "hello".toList, []] world0).map
        fun r => r.1.isSome) = some true ∧
    scanLines (strings.Join
        ["2020-01-01".toList, "Id: xid0".toList, "Id:".toList, "hello".toList, []]
        "\n".toList) =
      ["2020-01-01".toList, "Id: xid0".toList, "Id:".toList, "hello".toList] ∧
    parsedIDs (readNotesFoDay demoEnv
      ["2020-01-01".toList, "Id: xid0".toList, "Id:".toList, "hello".toList] world0)
      = some [[[]]] ∧
    ((notesGenIDIfNecessary demoEnv
      ["2020-01-01".toList, "Id: xid0".toList, "Id:".toList, "hello".toList] world0).map
        fun r => r.1.isSome) = some true := by
  decide

/-- A note without `Id:` line whose first line is a fence: the file parses,
because `extractMetaDataFromLines` drops the first line and two fences remain;
after the back-fill pass the `Id:` line is the first line, all three fences
remain, and parsing the written lines aborts on the open code block, with or
without the final empty line that the scanner does not yield. -/
theorem backfill_reparse_aborts_on_leading_fence :
    parsedIDs (readNotesFoDay demoEnv corpusLeadingFence world0) = some [[[]]] ∧
    backfillLines demoEnv corpusLeadingFence world0 =
      some ["2020-01-01".toList, "Id: xid0".toList, "```".toList, "a".toList, "```".toList,
        "b".toList, "```".toList, []] ∧
    readNotesFoDay demoEnv
      ["2020-01-01".toList, "Id: xid0".toList, "```".toList, "a".toList, "```".toList,
        "b".toList, "```".toList, []] world0 = none ∧
    scanLines (strings.Join
        ["2020-01-01".toList, "Id: xid0".toList, "```".toList, "a".toList, "```".toList,
          "b".toList, "```".toList, []] "\n".toList) =
      ["2020-01-01".toList, "Id: xid0".toList, "```".toList, "a".toList, "```".toList,
        "b".toList, "```".toList] ∧
    readNotesFoDay demoEnv
      ["2020-01-01".toList, "Id: xid0".toList, "```".toList, "a".toList, "```".toList,
        "b".toList, "```".toList] world0 = none := by
  decide

/-! ## The index of notes by ID -/

theorem idEntries_lookup_isSome (l : List note) (id : Str) :
    ((idEntries l).lookup id).isSome = decide (id ∈ l.map fun n => n.ID) := by
  induction l with
  | nil => simp [idEntries]
  | cons n rest ih =>
    simp only [idEntries, List.map_cons, List.lookup_cons] at ih ⊢
    by_cases h : id = n.ID
    · subst h
      simp only [beq_self_eq_true, Option.isSome_some, List.mem_cons, true_or, decide_True]
    · have h2 : (id == n.ID) = false := beq_eq_false_iff_ne.mpr h
      simp only [h2, ih, List.mem_cons, h, false_or]

theorem idEntries_lookup_of_nodup (l : List note) (hl : (l.map fun n => n.ID).Nodup)
    (n : note) (hn : n ∈ l) : (idEntries l).lookup n.ID = some n := by
  induction l with
  | nil => cases hn
  | cons m rest ih =>
    simp only [List.map_cons, List.nodup_cons] at hl
    simp only [idEntries, List.map_cons, List.lookup_cons]
    rcases List.mem_cons.mp hn with h | h
    · subst h
      simp only [beq_self_eq_true]
    · have hne : ¬ n.ID = m.ID := by
        intro he
        exact hl.1 (he ▸ List.mem_map_of_mem (fun n => n.ID) h)
      have h2 : (n.ID == m.ID) = false := beq_eq_false_iff_ne.mpr hne
      simp only [h2]
      exact ih hl.2 h

theorem readNotes_stamp_ID (env : Env) (day : notesForDay) (n : note) :
    (readNotes_stamp env day n).ID = n.ID := rfl

theorem readNotes_notes_spec (env : Env) (day : notesForDay) (weekStartDay : Str)
    (notes : List note) :
    ∀ (g : Globals) (k : Nat), g.notesIDToNote = idEntries g.notesAllNotes →
      (readNotes_notes env day weekStartDay notes g k = none ↔
        ¬ ((notes.map fun n => n.ID).Nodup ∧
          ∀ id ∈ notes.map (fun n => n.ID), id ∉ g.notesAllNotes.map fun n => n.ID)) ∧
      (∀ ns g1 k1, readNotes_notes env day weekStartDay notes g k = some (ns, g1, k1) →
        ns = notes.map (readNotes_stamp env day) ∧
        g1.notesAllNotes = g.notesAllNotes ++ ns ∧
        g1.notesIDToNote = idEntries g1.notesAllNotes) := by
  induction notes with
  | nil =>
    intro g k hg
    refine ⟨by simp [readNotes_notes], ?_⟩
    intro ns g1 k1 h
    simp only [readNotes_notes, Option.some.injEq, Prod.mk.injEq] at h
    obtain ⟨rfl, rfl, _⟩ := h
    exact ⟨rfl, by simp, hg⟩
  | cons n rest ih =>
    intro g k hg
    have hlook := idEntries_lookup_isSome g.notesAllNotes n.ID
    rw [← hg] at hlook
    by_cases hin : n.ID ∈ g.notesAllNotes.map fun n => n.ID
    · have hsome : (mapGet g.notesIDToNote n.ID).isSome = true := by
        show (List.lookup n.ID g.notesIDToNote).isSome = true
        rw [hlook]
        exact decide_eq_true hin
      refine ⟨?_, ?_⟩
      · simp only [readNotes_notes, hsome, if_true, true_iff, not_and, List.map_cons,
          List.mem_cons, forall_eq_or_imp, not_forall, Classical.not_not]
        intro _ h
        exact absurd hin h
      · intro ns g1 k1 h
        simp [readNotes_notes, hsome] at h
    · have hnone : (mapGet g.notesIDToNote n.ID).isSome = false := by
        show (List.lookup n.ID g.notesIDToNote).isSome = false
        rw [hlook]
        exact decide_eq_false hin
      have hlk : List.lookup n.ID g.notesIDToNote = none := by
        cases h : List.lookup n.ID g.notesIDToNote with
        | none => rfl
        | some v =>
          have h2 : (List.lookup n.ID g.notesIDToNote).isSome = false := hnone
          rw [h] at h2
          cases h2
      have hset : ∀ v : note, mapSet g.notesIDToNote n.ID v = g.notesIDToNote ++ [(n.ID, v)] := by
        intro v
        simp only [mapSet, hlk, Option.isSome_none, Bool.false_eq_true, if_false]
      set g1 : Globals :=
        { g with
          notesAllNotes := g.notesAllNotes ++ [readNotes_stamp env day n]
          notesIDToNote := mapSet g.notesIDToNote n.ID (readNotes_stamp env day n)
          notesTagToNotes := readNotes_tags (readNotes_stamp env day n)
            (readNotes_stamp env day n).Tags g.notesTagToNotes
          notesWeekStartDayToNotes := mapSet g.notesWeekStartDayToNotes weekStartDay
            ((mapGet g.notesWeekStartDayToNotes weekStartDay).getD [] ++
              [readNotes_stamp env day n]) } with hg1
      have hinv : g1.notesIDToNote = idEntries g1.notesAllNotes := by
        show mapSet g.notesIDToNote n.ID (readNotes_stamp env day n) =
          idEntries (g.notesAllNotes ++ [readNotes_stamp env day n])
        rw [hset, hg]
        simp only [idEntries, List.map_append, List.map_cons, List.map_nil, readNotes_stamp_ID]
      obtain ⟨ih1, ih2⟩ := ih g1 (k + 1) hinv
      have hstep : readNotes_notes env day weekStartDay (n :: rest) g k =
          match readNotes_notes env day weekStartDay rest g1 (k + 1) with
          | none => none
          | some (ns, g2, k2) => some (readNotes_stamp env day n :: ns, g2, k2) := by
        simp only [readNotes_notes, hnone, Bool.false_eq_true, if_false, hg1]
      have hall : g1.notesAllNotes.map (fun n => n.ID) =
          g.notesAllNotes.map (fun n => n.ID) ++ [n.ID] := by
        simp [hg1, readNotes_stamp_ID]
      refine ⟨?_, ?_⟩
      · rw [hstep]
        have hiff : (readNotes_notes env day weekStartDay rest g1 (k + 1) = none) ↔
            ¬ (((n :: rest).map fun n => n.ID).Nodup ∧
              ∀ id ∈ (n :: rest).map (fun n => n.ID), id ∉ g.notesAllNotes.map fun n => n.ID) := by
          rw [ih1, hall, List.map_cons]
          apply not_congr
          constructor
          · rintro ⟨h1, h2⟩
            refine ⟨List.nodup_cons.mpr ⟨?_, h1⟩, ?_⟩
            · intro hmem
              exact (h2 _ hmem) (List.mem_append_right _ (List.mem_singleton_self _))
            · intro id hid
              rcases List.mem_cons.mp hid with h | h
              · rw [h]
                exact hin
              · exact fun hE => h2 id h (List.mem_append_left _ hE)
          · rintro ⟨h1, h2⟩
            have h3 := List.nodup_cons.mp h1
            refine ⟨h3.2, fun id hid hmem => ?_⟩
            rcases List.mem_append.mp hmem with h | h
            · exact h2 id (List.mem_cons_of_mem _ hid) h
            · rw [List.mem_singleton] at h
              subst h
              exact h3.1 hid
        cases hr : readNotes_notes env day weekStartDay rest g1 (k + 1) with
        | none =>
          simp only [true_iff]
          exact hiff.mp hr
        | some v =>
          obtain ⟨ns, g2, k2⟩ := v
          simp only [reduceCtorEq, false_iff, Classical.not_not]
          by_contra hc
          have := hiff.mpr hc
          rw [hr] at this
          cases this
      · intro ns g2 k2 h
        rw [hstep] at h
        cases hr : readNotes_notes env day weekStartDay rest g1 (k + 1) with
        | none => simp [hr] at h
        | some v =>
          obtain ⟨ns1, g3, k3⟩ := v
          simp only [hr, Option.some.injEq, Prod.mk.injEq] at h
          obtain ⟨rfl, rfl, rfl⟩ := h
          obtain ⟨h1, h2, h3⟩ := ih2 ns1 g3 k3 hr
          refine ⟨by simp [h1], ?_, h3⟩
          rw [h2]
          simp [hg1]

theorem corpusNotes_IDs (env : Env) (days : List notesForDay) :
    (corpusNotes env days).map (fun n => n.ID) = corpusIDs days := by
  induction days with
  | nil => rfl
  | cons d rest ih =>
    simp only [corpusNotes, corpusIDs, List.map_cons, List.flatten_cons, List.map_append,
      List.map_map] at ih ⊢
    rw [ih]
    rfl

theorem readNotes_days_spec (env : Env) (days : List notesForDay) :
    ∀ (g : Globals) (k : Nat), g.notesIDToNote = idEntries g.notesAllNotes →
      (readNotes_days env days g k = none ↔
        ¬ ((corpusIDs days).Nodup ∧
          ∀ id ∈ corpusIDs days, id ∉ g.notesAllNotes.map fun n => n.ID)) ∧
      (∀ ds g1 k1, readNotes_days env days g k = some (ds, g1, k1) →
        g1.notesAllNotes = g.notesAllNotes ++ corpusNotes env days ∧
        g1.notesIDToNote = idEntries g1.notesAllNotes) := by
  induction days with
  | nil =>
    intro g k hg
    refine ⟨by simp [readNotes_days, corpusIDs], ?_⟩
    intro ds g1 k1 h
    simp only [readNotes_days, Option.some.injEq, Prod.mk.injEq] at h
    obtain ⟨_, rfl, _⟩ := h
    exact ⟨by simp [corpusNotes], hg⟩
  | cons day rest ih =>
    intro g k hg
    obtain ⟨hn1, hn2⟩ := readNotes_notes_spec env day (timeFormat (calcWeekStart day.Day))
      day.Notes g k hg
    have hids : corpusIDs (day :: rest) = (day.Notes.map fun n => n.ID) ++ corpusIDs rest := by
      simp [corpusIDs]
    have hnotes : corpusNotes env (day :: rest) =
        day.Notes.map (readNotes_stamp env day) ++ corpusNotes env rest := by
      simp [corpusNotes]
    cases hr : readNotes_notes env day (timeFormat (calcWeekStart day.Day)) day.Notes g k with
    | none =>
      have hbad := hn1.mp hr
      refine ⟨?_, ?_⟩
      · simp only [readNotes_days, hr, true_iff]
        rw [hids]
        rintro ⟨h1, h2⟩
        exact hbad ⟨(List.nodup_append.mp h1).1, fun id hid => h2 id (List.mem_append_left _ hid)⟩
      · intro ds g1 k1 h
        simp [readNotes_days, hr] at h
    | some v =>
      obtain ⟨ns, g1, k1⟩ := v
      obtain ⟨hns, hall, hinv⟩ := hn2 ns g1 k1 hr
      have hgood : (day.Notes.map fun n => n.ID).Nodup ∧
          ∀ id ∈ day.Notes.map (fun n => n.ID), id ∉ g.notesAllNotes.map fun n => n.ID := by
        by_contra hc
        have := hn1.mpr hc
        rw [hr] at this
        cases this
      obtain ⟨ih1, ih2⟩ := ih g1 k1 hinv
      have hall1 : g1.notesAllNotes.map (fun n => n.ID) =
          g.notesAllNotes.map (fun n => n.ID) ++ day.Notes.map fun n => n.ID := by
        rw [hall, hns]
        simp only [List.map_append, List.map_map]
        rfl
      have hstep : readNotes_days env (day :: rest) g k =
          match readNotes_days env rest g1 k1 with
          | none => none
          | some (ds, g2, k2) => some ({ day with Notes := ns } :: ds, g2, k2) := by
        simp only [readNotes_days, hr]
      have hiff : (readNotes_days env rest g1 k1 = none) ↔
          ¬ ((corpusIDs (day :: rest)).Nodup ∧
            ∀ id ∈ corpusIDs (day :: rest), id ∉ g.notesAllNotes.map fun n => n.ID) := by
        rw [ih1, hall1, hids]
        apply not_congr
        constructor
        · rintro ⟨h1, h2⟩
          refine ⟨List.nodup_append.mpr ⟨hgood.1, h1, ?_⟩, ?_⟩
          · intro id hid1 hid2
            exact h2 id hid2 (List.mem_append_right _ hid1)
          · intro id hid
            rcases List.mem_append.mp hid with h | h
            · exact hgood.2 id h
            · exact fun hE => h2 id h (List.mem_append_left _ hE)
        · rintro ⟨h1, h2⟩
          obtain ⟨_, h4, h5⟩ := List.nodup_append.mp h1
          refine ⟨h4, fun id hid hmem => ?_⟩
          rcases List.mem_append.mp hmem with h | h
          · exact h2 id (List.mem_append_right _ hid) h
          · exact h5 h hid
      refine ⟨?_, ?_⟩
      · rw [hstep]
        cases hr2 : readNotes_days env rest g1 k1 with
        | none =>
          simp only [true_iff]
          exact hiff.mp hr2
        | some v =>
          obtain ⟨ds, g2, k2⟩ := v
          simp only [reduceCtorEq, false_iff, Classical.not_not]
          by_contra hc
          have := hiff.mpr hc
          rw [hr2] at this
          cases this
      · intro ds g2 k2 h
        rw [hstep] at h
        cases hr2 : readNotes_days env rest g1 k1 with
        | none => simp [hr2] at h
        | some v =>
          obtain ⟨ds1, g3, k3⟩ := v
          simp only [hr2, Option.some.injEq, Prod.mk.injEq] at h
          obtain ⟨_, rfl, _⟩ := h
          obtain ⟨h1, h2⟩ := ih2 ds1 g3 k3 hr2
          refine ⟨?_, h2⟩
          rw [h1, hall, hns, hnotes, List.append_assoc]

/-- C7: the index-building loop of `readNotes`, started on the emptied
globals, aborts exactly when two notes of the corpus have the same ID (the
empty ID of notes without an `Id:` line included); when it completes,
`notesAllNotes` lists every note in file order, the IDs of those notes are
pairwise distinct, and `notesIDToNote` has exactly one entry per note, from
the note's ID to the note. -/
theorem readNotes_days_aborts_iff_duplicate_id (env : Env) (days : List notesForDay) :
    (readNotes_days env days { noGlobals with notesDays := days } 0 = none ↔
      ¬ (corpusIDs days).Nodup) ∧
    (∀ ds g k, readNotes_days env days { noGlobals with notesDays := days } 0 = some (ds, g, k) →
      g.notesAllNotes = corpusNotes env days ∧
      g.notesAllNotes.map (fun n => n.ID) = corpusIDs days ∧
      (g.notesAllNotes.map fun n => n.ID).Nodup ∧
      g.notesIDToNote = idEntries g.notesAllNotes ∧
      (∀ n ∈ g.notesAllNotes, mapGet g.notesIDToNote n.ID = some n)) := by
  obtain ⟨h1, h2⟩ := readNotes_days_spec env days { noGlobals with notesDays := days } 0 rfl
  have h1b : readNotes_days env days { noGlobals with notesDays := days } 0 = none ↔
      ¬ (corpusIDs days).Nodup := by
    rw [h1]
    simp [noGlobals]
  refine ⟨h1b, ?_⟩
  intro ds g k h
  obtain ⟨h3, h4⟩ := h2 ds g k h
  have hall : g.notesAllNotes = corpusNotes env days := by
    rw [h3]
    simp [noGlobals]
  have hnodup : (corpusIDs days).Nodup := by
    by_contra hc
    have := h1b.mpr hc
    rw [h] at this
    cases this
  have hids : g.notesAllNotes.map (fun n => n.ID) = corpusIDs days := by
    rw [hall, corpusNotes_IDs]
  refine ⟨hall, hids, hids ▸ hnodup, h4, ?_⟩
  intro n hn
  rw [h4]
  exact idEntries_lookup_of_nodup g.notesAllNotes (hids ▸ hnodup) n hn

/-! ## Tags: searching a string -/

theorem findWordEndAux_none (s : Str) (i : Nat) (h : ' ' ∉ s) : findWordEndAux s i = none := by
  induction s generalizing i with
  | nil => rfl
  | cons c cs ih =>
    have hc : ¬ c = ' ' := fun e => h (e ▸ List.mem_cons_self _ _)
    simp only [findWordEndAux, hc, if_false]
    exact ih (i + 1) (fun hm => h (List.mem_cons_of_mem _ hm))

theorem findWordEndAux_append (w rest : Str) (i : Nat) (h : ' ' ∉ w) :
    findWordEndAux (w ++ ' ' :: rest) i = some (i + w.length + 1) := by
  induction w generalizing i with
  | nil => simp [findWordEndAux]
  | cons c cs ih =>
    have hc : ¬ c = ' ' := fun e => h (e ▸ List.mem_cons_self _ _)
    have h2 := ih (i + 1) (fun hm => h (List.mem_cons_of_mem _ hm))
    rw [List.cons_append, findWordEndAux, if_neg hc, h2, List.length_cons]
    congr 1
    omega

theorem findWordEndAux_bounds (s : Str) (i k : Nat) (h : findWordEndAux s i = some k) :
    i + 1 ≤ k ∧ k ≤ i + s.length := by
  induction s generalizing i with
  | nil => cases h
  | cons c cs ih =>
    simp only [findWordEndAux] at h
    by_cases hc : c = ' '
    · simp only [hc, if_true, Option.some.injEq] at h
      simp only [List.length_cons]
      omega
    · simp only [hc, if_false] at h
      have := ih (i + 1) h
      simp only [List.length_cons]
      omega

theorem LastIndex_none (s : Str) (c : Char) (h : c ∉ s) : strings.LastIndex s c = none := by
  induction s with
  | nil => rfl
  | cons x xs ih =>
    have hx : ¬ x = c := fun e => h (e ▸ List.mem_cons_self _ _)
    simp only [strings.LastIndex, ih (fun hm => h (List.mem_cons_of_mem _ hm)), hx, if_false]

theorem LastIndex_append (pre post : Str) (c : Char) (h : c ∉ post) :
    strings.LastIndex (pre ++ c :: post) c = some pre.length := by
  induction pre with
  | nil => simp [strings.LastIndex, LastIndex_none post c h]
  | cons x xs ih => simp [strings.LastIndex, ih]

theorem LastIndex_lt (s : Str) (c : Char) (i : Nat) (h : strings.LastIndex s c = some i) :
    i < s.length := by
  induction s generalizing i with
  | nil => cases h
  | cons x xs ih =>
    simp only [strings.LastIndex] at h
    cases hl : strings.LastIndex xs c with
    | some j =>
      simp only [hl, Option.some.injEq] at h
      have := ih j hl
      simp only [List.length_cons]
      omega
    | none =>
      simp only [hl] at h
      by_cases hx : x = c
      · simp only [hx, if_true, Option.some.injEq] at h
        simp only [List.length_cons]
        omega
      · simp [hx] at h

theorem HasPrefix_hash (s : Str) :
    strings.HasPrefix s "#".toList = true ↔ s.head? = some '#' := by
  cases s with
  | nil => simp [strings.HasPrefix]
  | cons c cs =>
    simp [strings.HasPrefix, List.isPrefixOf]
    constructor
    · intro h; exact h.symm
    · intro h; exact h.symm

theorem TrimLeft_space_of_head (s : Str) (h : s.head? ≠ some ' ') :
    strings.TrimLeft s " ".toList = s := by
  cases s with
  | nil => rfl
  | cons c cs =>
    have hc : ¬ c = ' ' := by simpa using h
    simp [strings.TrimLeft, List.dropWhile_cons, hc]

theorem TrimRight_space_of_getLast (s : Str) (h : s.getLast? ≠ some ' ') :
    strings.TrimRight s " ".toList = s := by
  rw [strings.TrimRight, List.rdropWhile_eq_self_iff]
  intro hl
  rw [List.getLast?_eq_getLast _ hl] at h
  simpa using h

theorem TrimRight_concat_space (s : Str) :
    strings.TrimRight (s ++ [' ']) " ".toList = strings.TrimRight s " ".toList := by
  rw [strings.TrimRight, List.rdropWhile_concat_pos]
  · rfl
  · simp

/-! ## Tags: a line of leading tags, text and trailing tags -/

theorem leadingTagText_head (ts : List Str) (rest : Str) (h : rest.head? ≠ some ' ') :
    (leadingTagText ts ++ rest).head? ≠ some ' ' := by
  cases ts with
  | nil => simpa [leadingTagText] using h
  | cons t ts => simp [leadingTagText]

theorem removeHashTags_start_leading (ts : List Str) :
    ∀ (rest : Str) (tags : List Str) (fuel : Nat),
      (∀ t ∈ ts, ' ' ∉ t) → rest.head? ≠ some '#' → rest.head? ≠ some ' ' → ts.length < fuel →
      removeHashTags_start fuel (leadingTagText ts ++ rest) tags = (false, rest, tags ++ ts) := by
  induction ts with
  | nil =>
    intro rest tags fuel _ h1 _ hf
    cases fuel with
    | zero => simp at hf
    | succ f =>
      have hp : ¬ strings.HasPrefix rest "#".toList = true :=
        fun hp => h1 ((HasPrefix_hash rest).mp hp)
      have hp2 : strings.HasPrefix rest "#".toList = false := by
        simpa using hp
      simp only [leadingTagText, List.map_nil, List.flatten_nil, List.nil_append,
        removeHashTags_start, hp2, Bool.false_eq_true, if_false, List.append_nil]
  | cons t ts ih =>
    intro rest tags fuel ht h1 h2 hf
    cases fuel with
    | zero => simp at hf
    | succ f =>
      have hsp : ' ' ∉ t := ht t (List.mem_cons_self _ _)
      set more := leadingTagText ts ++ rest with hmore
      have hs : leadingTagText (t :: ts) ++ rest = '#' :: (t ++ ' ' :: more) := by
        simp [leadingTagText, hmore]
      have hpre : strings.HasPrefix ('#' :: (t ++ ' ' :: more)) "#".toList = true :=
        (HasPrefix_hash _).mpr rfl
      have hfw : findWordEnd ('#' :: (t ++ ' ' :: more)) 0 = some (t.length + 2) := by
        simp only [findWordEnd, List.drop_zero, findWordEndAux, show ¬ ('#' = ' ') by decide,
          if_false]
        rw [findWordEndAux_append _ _ _ hsp]
        congr 1
        omega
      have hdrop : ('#' :: (t ++ ' ' :: more)).drop (t.length + 2) = more := by
        rw [List.drop_succ_cons]
        have : t ++ ' ' :: more = (t ++ [' ']) ++ more := by simp
        rw [this]
        exact List.drop_left' (by simp)
      have htake : (('#' :: (t ++ ' ' :: more)).take (t.length + 2 - 1)).drop 1 = t := by
        have : t.length + 2 - 1 = t.length + 1 := by omega
        rw [this, List.take_succ_cons, List.drop_one, List.tail_cons]
        exact List.take_left' rfl
      have htrim : strings.TrimLeft more " ".toList = more :=
        TrimLeft_space_of_head _ (leadingTagText_head ts rest h2)
      rw [hs, removeHashTags_start, if_pos hpre, hfw]
      simp only [hdrop, htake, htrim]
      rw [hmore, ih rest (tags ++ [t]) f (fun t1 h => ht t1 (List.mem_cons_of_mem _ h)) h1 h2
        (by simpa using hf)]
      simp

theorem trailingTagText_concat (us : List Str) (u : Str) :
    trailingTagText (us ++ [u]) = trailingTagText us ++ ' ' :: '#' :: u := by
  simp [trailingTagText]

theorem text_trailing_getLast (text : Str) (us : List Str)
    (hus : ∀ u ∈ us, ' ' ∉ u) (ht : text.getLast? ≠ some ' ') :
    (text ++ trailingTagText us).getLast? ≠ some ' ' := by
  induction us using List.reverseRecOn with
  | nil => simpa [trailingTagText] using ht
  | append_singleton us u _ =>
    have hu : ' ' ∉ u := hus u (by simp)
    rw [trailingTagText_concat]
    have : text ++ (trailingTagText us ++ ' ' :: '#' :: u) =
        (text ++ trailingTagText us ++ [' ']) ++ ('#' :: u) := by simp
    rw [this, List.getLast?_append_of_ne_nil _ (by simp)]
    intro hc
    have hmem := List.mem_of_getLast?_eq_some hc
    rcases List.mem_cons.mp hmem with h | h
    · exact absurd h (by decide)
    · exact hu h

theorem removeHashTags_end_trailing (text : Str) (us : List Str) :
    ∀ (tags : List Str) (fuel : Nat),
      (∀ u ∈ us, ' ' ∉ u ∧ '#' ∉ u) → '#' ∉ text → text.getLast? ≠ some ' ' →
      us.length < fuel →
      removeHashTags_end fuel (text ++ trailingTagText us) tags = (text, tags ++ us.reverse) := by
  induction us using List.reverseRecOn with
  | nil =>
    intro tags fuel _ h1 _ hf
    cases fuel with
    | zero => simp at hf
    | succ f =>
      simp only [trailingTagText, List.map_nil, List.flatten_nil, List.append_nil,
        removeHashTags_end, LastIndex_none text '#' h1, List.reverse_nil]
  | append_singleton us u ih =>
    intro tags fuel hus h1 h2 hf
    cases fuel with
    | zero => simp at hf
    | succ f =>
      obtain ⟨hu1, hu2⟩ := hus u (by simp)
      have hus1 : ∀ v ∈ us, ' ' ∉ v ∧ '#' ∉ v := fun v hv => hus v (by simp [hv])
      set body := text ++ trailingTagText us with hbody
      have hs : text ++ trailingTagText (us ++ [u]) = (body ++ [' ']) ++ '#' :: u := by
        rw [trailingTagText_concat, hbody]
        simp
      have hidx : strings.LastIndex ((body ++ [' ']) ++ '#' :: u) '#' = some (body.length + 1) := by
        rw [LastIndex_append _ _ _ hu2]
        simp
      have hdrop0 : ((body ++ [' ']) ++ '#' :: u).drop (body.length + 1) = '#' :: u :=
        List.drop_left' (by simp)
      have hfw : findWordEnd ((body ++ [' ']) ++ '#' :: u) (body.length + 1) = none := by
        rw [findWordEnd, hdrop0]
        apply findWordEndAux_none
        intro hm
        rcases List.mem_cons.mp hm with h | h
        · exact absurd h (by decide)
        · exact hu1 h
      have hprev : ((body ++ [' ']) ++ '#' :: u)[body.length + 1 - 1]? = some ' ' := by
        have : body.length + 1 - 1 = body.length := by omega
        rw [this, List.append_assoc, List.getElem?_append_right (le_refl _)]
        simp
      have htake : ((body ++ [' ']) ++ '#' :: u).take (body.length + 1) = body ++ [' '] :=
        List.take_left' (by simp)
      have hdrop : ((body ++ [' ']) ++ '#' :: u).drop (body.length + 1 + 1) = u := by
        have : (body ++ [' ']) ++ '#' :: u = (body ++ [' '] ++ ['#']) ++ u := by simp
        rw [this]
        exact List.drop_left' (by simp)
      have htrim : strings.TrimRight (body ++ [' ']) " ".toList = body := by
        rw [TrimRight_concat_space]
        exact TrimRight_space_of_getLast _
          (text_trailing_getLast text us (fun v hv => (hus1 v hv).1) h2)
      rw [hs, removeHashTags_end, hidx]
      simp only [hfw, Option.isSome_none, Bool.false_eq_true, if_false, hprev, ne_eq,
        not_true_eq_false, and_false, htake, hdrop, htrim]
      rw [hbody, ih (tags ++ [u]) f hus1 h1 h2 (by simpa using hf)]
      simp

theorem leadingTagText_length (ts : List Str) : ts.length ≤ (leadingTagText ts).length := by
  induction ts with
  | nil => simp
  | cons t ts ih =>
    simp only [leadingTagText, List.map_cons, List.flatten_cons, List.length_append,
      List.length_cons] at ih ⊢
    omega

theorem trailingTagText_length (us : List Str) : us.length ≤ (trailingTagText us).length := by
  induction us with
  | nil => simp
  | cons u us ih =>
    simp only [trailingTagText, List.map_cons, List.flatten_cons, List.length_append,
      List.length_cons] at ih ⊢
    omega

/-- C8: on a line made of leading tags `#t1 ... #tn ` (tag words without
space), a non-empty text without `#` and without a space at either end, and
trailing tags ` #u1 ... #um` (tag words without space and without `#`),
`removeHashTags` returns the text and the lowercased tags `t1..tn` followed by
`um..u1`. -/
theorem removeHashTags_tagged_line (env : Env) (ts us : List Str) (text : Str)
    (hts : ∀ t ∈ ts, ' ' ∉ t)
    (hus : ∀ u ∈ us, ' ' ∉ u ∧ '#' ∉ u)
    (htext : text ≠ []) (hhash : '#' ∉ text)
    (hfirst : text.head? ≠ some ' ') (hlast : text.getLast? ≠ some ' ') :
    removeHashTags env (leadingTagText ts ++ text ++ trailingTagText us) =
      (text, (ts ++ us.reverse).map (strings.ToLower env)) := by
  have hrest1 : (text ++ trailingTagText us).head? ≠ some '#' := by
    cases text with
    | nil => exact absurd rfl htext
    | cons c cs =>
      simp only [List.cons_append, List.head?_cons, ne_eq, Option.some.injEq]
      intro hc
      exact hhash (hc ▸ List.mem_cons_self _ _)
  have hrest2 : (text ++ trailingTagText us).head? ≠ some ' ' := by
    cases text with
    | nil => exact absurd rfl htext
    | cons c cs => simpa using hfirst
  have hstart := removeHashTags_start_leading ts (text ++ trailingTagText us) []
    ((leadingTagText ts ++ text ++ trailingTagText us).length + 1) hts hrest1 hrest2
    (by
      have := leadingTagText_length ts
      simp only [List.length_append]
      omega)
  have htrim : strings.TrimRight (text ++ trailingTagText us) " ".toList =
      text ++ trailingTagText us :=
    TrimRight_space_of_getLast _ (text_trailing_getLast text us (fun u hu => (hus u hu).1) hlast)
  have hend := removeHashTags_end_trailing text us ts
    ((text ++ trailingTagText us).length + 1) hus hhash hlast
    (by
      have := trailingTagText_length us
      simp only [List.length_append]
      omega)
  rw [List.append_assoc] at hstart ⊢
  simp only [removeHashTags, hstart, List.nil_append, htrim, hend]

/-- C8 (witness): the line `#work #urgent some text #later`. -/
theorem removeHashTags_tagged_line_witness :
    leadingTagText ["work".toList, "urgent".toList] ++ "some text".toList ++
        trailingTagText ["later".toList] = "#work #urgent some text #later".toList ∧
    removeHashTags demoEnv (leadingTagText ["work".toList, "urgent".toList] ++
        "some text".toList ++ trailingTagText ["later".toList]) =
      ("some text".toList, ["work".toList, "urgent".toList, "later".toList]) :=
  ⟨by decide,
    removeHashTags_tagged_line demoEnv ["work".toList, "urgent".toList] ["later".toList]
      "some text".toList (by decide) (by decide) (by decide) (by decide) (by decide) (by decide)⟩

/-! ## Tags: the two loops on any string -/

theorem removeHashTags_start_result (fuel : Nat) :
    ∀ (s : Str) (tags : List Str), s.length < fuel →
      ((removeHashTags_start fuel s tags).1 = true → (removeHashTags_start fuel s tags).2.1 = []) ∧
      ((removeHashTags_start fuel s tags).1 = false →
        (removeHashTags_start fuel s tags).2.1.head? ≠ some '#') := by
  induction fuel with
  | zero => intro s tags h; simp at h
  | succ f ih =>
    intro s tags hf
    by_cases hp : strings.HasPrefix s "#".toList = true
    · cases hw : findWordEnd s 0 with
      | none =>
        simp only [removeHashTags_start, hp, hw, if_true, forall_const, reduceCtorEq,
          false_implies, and_self]
      | some idx =>
        have hb := findWordEndAux_bounds s 0 idx (by simpa [findWordEnd] using hw)
        have hlen : (strings.TrimLeft (s.drop idx) " ".toList).length < f := by
          have h1 : (strings.TrimLeft (s.drop idx) " ".toList).length ≤ (s.drop idx).length :=
            (List.dropWhile_suffix _).length_le
          simp only [List.length_drop] at h1
          omega
        have := ih (strings.TrimLeft (s.drop idx) " ".toList)
          (tags ++ [(s.take (idx - 1)).drop 1]) hlen
        simp only [removeHashTags_start, hp, hw, if_true]
        exact this
    · have hp2 : strings.HasPrefix s "#".toList = false := by simpa using hp
      have hh : s.head? ≠ some '#' := fun h => hp ((HasPrefix_hash s).mpr h)
      simp only [removeHashTags_start, hp2, Bool.false_eq_true, if_false, reduceCtorEq,
        false_implies, true_implies, true_and]
      exact hh

theorem removeHashTags_end_of_stops (f : Nat) (x : Str) (tags : List Str)
    (h : trailingLoopStops x) : removeHashTags_end (f + 1) x tags = (x, tags) := by
  simp only [trailingLoopStops] at h
  simp only [removeHashTags_end]
  cases hl : strings.LastIndex x '#' with
  | none => rfl
  | some idx =>
    simp only [hl] at h
    rcases h with h | h
    · simp only [h, if_true]
    · by_cases hw : (findWordEnd x idx).isSome = true
      · simp only [hw, if_true]
      · simp only [hw, Bool.false_eq_true, if_false, h, ne_eq, not_false_eq_true, and_self, if_true]

theorem removeHashTags_end_result (fuel : Nat) :
    ∀ (x : Str) (tags : List Str), x.length < fuel →
      trailingLoopStops (removeHashTags_end fuel x tags).1 ∧
      (removeHashTags_end fuel x tags).1 <+: x ∧
      (strings.TrimRight x " ".toList = x →
        strings.TrimRight (removeHashTags_end fuel x tags).1 " ".toList =
          (removeHashTags_end fuel x tags).1) := by
  induction fuel with
  | zero => intro x tags h; simp at h
  | succ f ih =>
    intro x tags hf
    cases hl : strings.LastIndex x '#' with
    | none =>
      have hst : trailingLoopStops x := by simp [trailingLoopStops, hl]
      rw [removeHashTags_end_of_stops f x tags hst]
      exact ⟨hst, List.prefix_refl _, fun h => h⟩
    | some idx =>
      by_cases hstop : (findWordEnd x idx).isSome = true ∨ (0 < idx ∧ x[idx - 1]? ≠ some ' ')
      · have hst : trailingLoopStops x := by simpa [trailingLoopStops, hl] using hstop
        rw [removeHashTags_end_of_stops f x tags hst]
        exact ⟨hst, List.prefix_refl _, fun h => h⟩
      · have hlt := LastIndex_lt x '#' idx hl
        have hpre : strings.TrimRight (x.take idx) " ".toList <+: x :=
          (List.rdropWhile_prefix _ _).trans (List.take_prefix _ _)
        have hlen : (strings.TrimRight (x.take idx) " ".toList).length < f := by
          have h1 : (strings.TrimRight (x.take idx) " ".toList).length ≤ (x.take idx).length :=
            (List.rdropWhile_prefix _ _).length_le
          simp only [List.length_take] at h1
          omega
        obtain ⟨h1, h2, h3⟩ := ih (strings.TrimRight (x.take idx) " ".toList)
          (tags ++ [x.drop (idx + 1)]) hlen
        have hstep : removeHashTags_end (f + 1) x tags =
            removeHashTags_end f (strings.TrimRight (x.take idx) " ".toList)
              (tags ++ [x.drop (idx + 1)]) := by
          simp only [not_or] at hstop
          simp only [removeHashTags_end, hl, hstop.1, Bool.false_eq_true, if_false, hstop.2]
        rw [hstep]
        refine ⟨h1, h2.trans hpre, fun _ => h3 ?_⟩
        exact List.rdropWhile_idempotent _ _

theorem head?_ne_of_prefix (b s : Str) (c : Char) (hp : b <+: s) (h : s.head? ≠ some c) :
    b.head? ≠ some c := by
  obtain ⟨t, rfl⟩ := hp
  cases b with
  | nil => simp
  | cons x xs => simpa using h

/-- C10: tag stripping is idempotent; on the text that `removeHashTags` returns
it returns the same text and no tag. -/
theorem removeHashTags_idempotent (env : Env) (s : Str) :
    removeHashTags env (removeHashTags env s).1 = ((removeHashTags env s).1, []) := by
  obtain ⟨hs1, hs2⟩ := removeHashTags_start_result (s.length + 1) s [] (by omega)
  rcases hr : removeHashTags_start (s.length + 1) s [] with ⟨flag, s1, tags⟩
  rw [hr] at hs1 hs2
  cases flag with
  | true =>
    have h1 : s1 = [] := hs1 rfl
    subst h1
    have : (removeHashTags env s).1 = [] := by simp only [removeHashTags, hr]
    rw [this]
    rfl
  | false =>
    have hhead : s1.head? ≠ some '#' := hs2 rfl
    obtain ⟨h1, h2, h3⟩ := removeHashTags_end_result
      ((strings.TrimRight s1 " ".toList).length + 1) (strings.TrimRight s1 " ".toList) tags
      (by omega)
    have hb : (removeHashTags env s).1 =
        (removeHashTags_end ((strings.TrimRight s1 " ".toList).length + 1)
          (strings.TrimRight s1 " ".toList) tags).1 := by
      simp only [removeHashTags, hr]
    rw [hb]
    set b := (removeHashTags_end ((strings.TrimRight s1 " ".toList).length + 1)
          (strings.TrimRight s1 " ".toList) tags).1 with hbdef
    have htrim : strings.TrimRight b " ".toList = b := h3 (List.rdropWhile_idempotent _ _)
    have hbhead : b.head? ≠ some '#' :=
      head?_ne_of_prefix b s1 '#' (h2.trans (List.rdropWhile_prefix _ _)) hhead
    have hp : strings.HasPrefix b "#".toList = false := by
      rw [Bool.eq_false_iff]
      exact fun hp => hbhead ((HasPrefix_hash b).mp hp)
    have hstart : removeHashTags_start (b.length + 1) b [] = (false, b, []) := by
      simp only [removeHashTags_start, hp, Bool.false_eq_true, if_false]
    simp only [removeHashTags, hstart, htrim, removeHashTags_end_of_stops b.length b [] h1,
      List.map_nil]

/-! ## Tags of a body -/

theorem buildBodyFromLines_strip_eq (env : Env) (lines : List Str) :
    ∀ resTags : List Str, buildBodyFromLines_strip env lines resTags =
      (lines.map (fun l => (removeHashTags env l).1),
        resTags ++ (lines.map fun l => (removeHashTags env l).2).flatten) := by
  induction lines with
  | nil => intro resTags; simp [buildBodyFromLines_strip]
  | cons l rest ih =>
    intro resTags
    simp only [buildBodyFromLines_strip, ih, List.map_cons, List.flatten_cons, List.append_assoc]

theorem buildBodyFromLines_tags_eq (env : Env) (lines : List Str) (body : Str) (tags : List Str)
    (h : buildBodyFromLines env lines = some (body, tags)) :
    tags = env.removeDuplicateStrings (lines.map fun l => (removeHashTags env l).2).flatten := by
  simp only [buildBodyFromLines, buildBodyFromLines_strip_eq, List.nil_append] at h
  split_ifs at h with h1 h2
  · simp only [Option.some.injEq, Prod.mk.injEq] at h
    exact h.2.symm
  · split at h
    · cases h
    · simp only [Option.some.injEq, Prod.mk.injEq] at h
      exact h.2.symm

theorem removeHashTags_tags_lower (env : Env) (s : Str) :
    ∃ raw : List Str, (removeHashTags env s).2 = raw.map (strings.ToLower env) := by
  simp only [removeHashTags]
  rcases removeHashTags_start (s.length + 1) s [] with ⟨flag, s1, tags⟩
  cases flag with
  | true => exact ⟨tags, rfl⟩
  | false => exact ⟨_, rfl⟩

theorem dedupFirst_mem (l : List Str) (x : Str) : x ∈ dedupFirst l ↔ x ∈ l := by
  induction l with
  | nil => simp [dedupFirst]
  | cons y ys ih =>
    simp only [dedupFirst, List.mem_cons, List.mem_filter, ih, decide_eq_true_eq]
    constructor
    · rintro (h | h)
      · exact Or.inl h
      · exact Or.inr h.1
    · rintro (h | h)
      · exact Or.inl h
      · by_cases hxy : x = y
        · exact Or.inl hxy
        · exact Or.inr ⟨h, hxy⟩

theorem dedupFirst_nodup (l : List Str) : (dedupFirst l).Nodup := by
  induction l with
  | nil => simp [dedupFirst]
  | cons y ys ih =>
    simp only [dedupFirst, List.nodup_cons, List.mem_filter, decide_eq_true_eq, ne_eq,
      not_true_eq_false, and_false, not_false_eq_true, true_and]
    exact ih.filter _

theorem asciiToLower_idem (c : Char) : Char.toLower (Char.toLower c) = Char.toLower c := by
  by_cases h : 65 ≤ c.toNat ∧ c.toNat ≤ 90
  · obtain ⟨h1, h2⟩ := h
    have hc : c = Char.ofNat c.toNat := (Char.ofNat_toNat c).symm
    rw [hc]
    generalize c.toNat = n at h1 h2
    interval_cases n <;> decide
  · have h1 : Char.toLower c = c := by
      simp only [Char.toLower, ge_iff_le, h, if_false]
    rw [h1, h1]

/-- C9: when `buildBodyFromLines` returns, its tag list contains only strings
that are their own lowercasing, contains no tag twice, and contains exactly
the tags that `removeHashTags` extracts from the individual lines; this
assumes of the library that lower casing a lowercased character changes
nothing and that `RemoveDuplicateStrings` returns the distinct elements of its
argument. -/
theorem buildBodyFromLines_tags (env : Env) (lines : List Str) (body : Str) (tags : List Str)
    (hlow : ∀ c, env.toLower (env.toLower c) = env.toLower c)
    (hdedup : ∀ l, (env.removeDuplicateStrings l).Nodup ∧
      ∀ x, x ∈ env.removeDuplicateStrings l ↔ x ∈ l)
    (h : buildBodyFromLines env lines = some (body, tags)) :
    (∀ t ∈ tags, strings.ToLower env t = t) ∧ tags.Nodup ∧
      ∀ t, t ∈ tags ↔ ∃ l ∈ lines, t ∈ (removeHashTags env l).2 := by
  have htags := buildBodyFromLines_tags_eq env lines body tags h
  have hmem : ∀ t, t ∈ tags ↔ ∃ l ∈ lines, t ∈ (removeHashTags env l).2 := by
    intro t
    rw [htags, (hdedup _).2, List.mem_flatten]
    constructor
    · rintro ⟨ts, hts, ht⟩
      obtain ⟨l, hl, rfl⟩ := List.mem_map.mp hts
      exact ⟨l, hl, ht⟩
    · rintro ⟨l, hl, ht⟩
      exact ⟨_, List.mem_map_of_mem _ hl, ht⟩
  refine ⟨?_, htags ▸ (hdedup _).1, hmem⟩
  intro t ht
  obtain ⟨l, _, hl⟩ := (hmem t).mp ht
  obtain ⟨raw, hraw⟩ := removeHashTags_tags_lower env l
  rw [hraw] at hl
  obtain ⟨t0, _, rfl⟩ := List.mem_map.mp hl
  simp only [strings.ToLower, List.map_map]
  apply List.map_congr_left
  intro c _
  exact hlow c

/-- C9 (witness): the body lines `#Work text #b` and `#b more #WORK`. -/
theorem buildBodyFromLines_tags_witness :
    buildBodyFromLines demoEnv ["#Work text #b".toList, "#b more #WORK".toList] =
      some ("text\nmore".toList, ["work".toList, "b".toList]) ∧
    ((∀ t ∈ ["work".toList, "b".toList], strings.ToLower demoEnv t = t) ∧
      ["work".toList, "b".toList].Nodup ∧
      ∀ t, t ∈ ["work".toList, "b".toList] ↔
        ∃ l ∈ ["#Work text #b".toList, "#b more #WORK".toList],
          t ∈ (removeHashTags demoEnv l).2) :=
  ⟨by decide,
    buildBodyFromLines_tags demoEnv ["#Work text #b".toList, "#b more #WORK".toList]
      "text\nmore".toList ["work".toList, "b".toList] asciiToLower_idem
      (fun l => ⟨dedupFirst_nodup l, dedupFirst_mem l⟩) (by decide)⟩

/-! ## Blank lines -/

theorem trimEmptyLines_end_eq (fuel : Nat) :
    ∀ res : List Str, res.length < fuel → trimEmptyLines_end fuel res = res.rdropWhile isBlank := by
  induction fuel with
  | zero => intro res h; simp at h
  | succ f ih =>
    intro res hf
    induction res using List.reverseRecOn with
    | nil => simp [trimEmptyLines_end]
    | append_singleton r x _ =>
      have hlen : (r ++ [x]).length - 1 = r.length := by simp
      have hget : (r ++ [x]).getD r.length [] = x := by
        simp [List.getD_eq_getElem?_getD]
      have htake : (r ++ [x]).take r.length = r := List.take_left' rfl
      simp only [trimEmptyLines_end, hlen, hget, htake]
      have hpos : 0 < (r ++ [x]).length := by simp
      simp only [hpos, if_true]
      by_cases hx : x.length = 0
      · have hb : isBlank x = true := by simp [isBlank, hx]
        rw [List.rdropWhile_concat_pos _ _ _ hb]
        simp only [hx, ne_eq, not_true_eq_false, if_false]
        exact ih r (by simp at hf; omega)
      · have hb : ¬ isBlank x = true := by simp [isBlank, hx]
        rw [List.rdropWhile_concat_neg _ _ _ hb]
        simp only [ne_eq, hx, not_false_eq_true, if_true]

theorem trimEmptyLines_eq (a : List Str) :
    trimEmptyLines a = (trimEmptyLines_loop a true).rdropWhile isBlank := by
  simp only [trimEmptyLines]
  exact trimEmptyLines_end_eq _ _ (by omega)

theorem trimEmptyLines_loop_chain (a : List Str) :
    ∀ p : Bool,
      (trimEmptyLines_loop a p).Chain' (fun x y => ¬ (isBlank x = true ∧ isBlank y = true)) ∧
      (p = true → ∀ h ∈ (trimEmptyLines_loop a p).head?, ¬ isBlank h = true) := by
  induction a with
  | nil => intro p; simp [trimEmptyLines_loop]
  | cons s rest ih =>
    intro p
    by_cases hs : s.length = 0
    · cases p with
      | true =>
        have : trimEmptyLines_loop (s :: rest) true = trimEmptyLines_loop rest true := by
          simp [trimEmptyLines_loop, hs]
        rw [this]
        exact ih true
      | false =>
        have : trimEmptyLines_loop (s :: rest) false = s :: trimEmptyLines_loop rest true := by
          simp [trimEmptyLines_loop, hs]
        rw [this]
        refine ⟨?_, by simp⟩
        rw [List.chain'_cons']
        refine ⟨?_, (ih true).1⟩
        intro y hy hc
        exact (ih true).2 rfl y hy hc.2
    · have : trimEmptyLines_loop (s :: rest) p = s :: trimEmptyLines_loop rest false := by
        simp [trimEmptyLines_loop, hs]
      rw [this]
      have hb : ¬ isBlank s = true := by simp [isBlank, hs]
      refine ⟨?_, ?_⟩
      · rw [List.chain'_cons']
        exact ⟨fun y _ hc => hb hc.1, (ih false).1⟩
      · intro _ h hh
        simp only [List.head?_cons, Option.mem_def, Option.some.injEq] at hh
        exact hh ▸ hb

theorem trimEmptyLines_loop_fix (x : List Str) :
    ∀ q : Bool,
      x.Chain' (fun a b => ¬ (isBlank a = true ∧ isBlank b = true)) →
      (q = true → ∀ h ∈ x.head?, ¬ isBlank h = true) →
      trimEmptyLines_loop x q = x := by
  induction x with
  | nil => intro q _ _; rfl
  | cons s rest ih =>
    intro q hc hq
    rw [List.chain'_cons'] at hc
    by_cases hs : s.length = 0
    · have hb : isBlank s = true := by simp [isBlank, hs]
      have hqf : q = false := by
        cases q with
        | false => rfl
        | true => exact absurd hb (hq rfl s rfl)
      subst hqf
      have : trimEmptyLines_loop (s :: rest) false = s :: trimEmptyLines_loop rest true := by
        simp [trimEmptyLines_loop, hs]
      rw [this, ih true hc.2 (fun _ h hh hbh => hc.1 h hh ⟨hb, hbh⟩)]
    · have : trimEmptyLines_loop (s :: rest) q = s :: trimEmptyLines_loop rest false := by
        simp [trimEmptyLines_loop, hs]
      rw [this, ih false hc.2 (fun h => by cases h)]

theorem rdropWhile_cons_of_neg {α : Type} {p : α → Bool} (a : α) (l : List α)
    (h : ¬ p a = true) :
    (a :: l).rdropWhile p = a :: l.rdropWhile p := by
  induction l using List.reverseRecOn with
  | nil => simp [List.rdropWhile_singleton, h]
  | append_singleton r x ih =>
    rw [← List.cons_append]
    by_cases hx : p x = true
    · rw [List.rdropWhile_concat_pos _ _ _ hx, List.rdropWhile_concat_pos _ _ _ hx, ih]
    · rw [List.rdropWhile_concat_neg _ _ _ hx, List.rdropWhile_concat_neg _ _ _ hx]
      rfl

theorem trimEmptyLines_cons_blank (a : List Str) : trimEmptyLines ([] :: a) = trimEmptyLines a := by
  rw [trimEmptyLines_eq, trimEmptyLines_eq]
  simp [trimEmptyLines_loop]

theorem trimEmptyLines_loop_concat_blank (a : List Str) :
    ∀ p : Bool, (trimEmptyLines_loop (a ++ [[]]) p).rdropWhile isBlank =
      (trimEmptyLines_loop a p).rdropWhile isBlank := by
  induction a with
  | nil =>
    intro p
    cases p <;> simp [trimEmptyLines_loop, List.rdropWhile_singleton, isBlank]
  | cons s rest ih =>
    intro p
    by_cases hs : s.length = 0
    · cases p with
      | true =>
        have h1 : ∀ t, trimEmptyLines_loop (s :: t) true = trimEmptyLines_loop t true := by
          intro t; simp [trimEmptyLines_loop, hs]
        rw [List.cons_append, h1, h1]
        exact ih true
      | false =>
        have h1 : ∀ t, trimEmptyLines_loop (s :: t) false = s :: trimEmptyLines_loop t true := by
          intro t; simp [trimEmptyLines_loop, hs]
        rw [List.cons_append, h1, h1]
        have hb : isBlank s = true := by simp [isBlank, hs]
        have key : ∀ l : List Str, (s :: l).rdropWhile isBlank =
            if l.rdropWhile isBlank = [] then [] else s :: l.rdropWhile isBlank := by
          intro l
          induction l using List.reverseRecOn with
          | nil => simp [List.rdropWhile_singleton, hb]
          | append_singleton r x ihr =>
            rw [← List.cons_append]
            by_cases hx : isBlank x = true
            · rw [List.rdropWhile_concat_pos _ _ _ hx, List.rdropWhile_concat_pos _ _ _ hx, ihr]
            · rw [List.rdropWhile_concat_neg _ _ _ hx, List.rdropWhile_concat_neg _ _ _ hx]
              simp
        rw [key, key, ih true]
    · have h1 : ∀ t, trimEmptyLines_loop (s :: t) p = s :: trimEmptyLines_loop t false := by
        intro t; simp [trimEmptyLines_loop, hs]
      have hb : ¬ isBlank s = true := by simp [isBlank, hs]
      rw [List.cons_append, h1, h1, rdropWhile_cons_of_neg _ _ hb, rdropWhile_cons_of_neg _ _ hb,
        ih false]

theorem trimEmptyLines_concat_blank (a : List Str) :
    trimEmptyLines (a ++ [[]]) = trimEmptyLines a := by
  rw [trimEmptyLines_eq, trimEmptyLines_eq]
  exact trimEmptyLines_loop_concat_blank a true

theorem trimEmptyLines_chain (a : List Str) :
    (trimEmptyLines a).Chain' (fun x y => ¬ (isBlank x = true ∧ isBlank y = true)) ∧
    (∀ h ∈ (trimEmptyLines a).head?, ¬ isBlank h = true) ∧
    (trimEmptyLines a).rdropWhile isBlank = trimEmptyLines a := by
  rw [trimEmptyLines_eq]
  obtain ⟨h1, h2⟩ := trimEmptyLines_loop_chain a true
  have hpre := List.rdropWhile_prefix isBlank (trimEmptyLines_loop a true)
  have hchain := List.Chain'.prefix h1 hpre
  refine ⟨hchain, ?_, List.rdropWhile_idempotent _ _⟩
  intro h hh
  obtain ⟨t, ht⟩ := hpre
  cases hr : List.rdropWhile isBlank (trimEmptyLines_loop a true) with
  | nil => rw [hr] at hh; cases hh
  | cons y ys =>
    rw [hr] at hh ht
    simp only [List.head?_cons, Option.mem_def, Option.some.injEq] at hh
    subst hh
    apply h2 rfl
    rw [← ht]
    rfl

/-- Trimming a trimmed list changes nothing. -/
theorem trimEmptyLines_idem (a : List Str) : trimEmptyLines (trimEmptyLines a) = trimEmptyLines a := by
  obtain ⟨h1, h2, h3⟩ := trimEmptyLines_chain a
  rw [trimEmptyLines_eq (trimEmptyLines a), trimEmptyLines_loop_fix _ true h1 (fun _ => h2), h3]

/-- A non-empty line put before a trimmed list gives a trimmed list. -/
theorem trimEmptyLines_cons_nonblank (l : Str) (a : List Str) (hl : l ≠ []) :
    trimEmptyLines (l :: trimEmptyLines a) = l :: trimEmptyLines a := by
  obtain ⟨h1, h2, h3⟩ := trimEmptyLines_chain a
  have hs : ¬ l.length = 0 := by simpa using hl
  have hb : ¬ isBlank l = true := by simp [isBlank, hs]
  have hloop : trimEmptyLines_loop (l :: trimEmptyLines a) true = l :: trimEmptyLines a := by
    have : trimEmptyLines_loop (l :: trimEmptyLines a) true =
        l :: trimEmptyLines_loop (trimEmptyLines a) false := by
      simp [trimEmptyLines_loop, hs]
    rw [this, trimEmptyLines_loop_fix _ false h1 (fun h => by cases h)]
  rw [trimEmptyLines_eq (l :: trimEmptyLines a), hloop, rdropWhile_cons_of_neg _ _ hb, h3]

theorem trimEmptyLines_loop_subset (a : List Str) :
    ∀ p : Bool, ∀ l ∈ trimEmptyLines_loop a p, l ∈ a := by
  induction a with
  | nil => intro p l h; simp [trimEmptyLines_loop] at h
  | cons s rest ih =>
    intro p l h
    simp only [trimEmptyLines_loop] at h
    split_ifs at h
    · exact List.mem_cons_of_mem _ (ih _ l h)
    · rcases List.mem_cons.mp h with h | h
      · exact h ▸ List.mem_cons_self _ _
      · exact List.mem_cons_of_mem _ (ih _ l h)

theorem trimEmptyLines_subset (a : List Str) : ∀ l ∈ trimEmptyLines a, l ∈ a := by
  intro l h
  rw [trimEmptyLines_eq] at h
  exact trimEmptyLines_loop_subset a true l ((List.rdropWhile_prefix _ _).subset h)

/-! ## Splitting a file into days and notes -/

theorem newNote_rawLines (env : Env) (run : List Str) (w w1 : World) (n : note)
    (h : newNote env run w = some (n, w1)) :
    n.rawLines = run ∧ n.ID = (extractMetaDataFromLines env run).2.ID := by
  simp only [newNote] at h
  cases h1 : newNote_snippets env run w with
  | none => simp [h1] at h
  | some r =>
    obtain ⟨ls, cs, w2⟩ := r
    simp only [h1] at h
    cases h2 : buildBodyFromLines env ls with
    | none => simp [h2] at h
    | some q =>
      obtain ⟨body, tags⟩ := q
      simp only [h2, Option.some.injEq, Prod.mk.injEq] at h
      obtain ⟨hn1, _⟩ := h
      subst hn1
      exact ⟨by simp [dupStringArray], rfl⟩

theorem linesToNotes_flush_runs (env : Env) (res : List note) (curr : List Str) (w w1 : World)
    (res1 : List note) (h : linesToNotes_flush env res curr w = some (res1, w1)) :
    ∃ e, res1 = res ++ e ∧
      List.Forall₂ (BuiltFrom env) e (if 0 < curr.length then [curr] else []) := by
  simp only [linesToNotes_flush] at h
  by_cases hc : 0 < curr.length
  · simp only [hc, if_true] at h ⊢
    cases hn : newNote env curr w with
    | none => simp [hn] at h
    | some v =>
      obtain ⟨part, w2⟩ := v
      simp only [hn, Option.some.injEq, Prod.mk.injEq] at h
      refine ⟨[part], h.1.symm, ?_⟩
      exact List.Forall₂.cons ⟨w, w2, hn⟩ List.Forall₂.nil
  · simp only [hc, if_false, Option.some.injEq, Prod.mk.injEq] at h ⊢
    exact ⟨[], by simp [h.1], List.Forall₂.nil⟩

theorem linesToNotes_loop_runs (env : Env) (lines : List Str) :
    ∀ (res : List note) (curr : List Str) (w : World) (notes : List note) (w1 : World),
      (match linesToNotes_loop env lines res curr w with
        | none => none
        | some (r, c, w) => linesToNotes_flush env r c w) = some (notes, w1) →
      ∃ e, notes = res ++ e ∧ List.Forall₂ (BuiltFrom env) e (noteRunsAux lines curr) := by
  induction lines with
  | nil =>
    intro res curr w notes w1 h
    simp only [linesToNotes_loop] at h
    exact linesToNotes_flush_runs env res curr w w1 notes h
  | cons line rest ih =>
    intro res curr w notes w1 h
    by_cases hl : line = noteSeparator
    · simp only [linesToNotes_loop, hl, if_true] at h
      cases hf : linesToNotes_flush env res curr w with
      | none => simp [hf] at h
      | some v =>
        obtain ⟨res1, w2⟩ := v
        simp only [hf] at h
        obtain ⟨e1, he1, hb1⟩ := linesToNotes_flush_runs env res curr w w2 res1 hf
        obtain ⟨e2, he2, hb2⟩ := ih res1 [] w2 notes w1 h
        refine ⟨e1 ++ e2, by rw [he2, he1, List.append_assoc], ?_⟩
        simp only [noteRunsAux, hl, if_true]
        exact List.rel_append hb1 hb2
    · simp only [linesToNotes_loop, hl, if_false] at h
      obtain ⟨e, he, hb⟩ := ih res (curr ++ [line]) w notes w1 h
      refine ⟨e, he, ?_⟩
      simpa only [noteRunsAux, hl, if_false] using hb

/-- The notes that `linesToNotes` returns are built, in order, from the
non-empty runs of lines between the separators. -/
theorem linesToNotes_runs (env : Env) (lines : List Str) (w w1 : World) (notes : List note)
    (h : linesToNotes env lines w = some (notes, w1)) :
    List.Forall₂ (BuiltFrom env) notes (noteRuns lines) := by
  obtain ⟨e, he, hb⟩ := linesToNotes_loop_runs env lines [] [] w notes w1 h
  simpa [he] using hb

theorem readNotesFoDay_flush_groups (env : Env) (curr : notesForDay) (st : ReadState)
    (notes : List notesForDay) (w1 : World)
    (h : readNotesFoDay_flush env curr st = some (notes, w1)) :
    ∃ d, notes = st.notes ++ [d] ∧ DayBuiltFrom env d ((curr.DayStr, curr.Day), st.lines) := by
  simp only [readNotesFoDay_flush] at h
  cases hl : linesToNotes env st.lines st.world with
  | none => simp [hl] at h
  | some v =>
    obtain ⟨ns, w2⟩ := v
    simp only [hl, Option.some.injEq, Prod.mk.injEq] at h
    exact ⟨{ curr with lines := st.lines, Notes := ns }, h.1.symm, rfl, rfl, rfl,
      linesToNotes_runs env st.lines st.world w2 ns hl⟩

theorem readNotesFoDay_loop_groups (env : Env) (fileLines : List Str) :
    ∀ (st : ReadState) (days : List notesForDay) (w1 : World),
      (match readNotesFoDay_loop env fileLines st with
        | none => none
        | some st1 =>
          match st1.curr with
          | none => none
          | some curr => readNotesFoDay_flush env curr st1) = some (days, w1) →
      ∃ e, days = st.notes ++ e ∧
        List.Forall₂ (DayBuiltFrom env) e
          (dayGroupsAux fileLines (st.curr.map fun c => (c.DayStr, c.Day)) st.lines) := by
  induction fileLines with
  | nil =>
    intro st days w1 h
    simp only [readNotesFoDay_loop] at h
    cases hc : st.curr with
    | none => simp [hc] at h
    | some curr =>
      simp only [hc] at h
      obtain ⟨d, hd, hb⟩ := readNotesFoDay_flush_groups env curr st days w1 h
      exact ⟨[d], hd, by simpa [dayGroupsAux] using hb⟩
  | cons text rest ih =>
    intro st days w1 h
    cases hp : timeParse (strings.TrimRight text "\n\r\t ".toList) with
    | none =>
      simp only [readNotesFoDay_loop, hp] at h
      obtain ⟨e, he, hb⟩ := ih _ days w1 h
      refine ⟨e, he, ?_⟩
      simpa only [dayGroupsAux, scanTrim, hp] using hb
    | some day =>
      simp only [readNotesFoDay_loop, hp] at h
      split_ifs at h with hseen
      cases hc : st.curr with
      | none =>
        simp only [hc] at h
        obtain ⟨e, he, hb⟩ := ih _ days w1 h
        refine ⟨e, he, ?_⟩
        simpa only [dayGroupsAux, scanTrim, hp, Option.map_none', List.nil_append,
          Option.map_some'] using hb
      | some curr =>
        simp only [hc] at h
        cases hf : readNotesFoDay_flush env curr st with
        | none => simp [hf] at h
        | some v =>
          obtain ⟨notes, w2⟩ := v
          simp only [hf] at h
          obtain ⟨d, hd, hb1⟩ := readNotesFoDay_flush_groups env curr st notes w2 hf
          obtain ⟨e, he, hb2⟩ := ih _ days w1 h
          refine ⟨d :: e, by rw [he]; simp [hd], ?_⟩
          simp only [dayGroupsAux, scanTrim, hp, Option.map_some', List.singleton_append]
          exact List.Forall₂.cons hb1 (by simpa using hb2)

/-- The day entries that `readNotesFoDay` returns are built, in order, from the
day headers of the file and the lines under them. -/
theorem readNotesFoDay_groups (env : Env) (fileLines : List Str) (w w1 : World)
    (days : List notesForDay) (h : readNotesFoDay env fileLines w = some (days, w1)) :
    List.Forall₂ (DayBuiltFrom env) days (dayGroupsAux fileLines none []) := by
  obtain ⟨e, he, hb⟩ := readNotesFoDay_loop_groups env fileLines
    { seenDays := [], notes := [], curr := none, lines := [], world := w } days w1 h
  simpa [he] using hb

theorem forall₂_exists_of_mem {α β : Type} {R : α → β → Prop} {l1 : List α} {l2 : List β}
    (h : List.Forall₂ R l1 l2) : ∀ a ∈ l1, ∃ b ∈ l2, R a b := by
  induction h with
  | nil => intro a ha; cases ha
  | cons hab _ ih =>
    intro a ha
    rcases List.mem_cons.mp ha with h1 | h1
    · exact ⟨_, List.mem_cons_self _ _, h1 ▸ hab⟩
    · obtain ⟨b, hb, hr⟩ := ih a h1
      exact ⟨b, List.mem_cons_of_mem _ hb, hr⟩

theorem scanTrim_idem (t : Str) : scanTrim (scanTrim t) = scanTrim t :=
  List.rdropWhile_idempotent _ _

theorem dayGroupsAux_ok (fileLines : List Str) :
    ∀ (curr : Option (Str × Time)) (lines : List Str),
      (∀ c ∈ curr, timeParse c.1 = some c.2 ∧ scanTrim c.1 = c.1) →
      (∀ l ∈ lines, timeParse l = none ∧ scanTrim l = l) →
      ∀ g ∈ dayGroupsAux fileLines curr lines,
        (timeParse g.1.1 = some g.1.2 ∧ scanTrim g.1.1 = g.1.1) ∧
        ∀ l ∈ g.2, timeParse l = none ∧ scanTrim l = l := by
  induction fileLines with
  | nil =>
    intro curr lines hc hl g hg
    cases curr with
    | none => simp [dayGroupsAux] at hg
    | some c =>
      simp only [dayGroupsAux, List.mem_singleton] at hg
      subst hg
      exact ⟨hc c rfl, hl⟩
  | cons text rest ih =>
    intro curr lines hc hl g hg
    cases hp : timeParse (scanTrim text) with
    | none =>
      simp only [dayGroupsAux, hp] at hg
      refine ih curr (lines ++ [scanTrim text]) hc ?_ g hg
      intro l hlm
      rcases List.mem_append.mp hlm with h | h
      · exact hl l h
      · rw [List.mem_singleton] at h
        subst h
        exact ⟨hp, scanTrim_idem text⟩
    | some day =>
      simp only [dayGroupsAux, hp, List.mem_append] at hg
      rcases hg with hg | hg
      · cases curr with
        | none => simp at hg
        | some c =>
          simp only [List.mem_singleton] at hg
          subst hg
          exact ⟨hc c rfl, hl⟩
      · refine ih (some (scanTrim text, day)) [] ?_ (by simp) g hg
        intro c hcm
        simp only [Option.mem_def, Option.some.injEq] at hcm
        subst hcm
        exact ⟨hp, scanTrim_idem text⟩

theorem noteRunsAux_ok (P : Str → Prop) (lines : List Str) :
    ∀ curr : List Str,
      (∀ l ∈ curr, P l ∧ l ≠ noteSeparator) → (∀ l ∈ lines, P l) →
      ∀ r ∈ noteRunsAux lines curr, r ≠ [] ∧ ∀ l ∈ r, P l ∧ l ≠ noteSeparator := by
  induction lines with
  | nil =>
    intro curr hc _ r hr
    simp only [noteRunsAux] at hr
    split_ifs at hr with h
    · simp only [List.mem_singleton] at hr
      subst hr
      exact ⟨List.ne_nil_of_length_pos h, hc⟩
    · cases hr
  | cons line rest ih =>
    intro curr hc hl r hr
    by_cases hs : line = noteSeparator
    · simp only [noteRunsAux, hs, if_true, List.mem_append] at hr
      rcases hr with hr | hr
      · split_ifs at hr with h
        · simp only [List.mem_singleton] at hr
          subst hr
          exact ⟨List.ne_nil_of_length_pos h, hc⟩
        · cases hr
      · exact ih [] (by simp) (fun l h => hl l (List.mem_cons_of_mem _ h)) r hr
    · simp only [noteRunsAux, hs, if_false] at hr
      refine ih (curr ++ [line]) ?_ (fun l h => hl l (List.mem_cons_of_mem _ h)) r hr
      intro l hlm
      rcases List.mem_append.mp hlm with h | h
      · exact hc l h
      · rw [List.mem_singleton] at h
        subst h
        exact ⟨hl l (List.mem_cons_self _ _), hs⟩

/-- Every day entry of a parsed file is a good day. -/
theorem readNotesFoDay_good (env : Env) (fileLines : List Str) (w w1 : World)
    (days : List notesForDay) (h : readNotesFoDay env fileLines w = some (days, w1)) :
    ∀ d ∈ days, GoodDay d := by
  intro d hd
  obtain ⟨g, hg, hd1, hd2, _, hnotes⟩ :=
    forall₂_exists_of_mem (readNotesFoDay_groups env fileLines w w1 days h) d hd
  obtain ⟨⟨h1, h2⟩, h3⟩ := dayGroupsAux_ok fileLines none [] (by simp) (by simp) g hg
  refine ⟨by rw [hd1, hd2]; exact h1, by rw [hd1]; exact h2, ?_⟩
  intro n hn
  obtain ⟨run, hrun, w2, w3, hbuilt⟩ := forall₂_exists_of_mem hnotes n hn
  have hraw := (newNote_rawLines env run w2 w3 n hbuilt).1
  have := noteRunsAux_ok (fun l => timeParse l = none ∧ scanTrim l = l) g.2 [] (by simp) h3
    run hrun
  rw [hraw]
  exact ⟨this.1, fun l hl => ⟨(this.2 l hl).1.1, (this.2 l hl).1.2, (this.2 l hl).2⟩⟩

/-! ## The lines the back-fill pass writes -/

theorem joinBlocks_cons (b : List Str) (bs : List (List Str)) :
    joinBlocks (b :: bs) =
      b ++ (if bs = [] then [] else [[], noteSeparator, []] ++ joinBlocks bs) := by
  cases bs with
  | nil => simp [joinBlocks]
  | cons b2 bs => simp [joinBlocks]

theorem notesGenIDIfNecessary_notes_eq (env : Env) (lastNoteIdx : Nat) (notes : List note) :
    ∀ (idx : Nat) (lines : List Str) (updatedNotes : List note) (w : World),
      (notes ≠ [] → lastNoteIdx = idx + notes.length - 1) →
      (notesGenIDIfNecessary_notes env lastNoteIdx notes idx lines updatedNotes w).1 =
        lines ++ joinBlocks (rewrittenNotes env notes w.nXid) ∧
      (notesGenIDIfNecessary_notes env lastNoteIdx notes idx lines updatedNotes w).2.2.nXid =
        xidAfter notes w.nXid := by
  induction notes with
  | nil =>
    intro idx lines upd w _
    simp [notesGenIDIfNecessary_notes, rewrittenNotes, joinBlocks, xidAfter]
  | cons n rest ih =>
    intro idx lines upd w hlast
    have hl : lastNoteIdx = idx + rest.length := by
      have := hlast (by simp)
      simp only [List.length_cons] at this
      omega
    have hrest : rest ≠ [] → lastNoteIdx = idx + 1 + rest.length - 1 := by
      intro _
      omega
    have hidx : (idx ≠ lastNoteIdx) ↔ rest ≠ [] := by
      rw [hl]
      constructor
      · intro h hr
        apply h
        simp [hr]
      · intro h hr
        apply h
        have : rest.length = 0 := by omega
        exact List.length_eq_zero.mp this
    have hblocks : ∀ k, rewrittenNotes env rest k = [] ↔ rest = [] := by
      intro k
      cases rest with
      | nil => simp [rewrittenNotes]
      | cons m ms => simp [rewrittenNotes]
    by_cases hid : n.ID = []
    · by_cases hr : rest = []
      · subst hr
        simp [notesGenIDIfNecessary_notes, hid, rewrittenNotes, rewrittenNote, joinBlocks,
          xidAfter, idLineOf, hl]
      · have hne : idx ≠ lastNoteIdx := hidx.mpr hr
        obtain ⟨h1, h2⟩ := ih (idx + 1)
          (lines ++ [idLineOf env w.nXid] ++ trimEmptyLines n.rawLines ++ [[], noteSeparator, []])
          (upd ++ [{ n with ID := env.xidNew w.nXid }]) { w with nXid := w.nXid + 1 } hrest
        simp only [notesGenIDIfNecessary_notes, hid, if_true, hne, ne_eq, not_false_eq_true,
          idLineOf] at h1 h2 ⊢
        refine ⟨?_, ?_⟩
        · rw [h1]
          simp only [rewrittenNotes, hid, if_true, joinBlocks_cons, hblocks, hr, if_false,
            rewrittenNote, idLineOf, List.append_assoc, List.singleton_append, List.cons_append,
            List.nil_append]
        · rw [h2]
          simp only [xidAfter, hid, if_true]
    · by_cases hr : rest = []
      · subst hr
        simp [notesGenIDIfNecessary_notes, hid, rewrittenNotes, rewrittenNote, joinBlocks,
          xidAfter, hl]
      · have hne : idx ≠ lastNoteIdx := hidx.mpr hr
        obtain ⟨h1, h2⟩ := ih (idx + 1)
          (lines ++ trimEmptyLines n.rawLines ++ [[], noteSeparator, []]) upd w hrest
        simp only [notesGenIDIfNecessary_notes, hid, if_false, hne, ne_eq, not_false_eq_true,
          if_true] at h1 h2 ⊢
        refine ⟨?_, ?_⟩
        · rw [h1]
          simp only [rewrittenNotes, hid, if_false, joinBlocks_cons, hblocks, hr,
            rewrittenNote, List.append_assoc, List.singleton_append, List.cons_append,
            List.nil_append]
        · rw [h2]
          simp only [xidAfter, hid, if_false]

theorem notesGenIDIfNecessary_days_eq (env : Env) (days : List notesForDay) :
    ∀ (lines : List Str) (updatedNotes : List note) (w : World),
      (notesGenIDIfNecessary_days env days lines updatedNotes w).1 =
        lines ++ rewrittenDays env days w.nXid := by
  induction days with
  | nil => intro lines upd w; simp [notesGenIDIfNecessary_days, rewrittenDays]
  | cons d rest ih =>
    intro lines upd w
    obtain ⟨h1, h2⟩ := notesGenIDIfNecessary_notes_eq env (d.Notes.length - 1) d.Notes 0
      (lines ++ [d.DayStr]) upd w (by intro _; omega)
    simp only [notesGenIDIfNecessary_days, ih, h1, h2, rewrittenDays, List.append_assoc,
      List.singleton_append, List.cons_append, List.nil_append]

/-- The lines written by the back-fill pass, in closed form. -/
theorem notesGenIDIfNecessary_lines_eq (env : Env) (days : List notesForDay) (w : World) :
    (notesGenIDIfNecessary_lines env days w).1 = rewrittenDays env days w.nXid := by
  simp [notesGenIDIfNecessary_lines, notesGenIDIfNecessary_days_eq]

/-! ## Reading the written lines again -/

theorem timeParse_of_not_digit (c : Char) (t : Str) (h : digitVal c = none) :
    timeParse (c :: t) = none := by
  unfold timeParse
  split
  · rename_i heq
    simp only [List.cons.injEq] at heq
    obtain ⟨rfl, _⟩ := heq
    simp only [h]
  · rfl

theorem scanTrim_idLineOf (env : Env) (k : Nat) :
    ∃ t, scanTrim (idLineOf env k) = 'I' :: t := by
  have h : idLineOf env k = 'I' :: ("d: ".toList ++ env.xidNew k) := rfl
  rw [scanTrim, strings.TrimRight, h]
  exact ⟨_, rdropWhile_cons_of_neg 'I' _ (by decide)⟩

theorem idLine_facts (env : Env) (k : Nat) :
    timeParse (scanTrim (idLineOf env k)) = none ∧ scanTrim (idLineOf env k) ≠ [] ∧
      scanTrim (idLineOf env k) ≠ noteSeparator ∧
      scanTrim (scanTrim (idLineOf env k)) = scanTrim (idLineOf env k) := by
  obtain ⟨t, ht⟩ := scanTrim_idLineOf env k
  refine ⟨?_, ?_, ?_, scanTrim_idem _⟩
  · rw [ht]
    exact timeParse_of_not_digit 'I' t (by decide)
  · rw [ht]
    simp
  · rw [ht]
    intro hc
    have := (List.cons.inj hc).1
    exact absurd this (by decide)

theorem dayGroupsAux_append (body : List Str) :
    ∀ (rest : List Str) (curr : Option (Str × Time)) (lines : List Str),
      (∀ l ∈ body, timeParse (scanTrim l) = none) →
      dayGroupsAux (body ++ rest) curr lines =
        dayGroupsAux rest curr (lines ++ body.map scanTrim) := by
  induction body with
  | nil => intro rest curr lines _; simp
  | cons l body ih =>
    intro rest curr lines h
    have hl := h l (List.mem_cons_self _ _)
    rw [List.cons_append]
    simp only [dayGroupsAux, hl]
    rw [ih rest curr _ (fun x hx => h x (List.mem_cons_of_mem _ hx))]
    simp

theorem mem_joinBlocks (blocks : List (List Str)) :
    ∀ l ∈ joinBlocks blocks, l = [] ∨ l = noteSeparator ∨ ∃ b ∈ blocks, l ∈ b := by
  induction blocks with
  | nil => intro l h; simp [joinBlocks] at h
  | cons b bs ih =>
    intro l h
    rw [joinBlocks_cons] at h
    rcases List.mem_append.mp h with h1 | h1
    · exact Or.inr (Or.inr ⟨b, List.mem_cons_self _ _, h1⟩)
    · split_ifs at h1 with hbs
      · cases h1
      · simp only [List.cons_append, List.nil_append, List.mem_cons] at h1
        rcases h1 with h2 | h2 | h2 | h2
        · exact Or.inl h2
        · exact Or.inr (Or.inl h2)
        · exact Or.inl h2
        · rcases ih l h2 with h3 | h3 | ⟨b1, hb1, hl1⟩
          · exact Or.inl h3
          · exact Or.inr (Or.inl h3)
          · exact Or.inr (Or.inr ⟨b1, List.mem_cons_of_mem _ hb1, hl1⟩)

theorem mem_rewrittenNotes (env : Env) (notes : List note) :
    ∀ (k : Nat), ∀ b ∈ rewrittenNotes env notes k, ∃ n ∈ notes, ∃ j, b = rewrittenNote env n j := by
  induction notes with
  | nil => intro k b h; simp [rewrittenNotes] at h
  | cons n rest ih =>
    intro k b h
    simp only [rewrittenNotes, List.mem_cons] at h
    rcases h with h | h
    · exact ⟨n, List.mem_cons_self _ _, k, h⟩
    · obtain ⟨m, hm, j, hj⟩ := ih _ b h
      exact ⟨m, List.mem_cons_of_mem _ hm, j, hj⟩

/-- Every line written for a note of a good day reads back as a line that is
neither a day header nor the separator. -/
theorem rewrittenNote_lines (env : Env) (d : notesForDay) (hd : GoodDay d) (n : note)
    (hn : n ∈ d.Notes) (k : Nat) :
    ∀ l ∈ rewrittenNote env n k,
      timeParse (scanTrim l) = none ∧ scanTrim l ≠ noteSeparator := by
  intro l hl
  simp only [rewrittenNote, List.mem_append] at hl
  rcases hl with hl | hl
  · split_ifs at hl with hid
    · simp only [List.mem_singleton] at hl
      subst hl
      exact ⟨(idLine_facts env k).1, (idLine_facts env k).2.2.1⟩
    · cases hl
  · obtain ⟨h1, h2, h3⟩ := (hd.2.2 n hn).2 l (trimEmptyLines_subset _ l hl)
    rw [h2]
    exact ⟨h1, h3⟩

theorem noteRunsAux_append (b : List Str) :
    ∀ (rest curr : List Str), (∀ l ∈ b, l ≠ noteSeparator) →
      noteRunsAux (b ++ rest) curr = noteRunsAux rest (curr ++ b) := by
  induction b with
  | nil => intro rest curr _; simp
  | cons l b ih =>
    intro rest curr h
    have hl := h l (List.mem_cons_self _ _)
    rw [List.cons_append]
    simp only [noteRunsAux, hl, if_false]
    rw [ih rest _ (fun x hx => h x (List.mem_cons_of_mem _ hx))]
    simp

theorem noteRunsAux_blank_end (curr : List Str) : noteRunsAux [[]] curr = [curr ++ [[]]] := by
  have h : ¬ (([] : Str) = noteSeparator) := by decide
  simp [noteRunsAux, h]

theorem expectedRuns_eq (blocks : List (List Str)) :
    (∀ b ∈ blocks, ∀ l ∈ b, l ≠ noteSeparator) →
    ∀ curr : List Str, noteRunsAux (joinBlocks blocks ++ [[]]) curr = expectedRuns blocks curr := by
  induction blocks with
  | nil =>
    intro _ curr
    simp only [joinBlocks, List.nil_append, expectedRuns]
    exact noteRunsAux_blank_end curr
  | cons b bs ih =>
    intro h curr
    have hb := h b (List.mem_cons_self _ _)
    cases bs with
    | nil =>
      simp only [joinBlocks, expectedRuns]
      rw [noteRunsAux_append b _ _ hb]
      exact noteRunsAux_blank_end _
    | cons b2 bs =>
      have hne : ¬ (([] : Str) = noteSeparator) := by decide
      have ih2 := ih (fun x hx => h x (List.mem_cons_of_mem _ hx)) [[]]
      simp only [joinBlocks, expectedRuns, List.append_assoc]
      rw [noteRunsAux_append b _ _ hb]
      simp only [List.cons_append, List.nil_append, noteRunsAux, hne, if_false, if_true,
        List.length_append, List.length_cons, List.length_nil]
      have hpos : 0 < curr.length + (b.length + (0 + 1)) := by omega
      simp only [hpos, if_true, List.singleton_append, List.append_assoc]
      rw [← ih2]
      simp [joinBlocks]

theorem map_scanTrim_joinBlocks (blocks : List (List Str)) :
    (joinBlocks blocks ++ [[]]).map scanTrim =
      joinBlocks (blocks.map (List.map scanTrim)) ++ [[]] := by
  have h1 : scanTrim [] = [] := by decide
  have h2 : scanTrim noteSeparator = noteSeparator := by decide
  induction blocks with
  | nil => simp [joinBlocks, h1]
  | cons b bs ih =>
    cases bs with
    | nil => simp [joinBlocks, h1]
    | cons b2 bs =>
      simp only [List.map_append, List.map_cons, List.map_nil, joinBlocks, h1, h2,
        List.append_assoc] at ih ⊢
      rw [ih]

theorem newNote_blank (env : Env) (w : World) : newNote env [[]] w = none := by
  have h1 : newNote_snippets env [[]] w =
      some ([], [], { w with nTotalNotes := w.nTotalNotes + 1 }) := by
    simp [newNote_snippets, extractMetaDataFromLines_eq, extractCodeSnippets,
      extractCodeSnippets_loop]
  have h2 : buildBodyFromLines env [] = none := by
    simp [buildBodyFromLines, buildBodyFromLines_strip]
  simp only [newNote, h1, h2]

theorem rewrittenNote_reread (env : Env) (d : notesForDay) (hd : GoodDay d) (n : note)
    (hn : n ∈ d.Notes) (k : Nat) :
    (rewrittenNote env n k).map scanTrim =
      (if n.ID = [] then [scanTrim (idLineOf env k)] else []) ++ trimEmptyLines n.rawLines := by
  have hfix : (trimEmptyLines n.rawLines).map scanTrim = trimEmptyLines n.rawLines := by
    conv_rhs => rw [← List.map_id (trimEmptyLines n.rawLines)]
    apply List.map_congr_left
    intro l hl
    exact ((hd.2.2 n hn).2 l (trimEmptyLines_subset _ l hl)).2.1
  simp only [rewrittenNote, List.map_append, hfix]
  split_ifs <;> simp

theorem trimEmptyLines_run (env : Env) (d : notesForDay) (hd : GoodDay d) (n : note)
    (hn : n ∈ d.Notes) (k : Nat) (curr : List Str) (hcurr : curr = [] ∨ curr = [[]]) :
    trimEmptyLines (curr ++ (rewrittenNote env n k).map scanTrim ++ [[]]) =
      (if n.ID = [] then [scanTrim (idLineOf env k)] else []) ++ trimEmptyLines n.rawLines := by
  rw [trimEmptyLines_concat_blank, rewrittenNote_reread env d hd n hn k]
  have hcore : trimEmptyLines ((if n.ID = [] then [scanTrim (idLineOf env k)] else []) ++
      trimEmptyLines n.rawLines) =
      (if n.ID = [] then [scanTrim (idLineOf env k)] else []) ++ trimEmptyLines n.rawLines := by
    split_ifs with hid
    · exact trimEmptyLines_cons_nonblank _ _ (idLine_facts env k).2.1
    · simpa using trimEmptyLines_idem n.rawLines
  rcases hcurr with h | h
  · subst h
    simpa using hcore
  · subst h
    rw [List.singleton_append, trimEmptyLines_cons_blank]
    exact hcore

theorem notes_kept (env : Env) (d : notesForDay) (hd : GoodDay d) (notes : List note) :
    (∀ n ∈ notes, n ∈ d.Notes) → notes ≠ [] →
    ∀ (k : Nat) (curr : List Str), (curr = [] ∨ curr = [[]]) →
    ∀ notes2 : List note,
      List.Forall₂ (BuiltFrom env) notes2
        (expectedRuns ((rewrittenNotes env notes k).map (List.map scanTrim)) curr) →
      List.Forall₂ (NoteKept env) notes2 notes := by
  induction notes with
  | nil => intro _ h; exact absurd rfl h
  | cons n rest ih =>
    intro hsub _ k curr hcurr notes2 hb
    have hn : n ∈ d.Notes := hsub n (List.mem_cons_self _ _)
    cases rest with
    | nil =>
      simp only [rewrittenNotes, List.map_cons, List.map_nil, expectedRuns] at hb
      obtain ⟨n2, rest2, hbuilt, hrest, rfl⟩ := List.forall₂_cons_right_iff.mp hb
      obtain ⟨w1, w2, hnew⟩ := hbuilt
      have hraw := (newNote_rawLines env _ w1 w2 n2 hnew).1
      rw [List.forall₂_nil_right_iff.mp hrest]
      refine List.Forall₂.cons ⟨k, ?_⟩ List.Forall₂.nil
      rw [hraw]
      exact trimEmptyLines_run env d hd n hn k curr hcurr
    | cons m ms =>
      simp only [rewrittenNotes, List.map_cons, expectedRuns] at hb
      obtain ⟨n2, rest2, hbuilt, hrest, rfl⟩ := List.forall₂_cons_right_iff.mp hb
      obtain ⟨w1, w2, hnew⟩ := hbuilt
      have hraw := (newNote_rawLines env _ w1 w2 n2 hnew).1
      have ih2 := ih (fun x hx => hsub x (List.mem_cons_of_mem _ hx)) (by simp)
        (if n.ID = [] then k + 1 else k) [[]] (Or.inr rfl) rest2
        (by simpa only [rewrittenNotes, List.map_cons] using hrest)
      refine List.Forall₂.cons ⟨k, ?_⟩ ih2
      rw [hraw]
      exact trimEmptyLines_run env d hd n hn k curr hcurr

/-! ## The line stream of the code-block pass -/

theorem extractCodeSnippets_loop_stream (env : Env) (lines rest : List Str) :
    ∀ (i : Nat) (st st1 : ExtractState),
      extractCodeSnippets_loop env lines rest i st = some st1 →
      st1.resLines = st.resLines ++
        replaceBlocksAux env.genRandomString rest st.codeLineStart.isSome st.world.nRandom ∧
      st1.codeLineStart.isSome = insideBlockAfter rest st.codeLineStart.isSome ∧
      ∃ n, st1.world = { st.world with nRandom := st.world.nRandom + n } ∧
        st1.codeSnippets.map (fun c => c.anchor) =
          st.codeSnippets.map (fun c => c.anchor) ++
            (List.range' st.world.nRandom n).map env.genRandomString := by
  induction rest with
  | nil =>
    intro i st st1 h
    simp only [extractCodeSnippets_loop, Option.some.injEq] at h
    subst h
    exact ⟨by simp [replaceBlocksAux], by simp [insideBlockAfter], 0, by simp⟩
  | cons s rest ih =>
    intro i st st1 h
    by_cases hf : isFenceLine s = true
    · have hf2 : strings.HasPrefix s codeBlockStart = true := hf
      cases hst : st.codeLineStart with
      | none =>
        simp only [extractCodeSnippets_loop, hf2, if_true, hst] at h
        obtain ⟨h1, h2, n, h3, h4⟩ := ih _ _ _ h
        refine ⟨?_, ?_, n, h3, h4⟩
        · rw [h1]; simp [replaceBlocksAux, hf]
        · rw [h2]; simp [insideBlockAfter, hf]
      | some start =>
        simp only [extractCodeSnippets_loop, hf2, if_true, hst] at h
        split at h
        · exact absurd h (by simp)
        · obtain ⟨h1, h2, n, h3, h4⟩ := ih _ _ _ h
          refine ⟨?_, ?_, n + 1, ?_, ?_⟩
          · rw [h1]; simp [replaceBlocksAux, hf]
          · rw [h2]; simp [insideBlockAfter, hf]
          · rw [h3]; simp only [World.mk.injEq]; simp; omega
          · rw [h4]
            simp only [List.map_append, List.map_cons, List.map_nil, List.append_assoc,
              List.singleton_append, List.range'_succ]
    · have hf2 : strings.HasPrefix s codeBlockStart = false := by
        simpa [isFenceLine] using hf
      cases hst : st.codeLineStart with
      | none =>
        simp only [extractCodeSnippets_loop, hf2, hst, Bool.false_eq_true, if_false] at h
        obtain ⟨h1, h2, n, h3, h4⟩ := ih _ _ _ h
        refine ⟨?_, ?_, n, h3, h4⟩
        · rw [h1]; simp [replaceBlocksAux, hf, hst]
        · rw [h2]; simp [insideBlockAfter, hf, hst]
      | some start =>
        simp only [extractCodeSnippets_loop, hf2, hst, Bool.false_eq_true, if_false] at h
        obtain ⟨h1, h2, n, h3, h4⟩ := ih _ _ _ h
        refine ⟨?_, ?_, n, h3, h4⟩
        · rw [h1]; simp [replaceBlocksAux, hf, hst]
        · rw [h2]; simp [insideBlockAfter, hf, hst]

theorem insideBlockAfter_eq (rest : List Str) :
    ∀ inside : Bool,
      insideBlockAfter rest inside = (inside != decide (fenceCount rest % 2 = 1)) := by
  induction rest with
  | nil => intro inside; simp [insideBlockAfter, fenceCount]
  | cons s rest ih =>
    intro inside
    have hstep : insideBlockAfter (s :: rest) inside =
        insideBlockAfter rest (if isFenceLine s then !inside else inside) := rfl
    rw [hstep, ih]
    by_cases hf : isFenceLine s = true
    · simp only [hf, if_true, fenceCount, List.filter_cons, List.length_cons]
      by_cases hp : (List.filter isFenceLine rest).length % 2 = 1
      · have : ¬ ((List.filter isFenceLine rest).length + 1) % 2 = 1 := by omega
        cases inside <;> simp [hp, this]
      · have : ((List.filter isFenceLine rest).length + 1) % 2 = 1 := by omega
        cases inside <;> simp [hp, this]
    · simp [fenceCount, List.filter_cons, hf]

theorem replaceBlocksAux_outside (anchor : Nat → Str) (out rest : List Str) (k : Nat)
    (hout : ∀ s ∈ out, isFenceLine s = false) :
    replaceBlocksAux anchor (out ++ rest) false k = out ++ replaceBlocksAux anchor rest false k := by
  induction out with
  | nil => rfl
  | cons s out ih =>
    have hs : isFenceLine s = false := hout s (List.mem_cons_self _ _)
    rw [List.cons_append, replaceBlocksAux]
    simp only [hs, Bool.false_eq_true, if_false, List.cons_append]
    rw [ih (fun t ht => hout t (List.mem_cons_of_mem _ ht))]

theorem replaceBlocksAux_inside (anchor : Nat → Str) (body rest : List Str) (k : Nat)
    (hbody : ∀ s ∈ body, isFenceLine s = false) :
    replaceBlocksAux anchor (body ++ rest) true k = replaceBlocksAux anchor rest true k := by
  induction body with
  | nil => rfl
  | cons s body ih =>
    have hs : isFenceLine s = false := hbody s (List.mem_cons_self _ _)
    rw [List.cons_append, replaceBlocksAux]
    simp only [hs, Bool.false_eq_true, if_false]
    rw [ih (fun t ht => hbody t (List.mem_cons_of_mem _ ht))]

/-- A fenced block, from its opening fence `f1` through its closing fence `f2`,
becomes the one placeholder line; the lines `out` before it stay. -/
theorem replaceBlocks_block (anchor : Nat → Str) (out body rest : List Str) (f1 f2 : Str)
    (k : Nat) (hout : ∀ s ∈ out, isFenceLine s = false) (hf1 : isFenceLine f1 = true)
    (hbody : ∀ s ∈ body, isFenceLine s = false) (hf2 : isFenceLine f2 = true) :
    replaceBlocks anchor (out ++ f1 :: (body ++ f2 :: rest)) k =
      out ++ anchor k :: replaceBlocks anchor rest (k + 1) := by
  unfold replaceBlocks
  rw [replaceBlocksAux_outside anchor out _ k hout, replaceBlocksAux]
  simp only [hf1, if_true]
  rw [replaceBlocksAux_inside anchor body _ k hbody, replaceBlocksAux]
  simp only [hf2, if_true]

theorem fencedBlocksAux_outside (out rest : List Str)
    (hout : ∀ s ∈ out, isFenceLine s = false) :
    fencedBlocksAux (out ++ rest) none = fencedBlocksAux rest none := by
  induction out with
  | nil => rfl
  | cons s out ih =>
    have hs : isFenceLine s = false := hout s (List.mem_cons_self _ _)
    rw [List.cons_append, fencedBlocksAux]
    simp only [hs, Bool.false_eq_true, if_false]
    exact ih (fun t ht => hout t (List.mem_cons_of_mem _ ht))

theorem fencedBlocksAux_inside (body rest : List Str)
    (hbody : ∀ s ∈ body, isFenceLine s = false) :
    ∀ cur, fencedBlocksAux (body ++ rest) (some cur) = fencedBlocksAux rest (some (cur ++ body)) := by
  induction body with
  | nil => intro cur; simp
  | cons s body ih =>
    intro cur
    have hs : isFenceLine s = false := hbody s (List.mem_cons_self _ _)
    rw [List.cons_append, fencedBlocksAux]
    simp only [hs, Bool.false_eq_true, if_false]
    rw [ih (fun t ht => hbody t (List.mem_cons_of_mem _ ht))]
    simp

/-- The first fenced block is the lines strictly between its two fences. -/
theorem fencedBlocks_block (out body rest : List Str) (f1 f2 : Str)
    (hout : ∀ s ∈ out, isFenceLine s = false) (hf1 : isFenceLine f1 = true)
    (hbody : ∀ s ∈ body, isFenceLine s = false) (hf2 : isFenceLine f2 = true) :
    fencedBlocks (out ++ f1 :: (body ++ f2 :: rest)) = body :: fencedBlocks rest := by
  unfold fencedBlocks
  rw [fencedBlocksAux_outside out _ hout, fencedBlocksAux]
  simp only [hf1, if_true]
  rw [fencedBlocksAux_inside body _ hbody, fencedBlocksAux]
  simp only [hf2, if_true, List.nil_append]

/-- C13: with a highlighter that never fails, `extractCodeSnippets` aborts
exactly when a block is still open after the last line, which is exactly when
the number of fence lines is odd; with an even number it returns. -/
theorem extractCodeSnippets_aborts_iff_odd (env : Env) (lines : List Str) (w : World)
    (hhl : ∀ s, (env.highlight s).isSome = true) :
    (extractCodeSnippets env lines w = none ↔ insideBlockAfter lines false = true) ∧
    (insideBlockAfter lines false = true ↔ fenceCount lines % 2 = 1) ∧
    (fenceCount lines % 2 = 0 → (extractCodeSnippets env lines w).isSome = true) := by
  obtain ⟨st1, h1, _, h3⟩ := extractCodeSnippets_loop_spec env lines []
    { resLines := [], codeSnippets := [], codeLineStart := none, world := w } none
    (by simp) (by simp) (fun b _ => hhl _)
  simp only [List.nil_append, List.length_nil] at h1
  have hpar : insideBlockAfter lines false = true ↔ fenceCount lines % 2 = 1 := by
    rw [insideBlockAfter_eq]; simp
  have hopen : st1.codeLineStart.isSome = true ↔ fenceCount lines % 2 = 1 := by
    rw [h3]; simp
  refine ⟨?_, hpar, ?_⟩
  · rw [hpar, ← hopen]
    simp only [extractCodeSnippets, h1]
    cases hc : st1.codeLineStart <;> simp
  · intro hbal
    have hnone : st1.codeLineStart = none := by
      cases hc : st1.codeLineStart with
      | none => rfl
      | some v =>
        have := hopen.mp (by simp [hc])
        omega
    simp [extractCodeSnippets, h1, hnone]

/-- C13 (witness): the statement for the identity highlighter at the lines
fence, `x`, whose one fence is never closed. -/
theorem extractCodeSnippets_aborts_iff_odd_witness :
    (∀ s, (demoEnv.highlight s).isSome = true) ∧
    extractCodeSnippets demoEnv ["```".toList, "x".toList] world0 = none ∧
    fenceCount ["```".toList, "x".toList] % 2 = 1 :=
  ⟨fun _ => rfl,
    (extractCodeSnippets_aborts_iff_odd demoEnv ["```".toList, "x".toList] world0
      (fun _ => rfl)).1.mpr (by decide), by decide⟩

/-- C19: for lines with an even number of fence lines, when the highlighter
accepts the text of every block, `extractCodeSnippets` returns; the lines it
returns are the input with every fenced block, from its opening fence through
its closing fence, replaced by one placeholder line and the lines outside the
blocks kept in order; there is one snippet per block, in order, whose anchor
is that placeholder and whose code is the highlighted newline-join of the
lines strictly between the two fences. -/
theorem extractCodeSnippets_replaces_blocks (env : Env) (lines : List Str) (w : World)
    (hbal : fenceCount lines % 2 = 0)
    (hhl : ∀ b ∈ fencedBlocks lines, (env.highlight (strings.Join b "\n".toList)).isSome) :
    ∃ snippets, extractCodeSnippets env lines w =
        some (replaceBlocks env.genRandomString lines w.nRandom, snippets,
          { w with nRandom := w.nRandom + (fencedBlocks lines).length }) ∧
      snippets.map (fun c => c.anchor) =
        (List.range' w.nRandom (fencedBlocks lines).length).map env.genRandomString ∧
      snippets.map (fun c => some c.codeHTML) =
        (fencedBlocks lines).map (fun b => env.highlight (strings.Join b "\n".toList)) := by
  obtain ⟨st1, h1, h2, h3⟩ := extractCodeSnippets_loop_spec env lines []
    { resLines := [], codeSnippets := [], codeLineStart := none, world := w } none
    (by simp) (by simp) hhl
  simp only [List.nil_append, List.length_nil] at h1
  obtain ⟨g1, _, n, g3, g4⟩ := extractCodeSnippets_loop_stream env lines lines 0 _ st1 h1
  have hnone : st1.codeLineStart = none := by
    have : ¬ fenceCount lines % 2 = 1 := by omega
    simpa [this] using h3
  simp only [List.map_nil, List.nil_append] at h2 g1 g4
  have hn : n = (fencedBlocks lines).length := by
    have e1 := congrArg List.length g4
    have e2 := congrArg List.length h2
    simp only [List.length_map, List.length_range'] at e1 e2
    rw [← e1, e2]; rfl
  subst hn
  refine ⟨st1.codeSnippets, ?_, g4, h2⟩
  simp only [extractCodeSnippets, h1, hnone]
  rw [g1, g3]
  rfl

/-- C19 (witness): the statement at the lines `a`, fence, `#include`, fence,
`b`, where the returned lines are `a`, the placeholder and `b`. -/
theorem extractCodeSnippets_replaces_blocks_witness :
    fenceCount ["a".toList, "```".toList, "#include".toList, "```".toList, "b".toList] % 2 = 0 ∧
    replaceBlocks demoEnv.genRandomString
      ["a".toList, "```".toList, "#include".toList, "```".toList, "b".toList] 0 =
      ["a".toList, "anchor0".toList, "b".toList] ∧
    ∃ snippets, extractCodeSnippets demoEnv
        ["a".toList, "```".toList, "#include".toList, "```".toList, "b".toList] world0 =
        some (["a".toList, "anchor0".toList, "b".toList], snippets,
          { world0 with nRandom := 1 }) :=
  ⟨by decide, by decide,
    (extractCodeSnippets_replaces_blocks demoEnv
      ["a".toList, "```".toList, "#include".toList, "```".toList, "b".toList] world0
      (by decide) (by decide)).imp (fun _ h => h.1)⟩

/-! ## Notes of a day -/

theorem noteRunsAux_eq_splitOn (lines : List Str) :
    ∀ curr : List Str,
      noteRunsAux lines curr =
        ((separatorRuns lines).modifyHead (fun run => curr ++ run)).filter
          (fun run => decide (run ≠ [])) := by
  induction lines with
  | nil =>
    intro curr
    simp only [noteRunsAux, separatorRuns, List.splitOnP_nil, List.modifyHead, List.append_nil]
    by_cases hc : curr = []
    · simp [hc]
    · have : 0 < curr.length := List.length_pos.mpr hc
      simp [hc, this]
  | cons line rest ih =>
    intro curr
    have hsplit : separatorRuns (line :: rest) =
        if line = noteSeparator then [] :: separatorRuns rest
        else (separatorRuns rest).modifyHead (List.cons line) := by
      simp only [separatorRuns, List.splitOnP_cons, decide_eq_true_eq]
    rw [hsplit, noteRunsAux]
    by_cases hl : line = noteSeparator
    · simp only [hl, if_true, List.modifyHead, List.append_nil, List.filter_cons]
      rw [ih []]
      have hid : (separatorRuns rest).modifyHead (fun run => [] ++ run) = separatorRuns rest := by
        cases separatorRuns rest <;> simp [List.modifyHead]
      rw [hid]
      by_cases hc : curr = []
      · simp [hc]
      · have : 0 < curr.length := List.length_pos.mpr hc
        simp [hc, this]
    · simp only [hl, if_false]
      rw [ih (curr ++ [line]), List.modifyHead_modifyHead]
      congr 2
      funext run
      simp

theorem noteRuns_eq (lines : List Str) : noteRuns lines = nonEmptyRuns lines := by
  rw [noteRuns, noteRunsAux_eq_splitOn, nonEmptyRuns]
  congr 1
  cases separatorRuns lines <;> simp [List.modifyHead]

theorem separatorRuns_no_separator (lines : List Str) :
    ∀ run ∈ separatorRuns lines, noteSeparator ∉ run := by
  induction lines with
  | nil => intro run hr; simp [separatorRuns] at hr; simp [hr]
  | cons line rest ih =>
    intro run hr
    have hsplit : separatorRuns (line :: rest) =
        if line = noteSeparator then [] :: separatorRuns rest
        else (separatorRuns rest).modifyHead (List.cons line) := by
      simp only [separatorRuns, List.splitOnP_cons, decide_eq_true_eq]
    rw [hsplit] at hr
    by_cases hl : line = noteSeparator
    · simp only [hl, if_true, List.mem_cons] at hr
      rcases hr with rfl | hr
      · simp
      · exact ih run hr
    · simp only [hl, if_false] at hr
      cases hs : separatorRuns rest with
      | nil => simp [hs, List.modifyHead] at hr
      | cons r0 rs =>
        rw [hs] at hr ih
        simp only [List.modifyHead, List.mem_cons] at hr
        rcases hr with rfl | hr
        · intro hmem
          rcases List.mem_cons.mp hmem with h | h
          · exact hl h.symm
          · exact ih r0 (List.mem_cons_self _ _) h
        · exact ih run (List.mem_cons_of_mem _ hr)

theorem separatorRuns_intercalate (lines : List Str) :
    [noteSeparator].intercalate (separatorRuns lines) = lines :=
  List.intercalate_splitOn lines noteSeparator

theorem rawLines_of_builtFrom (env : Env) (notes : List note) (runs : List (List Str))
    (h : List.Forall₂ (BuiltFrom env) notes runs) :
    notes.map (fun n => n.rawLines) = runs := by
  induction h with
  | nil => rfl
  | cons hb _ ih =>
    obtain ⟨w2, w3, hn⟩ := hb
    simp only [List.map_cons, ih, (newNote_rawLines env _ _ _ _ hn).1]

theorem linesToNotes_loop_eq (env : Env) (lines : List Str) :
    ∀ (res : List note) (curr : List Str) (w : World),
      (linesToNotes_loop env lines res curr w).bind
          (fun r => linesToNotes_flush env r.1 r.2.1 r.2.2) =
        (notesFromRuns env (noteRunsAux lines curr) w).map (fun r => (res ++ r.1, r.2)) := by
  induction lines with
  | nil =>
    intro res curr w
    simp only [linesToNotes_loop, linesToNotes_flush, noteRunsAux, Option.some_bind]
    by_cases hc : 0 < curr.length
    · simp only [hc, if_true, notesFromRuns]
      cases newNote env curr w with
      | none => rfl
      | some r => rfl
    · simp [hc, notesFromRuns]
  | cons line rest ih =>
    intro res curr w
    simp only [linesToNotes_loop, noteRunsAux]
    by_cases hl : line = noteSeparator
    · simp only [hl, if_true]
      by_cases hc : 0 < curr.length
      · simp only [hc, if_true, List.singleton_append, notesFromRuns]
        cases hn : newNote env curr w with
        | none =>
          have hflush : linesToNotes_flush env res curr w = none := by
            simp [linesToNotes_flush, hc, hn]
          rw [hflush]
          rfl
        | some r =>
          obtain ⟨n, w1⟩ := r
          have hflush : linesToNotes_flush env res curr w = some (res ++ [n], w1) := by
            simp [linesToNotes_flush, hc, hn]
          rw [hflush]
          simp only []
          rw [ih]
          cases notesFromRuns env (noteRunsAux rest []) w1 with
          | none => rfl
          | some q => simp
      · have hflush : linesToNotes_flush env res curr w = some (res, w) := by
          simp [linesToNotes_flush, hc]
        rw [hflush]
        simp only [hc, if_false, List.nil_append]
        exact ih res [] w
    · simp only [hl, if_false]
      exact ih res (curr ++ [line]) w

theorem linesToNotes_eq (env : Env) (lines : List Str) (w : World) :
    linesToNotes env lines w = notesFromRuns env (nonEmptyRuns lines) w := by
  have h := linesToNotes_loop_eq env lines [] [] w
  have hbind : linesToNotes env lines w =
      (linesToNotes_loop env lines [] [] w).bind
        (fun r => linesToNotes_flush env r.1 r.2.1 r.2.2) := by
    rw [linesToNotes]
    cases linesToNotes_loop env lines [] [] w with
    | none => rfl
    | some r => rfl
  rw [hbind, h, ← noteRuns_eq, noteRuns]
  cases notesFromRuns env (noteRunsAux lines []) w with
  | none => rfl
  | some r => simp

/-- C15: the runs of a day's lines are the pieces between the lines equal to
the separator: joined again with separator lines they give the lines back, and
no run holds a separator line.  `linesToNotes` builds one note with `newNote`
from each non-empty run, in order, and none from an empty run; so the raw
lines of the notes it returns are the non-empty runs, in order, no note has
empty raw lines and no raw line is a separator. -/
theorem linesToNotes_builds_from_runs (env : Env) (lines : List Str) (w : World) :
    ([noteSeparator].intercalate (separatorRuns lines) = lines ∧
      ∀ run ∈ separatorRuns lines, noteSeparator ∉ run) ∧
    linesToNotes env lines w = notesFromRuns env (nonEmptyRuns lines) w ∧
    ∀ notes w1, linesToNotes env lines w = some (notes, w1) →
      notes.map (fun n => n.rawLines) = nonEmptyRuns lines ∧
      ∀ n ∈ notes, n.rawLines ≠ [] ∧ noteSeparator ∉ n.rawLines := by
  refine ⟨⟨separatorRuns_intercalate lines, separatorRuns_no_separator lines⟩,
    linesToNotes_eq env lines w, ?_⟩
  intro notes w1 h
  have hruns := linesToNotes_runs env lines w w1 notes h
  rw [noteRuns_eq] at hruns
  have hraw : notes.map (fun n => n.rawLines) = nonEmptyRuns lines :=
    rawLines_of_builtFrom env notes _ hruns
  refine ⟨hraw, ?_⟩
  intro n hn
  have hmem : n.rawLines ∈ nonEmptyRuns lines := by
    rw [← hraw]; exact List.mem_map_of_mem _ hn
  obtain ⟨h1, h2⟩ := List.mem_filter.mp hmem
  exact ⟨by simpa using h2, separatorRuns_no_separator lines _ h1⟩

/-- C15 (witness): the statement at a day whose lines hold two notes with two
separator lines between them and one separator line at the end. -/
theorem linesToNotes_builds_from_runs_witness :
    nonEmptyRuns ["Id: 1".toList, "a".toList, "---".toList, "---".toList, "Id: 2".toList,
        "b".toList, "---".toList] =
      [["Id: 1".toList, "a".toList], ["Id: 2".toList, "b".toList]] ∧
    linesToNotes demoEnv ["Id: 1".toList, "a".toList, "---".toList, "---".toList,
        "Id: 2".toList, "b".toList, "---".toList] world0 =
      notesFromRuns demoEnv [["Id: 1".toList, "a".toList], ["Id: 2".toList, "b".toList]]
        world0 ∧
    (linesToNotes demoEnv ["Id: 1".toList, "a".toList, "---".toList, "---".toList,
        "Id: 2".toList, "b".toList, "---".toList] world0).isSome = true :=
  ⟨by decide,
    (linesToNotes_builds_from_runs demoEnv ["Id: 1".toList, "a".toList, "---".toList,
      "---".toList, "Id: 2".toList, "b".toList, "---".toList] world0).2.1,
    by decide⟩

/-! ## Days of a file -/

theorem readNotesFoDay_from_nil (env : Env) (st : ReadState) :
    readNotesFoDay_from env [] st =
      match st.curr with
      | none => none
      | some curr => readNotesFoDay_flush env curr st := rfl

theorem readNotesFoDay_from_line (env : Env) (text : Str) (rest : List Str) (st : ReadState)
    (h : timeParse (scanTrim text) = none) :
    readNotesFoDay_from env (text :: rest) st =
      readNotesFoDay_from env rest { st with lines := st.lines ++ [scanTrim text] } := by
  have h1 : timeParse (strings.TrimRight text "\n\r\t ".toList) = none := h
  simp only [readNotesFoDay_from, readNotesFoDay_loop, h1]
  rfl

theorem readNotesFoDay_from_seen (env : Env) (text : Str) (rest : List Str) (st : ReadState)
    (day : Time) (h : timeParse (scanTrim text) = some day)
    (hs : scanTrim text ∈ st.seenDays) :
    readNotesFoDay_from env (text :: rest) st = none := by
  have h1 : timeParse (strings.TrimRight text "\n\r\t ".toList) = some day := h
  have h2 : strings.TrimRight text "\n\r\t ".toList ∈ st.seenDays := hs
  simp only [readNotesFoDay_from, readNotesFoDay_loop, h1, h2, if_true]

theorem readNotesFoDay_from_first (env : Env) (text : Str) (rest : List Str) (st : ReadState)
    (day : Time) (h : timeParse (scanTrim text) = some day)
    (hs : scanTrim text ∉ st.seenDays) (hc : st.curr = none) :
    readNotesFoDay_from env (text :: rest) st =
      readNotesFoDay_from env rest
        { st with seenDays := scanTrim text :: st.seenDays,
                  curr := some { DayStr := scanTrim text, Day := day, Notes := [], lines := [] },
                  lines := [] } := by
  have h1 : timeParse (strings.TrimRight text "\n\r\t ".toList) = some day := h
  have h2 : strings.TrimRight text "\n\r\t ".toList ∉ st.seenDays := hs
  simp only [readNotesFoDay_from, readNotesFoDay_loop, h1, h2, if_false, hc]
  rfl

theorem readNotesFoDay_from_next (env : Env) (text : Str) (rest : List Str) (st : ReadState)
    (day : Time) (c : notesForDay) (h : timeParse (scanTrim text) = some day)
    (hs : scanTrim text ∉ st.seenDays) (hc : st.curr = some c) :
    readNotesFoDay_from env (text :: rest) st =
      match readNotesFoDay_flush env c st with
      | none => none
      | some (notes, w) =>
        readNotesFoDay_from env rest
          { seenDays := scanTrim text :: st.seenDays, notes := notes,
            curr := some { DayStr := scanTrim text, Day := day, Notes := [], lines := [] },
            lines := [], world := w } := by
  have h1 : timeParse (strings.TrimRight text "\n\r\t ".toList) = some day := h
  have h2 : strings.TrimRight text "\n\r\t ".toList ∉ st.seenDays := hs
  simp only [readNotesFoDay_from, readNotesFoDay_loop, h1, h2, if_false, hc]
  cases readNotesFoDay_flush env c st with
  | none => rfl
  | some r => rfl

theorem dayHeaders_cons_header (line : Str) (rest : List Str) (day : Time)
    (h : timeParse line = some day) : dayHeaders (line :: rest) = line :: dayHeaders rest := by
  simp [dayHeaders, isDayHeader, h]

theorem dayHeaders_cons_line (line : Str) (rest : List Str)
    (h : timeParse line = none) : dayHeaders (line :: rest) = dayHeaders rest := by
  simp [dayHeaders, isDayHeader, h]

theorem readNotesFoDay_flush_eq (env : Env) (c : notesForDay) (st : ReadState) :
    readNotesFoDay_flush env c st =
      match linesToNotes env st.lines st.world with
      | none => none
      | some (ns, w) =>
        some (st.notes ++ [{ DayStr := c.DayStr, Day := c.Day, Notes := ns, lines := st.lines }], w) := by
  unfold readNotesFoDay_flush
  cases linesToNotes env st.lines st.world <;> rfl

theorem daysFromGroups_cons_none (env : Env) (grp : (Str × Time) × List Str)
    (rest : List ((Str × Time) × List Str)) (w : World)
    (hl : linesToNotes env grp.2 w = none) : daysFromGroups env (grp :: rest) w = none := by
  simp only [daysFromGroups, hl]

theorem daysFromGroups_cons_some (env : Env) (grp : (Str × Time) × List Str)
    (rest : List ((Str × Time) × List Str)) (w w1 : World) (ns : List note)
    (hl : linesToNotes env grp.2 w = some (ns, w1)) :
    daysFromGroups env (grp :: rest) w =
      (daysFromGroups env rest w1).map (fun r =>
        ({ DayStr := grp.1.1, Day := grp.1.2, Notes := ns, lines := grp.2 } :: r.1, r.2)) := by
  simp only [daysFromGroups, hl]
  cases daysFromGroups env rest w1 <;> rfl

theorem dayGroups_cons_header (line : Str) (rest : List Str) (day : Time)
    (h : timeParse line = some day) :
    dayGroups (line :: rest) =
      ((line, day), rest.takeWhile (fun l => !isDayHeader l)) :: dayGroups rest := by
  simp only [dayGroups, h]

theorem dayGroups_cons_line (line : Str) (rest : List Str)
    (h : timeParse line = none) : dayGroups (line :: rest) = dayGroups rest := by
  simp only [dayGroups, h]

theorem readNotesFoDay_from_some (env : Env) (rest : List Str) :
    ∀ (st : ReadState) (c : notesForDay), st.curr = some c →
      readNotesFoDay_from env rest st =
        if (dayHeaders (rest.map scanTrim)).Nodup ∧
            ∀ h ∈ dayHeaders (rest.map scanTrim), h ∉ st.seenDays then
          (daysFromGroups env
            (((c.DayStr, c.Day),
                st.lines ++ (rest.map scanTrim).takeWhile (fun l => !isDayHeader l)) ::
              dayGroups (rest.map scanTrim)) st.world).map (fun r => (st.notes ++ r.1, r.2))
        else none := by
  induction rest with
  | nil =>
    intro st c hc
    rw [readNotesFoDay_from_nil, hc]
    simp only [List.map_nil, dayHeaders, List.filter_nil, List.nodup_nil, List.not_mem_nil,
      IsEmpty.forall_iff, implies_true, and_self, if_true, List.takeWhile_nil, List.append_nil,
      dayGroups, daysFromGroups, readNotesFoDay_flush_eq]
    cases linesToNotes env st.lines st.world with
    | none => rfl
    | some r => rfl
  | cons text rest ih =>
    intro st c hc
    rw [List.map_cons]
    cases hp : timeParse (scanTrim text) with
    | none =>
      have hnh : isDayHeader (scanTrim text) = false := by simp [isDayHeader, hp]
      rw [readNotesFoDay_from_line env text rest st hp,
        ih { st with lines := st.lines ++ [scanTrim text] } c hc,
        dayHeaders_cons_line _ _ hp]
      simp only [dayGroups, hp, List.takeWhile_cons, hnh, Bool.not_false, if_true,
        List.append_assoc, List.singleton_append]
    | some day =>
      have hh : isDayHeader (scanTrim text) = true := by simp [isDayHeader, hp]
      rw [dayHeaders_cons_header _ _ day hp]
      by_cases hs : scanTrim text ∈ st.seenDays
      · rw [readNotesFoDay_from_seen env text rest st day hp hs, if_neg]
        intro hcond
        exact hcond.2 _ (List.mem_cons_self _ _) hs
      · rw [readNotesFoDay_from_next env text rest st day c hp hs hc, readNotesFoDay_flush_eq]
        have htw : (scanTrim text :: rest.map scanTrim).takeWhile (fun l => !isDayHeader l) = [] := by
          simp [List.takeWhile_cons, hh]
        rw [htw, List.append_nil, dayGroups_cons_header _ _ day hp]
        cases hl : linesToNotes env st.lines st.world with
        | none =>
          rw [daysFromGroups_cons_none env _ _ _ hl]
          split_ifs <;> rfl
        | some r =>
          obtain ⟨ns, w1⟩ := r
          rw [daysFromGroups_cons_some env _ _ _ _ _ hl]
          dsimp only
          rw [ih _ _ rfl]
          dsimp only
          have hiff : ((dayHeaders (rest.map scanTrim)).Nodup ∧
                ∀ h ∈ dayHeaders (rest.map scanTrim), h ∉ scanTrim text :: st.seenDays) ↔
              ((scanTrim text :: dayHeaders (rest.map scanTrim)).Nodup ∧
                ∀ h ∈ scanTrim text :: dayHeaders (rest.map scanTrim), h ∉ st.seenDays) := by
            simp only [List.mem_cons, not_or, List.nodup_cons]
            constructor
            · intro hcond
              refine ⟨⟨fun hm => (hcond.2 _ hm).1 rfl, hcond.1⟩, ?_⟩
              rintro h (rfl | hm)
              · exact hs
              · exact (hcond.2 _ hm).2
            · intro h2
              refine ⟨h2.1.2, fun h hm => ⟨?_, h2.2 h (Or.inr hm)⟩⟩
              rintro rfl
              exact h2.1.1 hm
          split_ifs with hA hB hB
          · rw [List.nil_append]
            cases daysFromGroups env
              (((scanTrim text, day), (rest.map scanTrim).takeWhile (fun l => !isDayHeader l)) ::
                dayGroups (rest.map scanTrim)) w1 with
            | none => rfl
            | some q => simp
          · exact absurd (hiff.mp hA) hB
          · exact absurd (hiff.mpr hB) hA
          · rfl

theorem readNotesFoDay_from_none (env : Env) (rest : List Str) :
    ∀ (st : ReadState), st.curr = none →
      readNotesFoDay_from env rest st =
        if (dayHeaders (rest.map scanTrim)).Nodup ∧
            (∀ h ∈ dayHeaders (rest.map scanTrim), h ∉ st.seenDays) ∧
            dayHeaders (rest.map scanTrim) ≠ [] then
          (daysFromGroups env (dayGroups (rest.map scanTrim)) st.world).map
            (fun r => (st.notes ++ r.1, r.2))
        else none := by
  induction rest with
  | nil =>
    intro st hc
    rw [readNotesFoDay_from_nil, hc, if_neg]
    simp [dayHeaders]
  | cons text rest ih =>
    intro st hc
    rw [List.map_cons]
    cases hp : timeParse (scanTrim text) with
    | none =>
      rw [readNotesFoDay_from_line env text rest st hp,
        ih { st with lines := st.lines ++ [scanTrim text] } hc,
        dayHeaders_cons_line _ _ hp, dayGroups_cons_line _ _ hp]
    | some day =>
      rw [dayHeaders_cons_header _ _ day hp]
      by_cases hs : scanTrim text ∈ st.seenDays
      · rw [readNotesFoDay_from_seen env text rest st day hp hs, if_neg]
        intro hcond
        exact hcond.2.1 _ (List.mem_cons_self _ _) hs
      · rw [readNotesFoDay_from_first env text rest st day hp hs hc,
          readNotesFoDay_from_some env rest _ _ rfl, dayGroups_cons_header _ _ day hp]
        dsimp only
        have hiff : ((dayHeaders (rest.map scanTrim)).Nodup ∧
              ∀ h ∈ dayHeaders (rest.map scanTrim), h ∉ scanTrim text :: st.seenDays) ↔
            ((scanTrim text :: dayHeaders (rest.map scanTrim)).Nodup ∧
              (∀ h ∈ scanTrim text :: dayHeaders (rest.map scanTrim), h ∉ st.seenDays) ∧
              scanTrim text :: dayHeaders (rest.map scanTrim) ≠ []) := by
          simp only [List.mem_cons, not_or, List.nodup_cons, ne_eq, not_false_eq_true,
            and_true, reduceCtorEq]
          constructor
          · intro hcond
            refine ⟨⟨fun hm => (hcond.2 _ hm).1 rfl, hcond.1⟩, ?_⟩
            rintro h (rfl | hm)
            · exact hs
            · exact (hcond.2 _ hm).2
          · intro h2
            refine ⟨h2.1.2, fun h hm => ⟨?_, h2.2 h (Or.inr hm)⟩⟩
            rintro rfl
            exact h2.1.1 hm
        split_ifs with hA hB hB
        · rw [List.nil_append]
        · exact absurd (hiff.mp hA) hB
        · exact absurd (hiff.mpr hB) hA
        · rfl

theorem readNotesFoDay_eq (env : Env) (fileLines : List Str) (w : World) :
    readNotesFoDay env fileLines w =
      if (dayHeaders (fileLines.map scanTrim)).Nodup ∧
          dayHeaders (fileLines.map scanTrim) ≠ [] then
        daysFromGroups env (dayGroups (fileLines.map scanTrim)) w
      else none := by
  have h := readNotesFoDay_from_none env fileLines
    { seenDays := [], notes := [], curr := none, lines := [], world := w } rfl
  have h0 : readNotesFoDay env fileLines w = readNotesFoDay_from env fileLines
      { seenDays := [], notes := [], curr := none, lines := [], world := w } := rfl
  rw [h0, h]
  dsimp only
  have hmap : ∀ o : Option (List notesForDay × World),
      o.map (fun r => (([] : List notesForDay) ++ r.1, r.2)) = o := by
    intro o; cases o <;> simp
  rw [hmap]
  simp only [List.not_mem_nil, not_false_eq_true, implies_true, true_and]

theorem daysFromGroups_groups (env : Env) (groups : List ((Str × Time) × List Str)) :
    ∀ (w w1 : World) (days : List notesForDay),
      daysFromGroups env groups w = some (days, w1) →
      days.map (fun d => ((d.DayStr, d.Day), d.lines)) = groups := by
  induction groups with
  | nil =>
    intro w w1 days h
    simp only [daysFromGroups, Option.some.injEq, Prod.mk.injEq] at h
    rw [← h.1]; rfl
  | cons grp rest ih =>
    intro w w1 days h
    cases hl : linesToNotes env grp.2 w with
    | none => rw [daysFromGroups_cons_none env grp rest w hl] at h; cases h
    | some r =>
      obtain ⟨ns, w2⟩ := r
      rw [daysFromGroups_cons_some env grp rest w w2 ns hl] at h
      cases hd : daysFromGroups env rest w2 with
      | none => rw [hd] at h; cases h
      | some q =>
        obtain ⟨ds, w3⟩ := q
        rw [hd] at h
        simp only [Option.map_some', Option.some.injEq, Prod.mk.injEq] at h
        rw [← h.1]
        simp only [List.map_cons, ih w2 w3 ds hd]

theorem dayGroups_headers (lines : List Str) :
    (dayGroups lines).map (fun g => g.1.1) = dayHeaders lines := by
  induction lines with
  | nil => rfl
  | cons line rest ih =>
    cases hp : timeParse line with
    | none => rw [dayGroups_cons_line _ _ hp, dayHeaders_cons_line _ _ hp, ih]
    | some day =>
      rw [dayGroups_cons_header _ _ day hp, dayHeaders_cons_header _ _ day hp, List.map_cons, ih]

/-- C14: a file is read as its lines without trailing white space.  When a
day-header line occurs twice, `readNotesFoDay` aborts.  When there is a header
and none occurs twice, it builds one day entry per header line, in order, from
the header and the lines between it and the next header (or the end), the
notes by `linesToNotes` from those lines.  So a returned list has the
headers, the days and the lines of the groups, and its headers are pairwise
distinct. -/
theorem readNotesFoDay_one_day_per_header (env : Env) (fileLines : List Str) (w : World) :
    (¬ (dayHeaders (fileLines.map scanTrim)).Nodup → readNotesFoDay env fileLines w = none) ∧
    ((dayHeaders (fileLines.map scanTrim)).Nodup → dayHeaders (fileLines.map scanTrim) ≠ [] →
      readNotesFoDay env fileLines w =
        daysFromGroups env (dayGroups (fileLines.map scanTrim)) w) ∧
    ∀ days w1, readNotesFoDay env fileLines w = some (days, w1) →
      days.map (fun d => ((d.DayStr, d.Day), d.lines)) = dayGroups (fileLines.map scanTrim) ∧
      days.map (fun d => d.DayStr) = dayHeaders (fileLines.map scanTrim) ∧
      (days.map (fun d => d.DayStr)).Nodup := by
  refine ⟨?_, ?_, ?_⟩
  · intro hdup
    rw [readNotesFoDay_eq, if_neg (fun h => hdup h.1)]
  · intro hnd hne
    rw [readNotesFoDay_eq, if_pos ⟨hnd, hne⟩]
  · intro days w1 h
    rw [readNotesFoDay_eq] at h
    split_ifs at h with hcond
    have hg := daysFromGroups_groups env _ w w1 days h
    have hh : days.map (fun d => d.DayStr) = dayHeaders (fileLines.map scanTrim) := by
      rw [← dayGroups_headers, ← hg, List.map_map]
      rfl
    exact ⟨hg, hh, hh ▸ hcond.1⟩

/-- C14 (witness): a file of two days, where the second header has trailing
blanks, is read as two day entries; the same file with the first header
repeated at the end is refused. -/
theorem readNotesFoDay_one_day_per_header_witness :
    dayGroups (["2020-01-02".toList, "Id: 1".toList, "a".toList, "2020-01-01  ".toList,
        "Id: 2".toList, "b".toList].map scanTrim) =
      [(("2020-01-02".toList, 18263), ["Id: 1".toList, "a".toList]),
        (("2020-01-01".toList, 18262), ["Id: 2".toList, "b".toList])] ∧
    (readNotesFoDay demoEnv ["2020-01-02".toList, "Id: 1".toList, "a".toList,
        "2020-01-01  ".toList, "Id: 2".toList, "b".toList] world0).map
        (fun r => r.1.map (fun d => (d.DayStr, d.lines))) =
      some [("2020-01-02".toList, ["Id: 1".toList, "a".toList]),
        ("2020-01-01".toList, ["Id: 2".toList, "b".toList])] ∧
    readNotesFoDay demoEnv ["2020-01-02".toList, "Id: 1".toList, "a".toList,
        "2020-01-01  ".toList, "Id: 2".toList, "b".toList, "2020-01-02".toList] world0 = none :=
  ⟨by decide, by decide,
    (readNotesFoDay_one_day_per_header demoEnv ["2020-01-02".toList, "Id: 1".toList,
      "a".toList, "2020-01-01  ".toList, "Id: 2".toList, "b".toList, "2020-01-02".toList]
      world0).1 (by decide)⟩

/-! ## The body: compaction of empty lines -/

theorem trimEmptyLines_loop_cons (s : Str) (rest : List Str) (p : Bool) :
    trimEmptyLines_loop (s :: rest) p =
      if isBlank s = true ∧ p = true then trimEmptyLines_loop rest p
      else s :: trimEmptyLines_loop rest (isBlank s) := by
  simp only [trimEmptyLines_loop, isBlank]

theorem lastIsBlank_cons (s : Str) (ys : List Str) (p : Bool) :
    lastIsBlank (s :: ys) p = lastIsBlank ys (isBlank s) := by
  cases ys with
  | nil => simp [lastIsBlank]
  | cons y ys =>
    simp only [lastIsBlank, List.getLast?_cons_cons]
    cases h : (y :: ys).getLast? with
    | none => simp [List.getLast?_eq_none_iff] at h
    | some l => rfl

theorem trimEmptyLines_loop_concat (xs : List Str) (x : Str) :
    ∀ p : Bool, trimEmptyLines_loop (xs ++ [x]) p =
      if isBlank x = true ∧ lastIsBlank (trimEmptyLines_loop xs p) p = true then
        trimEmptyLines_loop xs p
      else trimEmptyLines_loop xs p ++ [x] := by
  induction xs with
  | nil =>
    intro p
    simp only [List.nil_append, trimEmptyLines_loop_cons, trimEmptyLines_loop, lastIsBlank,
      List.getLast?_nil]
    rfl
  | cons s xs ih =>
    intro p
    rw [List.cons_append, trimEmptyLines_loop_cons, trimEmptyLines_loop_cons]
    by_cases hsp : isBlank s = true ∧ p = true
    · simp only [hsp, and_self, if_true]
      rw [ih]
    · simp only [hsp, if_false]
      rw [ih, lastIsBlank_cons]
      split_ifs <;> rfl

theorem trimEmptyLines_loop_length_le (xs : List Str) :
    ∀ p : Bool, (trimEmptyLines_loop xs p).length ≤ xs.length := by
  induction xs with
  | nil => intro p; simp [trimEmptyLines_loop]
  | cons s xs ih =>
    intro p
    rw [trimEmptyLines_loop_cons]
    split_ifs
    · exact le_trans (ih p) (by simp)
    · simpa using ih (isBlank s)

theorem getLast?_getD_lastIsBlank (a : Str) (ys : List Str) :
    isBlank (((a :: ys).getLast?).getD []) = lastIsBlank ys (isBlank a) := by
  cases ys with
  | nil => simp [lastIsBlank]
  | cons y ys =>
    simp only [lastIsBlank, List.getLast?_cons_cons]
    cases h : (y :: ys).getLast? with
    | none => simp [List.getLast?_eq_none_iff] at h
    | some l => rfl

theorem buildBodyFromLines_collapseStep_eq (lines : List Str) (currWrite i : Nat) :
    buildBodyFromLines_collapseStep (lines, currWrite) i =
      if isBlank (lines.getD (currWrite - 1) []) = true ∧ isBlank (lines.getD i []) = true then
        (lines, currWrite)
      else (lines.set currWrite (lines.getD i []), currWrite + 1) := by
  simp only [buildBodyFromLines_collapseStep, isBlank, decide_eq_true_eq]

/-- The state of the compaction loop of `buildBodyFromLines` after the lines
`1..k`: the lines written so far fill the front of the array, the lines not
yet read are untouched. -/
theorem buildBodyFromLines_collapse_inv (a : Str) (rest : List Str) (k : Nat)
    (hk : k ≤ rest.length) :
    ∃ arr : List Str,
      (List.range' 1 k).foldl buildBodyFromLines_collapseStep (a :: rest, 1) =
        (arr, (a :: trimEmptyLines_loop (rest.take k) (isBlank a)).length) ∧
      arr.length = rest.length + 1 ∧
      arr.take (a :: trimEmptyLines_loop (rest.take k) (isBlank a)).length =
        a :: trimEmptyLines_loop (rest.take k) (isBlank a) ∧
      arr.drop (k + 1) = rest.drop k := by
  induction k with
  | zero => exact ⟨a :: rest, by simp [trimEmptyLines_loop]⟩
  | succ k ih =>
    obtain ⟨arr, hfold, hlen, htake, hdrop⟩ := ih (by omega)
    have hklt : k < rest.length := by omega
    have hyslen : (trimEmptyLines_loop (rest.take k) (isBlank a)).length ≤ k := by
      have := trimEmptyLines_loop_length_le (rest.take k) (isBlank a)
      simp only [List.length_take] at this
      omega
    set ys := trimEmptyLines_loop (rest.take k) (isBlank a) with hys
    have hget : arr.getD (1 + k) [] = rest[k] := by
      have h1 : (arr.drop (k + 1))[0]? = (rest.drop k)[0]? := by rw [hdrop]
      simp only [List.getElem?_drop, add_zero] at h1
      rw [List.getD_eq_getElem?_getD, Nat.add_comm 1 k, h1, List.getElem?_eq_getElem hklt]
      rfl
    have hprev : arr.getD ((a :: ys).length - 1) [] = ((a :: ys).getLast?).getD [] := by
      have h1 : (arr.take (a :: ys).length)[(a :: ys).length - 1]? =
          (a :: ys)[(a :: ys).length - 1]? := by rw [htake]
      rw [List.getElem?_take_of_lt (by simp)] at h1
      rw [List.getD_eq_getElem?_getD, h1, List.getLast?_eq_getElem?]
    have htk : rest.take (k + 1) = rest.take k ++ [rest[k]] := by
      rw [List.take_succ, List.getElem?_eq_getElem hklt]
      rfl
    rw [List.range'_1_concat, List.foldl_append, hfold]
    simp only [List.foldl_cons, List.foldl_nil, buildBodyFromLines_collapseStep_eq, hget, hprev,
      getLast?_getD_lastIsBlank, htk, trimEmptyLines_loop_concat]
    rw [← hys]
    by_cases hc : isBlank rest[k] = true ∧ lastIsBlank ys (isBlank a) = true
    · have hc2 : lastIsBlank ys (isBlank a) = true ∧ isBlank rest[k] = true := ⟨hc.2, hc.1⟩
      rw [if_pos hc, if_pos hc2]
      refine ⟨arr, rfl, hlen, htake, ?_⟩
      have := congrArg (List.drop 1) hdrop
      simpa [List.drop_drop, add_comm] using this
    · have hc2 : ¬ (lastIsBlank ys (isBlank a) = true ∧ isBlank rest[k] = true) :=
        fun h => hc ⟨h.2, h.1⟩
      rw [if_neg hc, if_neg hc2]
      have hlt : (a :: ys).length < arr.length := by
        simp only [List.length_cons]; omega
      refine ⟨arr.set (a :: ys).length rest[k], ?_, by simpa using hlen, ?_, ?_⟩
      · simp
      · have hl : (a :: (ys ++ [rest[k]])).length = (a :: ys).length + 1 := by simp
        have hlt2 : ys.length + 1 < arr.length := by simpa using hlt
        rw [hl, List.take_succ, List.set_take, List.set_eq_of_length_le (by simp), htake]
        simp [List.getElem?_set_self hlt2]
      · rw [List.drop_set_of_lt _ _ (by simp only [List.length_cons]; omega)]
        have := congrArg (List.drop 1) hdrop
        simpa [List.drop_drop, add_comm] using this

theorem buildBodyFromLines_dropFront_eq (l : List Str) :
    buildBodyFromLines_dropFront l =
      if l.dropWhile isBlank = [] then none else some (l.dropWhile isBlank) := by
  induction l with
  | nil => rfl
  | cons a l ih =>
    by_cases ha : a.length = 0
    · have hb : isBlank a = true := by simp [isBlank, ha]
      simp only [buildBodyFromLines_dropFront, ha, if_true, List.dropWhile_cons, hb, ih]
    · have hb : isBlank a = false := by simp [isBlank, ha]
      simp [buildBodyFromLines_dropFront, ha, List.dropWhile_cons, hb]

theorem buildBodyFromLines_dropBack_eq (fuel : Nat) :
    ∀ l : List Str, l.length ≤ fuel →
      buildBodyFromLines_dropBack fuel l = l.rdropWhile isBlank := by
  induction fuel with
  | zero =>
    intro l h
    have : l = [] := List.length_eq_zero.mp (by omega)
    subst this
    rfl
  | succ f ih =>
    intro l hf
    induction l using List.reverseRecOn with
    | nil => simp [buildBodyFromLines_dropBack, lastLineEmpty]
    | append_singleton r x _ =>
      have htake : removeLastLine (r ++ [x]) = r := by
        simp [removeLastLine]
      have hlast : lastLineEmpty (r ++ [x]) = isBlank x := by
        simp [lastLineEmpty, isBlank]
      simp only [buildBodyFromLines_dropBack, hlast, htake]
      by_cases hx : isBlank x = true
      · rw [List.rdropWhile_concat_pos _ _ _ hx, if_pos hx]
        exact ih r (by simp at hf; omega)
      · rw [List.rdropWhile_concat_neg _ _ _ hx, if_neg hx]

theorem dropWhile_trimEmptyLines_loop (a : Str) (rest : List Str) :
    (a :: trimEmptyLines_loop rest (isBlank a)).dropWhile isBlank =
      trimEmptyLines_loop (a :: rest) true := by
  rw [trimEmptyLines_loop_cons]
  by_cases hb : isBlank a = true
  · simp only [hb, and_self, if_true, List.dropWhile_cons]
    obtain ⟨_, h2⟩ := trimEmptyLines_loop_chain rest true
    cases hl : trimEmptyLines_loop rest true with
    | nil => rfl
    | cons y ys =>
      have hy : ¬ isBlank y = true := h2 rfl y (by rw [hl]; rfl)
      simp [List.dropWhile_cons, hy]
  · simp [hb, List.dropWhile_cons]

theorem trimEmptyLines_loop_eq_nil_iff (l : List Str) :
    trimEmptyLines_loop l true = [] ↔ ∀ x ∈ l, x = [] := by
  induction l with
  | nil => simp [trimEmptyLines_loop]
  | cons a l ih =>
    rw [trimEmptyLines_loop_cons]
    by_cases hb : isBlank a = true
    · have ha : a = [] := by simpa [isBlank] using hb
      rw [if_pos ⟨hb, rfl⟩, ih]
      simp [ha]
    · have ha : a ≠ [] := by simpa [isBlank] using hb
      simp [hb, ha]

/-- What `buildBodyFromLines` returns: it panics when no line is left non-empty
by the tag stripping (so also on no lines at all); otherwise the body is the
newline-join of `trimEmptyLines` of the stripped lines. -/
theorem buildBodyFromLines_eq (env : Env) (lines : List Str) :
    buildBodyFromLines env lines =
      if trimEmptyLines_loop (strippedLines env lines) true = [] then none
      else some (strings.Join (trimEmptyLines (strippedLines env lines)) "\n".toList,
        env.removeDuplicateStrings (lines.map fun l => (removeHashTags env l).2).flatten) := by
  simp only [buildBodyFromLines, buildBodyFromLines_strip_eq, List.nil_append, strippedLines]
  generalize lines.map (fun l => (removeHashTags env l).1) = S
  cases S with
  | nil => simp [trimEmptyLines_loop]
  | cons a rest =>
    obtain ⟨arr, hfold, hlen, htake, _⟩ := buildBodyFromLines_collapse_inv a rest rest.length
      (le_refl _)
    rw [List.take_length] at hfold htake
    have hl1 : (a :: rest).length - 1 = rest.length := by simp
    have hle := trimEmptyLines_loop_length_le rest (isBlank a)
    rw [hl1, hfold]
    dsimp only
    rw [htake, if_neg (by simp only [List.length_cons]; omega),
      if_neg (by simp), buildBodyFromLines_dropFront_eq, dropWhile_trimEmptyLines_loop]
    by_cases hnil : trimEmptyLines_loop (a :: rest) true = []
    · simp only [hnil, if_true]
    · simp only [hnil, if_false]
      rw [buildBodyFromLines_dropBack_eq _ _ (le_refl _), trimEmptyLines_eq]

theorem trimEmptyLines_loop_false (a : Str) (l : List Str) :
    trimEmptyLines_loop (a :: l) false = a :: trimEmptyLines_loop l (isBlank a) := by
  rw [trimEmptyLines_loop_cons]
  simp

theorem trimEmptyLines_loop_destutter (l : List Str) :
    ∀ a : Str, a :: trimEmptyLines_loop l (isBlank a) =
      List.destutter' (fun a b => (isBlank a && isBlank b) = false) a l := by
  induction l with
  | nil => intro a; rfl
  | cons b l ih =>
    intro a
    rw [trimEmptyLines_loop_cons]
    by_cases hab : isBlank b = true ∧ isBlank a = true
    · have hr : ¬ ((isBlank a && isBlank b) = false) := by simp [hab.1, hab.2]
      rw [if_pos hab, List.destutter'_cons, if_neg hr]
      exact ih a
    · have hr : (isBlank a && isBlank b) = false := by
        cases h1 : isBlank a <;> cases h2 : isBlank b <;> simp_all
      rw [if_neg hab, List.destutter'_cons, if_pos hr, ih b]

/-- The normal form that `trimEmptyLines` computes: runs of empty lines
collapsed to one, then the empty lines at the start and at the end dropped. -/
theorem trimEmptyLines_eq_normalize (l : List Str) :
    trimEmptyLines l = normalizeBlankLines l := by
  rw [trimEmptyLines_eq, normalizeBlankLines, collapseBlankRuns]
  cases l with
  | nil => rfl
  | cons a rest =>
    rw [← dropWhile_trimEmptyLines_loop, trimEmptyLines_loop_destutter]
    rfl

/-- C20: when the per-line tag stripping leaves at least one non-empty line,
`buildBodyFromLines` returns, and its body is the newline-join of
`trimEmptyLines` applied to the stripped lines, which is the stripped lines
with every run of two or more consecutive empty lines collapsed to one and the
empty lines at the start and at the end removed. -/
theorem buildBodyFromLines_body_eq_trimEmptyLines (env : Env) (lines : List Str)
    (hne : ∃ l ∈ strippedLines env lines, l ≠ []) :
    (∃ tags, buildBodyFromLines env lines =
      some (strings.Join (trimEmptyLines (strippedLines env lines)) "\n".toList, tags)) ∧
    trimEmptyLines (strippedLines env lines) = normalizeBlankLines (strippedLines env lines) := by
  have hnil : ¬ trimEmptyLines_loop (strippedLines env lines) true = [] := by
    rw [trimEmptyLines_loop_eq_nil_iff]
    intro hall
    obtain ⟨l, hl, hne⟩ := hne
    exact hne (hall l hl)
  refine ⟨⟨env.removeDuplicateStrings (lines.map fun l => (removeHashTags env l).2).flatten,
    ?_⟩, trimEmptyLines_eq_normalize _⟩
  rw [buildBodyFromLines_eq, if_neg hnil]

/-- C20 (witness): the lines `#t`, empty, `a`, empty, empty, `b #u`, empty. -/
theorem buildBodyFromLines_body_eq_trimEmptyLines_witness :
    strippedLines demoEnv ["#t".toList, [], "a".toList, [], [], "b #u".toList, []] =
      [[], [], "a".toList, [], [], "b".toList, []] ∧
    normalizeBlankLines [[], [], "a".toList, [], [], "b".toList, []] =
      ["a".toList, [], "b".toList] ∧
    ∃ tags, buildBodyFromLines demoEnv
        ["#t".toList, [], "a".toList, [], [], "b #u".toList, []] =
      some (strings.Join (trimEmptyLines
        (strippedLines demoEnv ["#t".toList, [], "a".toList, [], [], "b #u".toList, []]))
        "\n".toList, tags) :=
  ⟨by decide, by decide,
    (buildBodyFromLines_body_eq_trimEmptyLines demoEnv
      ["#t".toList, [], "a".toList, [], [], "b #u".toList, []]
      ⟨"a".toList, by decide, by decide⟩).1⟩

/-! ## Trailing tags of every line -/

/-- The lines of a text with trailing tags only: `removeHashTags` returns the
text and the lowercased tags, last tag first. -/
theorem removeHashTags_trailing (env : Env) (us : List Str) (text : Str)
    (hus : ∀ u ∈ us, ' ' ∉ u ∧ '#' ∉ u)
    (htext : text ≠ []) (hhash : '#' ∉ text)
    (hfirst : text.head? ≠ some ' ') (hlast : text.getLast? ≠ some ' ') :
    removeHashTags env (text ++ trailingTagText us) =
      (text, us.reverse.map (strings.ToLower env)) := by
  have hrest1 : (text ++ trailingTagText us).head? ≠ some '#' := by
    cases text with
    | nil => exact absurd rfl htext
    | cons c cs =>
      simp only [List.cons_append, List.head?_cons, ne_eq, Option.some.injEq]
      intro hc
      exact hhash (hc ▸ List.mem_cons_self _ _)
  have hrest2 : (text ++ trailingTagText us).head? ≠ some ' ' := by
    cases text with
    | nil => exact absurd rfl htext
    | cons c cs => simpa using hfirst
  have hstart := removeHashTags_start_leading [] (text ++ trailingTagText us) []
    ((text ++ trailingTagText us).length + 1) (by simp) hrest1 hrest2 (by simp)
  have htrim : strings.TrimRight (text ++ trailingTagText us) " ".toList =
      text ++ trailingTagText us :=
    TrimRight_space_of_getLast _ (text_trailing_getLast text us (fun u hu => (hus u hu).1) hlast)
  have hend := removeHashTags_end_trailing text us []
    ((text ++ trailingTagText us).length + 1) hus hhash hlast
    (by
      have := trailingTagText_length us
      simp only [List.length_append]
      omega)
  simp only [leadingTagText, List.map_nil, List.flatten_nil, List.nil_append,
    List.append_nil] at hstart
  simp only [removeHashTags, hstart, List.nil_append, htrim, hend]

theorem mem_rdropWhile_of_neg {α : Type} (p : α → Bool) (l : List α) (x : α)
    (hx : x ∈ l) (hp : ¬ p x = true) : x ∈ l.rdropWhile p := by
  induction l using List.reverseRecOn with
  | nil => cases hx
  | append_singleton r y ih =>
    by_cases hy : p y = true
    · rw [List.rdropWhile_concat_pos _ _ _ hy]
      rcases List.mem_append.mp hx with h | h
      · exact ih h
      · simp only [List.mem_singleton] at h
        exact absurd (h ▸ hy) hp
    · rw [List.rdropWhile_concat_neg _ _ _ hy]
      exact hx

theorem mem_trimEmptyLines_loop_of_nonblank (l : List Str) (x : Str) (hne : x ≠ []) :
    ∀ p : Bool, x ∈ l → x ∈ trimEmptyLines_loop l p := by
  induction l with
  | nil => intro p hx; cases hx
  | cons a l ih =>
    intro p hx
    rw [trimEmptyLines_loop_cons]
    rcases List.mem_cons.mp hx with h | h
    · subst h
      have hb : ¬ isBlank x = true := by simpa [isBlank] using hne
      rw [if_neg (fun hc => hb hc.1)]
      exact List.mem_cons_self _ _
    · split_ifs
      · exact ih p h
      · exact List.mem_cons_of_mem _ (ih _ h)

/-- A non-empty line stays in the trimmed lines. -/
theorem mem_trimEmptyLines_of_nonblank (l : List Str) (x : Str) (hne : x ≠ [])
    (hx : x ∈ l) : x ∈ trimEmptyLines l := by
  rw [trimEmptyLines_eq]
  exact mem_rdropWhile_of_neg _ _ _ (mem_trimEmptyLines_loop_of_nonblank l x hne true hx)
    (by simpa [isBlank] using hne)

/-- C11 (counterexample): from the lines `a #x` and `b` the body is `a` and
`b`, not `a #x` and `b`, and the tag `x` is extracted: the `#x` that ends the
first line is taken as a trailing tag although a non-empty line follows. -/
theorem buildBodyFromLines_strips_inner_trailing_tag :
    buildBodyFromLines demoEnv ["a #x".toList, "b".toList] =
      some ("a\nb".toList, ["x".toList]) ∧
    buildBodyFromLines demoEnv ["a #x".toList, "b".toList] ≠
      some ("a #x\nb".toList, []) := by
  decide

/-- C11 (amended): `buildBodyFromLines` treats the `#word` tokens at the end
of every line as trailing tags, whether or not further lines follow.  For a
line made of a non-empty text without `#` and without a space at either end
followed by trailing tags ` #u1 ... #um` (tag words without space and without
`#`), with any lines before and after it: the line is stripped to the text,
`buildBodyFromLines` returns, its body is the newline-join of the trimmed
stripped lines, among which the text is, and every lowercased tag is among its
tags; this assumes of the library that `RemoveDuplicateStrings` keeps every
element of its argument. -/
theorem buildBodyFromLines_trailing_tags_of_every_line (env : Env) (pre post : List Str)
    (text : Str) (us : List Str)
    (hus : ∀ u ∈ us, ' ' ∉ u ∧ '#' ∉ u)
    (htext : text ≠ []) (hhash : '#' ∉ text)
    (hfirst : text.head? ≠ some ' ') (hlast : text.getLast? ≠ some ' ')
    (hdedup : ∀ l x, x ∈ l → x ∈ env.removeDuplicateStrings l) :
    strippedLines env (pre ++ (text ++ trailingTagText us) :: post) =
      strippedLines env pre ++ text :: strippedLines env post ∧
    text ∈ trimEmptyLines (strippedLines env pre ++ text :: strippedLines env post) ∧
    ∃ tags, buildBodyFromLines env (pre ++ (text ++ trailingTagText us) :: post) =
        some (strings.Join
          (trimEmptyLines (strippedLines env pre ++ text :: strippedLines env post))
          "\n".toList, tags) ∧
      ∀ u ∈ us, strings.ToLower env u ∈ tags := by
  have hline := removeHashTags_trailing env us text hus htext hhash hfirst hlast
  have hstrip : strippedLines env (pre ++ (text ++ trailingTagText us) :: post) =
      strippedLines env pre ++ text :: strippedLines env post := by
    simp only [strippedLines, List.map_append, List.map_cons, hline]
  have hmem : text ∈ strippedLines env pre ++ text :: strippedLines env post := by simp
  have hnil : ¬ trimEmptyLines_loop
      (strippedLines env (pre ++ (text ++ trailingTagText us) :: post)) true = [] := by
    rw [trimEmptyLines_loop_eq_nil_iff, hstrip]
    intro hall
    exact htext (hall text hmem)
  refine ⟨hstrip, mem_trimEmptyLines_of_nonblank _ _ htext hmem,
    env.removeDuplicateStrings
      ((pre ++ (text ++ trailingTagText us) :: post).map fun l => (removeHashTags env l).2).flatten,
    ?_, ?_⟩
  · rw [buildBodyFromLines_eq, if_neg hnil, hstrip]
  · intro u hu
    apply hdedup
    rw [List.mem_flatten]
    refine ⟨(removeHashTags env (text ++ trailingTagText us)).2,
      List.mem_map_of_mem _ (by simp), ?_⟩
    rw [hline]
    exact List.mem_map_of_mem _ (List.mem_reverse.mpr hu)

/-- C11 (witness): the amended statement at the lines `a #x` and `b`. -/
theorem buildBodyFromLines_trailing_tags_of_every_line_witness :
    "a".toList ++ trailingTagText ["x".toList] = "a #x".toList ∧
    strippedLines demoEnv ([] ++ ("a".toList ++ trailingTagText ["x".toList]) :: ["b".toList]) =
      strippedLines demoEnv [] ++ "a".toList :: strippedLines demoEnv ["b".toList] ∧
    trimEmptyLines (strippedLines demoEnv [] ++ "a".toList :: strippedLines demoEnv ["b".toList])
      = ["a".toList, "b".toList] :=
  ⟨by decide,
    (buildBodyFromLines_trailing_tags_of_every_line demoEnv [] ["b".toList] "a".toList
      ["x".toList] (by decide) (by decide) (by decide) (by decide) (by decide)
      (fun l x hx => (dedupFirst_mem l x).mpr hx)).1, by decide⟩

/-! ## Maps -/

theorem lookup_cons_self {α : Type} (a : Str) (b : α) (es : List (Str × α)) :
    List.lookup a ((a, b) :: es) = some b := by
  rw [List.lookup_cons, beq_self_eq_true]

theorem lookup_cons_ne {α : Type} (k a : Str) (b : α) (es : List (Str × α)) (h : k ≠ a) :
    List.lookup k ((a, b) :: es) = List.lookup k es := by
  rw [List.lookup_cons, beq_eq_false_iff_ne.mpr h]

theorem lookup_isSome_iff {α : Type} (m : GoMap α) (k : Str) :
    (m.lookup k).isSome = true ↔ k ∈ mapKeys m := by
  induction m with
  | nil =>
    simp only [List.lookup_nil, Option.isSome_none, Bool.false_eq_true, mapKeys, List.map_nil,
      List.not_mem_nil]
  | cons e m ih =>
    obtain ⟨a, b⟩ := e
    simp only [mapKeys, List.map_cons, List.mem_cons] at ih ⊢
    by_cases h : k = a
    · subst h
      rw [lookup_cons_self]
      simp only [Option.isSome_some, true_or]
    · rw [lookup_cons_ne k a b m h]
      simp only [h, false_or]
      exact ih

theorem lookup_map_set {α : Type} (m : GoMap α) (k k1 : Str) (v : α) :
    (m.map (fun e => if e.1 = k then (k, v) else e)).lookup k1 =
      if k1 = k then (m.lookup k).map (fun _ => v) else m.lookup k1 := by
  induction m with
  | nil =>
    simp only [List.map_nil, List.lookup_nil, Option.map_none', ite_self]
  | cons e m ih =>
    obtain ⟨a, b⟩ := e
    rw [List.map_cons]
    by_cases ha : a = k
    · subst ha
      simp only [if_true]
      by_cases h1 : k1 = a
      · subst h1
        rw [lookup_cons_self, lookup_cons_self, if_pos rfl]
        rfl
      · rw [lookup_cons_ne k1 a v _ h1, lookup_cons_ne k1 a b _ h1, ih, if_neg h1, if_neg h1]
    · simp only [ha, if_false]
      by_cases h1 : k1 = k
      · subst h1
        have hne : k1 ≠ a := fun h => ha h.symm
        rw [lookup_cons_ne k1 a b _ hne, lookup_cons_ne k1 a b _ hne, ih]
      · rw [if_neg h1]
        by_cases h2 : k1 = a
        · subst h2
          rw [lookup_cons_self, lookup_cons_self]
        · rw [lookup_cons_ne k1 a b _ h2, lookup_cons_ne k1 a b _ h2, ih, if_neg h1]

theorem lookup_append_single {α : Type} (m : GoMap α) (k k1 : Str) (v : α) :
    (m ++ [(k, v)]).lookup k1 =
      match m.lookup k1 with
      | some x => some x
      | none => if k1 = k then some v else none := by
  induction m with
  | nil =>
    rw [List.nil_append]
    by_cases h : k1 = k
    · subst h
      rw [lookup_cons_self]
      simp only [List.lookup_nil, if_true]
    · rw [lookup_cons_ne k1 k v _ h]
      simp only [List.lookup_nil, h, if_false]
  | cons e m ih =>
    obtain ⟨a, b⟩ := e
    rw [List.cons_append]
    by_cases h : k1 = a
    · subst h
      rw [lookup_cons_self, lookup_cons_self]
    · rw [lookup_cons_ne k1 a b _ h, lookup_cons_ne k1 a b _ h]
      exact ih

theorem mapGet_mapSet {α : Type} (m : GoMap α) (k k1 : Str) (v : α) :
    mapGet (mapSet m k v) k1 = if k1 = k then some v else mapGet m k1 := by
  unfold mapGet mapSet
  cases hk : m.lookup k with
  | some x =>
    simp only [Option.isSome_some, if_true]
    rw [lookup_map_set, hk]
    rfl
  | none =>
    simp only [Option.isSome_none, Bool.false_eq_true, if_false]
    rw [lookup_append_single]
    by_cases h : k1 = k
    · subst h
      rw [hk, if_pos rfl]
    · rw [if_neg h]
      cases m.lookup k1 with
      | none => simp only [h, if_false]
      | some y => simp only [h, if_false]

theorem mapKeys_mapSet {α : Type} (m : GoMap α) (k : Str) (v : α) :
    mapKeys (mapSet m k v) = if k ∈ mapKeys m then mapKeys m else mapKeys m ++ [k] := by
  by_cases hk : k ∈ mapKeys m
  · have hs := (lookup_isSome_iff m k).mpr hk
    rw [if_pos hk]
    simp only [mapSet, hs, if_true, mapKeys, List.map_map]
    apply List.map_congr_left
    intro e _
    by_cases he : e.1 = k
    · simp only [Function.comp, he, if_true]
    · simp only [Function.comp, he, if_false]
  · have hs : ¬ (m.lookup k).isSome = true := fun h => hk ((lookup_isSome_iff m k).mp h)
    rw [if_neg hk]
    have hs2 : (m.lookup k).isSome = false := Bool.eq_false_iff.mpr hs
    simp only [mapSet, hs2, Bool.false_eq_true, if_false, mapKeys, List.map_append,
      List.map_cons, List.map_nil]

theorem groupedBy_nil : GroupedBy [] [] := by
  refine ⟨List.nodup_nil, fun k => Iff.rfl, fun k => rfl⟩

theorem groupedBy_mapAppend (m : GoMap (List note)) (evs : List (Str × note)) (k : Str)
    (n : note) (h : GroupedBy m evs) : GroupedBy (mapAppend m k n) (evs ++ [(k, n)]) := by
  obtain ⟨h1, h2, h3⟩ := h
  refine ⟨?_, ?_, ?_⟩
  · rw [mapAppend, mapKeys_mapSet]
    split_ifs with hk
    · exact h1
    · exact List.Nodup.append h1 (List.nodup_singleton k) (by simpa using hk)
  · intro k1
    rw [mapAppend, mapKeys_mapSet]
    simp only [List.map_append, List.map_cons, List.map_nil, List.mem_append,
      List.mem_singleton, ← h2 k1]
    split_ifs with hk
    · constructor
      · exact Or.inl
      · rintro (h | rfl)
        · exact h
        · exact hk
    · simp
  · intro k1
    rw [mapAppend, mapGet_mapSet, List.filter_append, List.map_append, ← h3 k1]
    by_cases hk : k1 = k
    · subst hk; simp
    · have hk2 : ¬ k = k1 := fun h => hk h.symm
      simp [hk, hk2]

theorem groupedBy_readNotes_tags (n : note) (tags : List Str) :
    ∀ (m : GoMap (List note)) (evs : List (Str × note)), GroupedBy m evs →
      GroupedBy (readNotes_tags n tags m) (evs ++ tags.map fun t => (t, n)) := by
  induction tags with
  | nil => intro m evs h; simpa [readNotes_tags] using h
  | cons t rest ih =>
    intro m evs h
    have h1 := ih _ _ (groupedBy_mapAppend m evs t n h)
    simpa [readNotes_tags, mapAppend] using h1

theorem weekEvents_append (a b : List note) :
    weekEvents (a ++ b) = weekEvents a ++ weekEvents b := by
  simp [weekEvents]

theorem tagEvents_append (a b : List note) :
    tagEvents (a ++ b) = tagEvents a ++ tagEvents b := by
  simp [tagEvents]

/-- The loop over the notes of a day keeps the week index and the tag index
grouped by week key and by tag. -/
theorem readNotes_notes_maps (env : Env) (day : notesForDay) (notes : List note) :
    ∀ (g : Globals) (k : Nat) (ns : List note) (g1 : Globals) (k1 : Nat),
      readNotes_notes env day (timeFormat (calcWeekStart day.Day)) notes g k = some (ns, g1, k1) →
      GroupedBy g.notesWeekStartDayToNotes (weekEvents g.notesAllNotes) →
      GroupedBy g.notesTagToNotes (tagEvents g.notesAllNotes) →
      GroupedBy g1.notesWeekStartDayToNotes (weekEvents g1.notesAllNotes) ∧
        GroupedBy g1.notesTagToNotes (tagEvents g1.notesAllNotes) := by
  induction notes with
  | nil =>
    intro g k ns g1 k1 h hw ht
    simp only [readNotes_notes, Option.some.injEq, Prod.mk.injEq] at h
    obtain ⟨_, rfl, _⟩ := h
    exact ⟨hw, ht⟩
  | cons n rest ih =>
    intro g k ns g1 k1 h hw ht
    rw [readNotes_notes] at h
    split_ifs at h with hdup
    dsimp only at h
    split at h
    · cases h
    · rename_i ns2 g2 k2 hrec
      simp only [Option.some.injEq, Prod.mk.injEq] at h
      obtain ⟨_, rfl, _⟩ := h
      refine ih _ _ _ _ _ hrec ?_ ?_
      · have := groupedBy_mapAppend _ _ (timeFormat (calcWeekStart day.Day))
          (readNotes_stamp env day n) hw
        simpa [mapAppend, weekEvents_append, weekEvents, weekKey, readNotes_stamp] using this
      · have := groupedBy_readNotes_tags (readNotes_stamp env day n)
          (readNotes_stamp env day n).Tags _ _ ht
        simpa [tagEvents_append, tagEvents] using this

/-- The loop over the days keeps the week index and the tag index grouped. -/
theorem readNotes_days_maps (env : Env) (days : List notesForDay) :
    ∀ (g : Globals) (k : Nat) (ds : List notesForDay) (g1 : Globals) (k1 : Nat),
      readNotes_days env days g k = some (ds, g1, k1) →
      GroupedBy g.notesWeekStartDayToNotes (weekEvents g.notesAllNotes) →
      GroupedBy g.notesTagToNotes (tagEvents g.notesAllNotes) →
      GroupedBy g1.notesWeekStartDayToNotes (weekEvents g1.notesAllNotes) ∧
        GroupedBy g1.notesTagToNotes (tagEvents g1.notesAllNotes) := by
  induction days with
  | nil =>
    intro g k ds g1 k1 h hw ht
    simp only [readNotes_days, Option.some.injEq, Prod.mk.injEq] at h
    obtain ⟨_, rfl, _⟩ := h
    exact ⟨hw, ht⟩
  | cons day rest ih =>
    intro g k ds g1 k1 h hw ht
    rw [readNotes_days] at h
    split at h
    · cases h
    · rename_i ns g2 k2 hnotes
      split at h
      · cases h
      · rename_i ds2 g3 k3 hrec
        simp only [Option.some.injEq, Prod.mk.injEq] at h
        obtain ⟨_, rfl, _⟩ := h
        obtain ⟨hw2, ht2⟩ := readNotes_notes_maps env day day.Notes g k ns g2 k2 hnotes hw ht
        exact ih _ _ _ _ _ hrec hw2 ht2

/-! ## Sorting and reversing strings -/

theorem strLess_iff_lex (a : Str) : ∀ b : Str, strLess a b = true ↔ List.Lex (· < ·) a b := by
  induction a with
  | nil =>
    intro b
    cases b with
    | nil => simp [strLess]
    | cons y ys => simp [strLess, List.Lex.nil]
  | cons x xs ih =>
    intro b
    cases b with
    | nil => simp [strLess]
    | cons y ys =>
      simp only [strLess, Bool.or_eq_true, decide_eq_true_eq, Bool.and_eq_true, ih,
        List.Lex.cons_iff]
      constructor
      · rintro (h | ⟨rfl, h⟩)
        · exact List.Lex.rel h
        · exact List.Lex.cons h
      · intro h
        cases h with
        | cons h => exact Or.inr ⟨rfl, h⟩
        | rel h => exact Or.inl h

theorem strLess_irrefl (a : Str) : strLess a a = false := by
  cases h : strLess a a with
  | false => rfl
  | true =>
    haveI hirr : IsIrrefl (List Char) (List.Lex (· < ·)) := inferInstance
    exact absurd ((strLess_iff_lex a a).mp h) (hirr.irrefl a)

theorem strLess_trans (a b c : Str) (h1 : strLess a b = true) (h2 : strLess b c = true) :
    strLess a c = true := by
  haveI htr : IsTrans (List Char) (List.Lex (· < ·)) := inferInstance
  exact (strLess_iff_lex a c).mpr
    (htr.trans a b c ((strLess_iff_lex a b).mp h1) ((strLess_iff_lex b c).mp h2))

theorem strLess_trichotomy (a b : Str) :
    strLess a b = true ∨ a = b ∨ strLess b a = true := by
  haveI htri : IsTrichotomous (List Char) (List.Lex (· < ·)) := inferInstance
  rcases htri.trichotomous a b with h | h | h
  · exact Or.inl ((strLess_iff_lex a b).mpr h)
  · exact Or.inr (Or.inl h)
  · exact Or.inr (Or.inr ((strLess_iff_lex b a).mpr h))

theorem sortStrings_perm (a : List Str) : (sortStrings a).Perm a :=
  List.perm_insertionSort _ a

theorem strLess_asymm (x y : Str) (h : strLess x y = true) : strLess y x = false := by
  cases h2 : strLess y x with
  | false => rfl
  | true =>
    have := strLess_trans x y x h h2
    rw [strLess_irrefl] at this
    cases this

theorem sortStrings_sorted (a : List Str) :
    (sortStrings a).Pairwise (fun x y => strLess y x = false) := by
  haveI : IsTotal Str (fun x y => strLess y x = false) := ⟨fun x y => by
    cases h : strLess y x with
    | false => exact Or.inl rfl
    | true => exact Or.inr (strLess_asymm y x h)⟩
  haveI : IsTrans Str (fun x y => strLess y x = false) := ⟨fun x y z h1 h2 => by
    cases h : strLess z x with
    | false => rfl
    | true =>
      rcases strLess_trichotomy x y with h3 | h3 | h3
      · have := strLess_trans z x y h h3
        rw [h2] at this
        cases this
      · subst h3
        rw [h2] at h
        cases h
      · rw [h1] at h3
        cases h3⟩
  exact List.sorted_insertionSort _ a

/-- Sorted strings without a duplicate are strictly ascending. -/
theorem sortStrings_strict (a : List Str) (hnd : a.Nodup) :
    (sortStrings a).Pairwise (fun x y => strLess x y = true) := by
  have h1 := sortStrings_sorted a
  have h2 : (sortStrings a).Pairwise (fun x y => x ≠ y) :=
    (sortStrings_perm a).nodup_iff.mpr hnd
  refine (h1.and h2).imp ?_
  rintro x y ⟨hle, hne⟩
  rcases strLess_trichotomy x y with h | h | h
  · exact h
  · exact absurd h hne
  · rw [hle] at h
    cases h

theorem reverseStringArray_inv (a : List Str) (k : Nat) (hk : k ≤ a.length / 2) :
    ((List.range k).foldl reverseStringArray_step a).length = a.length ∧
    ∀ i, ((List.range k).foldl reverseStringArray_step a)[i]? =
      if i < k ∨ (a.length - k ≤ i ∧ i < a.length) then a[a.length - 1 - i]? else a[i]? := by
  induction k with
  | zero =>
    refine ⟨rfl, fun i => ?_⟩
    simp only [List.range_zero, List.foldl_nil, Nat.not_lt_zero, Nat.sub_zero, false_or]
    split_ifs with h
    · omega
    · rfl
  | succ k ih =>
    obtain ⟨hlen, hget⟩ := ih (by omega)
    rw [List.range_succ, List.foldl_append]
    simp only [List.foldl_cons, List.foldl_nil]
    set arr := (List.range k).foldl reverseStringArray_step a with harr
    have hk1 : k < a.length := by omega
    have hlast : a.length - k - 1 < a.length := by omega
    have hak : arr.getD k [] = a[k] := by
      rw [List.getD_eq_getElem?_getD, hget k, if_neg (by omega), List.getElem?_eq_getElem hk1]
      rfl
    have hal : arr.getD (a.length - k - 1) [] = a[a.length - k - 1] := by
      rw [List.getD_eq_getElem?_getD, hget _, if_neg (by omega),
        List.getElem?_eq_getElem hlast]
      rfl
    refine ⟨by simp [reverseStringArray_step, hlen], fun i => ?_⟩
    simp only [reverseStringArray_step, hak, hal, hlen, List.getElem?_set, List.length_set]
    by_cases h1 : a.length - k - 1 = i
    · subst h1
      rw [if_pos rfl, if_pos hlast, if_pos (by omega)]
      have : a.length - 1 - (a.length - k - 1) = k := by omega
      rw [this, List.getElem?_eq_getElem hk1]
    · rw [if_neg h1]
      by_cases h2 : k = i
      · subst h2
        rw [if_pos rfl, if_pos hk1, if_pos (by omega)]
        have : a.length - 1 - k = a.length - k - 1 := by omega
        rw [this, List.getElem?_eq_getElem hlast]
      · rw [if_neg h2, hget i]
        by_cases h3 : i < k ∨ (a.length - k ≤ i ∧ i < a.length)
        · rw [if_pos h3, if_pos (by omega)]
        · rw [if_neg h3, if_neg (by omega)]

/-- `reverseStringArray` leaves the reversed slice. -/
theorem reverseStringArray_eq (a : List Str) : reverseStringArray a = a.reverse := by
  obtain ⟨hlen, hget⟩ := reverseStringArray_inv a (a.length / 2) (le_refl _)
  apply List.ext_getElem?
  intro i
  rw [reverseStringArray, hget i]
  by_cases hi : i < a.length
  · rw [List.getElem?_reverse hi]
    split_ifs with h
    · rfl
    · have : a.length - 1 - i = i := by omega
      rw [this]
  · have h1 : a.reverse[i]? = none := List.getElem?_eq_none (by simp; omega)
    have h2 : a[i]? = none := List.getElem?_eq_none (by omega)
    rw [h1, if_neg (by omega), h2]


/-! ## Dates and their formatted strings -/

/-- The year of the era and the day of that year, as `civilFromDays` computes
them from the day `a` of the era: the year starts on its day `365 b + b / 4 -
b / 100` of the era. -/
theorem civil_year_of_era (a e f g b c d : Int) (h0 : 0 ≤ a) (h1 : a ≤ 146096)
    (he : e = a / 1460) (hf : f = a / 36524) (hg : g = a / 146096)
    (hb : b = (a - e + f - g) / 365) (hc : c = b / 4) (hd : d = b / 100) :
    365 * b + c - d ≤ a ∧ a ≤ 365 * b + c - d + 365 ∧ b ≤ 399 ∧ 0 ≤ b ∧
      (a = 365 * b + c - d + 365 → b = 4 * c + 3 ∧ (b = 100 * d + 99 → b = 399)) := by
  have hf5 : f = 0 ∨ f = 1 ∨ f = 2 ∨ f = 3 ∨ f = 4 := by omega
  have hg2 : g = 0 ∨ g = 1 := by omega
  rcases hg2 with hg2 | hg2
  · rcases hf5 with hf5 | hf5 | hf5 | hf5 | hf5
    · have hb1 : b ≤ 99 := by omega
      have hb0 : 0 ≤ b := by omega
      have hd0 : d = 0 := by omega
      have hec : c ≤ e := by omega
      have hec2 : e ≤ c + 1 := by omega
      omega
    · have hb1 : b ≤ 199 := by omega
      have hb0 : 100 ≤ b := by omega
      have hd0 : d = 1 := by omega
      have hec : c ≤ e := by omega
      have hec2 : e ≤ c + 1 := by omega
      omega
    · have hb1 : b ≤ 299 := by omega
      have hb0 : 200 ≤ b := by omega
      have hd0 : d = 2 := by omega
      have hec : c ≤ e := by omega
      have hec2 : e ≤ c + 1 := by omega
      omega
    · have hb1 : b ≤ 399 := by omega
      have hb0 : 300 ≤ b := by omega
      have hd0 : d = 3 := by omega
      have hec : c ≤ e := by omega
      have hec2 : e ≤ c + 1 := by omega
      omega
    · omega
  · have ha : a = 146096 := by omega
    subst ha
    omega

theorem marchStart_add_era (y era : Int) :
    marchStart (y + era * 400) = marchStart y + era * 146097 := by
  have h4 : (y + era * 400) / 4 = y / 4 + era * 100 := by
    have := Int.add_mul_ediv_right y (era * 100) (show (4 : Int) ≠ 0 by norm_num)
    rw [show era * 100 * 4 = era * 400 by ring] at this
    exact this
  have h100 : (y + era * 400) / 100 = y / 100 + era * 4 := by
    have := Int.add_mul_ediv_right y (era * 4) (show (100 : Int) ≠ 0 by norm_num)
    rw [show era * 4 * 100 = era * 400 by ring] at this
    exact this
  have h400 : (y + era * 400) / 400 = y / 400 + era :=
    Int.add_mul_ediv_right y era (show (400 : Int) ≠ 0 by norm_num)
  unfold marchStart
  rw [h4, h100, h400]
  ring

/-- The year that starts in March in which the day `z` (counted from
0000-03-01) lies, from the era, the day of the era and the year of the era as
`civilFromDays` computes them. -/
theorem march_year (z era doe yoe : Int) (hera : era = z / 146097)
    (hdoe : doe = z - era * 146097)
    (hyoe : yoe = (doe - doe / 1460 + doe / 36524 - doe / 146096) / 365) :
    marchStart (yoe + era * 400) ≤ z ∧ z < marchStart (yoe + era * 400 + 1) ∧
      doe - (365 * yoe + yoe / 4 - yoe / 100) = z - marchStart (yoe + era * 400) := by
  obtain ⟨h1, h2, h3, h4, h5⟩ := civil_year_of_era doe (doe / 1460) (doe / 36524)
    (doe / 146096) yoe (yoe / 4) (yoe / 100) (by omega) (by omega) rfl rfl rfl
    (by rw [hyoe]) rfl rfl
  have hz : z = doe + era * 146097 := by omega
  clear hera hdoe hyoe
  have hS0 : marchStart yoe = 365 * yoe + yoe / 4 - yoe / 100 := by
    unfold marchStart
    omega
  have hS1 : doe < marchStart (yoe + 1) := by
    unfold marchStart
    have hcase : doe ≤ 365 * yoe + yoe / 4 - yoe / 100 + 364 ∨
        doe = 365 * yoe + yoe / 4 - yoe / 100 + 365 := by omega
    rcases hcase with hcase | hcase
    · clear h5
      omega
    · obtain ⟨h6, h7⟩ := h5 hcase
      by_cases h8 : yoe = 100 * (yoe / 100) + 99
      · have := h7 h8
        subst this
        omega
      · clear h5 h7
        omega
  have hY1 : yoe + era * 400 + 1 = (yoe + 1) + era * 400 := by ring
  refine ⟨?_, ?_, ?_⟩
  · rw [marchStart_add_era, hS0, hz]
    exact add_le_add_right h1 _
  · rw [hY1, marchStart_add_era, hz]
    exact add_lt_add_right hS1 _
  · rw [marchStart_add_era, hS0, hz]
    ring

/-- The year that starts in March and the day of that year, for every day
number: the day lies in the year, and `civilFromDays` derives month, day and
civil year from the day of the year. -/
theorem civilFromDays_march (t : Time) :
    ∃ y doy : Int,
      marchStart y ≤ t + 719468 ∧ t + 719468 < marchStart (y + 1) ∧
      doy = t + 719468 - marchStart y ∧
      civilFromDays t =
        (if (if (5 * doy + 2) / 153 < 10 then (5 * doy + 2) / 153 + 3
              else (5 * doy + 2) / 153 - 9) ≤ 2 then y + 1 else y,
          if (5 * doy + 2) / 153 < 10 then (5 * doy + 2) / 153 + 3 else (5 * doy + 2) / 153 - 9,
          doy - (153 * ((5 * doy + 2) / 153) + 2) / 5 + 1) := by
  obtain ⟨h1, h2, h3⟩ := march_year (t + 719468) _ _ _ rfl rfl rfl
  exact ⟨_, _, h1, h2, h3, rfl⟩


theorem marchStart_mono (a b : Int) (h : a ≤ b) : marchStart a ≤ marchStart b := by
  rcases eq_or_lt_of_le h with h | h
  · rw [h]
  · unfold marchStart
    omega

theorem marchStart_year_length (y : Int) :
    marchStart (y + 1) ≤ marchStart y + 366 := by
  unfold marchStart
  omega

/-- Month and day grow with the day of the year; January and February come
last, in the next civil year. -/
theorem civil_of_doy_lt (y d1 d2 : Int) (h0 : 0 ≤ d1) (h1 : d1 < d2) (h2 : d2 ≤ 365) :
    civilLt
      (if (if (5 * d1 + 2) / 153 < 10 then (5 * d1 + 2) / 153 + 3
            else (5 * d1 + 2) / 153 - 9) ≤ 2 then y + 1 else y,
        if (5 * d1 + 2) / 153 < 10 then (5 * d1 + 2) / 153 + 3 else (5 * d1 + 2) / 153 - 9,
        d1 - (153 * ((5 * d1 + 2) / 153) + 2) / 5 + 1)
      (if (if (5 * d2 + 2) / 153 < 10 then (5 * d2 + 2) / 153 + 3
            else (5 * d2 + 2) / 153 - 9) ≤ 2 then y + 1 else y,
        if (5 * d2 + 2) / 153 < 10 then (5 * d2 + 2) / 153 + 3 else (5 * d2 + 2) / 153 - 9,
        d2 - (153 * ((5 * d2 + 2) / 153) + 2) / 5 + 1) := by
  generalize hm1 : (5 * d1 + 2) / 153 = m1
  generalize hm2 : (5 * d2 + 2) / 153 = m2
  have hle : m1 ≤ m2 := by omega
  unfold civilLt
  dsimp only
  rcases eq_or_lt_of_le hle with he | hlt
  · subst he
    right
    refine ⟨rfl, Or.inr ⟨rfl, ?_⟩⟩
    omega
  · split_ifs <;> omega

/-- The month is 1 to 12 and the day 1 to 31. -/
theorem civil_of_doy_bounds (d : Int) (h0 : 0 ≤ d) (h2 : d ≤ 365) :
    1 ≤ (if (5 * d + 2) / 153 < 10 then (5 * d + 2) / 153 + 3 else (5 * d + 2) / 153 - 9) ∧
    (if (5 * d + 2) / 153 < 10 then (5 * d + 2) / 153 + 3 else (5 * d + 2) / 153 - 9) ≤ 12 ∧
    1 ≤ d - (153 * ((5 * d + 2) / 153) + 2) / 5 + 1 ∧
    d - (153 * ((5 * d + 2) / 153) + 2) / 5 + 1 ≤ 31 := by
  split_ifs <;> omega

/-- A later day has a later civil date. -/
theorem civilFromDays_lt (t1 t2 : Time) (h : t1 < t2) :
    civilLt (civilFromDays t1) (civilFromDays t2) := by
  obtain ⟨y1, doy1, a1, b1, c1, e1⟩ := civilFromDays_march t1
  obtain ⟨y2, doy2, a2, b2, c2, e2⟩ := civilFromDays_march t2
  unfold Time at *
  have hl1 := marchStart_year_length y1
  have hl2 := marchStart_year_length y2
  have hy : y1 ≤ y2 := by
    by_contra hc
    have := marchStart_mono (y2 + 1) y1 (by omega)
    omega
  rcases eq_or_lt_of_le hy with hy | hy
  · subst hy
    rw [e1, e2]
    exact civil_of_doy_lt y1 doy1 doy2 (by omega) (by omega) (by omega)
  · obtain ⟨m1a, m1b, d1a, d1b⟩ := civil_of_doy_bounds doy1 (by omega) (by omega)
    obtain ⟨m2a, m2b, d2a, d2b⟩ := civil_of_doy_bounds doy2 (by omega) (by omega)
    rw [e1, e2]
    unfold civilLt
    dsimp only
    generalize (if (5 * doy1 + 2) / 153 < 10 then (5 * doy1 + 2) / 153 + 3
      else (5 * doy1 + 2) / 153 - 9) = m1 at m1a m1b ⊢
    generalize (if (5 * doy2 + 2) / 153 < 10 then (5 * doy2 + 2) / 153 + 3
      else (5 * doy2 + 2) / 153 - 9) = m2 at m2a m2b ⊢
    split_ifs <;> omega

/-- The civil date of every day number has a month 1 to 12 and a day 1 to 31. -/
theorem civilFromDays_bounds (t : Time) :
    1 ≤ (civilFromDays t).2.1 ∧ (civilFromDays t).2.1 ≤ 12 ∧
    1 ≤ (civilFromDays t).2.2 ∧ (civilFromDays t).2.2 ≤ 31 := by
  obtain ⟨y, doy, a, b, c, e⟩ := civilFromDays_march t
  unfold Time at *
  have hl := marchStart_year_length y
  rw [e]
  exact civil_of_doy_bounds doy (by omega) (by omega)

/-- One step of the digit loop of `Nat.toDigits`, in base ten. -/
theorem toDigitsCore_succ (f n : Nat) (ds : List Char) :
    Nat.toDigitsCore 10 (f + 1) n ds =
      if n / 10 = 0 then Nat.digitChar (n % 10) :: ds
      else Nat.toDigitsCore 10 f (n / 10) (Nat.digitChar (n % 10) :: ds) := rfl

/-- The decimal digits of a number below 10000, padded to four places. -/
theorem appendInt_four (n : Nat) (h : n < 10000) :
    appendInt (n : Int) 4 =
      [Nat.digitChar (n / 1000), Nat.digitChar (n / 100 % 10), Nat.digitChar (n / 10 % 10),
        Nat.digitChar (n % 10)] := by
  have hneg : ¬ ((n : Int) < 0) := by omega
  simp only [appendInt, Int.natAbs_ofNat, hneg, if_false, List.nil_append, Nat.toDigits]
  by_cases h1 : n < 10
  · have e1 : n / 10 = 0 := by omega
    have e2 : n / 1000 = 0 := by omega
    have e3 : n / 100 = 0 := by omega
    rw [toDigitsCore_succ, if_pos e1, e1, e2, e3]
    rfl
  · by_cases h2 : n < 100
    · obtain ⟨m, rfl⟩ : ∃ m, n = m + 1 := ⟨n - 1, by omega⟩
      have e1 : ¬ (m + 1) / 10 = 0 := by omega
      have e2 : (m + 1) / 10 / 10 = 0 := by omega
      have e3 : (m + 1) / 1000 = 0 := by omega
      have e4 : (m + 1) / 100 = 0 := by omega
      rw [toDigitsCore_succ, if_neg e1, toDigitsCore_succ, if_pos e2, e3, e4]
      rfl
    · by_cases h3 : n < 1000
      · obtain ⟨m, rfl⟩ : ∃ m, n = m + 2 := ⟨n - 2, by omega⟩
        have e1 : ¬ (m + 2) / 10 = 0 := by omega
        have e2 : ¬ (m + 2) / 10 / 10 = 0 := by omega
        have e3 : (m + 2) / 10 / 10 / 10 = 0 := by omega
        have e4 : (m + 2) / 1000 = 0 := by omega
        have e5 : (m + 2) / 10 / 10 = (m + 2) / 100 := by omega
        rw [toDigitsCore_succ, if_neg e1, toDigitsCore_succ, if_neg e2, toDigitsCore_succ,
          if_pos e3, e4, e5]
        have e6 : (m + 2) / 100 % 10 = (m + 2) / 100 := by omega
        rw [e6]
        rfl
      · obtain ⟨m, rfl⟩ : ∃ m, n = m + 3 := ⟨n - 3, by omega⟩
        have e1 : ¬ (m + 3) / 10 = 0 := by omega
        have e2 : ¬ (m + 3) / 10 / 10 = 0 := by omega
        have e3 : ¬ (m + 3) / 10 / 10 / 10 = 0 := by omega
        have e4 : (m + 3) / 10 / 10 / 10 / 10 = 0 := by omega
        have e5 : (m + 3) / 10 / 10 = (m + 3) / 100 := by omega
        have e6 : (m + 3) / 10 / 10 / 10 = (m + 3) / 1000 := by omega
        rw [toDigitsCore_succ, if_neg e1, toDigitsCore_succ, if_neg e2, toDigitsCore_succ,
          if_neg e3, toDigitsCore_succ, if_pos e4, e6, e5]
        have e7 : (m + 3) / 1000 % 10 = (m + 3) / 1000 := by omega
        rw [e7]
        rfl

/-- The decimal digits of a number below 100, padded to two places. -/
theorem appendInt_two (n : Nat) (h : n < 100) :
    appendInt (n : Int) 2 = [Nat.digitChar (n / 10), Nat.digitChar (n % 10)] := by
  have hneg : ¬ ((n : Int) < 0) := by omega
  simp only [appendInt, Int.natAbs_ofNat, hneg, if_false, List.nil_append, Nat.toDigits]
  by_cases h1 : n < 10
  · have e1 : n / 10 = 0 := by omega
    rw [toDigitsCore_succ, if_pos e1, e1]
    rfl
  · obtain ⟨m, rfl⟩ : ∃ m, n = m + 1 := ⟨n - 1, by omega⟩
    have e1 : ¬ (m + 1) / 10 = 0 := by omega
    have e2 : (m + 1) / 10 / 10 = 0 := by omega
    rw [toDigitsCore_succ, if_neg e1, toDigitsCore_succ, if_pos e2]
    have e3 : (m + 1) / 10 % 10 = (m + 1) / 10 := by omega
    rw [e3]
    rfl

/-- The ten digit characters are ordered as their values. -/
theorem digitChar_lt_iff : ∀ a : Nat, a < 10 → ∀ b : Nat, b < 10 →
    (Nat.digitChar a < Nat.digitChar b ↔ a < b) ∧
    (Nat.digitChar a = Nat.digitChar b ↔ a = b) := by decide

/-- Comparing two strings that start with a decimal digit. -/
theorem strLess_digit (a b : Nat) (ha : a < 10) (hb : b < 10) (p q : Str) :
    strLess (Nat.digitChar a :: p) (Nat.digitChar b :: q) =
      (decide (a < b) || (decide (a = b) && strLess p q)) := by
  obtain ⟨l, e⟩ := digitChar_lt_iff a ha b hb
  rw [strLess]
  have e1 : decide (Nat.digitChar a < Nat.digitChar b) = decide (a < b) := decide_eq_decide.mpr l
  have e2 : decide (Nat.digitChar a = Nat.digitChar b) = decide (a = b) := decide_eq_decide.mpr e
  rw [e1, e2]

/-- Strings of digits of one width are ordered as their numbers: two places. -/
theorem strLess_two (a b : Nat) (ha : a < 100) (hb : b < 100) (x y : Str) :
    strLess (appendInt (a : Int) 2 ++ x) (appendInt (b : Int) 2 ++ y) =
      (decide (a < b) || (decide (a = b) && strLess x y)) := by
  rw [appendInt_two a ha, appendInt_two b hb]
  simp only [List.cons_append, List.nil_append]
  rw [strLess_digit _ _ (by omega) (by omega), strLess_digit _ _ (by omega) (by omega)]
  rw [Bool.eq_iff_iff]
  simp only [Bool.or_eq_true, Bool.and_eq_true, decide_eq_true_eq]
  constructor
  · rintro (h | ⟨h, h2 | ⟨h2, h3⟩⟩)
    · left; omega
    · left; omega
    · right; exact ⟨by omega, h3⟩
  · rintro (h | ⟨h, h3⟩)
    · by_cases hc : a / 10 < b / 10
      · left; exact hc
      · right; exact ⟨by omega, Or.inl (by omega)⟩
    · subst h
      right; exact ⟨rfl, Or.inr ⟨rfl, h3⟩⟩

/-- Strings of digits of one width are ordered as their numbers: four places. -/
theorem strLess_four (a b : Nat) (ha : a < 10000) (hb : b < 10000) (x y : Str) :
    strLess (appendInt (a : Int) 4 ++ x) (appendInt (b : Int) 4 ++ y) =
      (decide (a < b) || (decide (a = b) && strLess x y)) := by
  rw [appendInt_four a ha, appendInt_four b hb]
  simp only [List.cons_append, List.nil_append]
  rw [strLess_digit _ _ (by omega) (by omega), strLess_digit _ _ (by omega) (by omega),
    strLess_digit _ _ (by omega) (by omega), strLess_digit _ _ (by omega) (by omega)]
  rw [Bool.eq_iff_iff]
  simp only [Bool.or_eq_true, Bool.and_eq_true, decide_eq_true_eq]
  constructor
  · rintro (h | ⟨h, h2 | ⟨h2, h3 | ⟨h3, h4 | ⟨h4, h5⟩⟩⟩⟩)
    · left; omega
    · left; omega
    · left; omega
    · left; omega
    · right; exact ⟨by omega, h5⟩
  · rintro (h | ⟨h, h3⟩)
    · by_cases c3 : a / 1000 < b / 1000
      · left; exact c3
      · right
        refine ⟨by omega, ?_⟩
        by_cases c2 : a / 100 % 10 < b / 100 % 10
        · left; exact c2
        · right
          refine ⟨by omega, ?_⟩
          by_cases c1 : a / 10 % 10 < b / 10 % 10
          · left; exact c1
          · right; exact ⟨by omega, Or.inl (by omega)⟩
    · subst h
      right; exact ⟨rfl, Or.inr ⟨rfl, Or.inr ⟨rfl, Or.inr ⟨rfl, h3⟩⟩⟩⟩

/-- The first day of the year 0 and the last day of the year 9999. -/
theorem civilFromDays_year_range (t : Time) (h0 : -719528 ≤ t) (h1 : t ≤ 2932896) :
    0 ≤ (civilFromDays t).1 ∧ (civilFromDays t).1 ≤ 9999 := by
  have elo : civilFromDays (-719528) = (0, 1, 1) := by decide
  have ehi : civilFromDays 2932896 = (9999, 12, 31) := by decide
  constructor
  · rcases eq_or_lt_of_le h0 with h | h
    · rw [← h, elo]
    · have := civilFromDays_lt _ _ h
      rw [elo] at this
      obtain ⟨_, _, _, _⟩ := civilFromDays_bounds t
      unfold civilLt at this
      dsimp only at this
      omega
  · rcases eq_or_lt_of_le h1 with h | h
    · rw [h, ehi]
    · have := civilFromDays_lt _ _ h
      rw [ehi] at this
      obtain ⟨_, _, _, _⟩ := civilFromDays_bounds t
      unfold civilLt at this
      dsimp only at this
      omega

/-- For days of the years 0 to 9999 the formatted strings are ordered as the
days are. -/
theorem timeFormat_strLess (t1 t2 : Time) (h1 : firstFourDigitDay ≤ t1)
    (h1b : t1 ≤ lastFourDigitDay) (h2 : firstFourDigitDay ≤ t2) (h2b : t2 ≤ lastFourDigitDay) :
    strLess (timeFormat t1) (timeFormat t2) = true ↔ t1 < t2 := by
  have hfirst : firstFourDigitDay = -719528 := by decide
  have hlast : lastFourDigitDay = 2932896 := by decide
  rw [hfirst] at h1 h2
  rw [hlast] at h1b h2b
  have key : ∀ u v : Time, -719528 ≤ u → u ≤ 2932896 → -719528 ≤ v → v ≤ 2932896 → u < v →
      strLess (timeFormat u) (timeFormat v) = true := by
    intro u v hu hub hv hvb huv
    have hlt := civilFromDays_lt u v huv
    obtain ⟨ya, yb⟩ := civilFromDays_year_range u hu hub
    obtain ⟨za, zb⟩ := civilFromDays_year_range v hv hvb
    obtain ⟨ma, mb, da, db⟩ := civilFromDays_bounds u
    obtain ⟨na, nb, ea, eb⟩ := civilFromDays_bounds v
    unfold timeFormat
    dsimp only
    generalize civilFromDays u = cu at *
    generalize civilFromDays v = cv at *
    obtain ⟨y, m, d⟩ := cu
    obtain ⟨z, n, e⟩ := cv
    unfold civilLt at hlt
    dsimp only at *
    lift y to ℕ using ya
    lift z to ℕ using za
    lift m to ℕ using (by omega)
    lift n to ℕ using (by omega)
    lift d to ℕ using (by omega)
    lift e to ℕ using (by omega)
    simp only [List.append_assoc]
    rw [strLess_four y z (by omega) (by omega)]
    simp only [List.singleton_append, List.cons_append, List.nil_append]
    have hdash : ∀ p q : Str, strLess ('-' :: p) ('-' :: q) = strLess p q := by
      intro p q
      simp [strLess]
    rw [hdash, strLess_two m n (by omega) (by omega), hdash]
    have hlast := strLess_two d e (by omega) (by omega) [] []
    simp only [List.append_nil] at hlast
    rw [hlast]
    simp only [Bool.or_eq_true, Bool.and_eq_true, decide_eq_true_eq]
    have hnil : strLess [] [] = false := rfl
    rw [hnil]
    simp only [Bool.false_eq_true, and_false, or_false]
    omega
  constructor
  · intro h
    by_contra hc
    rcases eq_or_lt_of_le (not_lt.mp hc) with he | hl
    · rw [he] at h
      rw [strLess_irrefl] at h
      exact Bool.false_ne_true h
    · have hr := strLess_asymm _ _ (key t2 t1 h2 h2b h1 h1b hl)
      rw [h] at hr
      exact Bool.noConfusion hr
  · exact key t1 t2 h1 h1b h2 h2b

/-! ## The indexes after a load -/

/-- The shape of a successful load: the file parses into days, the index loop
returns, and the returned globals are those of the loop with the day list, the
tag counts and the week keys set. -/
theorem readNotes_loaded (env : Env) (g : Globals) (fileLines : List Str) (w : World)
    (g1 : Globals) (w1 : World) (hg : g.notesAllNotes = [])
    (h : readNotes env g fileLines w = some (none, g1, w1)) :
    ∃ days w0 days1 g2 k,
      readNotesFoDay env fileLines w = some (days, w0) ∧
      readNotes_days env days
        { notesDays := days, notesTagToNotes := [], notesIDToNote := [], notesTagCounts := []
          notesAllNotes := [], notesWeekStartDayToNotes := [], notesWeekStarts := [] } 0 =
          some (days1, g2, k) ∧
      g1.notesAllNotes = g2.notesAllNotes ∧
      g1.notesWeekStartDayToNotes = g2.notesWeekStartDayToNotes ∧
      g1.notesTagToNotes = g2.notesTagToNotes ∧
      g1.notesTagCounts = (sortStrings (mapKeys g2.notesTagToNotes)).map (fun tag =>
        ({ Tag := tag, Count := ((mapGet g2.notesTagToNotes tag).getD []).length } :
          tagWithCount)) ∧
      g1.notesWeekStarts =
        reverseStringArray (sortStrings (mapKeys g2.notesWeekStartDayToNotes)) := by
  simp only [readNotes, hg, List.length_nil, lt_self_iff_false, if_false] at h
  cases hd : readNotesFoDay env fileLines w with
  | none => simp [hd] at h
  | some r =>
    obtain ⟨days, w0⟩ := r
    simp only [hd] at h
    cases hc : readNotes_chronology days with
    | some err => simp [hc] at h
    | none =>
      simp only [hc] at h
      cases hx : readNotes_days env days
          { notesDays := days, notesTagToNotes := [], notesIDToNote := [], notesTagCounts := []
            notesAllNotes := [], notesWeekStartDayToNotes := [], notesWeekStarts := [] } 0 with
      | none => simp [hx] at h
      | some v =>
        obtain ⟨days1, g2, k⟩ := v
        simp only [hx, Option.some.injEq, Prod.mk.injEq, true_and] at h
        obtain ⟨rfl, _⟩ := h
        exact ⟨days, w0, days1, g2, k, rfl, hx, rfl, rfl, rfl, rfl, rfl⟩

/-- After a successful load the week index and the tag index group the notes
of the corpus, and no note occurs twice in the corpus. -/
theorem readNotes_loaded_maps (env : Env) (g : Globals) (fileLines : List Str) (w : World)
    (g1 : Globals) (w1 : World) (hg : g.notesAllNotes = [])
    (h : readNotes env g fileLines w = some (none, g1, w1)) :
    GroupedBy g1.notesWeekStartDayToNotes (weekEvents g1.notesAllNotes) ∧
    GroupedBy g1.notesTagToNotes (tagEvents g1.notesAllNotes) ∧
    g1.notesAllNotes.Nodup := by
  obtain ⟨days, w0, days1, g2, k, _, hx, h1, h2, h3, _, _⟩ :=
    readNotes_loaded env g fileLines w g1 w1 hg h
  obtain ⟨hw, ht⟩ := readNotes_days_maps env days _ 0 days1 g2 k hx groupedBy_nil groupedBy_nil
  rw [h1, h2, h3]
  refine ⟨hw, ht, ?_⟩
  obtain ⟨hnone, hsome⟩ := readNotes_days_spec env days
    { notesDays := days, notesTagToNotes := [], notesIDToNote := [], notesTagCounts := []
      notesAllNotes := [], notesWeekStartDayToNotes := [], notesWeekStarts := [] } 0 rfl
  obtain ⟨hall, _⟩ := hsome days1 g2 k hx
  have hnd : (corpusIDs days).Nodup := by
    by_contra hc
    have : readNotes_days env days
        { notesDays := days, notesTagToNotes := [], notesIDToNote := [], notesTagCounts := []
          notesAllNotes := [], notesWeekStartDayToNotes := [], notesWeekStarts := [] } 0 = none :=
      hnone.mpr (fun hh => hc hh.1)
    rw [this] at hx
    cases hx
  rw [hall, List.nil_append]
  rw [← corpusNotes_IDs env days] at hnd
  exact List.Nodup.of_map _ hnd

theorem filter_eq_length_of_nodup {n : note} (l : List Str) (tag : Str) (hl : l.Nodup) :
    (l.filter ((fun e : Str × note => decide (e.1 = tag)) ∘ fun t => (t, n))).length =
      if tag ∈ l then 1 else 0 := by
  induction l with
  | nil => rfl
  | cons t rest ih =>
    obtain ⟨hnot, hrest⟩ := List.nodup_cons.mp hl
    rw [List.filter_cons]
    by_cases ht : t = tag
    · subst ht
      have h0 : ¬ t ∈ rest := hnot
      simp only [Function.comp, decide_True, if_true, List.length_cons, List.mem_cons, true_or]
      have := ih hrest
      simp only [Function.comp, h0, if_false] at this
      rw [this]
    · have ht2 : ¬ tag = t := fun h => ht h.symm
      simp only [Function.comp, ht, decide_False, Bool.false_eq_true, if_false, List.mem_cons,
        ht2, false_or]
      exact ih hrest

theorem tagEvents_filter_length (notes : List note) (tag : Str)
    (hnd : ∀ n ∈ notes, n.Tags.Nodup) :
    (((tagEvents notes).filter (fun e => decide (e.1 = tag))).map Prod.snd).length =
      (notes.filter (fun n => decide (tag ∈ n.Tags))).length := by
  induction notes with
  | nil => rfl
  | cons n rest ih =>
    have hn : n.Tags.Nodup := hnd n (List.mem_cons_self _ _)
    have ih2 := ih (fun m hm => hnd m (List.mem_cons_of_mem _ hm))
    have hcons : tagEvents (n :: rest) = (n.Tags.map fun t => (t, n)) ++ tagEvents rest := by
      simp [tagEvents]
    have hfirst : ((n.Tags.map fun t => (t, n)).filter (fun e => decide (e.1 = tag))).length =
        if tag ∈ n.Tags then 1 else 0 := by
      rw [List.filter_map, List.length_map]
      exact filter_eq_length_of_nodup n.Tags tag hn
    simp only [List.length_map] at ih2 ⊢
    rw [hcons, List.filter_append, List.length_append, hfirst, ih2, List.filter_cons]
    by_cases hm : tag ∈ n.Tags
    · simp [hm]; omega
    · simp [hm]

theorem weekEvents_filter (notes : List note) (key : Str) :
    ((weekEvents notes).filter (fun e => decide (e.1 = key))).map Prod.snd =
      notes.filter (fun n => decide (weekKey n = key)) := by
  induction notes with
  | nil => rfl
  | cons n rest ih =>
    simp only [weekEvents, List.map_cons, List.filter_cons] at ih ⊢
    by_cases hk : weekKey n = key
    · simp only [hk, decide_True, if_true, List.map_cons, ih]
    · simp only [hk, decide_False, Bool.false_eq_true, if_false, ih]

/-- C16: after a successful load, `notesWeekStarts` is the reversal of the keys
of `notesWeekStartDayToNotes` sorted ascending: it holds every key once and no
other string, and it is strictly descending in the order of Go strings.  This
rests on `reverseStringArray` leaving the exact reversal of its argument.
Every entry is the formatted week start of a note of the corpus, and among
week starts of the years 0 to 9999 an earlier entry is a later day: the most
recent week is first. -/
theorem readNotes_weekStarts_sorted (env : Env) (g : Globals) (fileLines : List Str) (w : World)
    (g1 : Globals) (w1 : World) (hg : g.notesAllNotes = [])
    (h : readNotes env g fileLines w = some (none, g1, w1)) :
    g1.notesWeekStarts = (sortStrings (mapKeys g1.notesWeekStartDayToNotes)).reverse ∧
    g1.notesWeekStarts.Perm (mapKeys g1.notesWeekStartDayToNotes) ∧
    (mapKeys g1.notesWeekStartDayToNotes).Nodup ∧
    g1.notesWeekStarts.Nodup ∧
    g1.notesWeekStarts.Pairwise (fun a b => strLess b a = true) ∧
    (∀ a : List Str, reverseStringArray a = a.reverse) ∧
    (∀ key ∈ g1.notesWeekStarts, ∃ n ∈ g1.notesAllNotes,
      key = timeFormat (calcWeekStart n.Day)) ∧
    g1.notesWeekStarts.Pairwise (fun a b => ∀ t1 t2 : Time,
      a = timeFormat t1 → b = timeFormat t2 →
      firstFourDigitDay ≤ t1 → t1 ≤ lastFourDigitDay →
      firstFourDigitDay ≤ t2 → t2 ≤ lastFourDigitDay → t2 < t1) := by
  obtain ⟨hw, _, _⟩ := readNotes_loaded_maps env g fileLines w g1 w1 hg h
  obtain ⟨days, w0, days1, g2, k, _, _, _, h2, _, _, h5⟩ :=
    readNotes_loaded env g fileLines w g1 w1 hg h
  have hnd := hw.1
  have heq : g1.notesWeekStarts = (sortStrings (mapKeys g1.notesWeekStartDayToNotes)).reverse := by
    rw [h5, h2, reverseStringArray_eq]
  have hperm : g1.notesWeekStarts.Perm (mapKeys g1.notesWeekStartDayToNotes) := by
    rw [heq]
    exact (List.reverse_perm _).trans (sortStrings_perm _)
  have hdesc : g1.notesWeekStarts.Pairwise (fun a b => strLess b a = true) := by
    rw [heq, List.pairwise_reverse]
    exact sortStrings_strict _ hnd
  refine ⟨heq, hperm, hnd, hperm.nodup_iff.mpr hnd, hdesc, reverseStringArray_eq, ?_, ?_⟩
  · intro key hkey
    have hk := (hw.2.1 key).mp (hperm.mem_iff.mp hkey)
    obtain ⟨e, he, hfst⟩ := List.mem_map.mp hk
    obtain ⟨n, hn, hne⟩ := List.mem_map.mp he
    refine ⟨n, hn, ?_⟩
    rw [← hfst, ← hne]
    rfl
  · refine hdesc.imp ?_
    intro a b hba t1 t2 ha hb h1 h1b h2 h2b
    rw [ha, hb] at hba
    exact (timeFormat_strLess t2 t1 h2 h2b h1 h1b).mp hba

/-- C16 (witness): the corpus of three days in two weeks has the week keys
2020-01-06 and 2019-12-30, in this order: the days 18267 and 18260, the later
one first. -/
theorem readNotes_weekStarts_sorted_witness :
    noGlobals.notesAllNotes = [] ∧
    readNotes demoEnv noGlobals corpusWeeks world0 =
      some (none, loadedWeeks.2.1, loadedWeeks.2.2) ∧
    loadedWeeks.2.1.notesWeekStarts = ["2020-01-06".toList, "2019-12-30".toList] ∧
    "2020-01-06".toList = timeFormat 18267 ∧ "2019-12-30".toList = timeFormat 18260 ∧
    firstFourDigitDay ≤ 18260 ∧ 18267 ≤ lastFourDigitDay ∧
    loadedWeeks.2.1.notesWeekStarts.Pairwise (fun a b => strLess b a = true) ∧
    loadedWeeks.2.1.notesWeekStarts.Pairwise (fun a b => ∀ t1 t2 : Time,
      a = timeFormat t1 → b = timeFormat t2 →
      firstFourDigitDay ≤ t1 → t1 ≤ lastFourDigitDay →
      firstFourDigitDay ≤ t2 → t2 ≤ lastFourDigitDay → t2 < t1) :=
  ⟨rfl, by decide, by decide, by decide, by decide, by decide, by decide,
    (readNotes_weekStarts_sorted demoEnv noGlobals corpusWeeks world0 loadedWeeks.2.1
      loadedWeeks.2.2 rfl (by decide)).2.2.2.2.1,
    (readNotes_weekStarts_sorted demoEnv noGlobals corpusWeeks world0 loadedWeeks.2.1
      loadedWeeks.2.2 rfl (by decide)).2.2.2.2.2.2.2⟩

/-- C17: after a successful load in which no note bears a tag twice,
`notesTagCounts` is strictly ascending by tag name in the order of Go strings,
so it has no tag twice; its tags are exactly the tags borne by some note of the
corpus; and the count of every pair is the number of notes of the corpus whose
tag list contains the tag. -/
theorem readNotes_tagCounts (env : Env) (g : Globals) (fileLines : List Str) (w : World)
    (g1 : Globals) (w1 : World) (hg : g.notesAllNotes = [])
    (h : readNotes env g fileLines w = some (none, g1, w1))
    (htags : ∀ n ∈ g1.notesAllNotes, n.Tags.Nodup) :
    (g1.notesTagCounts.map fun tc => tc.Tag).Pairwise (fun a b => strLess a b = true) ∧
    (g1.notesTagCounts.map fun tc => tc.Tag).Nodup ∧
    (∀ tag, tag ∈ (g1.notesTagCounts.map fun tc => tc.Tag) ↔
      ∃ n ∈ g1.notesAllNotes, tag ∈ n.Tags) ∧
    ∀ tc ∈ g1.notesTagCounts,
      tc.Count = (g1.notesAllNotes.filter (fun n => decide (tc.Tag ∈ n.Tags))).length := by
  obtain ⟨_, ht, _⟩ := readNotes_loaded_maps env g fileLines w g1 w1 hg h
  obtain ⟨days, w0, days1, g2, k, _, _, _, _, h3, h4, _⟩ :=
    readNotes_loaded env g fileLines w g1 w1 hg h
  rw [← h3] at h4
  obtain ⟨hnd, hkeys, hget⟩ := ht
  have hmap : (g1.notesTagCounts.map fun tc => tc.Tag) =
      sortStrings (mapKeys g1.notesTagToNotes) := by
    rw [h4, List.map_map]
    exact List.map_id _
  have hperm := sortStrings_perm (mapKeys g1.notesTagToNotes)
  refine ⟨?_, ?_, ?_, ?_⟩
  · rw [hmap]
    exact sortStrings_strict _ hnd
  · rw [hmap]
    exact hperm.nodup_iff.mpr hnd
  · intro tag
    rw [hmap, hperm.mem_iff, hkeys tag]
    simp only [tagEvents, List.map_flatten, List.map_map, List.mem_flatten, List.mem_map]
    constructor
    · rintro ⟨l, ⟨n, hn, rfl⟩, hl⟩
      simp only [Function.comp, List.map_map, List.mem_map] at hl
      obtain ⟨t, ht, rfl⟩ := hl
      exact ⟨n, hn, ht⟩
    · rintro ⟨n, hn, ht⟩
      refine ⟨_, ⟨n, hn, rfl⟩, ?_⟩
      simp only [Function.comp, List.map_map, List.mem_map]
      exact ⟨tag, ht, rfl⟩
  · intro tc htc
    rw [h4] at htc
    obtain ⟨tag, _, rfl⟩ := List.mem_map.mp htc
    simp only []
    rw [hget tag]
    exact tagEvents_filter_length _ tag htags

/-- C17 (witness): the corpus of three days has the tag counts `idea` 2 and
`work` 2. -/
theorem readNotes_tagCounts_witness :
    noGlobals.notesAllNotes = [] ∧
    readNotes demoEnv noGlobals corpusWeeks world0 =
      some (none, loadedWeeks.2.1, loadedWeeks.2.2) ∧
    (∀ n ∈ loadedWeeks.2.1.notesAllNotes, n.Tags.Nodup) ∧
    loadedWeeks.2.1.notesTagCounts =
      [{ Tag := "idea".toList, Count := 2 }, { Tag := "work".toList, Count := 2 }] ∧
    ∀ tc ∈ loadedWeeks.2.1.notesTagCounts,
      tc.Count =
        (loadedWeeks.2.1.notesAllNotes.filter (fun n => decide (tc.Tag ∈ n.Tags))).length :=
  ⟨rfl, by decide, by decide, by decide,
    (readNotes_tagCounts demoEnv noGlobals corpusWeeks world0 loadedWeeks.2.1
      loadedWeeks.2.2 rfl (by decide) (by decide)).2.2.2⟩

/-- C18: after a successful load the week index partitions the corpus: the
list at every key is the notes of `notesAllNotes`, in order, whose day has
that week start; the keys are the week starts of the notes, each once; no
note occurs twice in the corpus, so a note occurs once in the list at the week
start of its day and in no other list. -/
theorem readNotes_week_index_partitions (env : Env) (g : Globals) (fileLines : List Str)
    (w : World) (g1 : Globals) (w1 : World) (hg : g.notesAllNotes = [])
    (h : readNotes env g fileLines w = some (none, g1, w1)) :
    (∀ key, (mapGet g1.notesWeekStartDayToNotes key).getD [] =
      g1.notesAllNotes.filter (fun n => decide (timeFormat (calcWeekStart n.Day) = key))) ∧
    (∀ key, key ∈ mapKeys g1.notesWeekStartDayToNotes ↔
      ∃ n ∈ g1.notesAllNotes, timeFormat (calcWeekStart n.Day) = key) ∧
    (mapKeys g1.notesWeekStartDayToNotes).Nodup ∧
    g1.notesAllNotes.Nodup ∧
    ∀ n ∈ g1.notesAllNotes, ∀ key,
      ((mapGet g1.notesWeekStartDayToNotes key).getD []).count n =
        if key = timeFormat (calcWeekStart n.Day) then 1 else 0 := by
  obtain ⟨⟨hnd, hkeys, hget⟩, _, hall⟩ := readNotes_loaded_maps env g fileLines w g1 w1 hg h
  have hlist : ∀ key, (mapGet g1.notesWeekStartDayToNotes key).getD [] =
      g1.notesAllNotes.filter (fun n => decide (timeFormat (calcWeekStart n.Day) = key)) := by
    intro key
    rw [hget key, weekEvents_filter]
    rfl
  refine ⟨hlist, ?_, hnd, hall, ?_⟩
  · intro key
    rw [hkeys key]
    simp only [weekEvents, List.map_map, List.mem_map, Function.comp, weekKey]
  · intro n hn key
    rw [hlist key]
    by_cases hk : key = timeFormat (calcWeekStart n.Day)
    · rw [if_pos hk, List.count_filter (by simp [hk])]
      exact List.count_eq_one_of_mem hall hn
    · rw [if_neg hk]
      apply List.count_eq_zero_of_not_mem
      intro hm
      have := (List.mem_filter.mp hm).2
      simp only [decide_eq_true_eq] at this
      exact hk this.symm

/-- C18 (witness): in the corpus of three days the two notes of 2020-01-08 and
2020-01-07 are the list at the key 2020-01-06, and the note of 2020-01-01 is
the list at the key 2019-12-30. -/
theorem readNotes_week_index_partitions_witness :
    noGlobals.notesAllNotes = [] ∧
    readNotes demoEnv noGlobals corpusWeeks world0 =
      some (none, loadedWeeks.2.1, loadedWeeks.2.2) ∧
    loadedWeeks.2.1.notesAllNotes.map (fun n => n.ID) =
      ["c".toList, "b".toList, "a".toList] ∧
    (loadedWeeks.2.1.notesWeekStartDayToNotes.map fun e => (e.1, e.2.map fun n => n.ID)) =
      [("2020-01-06".toList, ["c".toList, "b".toList]), ("2019-12-30".toList, ["a".toList])] ∧
    ∀ key, (mapGet loadedWeeks.2.1.notesWeekStartDayToNotes key).getD [] =
      loadedWeeks.2.1.notesAllNotes.filter
        (fun n => decide (timeFormat (calcWeekStart n.Day) = key)) :=
  ⟨rfl, by decide, by decide, by decide,
    (readNotes_week_index_partitions demoEnv noGlobals corpusWeeks world0 loadedWeeks.2.1
      loadedWeeks.2.2 rfl (by decide)).1⟩

/-! ## The two-phase substitution of URLs -/

theorem piecesAux_ne_nil (old : Str) (s : Str) : ∀ k, piecesAux old s k ≠ [] := by
  induction s with
  | nil => intro k; simp [piecesAux]
  | cons c cs ih =>
    intro k
    cases k with
    | succ k => simpa [piecesAux] using ih k
    | zero =>
      rw [piecesAux]
      split_ifs
      · simp
      · have := ih 0
        cases h : piecesAux old cs 0 with
        | nil => exact absurd h this
        | cons a l => simp [List.modifyHead]

theorem intercalate_cons_cons (sep a b : Str) (l : List Str) :
    sep.intercalate (a :: b :: l) = a ++ sep ++ sep.intercalate (b :: l) := by
  simp [List.intercalate, List.intersperse]

theorem intercalate_singleton (sep a : Str) : sep.intercalate [a] = a := by
  simp [List.intercalate, List.intersperse]

theorem intercalate_nil_cons (sep : Str) (l : List Str) (hl : l ≠ []) :
    sep.intercalate ([] :: l) = sep ++ sep.intercalate l := by
  cases l with
  | nil => exact absurd rfl hl
  | cons b l => rw [intercalate_cons_cons]; rfl

theorem intercalate_modifyHead (sep : Str) (c : Char) (l : List Str) (hl : l ≠ []) :
    sep.intercalate (l.modifyHead (List.cons c)) = c :: sep.intercalate l := by
  cases l with
  | nil => exact absurd rfl hl
  | cons a l =>
    cases l with
    | nil => simp [List.modifyHead, intercalate_singleton]
    | cons b l => simp [List.modifyHead, intercalate_cons_cons]

/-- Replacing is cutting at the occurrences and joining with the new text. -/
theorem ReplaceAux_eq_join (old new : Str) (s : Str) :
    ∀ k, strings.ReplaceAux old new s k = new.intercalate (piecesAux old s k) := by
  induction s with
  | nil => intro k; simp [strings.ReplaceAux, piecesAux, intercalate_singleton]
  | cons c cs ih =>
    intro k
    cases k with
    | succ k => rw [strings.ReplaceAux, piecesAux, ih k]
    | zero =>
      rw [strings.ReplaceAux, piecesAux]
      split_ifs
      · rw [intercalate_nil_cons _ _ (piecesAux_ne_nil old cs _), ih]
      · rw [intercalate_modifyHead _ _ _ (piecesAux_ne_nil old cs _), ih]

theorem Replace_eq_join (s old new : Str) (hold : old ≠ []) :
    strings.Replace s old new = strings.Join (pieces old s) new := by
  rw [strings.Replace, if_neg hold, ReplaceAux_eq_join]
  rfl

/-- The pieces joined with the old text give the text back. -/
theorem piecesAux_join (old : Str) (hold : old ≠ []) (s : Str) :
    ∀ k, old.intercalate (piecesAux old s k) = s.drop k := by
  induction s with
  | nil => intro k; simp [piecesAux, intercalate_singleton]
  | cons c cs ih =>
    intro k
    cases k with
    | succ k => rw [piecesAux, ih k]; rfl
    | zero =>
      rw [piecesAux]
      split_ifs with hp
      · rw [intercalate_nil_cons _ _ (piecesAux_ne_nil old cs _), ih]
        obtain ⟨t, ht⟩ := List.isPrefixOf_iff_prefix.mp hp
        cases old with
        | nil => exact absurd rfl hold
        | cons a as =>
          simp only [List.cons_append, List.cons.injEq] at ht
          obtain ⟨rfl, rfl⟩ := ht
          simp
      · rw [intercalate_modifyHead _ _ _ (piecesAux_ne_nil old cs _), ih]
        rfl

theorem pieces_join (old s : Str) (hold : old ≠ []) :
    strings.Join (pieces old s) old = s := by
  have := piecesAux_join old hold s 0
  simpa [strings.Join, pieces] using this

theorem isPrefixOf_length_le (p g : Str) (h : p.isPrefixOf g = true) : p.length ≤ g.length :=
  (List.isPrefixOf_iff_prefix.mp h).length_le

theorem ReplaceAux_skip (old new : Str) (t X : Str) :
    strings.ReplaceAux old new (t ++ X) t.length = strings.ReplaceAux old new X 0 := by
  induction t with
  | nil =>
    cases X with
    | nil => rfl
    | cons x xs => rfl
  | cons a as ih =>
    rw [List.cons_append, List.length_cons, strings.ReplaceAux]
    exact ih

theorem linkMarkup_ne_nil (url : Str) : linkMarkup url ≠ [] := by
  simp [linkMarkup]

theorem anchorsFrom_succ (env : Env) (k n : Nat) :
    anchorsFrom env k (n + 1) = env.genRandomString k :: anchorsFrom env (k + 1) n := by
  simp [anchorsFrom, List.range'_succ]

theorem noteToHTML_toAnchors_eq (env : Env) (urls : List Str) :
    ∀ (s : Str) (m : List (Str × Str)) (w : World),
      noteToHTML_toAnchors env urls s m w =
        (toAnchorsPairs (urls.zip (anchorsFrom env w.nRandom urls.length)) s,
          (urls.zip (anchorsFrom env w.nRandom urls.length)).reverse ++ m,
          { w with nRandom := w.nRandom + urls.length }) := by
  induction urls with
  | nil => intro s m w; rfl
  | cons url rest ih =>
    intro s m w
    rw [noteToHTML_toAnchors, ih, List.length_cons, anchorsFrom_succ, List.zip_cons_cons,
      List.reverse_cons, List.append_assoc]
    simp only [List.singleton_append, Prod.mk.injEq, true_and, World.mk.injEq]
    exact ⟨rfl, by omega, trivial⟩

theorem noteToHTML_toLinks_eq (m : List (Str × Str)) (urls : List Str) :
    ∀ s : Str, noteToHTML_toLinks m urls s =
      toLinksPairs (urls.map fun u => (u, (m.lookup u).getD [])) s := by
  induction urls with
  | nil => intro s; rfl
  | cons url rest ih =>
    intro s
    rw [noteToHTML_toLinks, ih]
    rfl

theorem lookup_of_mem_nodup (ps : List (Str × Str)) (hnd : (ps.map Prod.fst).Nodup)
    (u a : Str) (h : (u, a) ∈ ps) : ps.lookup u = some a := by
  induction ps with
  | nil => cases h
  | cons p rest ih =>
    obtain ⟨k, v⟩ := p
    simp only [List.map_cons, List.nodup_cons] at hnd
    rcases List.mem_cons.mp h with h1 | h1
    · simp only [Prod.mk.injEq] at h1
      obtain ⟨rfl, rfl⟩ := h1
      exact lookup_cons_self _ _ _
    · have hne : u ≠ k := by
        rintro rfl
        exact hnd.1 (List.mem_map.mpr ⟨(u, a), h1, rfl⟩)
      rw [lookup_cons_ne u k v rest hne]
      exact ih hnd.2 h1

theorem map_lookup_pairs (ps : List (Str × Str)) (hnd : (ps.map Prod.fst).Nodup) :
    ((ps.map Prod.fst).map fun u => (u, ((ps.reverse ++ []).lookup u).getD [])) = ps := by
  have hnd2 : ((ps.reverse ++ []).map Prod.fst).Nodup := by
    rw [List.append_nil, List.map_reverse]
    exact List.nodup_reverse.mpr hnd
  rw [List.map_map]
  conv_rhs => rw [← List.map_id ps]
  apply List.map_congr_left
  intro p hp
  obtain ⟨u, a⟩ := p
  have hmem : (u, a) ∈ ps.reverse ++ [] := by
    rw [List.append_nil]
    exact List.mem_reverse.mpr hp
  simp only [Function.comp, id]
  rw [lookup_of_mem_nodup _ hnd2 u a hmem]
  rfl

theorem map_lookup_zip (urls anchors : List Str) (hnd : urls.Nodup)
    (hlen : anchors.length = urls.length) :
    (urls.map fun u => (u, (((urls.zip anchors).reverse ++ []).lookup u).getD [])) =
      urls.zip anchors := by
  have hfst : (urls.zip anchors).map Prod.fst = urls :=
    List.map_fst_zip _ _ (by omega)
  have h := map_lookup_pairs (urls.zip anchors) (by rw [hfst]; exact hnd)
  rw [hfst] at h
  exact h

/-- The two loops of `noteToHTML` on a list of distinct URLs are the two loops
on the pairs of the URLs and their anchors. -/
theorem noteToHTML_substitute_eq (env : Env) (urls : List Str) (s : Str) (w : World)
    (hnd : urls.Nodup) :
    noteToHTML_substitute env urls s w =
      toLinksPairs (urls.zip (anchorsFrom env w.nRandom urls.length))
        (toAnchorsPairs (urls.zip (anchorsFrom env w.nRandom urls.length)) s) := by
  simp only [noteToHTML_substitute, noteToHTML_toAnchors_eq, noteToHTML_toLinks_eq]
  rw [map_lookup_zip urls _ hnd (by simp [anchorsFrom])]

theorem demoSortLongestFirst_sorted (urls : List Str) :
    (demoSortLongestFirst urls).Pairwise (fun a b => a.length ≥ b.length) := by
  haveI : IsTotal Str (fun a b => a.length ≥ b.length) :=
    ⟨fun a b => Nat.le_total b.length a.length⟩
  haveI : IsTrans Str (fun a b => a.length ≥ b.length) :=
    ⟨fun a b c h1 h2 => le_trans h2 h1⟩
  exact List.sorted_insertionSort _ urls

theorem linkAll_pair (u v text : Str) :
    linkAll [v, u] text =
      strings.Join ((pieces v text).map fun g => strings.Join (pieces u g) (linkMarkup u))
        (linkMarkup v) := by
  simp only [linkAll, List.map_id']

/-- Two distinct members of a list occur in it in one order or the other. -/
theorem sublist_pair_of_mem (l : List Str) (u v : Str) (hu : u ∈ l) (hv : v ∈ l)
    (hne : u ≠ v) : [u, v].Sublist l ∨ [v, u].Sublist l := by
  induction l with
  | nil => cases hu
  | cons x rest ih =>
    rcases List.mem_cons.mp hu with h1 | h1
    · rcases List.mem_cons.mp hv with h2 | h2
      · exact absurd (h1.trans h2.symm) hne
      · subst h1
        exact Or.inl (List.Sublist.cons₂ _ (List.singleton_sublist.mpr h2))
    · rcases List.mem_cons.mp hv with h2 | h2
      · subst h2
        exact Or.inr (List.Sublist.cons₂ _ (List.singleton_sublist.mpr h1))
      · rcases ih h1 h2 with h | h
        · exact Or.inl (List.Sublist.cons _ h)
        · exact Or.inr (List.Sublist.cons _ h)

/-! ## Week starts of Monday to Saturday -/

/-- C21: for a day that falls on Monday to Saturday `calcWeekStart` returns the
day that is `weekday - 1` days earlier, with Monday as weekday 1; that day is
a Monday, the one on or before the given day and at most five days before it;
for a Wednesday it is the day two days earlier. -/
theorem calcWeekStart_monday_of_week (t : Time) (h1 : 1 ≤ Weekday t) (h6 : Weekday t ≤ 6) :
    calcWeekStart t = t - (Weekday t - 1) ∧
    Weekday (calcWeekStart t) = 1 ∧
    shortDayName (Weekday (calcWeekStart t)) = "Mon".toList ∧
    calcWeekStart t ≤ t ∧ t - calcWeekStart t ≤ 5 ∧
    (Weekday t = 3 → calcWeekStart t = t - 2) := by
  have hoff : calcWeekStart t = t - (Weekday t - 1) := by
    unfold calcWeekStart
    unfold Time at *
    dsimp only
    omega
  have hmon : Weekday (calcWeekStart t) = 1 := by
    rw [hoff]
    unfold Weekday at *
    unfold Time at *
    omega
  refine ⟨hoff, hmon, ?_, ?_, ?_, ?_⟩
  · rw [hmon]; rfl
  · rw [hoff]; unfold Time at *; omega
  · rw [hoff]; unfold Time at *; omega
  · intro h3; rw [hoff, h3]; rfl

/-- C21 (witness): 2020-01-08 is a Wednesday; its week start is 2020-01-06, two
days earlier, a Monday. -/
theorem calcWeekStart_monday_of_week_witness :
    timeParse "2020-01-08".toList = some 18269 ∧ Weekday 18269 = 3 ∧
    1 ≤ Weekday 18269 ∧ Weekday 18269 ≤ 6 ∧
    timeFormatWithName (calcWeekStart 18269) = "2020-01-06 Mon".toList ∧
    calcWeekStart 18269 = 18269 - 2 ∧ Weekday (calcWeekStart 18269) = 1 :=
  ⟨by decide, by decide, by decide, by decide, by decide,
    (calcWeekStart_monday_of_week 18269 (by decide) (by decide)).2.2.2.2.2 (by decide),
    (calcWeekStart_monday_of_week 18269 (by decide) (by decide)).2.1⟩

/-! ## Inputs on which the body and the day list are not built -/

/-- C22 (the code at the failing input): on the single empty line, on a line
made of a tag only, and on empty and tag-only lines together
`buildBodyFromLines` does not return: the loop that removes empty lines from
the beginning indexes `lines[0]` of the slice it has emptied.  In general it
fails to return exactly when tag stripping leaves every line empty. -/
theorem buildBodyFromLines_aborts_iff_all_blank :
    buildBodyFromLines demoEnv [[]] = none ∧
    buildBodyFromLines demoEnv ["#tag".toList] = none ∧
    buildBodyFromLines demoEnv [[], "#a #b".toList, []] = none ∧
    buildBodyFromLines_dropFront [[]] = none ∧
    ∀ (env : Env) (lines : List Str),
      buildBodyFromLines env lines = none ↔ ∀ l ∈ lines, (removeHashTags env l).1 = [] := by
  refine ⟨by decide, by decide, by decide, by decide, ?_⟩
  intro env lines
  rw [buildBodyFromLines_eq]
  have hiff := trimEmptyLines_loop_eq_nil_iff (strippedLines env lines)
  constructor
  · intro h
    by_cases hc : trimEmptyLines_loop (strippedLines env lines) true = []
    · intro l hl
      exact hiff.mp hc _ (List.mem_map.mpr ⟨l, hl, rfl⟩)
    · rw [if_neg hc] at h
      exact Option.noConfusion h
  · intro h
    have hc : trimEmptyLines_loop (strippedLines env lines) true = [] := by
      apply hiff.mpr
      intro x hx
      obtain ⟨l, hl, rfl⟩ := List.mem_map.mp hx
      exact h l hl
    rw [if_pos hc]

/-- C24 (the code at the failing input): on no lines, and on lines none of
which is a day header, the scanner loop of `readNotesFoDay` ends with no
current day and the statement `curr.lines = lines` after it dereferences the
nil pointer, so no list is returned.  With a day header and none repeated the
result is that of building the days of the groups. -/
theorem readNotesFoDay_aborts_without_header :
    (∀ (env : Env) (w : World), readNotesFoDay env [] w = none) ∧
    (∀ (env : Env) (w : World),
      (readNotesFoDay_loop env []
        { seenDays := [], notes := [], curr := none, lines := [], world := w }).map
          (fun st => (st.curr, st.notes)) = some (none, [])) ∧
    readNotesFoDay demoEnv ["hello".toList, "---".toList, "world".toList] world0 = none ∧
    (∀ (env : Env) (fileLines : List Str) (w : World),
      dayHeaders (fileLines.map scanTrim) = [] → readNotesFoDay env fileLines w = none) ∧
    ∀ (env : Env) (fileLines : List Str) (w : World),
      (dayHeaders (fileLines.map scanTrim)).Nodup → dayHeaders (fileLines.map scanTrim) ≠ [] →
      readNotesFoDay env fileLines w =
        daysFromGroups env (dayGroups (fileLines.map scanTrim)) w := by
  refine ⟨fun _ _ => rfl, fun _ _ => rfl, by decide, ?_, ?_⟩
  · intro env fileLines w h
    rw [readNotesFoDay_eq, if_neg]
    exact fun hc => hc.2 h
  · intro env fileLines w h1 h2
    rw [readNotesFoDay_eq, if_pos ⟨h1, h2⟩]

/-! ## The shape of the tags -/

theorem hashesBeginWords_tail (c : Char) (cs : Str) (h : hashesBeginWords (c :: cs) = true) :
    hashesBeginWords cs = true := by
  cases cs with
  | nil => rfl
  | cons d rest =>
    simp only [hashesBeginWords, Bool.and_eq_true] at h
    exact h.2

theorem hashesBeginWords_of_suffix (a s : Str) (hs : a <:+ s) (h : hashesBeginWords s = true) :
    hashesBeginWords a = true := by
  obtain ⟨p, rfl⟩ := hs
  induction p with
  | nil => exact h
  | cons c p ih => exact ih (hashesBeginWords_tail c _ h)

/-- A string that starts with `#` and in which every `#` begins a word has a
second character, and it is not a space. -/
theorem hashesBeginWords_head (s : Str) (h : hashesBeginWords s = true)
    (hh : s.head? = some '#') : ∃ d rest, s = '#' :: d :: rest ∧ d ≠ ' ' := by
  cases s with
  | nil => simp at hh
  | cons c cs =>
    have hc : c = '#' := by simpa using hh
    subst hc
    cases cs with
    | nil => simp [hashesBeginWords] at h
    | cons d rest =>
      simp only [hashesBeginWords, Bool.and_eq_true, Bool.or_eq_true, bne_iff_ne, ne_eq,
        not_true_eq_false, false_or] at h
      exact ⟨d, rest, rfl, h.1⟩

/-- Cutting a string where no `#` is cut from its word: before a character that
does not follow a `#`, or before spaces only. -/
theorem hashesBeginWords_of_prefix (p : Str) : ∀ q : Str,
    hashesBeginWords (p ++ q) = true → (p.getLast? ≠ some '#' ∨ ∀ c ∈ q, c = ' ') →
    hashesBeginWords p = true := by
  induction p with
  | nil => intro q _ _; rfl
  | cons c p ih =>
    intro q h hq
    cases p with
    | nil =>
      simp only [hashesBeginWords, bne_iff_ne, ne_eq]
      intro hc
      subst hc
      rcases hq with hq | hq
      · simp at hq
      · obtain ⟨d, rest, hd, hne⟩ := hashesBeginWords_head _ h rfl
        have hdq : q = d :: rest := by simpa using hd
        exact hne (hq d (by rw [hdq]; exact List.mem_cons_self _ _))
    | cons d r =>
      have h2 : hashesBeginWords (c :: d :: (r ++ q)) = true := h
      simp only [hashesBeginWords, Bool.and_eq_true] at h2 ⊢
      refine ⟨h2.1, ih q h2.2 ?_⟩
      rcases hq with hq | hq
      · left
        simpa [List.getLast?_cons_cons] using hq
      · right; exact hq

theorem rdropWhile_append_rest (p : Char → Bool) (l : Str) :
    ∃ q : Str, l = l.rdropWhile p ++ q ∧ ∀ c ∈ q, p c = true := by
  refine ⟨(l.reverse.takeWhile p).reverse, ?_, ?_⟩
  · have h := List.takeWhile_append_dropWhile p l.reverse
    have h2 := congrArg List.reverse h
    rw [List.reverse_append, List.reverse_reverse] at h2
    rw [List.rdropWhile]
    exact h2.symm
  · intro c hc
    exact List.mem_takeWhile_imp (List.mem_reverse.mp hc)

theorem hashesBeginWords_TrimRight (x : Str) (h : hashesBeginWords x = true) :
    hashesBeginWords (strings.TrimRight x " ".toList) = true := by
  obtain ⟨q, hq, hall⟩ := rdropWhile_append_rest (fun c => decide (c ∈ " ".toList)) x
  refine hashesBeginWords_of_prefix _ q ?_ (Or.inr ?_)
  · rw [strings.TrimRight, ← hq]; exact h
  · intro c hc
    have := hall c hc
    simpa using this

theorem LastIndex_getElem (c : Char) : ∀ (x : Str) (i : Nat),
    strings.LastIndex x c = some i → x[i]? = some c := by
  intro x
  induction x with
  | nil => intro i h; simp [strings.LastIndex] at h
  | cons a xs ih =>
    intro i h
    simp only [strings.LastIndex] at h
    cases hl : strings.LastIndex xs c with
    | some j =>
      rw [hl] at h
      simp only [Option.some.injEq] at h
      subst h
      simpa using ih j hl
    | none =>
      rw [hl] at h
      by_cases hac : a = c
      · simp only [hac, if_true, Option.some.injEq] at h
        subst h
        simp [hac]
      · simp [hac] at h

theorem not_mem_of_findWordEndAux_none : ∀ (s : Str) (i : Nat),
    findWordEndAux s i = none → ' ' ∉ s := by
  intro s
  induction s with
  | nil => intro i _; simp
  | cons c cs ih =>
    intro i h
    simp only [findWordEndAux] at h
    by_cases hc : c = ' '
    · simp [hc] at h
    · simp only [hc, if_false] at h
      intro hm
      rcases List.mem_cons.mp hm with hm | hm
      · exact hc hm.symm
      · exact ih (i + 1) h hm

theorem findWordEndAux_some : ∀ (s : Str) (i k : Nat), findWordEndAux s i = some k →
    ∃ w rest, s = w ++ ' ' :: rest ∧ ' ' ∉ w ∧ k = i + w.length + 1 := by
  intro s
  induction s with
  | nil => intro i k h; simp [findWordEndAux] at h
  | cons c cs ih =>
    intro i k h
    simp only [findWordEndAux] at h
    by_cases hc : c = ' '
    · simp only [hc, if_true, Option.some.injEq] at h
      exact ⟨[], cs, by simp [hc], by simp, by simp [← h]⟩
    · simp only [hc, if_false] at h
      obtain ⟨w, rest, hs, hw, hk⟩ := ih (i + 1) k h
      refine ⟨c :: w, rest, by simp [hs], ?_, by simp [hk]; omega⟩
      intro hm
      rcases List.mem_cons.mp hm with hm | hm
      · exact hc hm.symm
      · exact hw hm

/-- The tags the leading loop collects hold no space. -/
theorem removeHashTags_start_no_space (fuel : Nat) : ∀ (s : Str) (tags : List Str),
    (∀ t ∈ tags, ' ' ∉ t) → ∀ t ∈ (removeHashTags_start fuel s tags).2.2, ' ' ∉ t := by
  induction fuel with
  | zero => intro s tags h; exact h
  | succ f ih =>
    intro s tags h
    by_cases hp : strings.HasPrefix s "#".toList = true
    · cases hw : findWordEnd s 0 with
      | none =>
        simp only [removeHashTags_start, hp, hw, if_true]
        intro t ht
        rcases List.mem_append.mp ht with ht | ht
        · exact h t ht
        · have ht2 : t = s.drop 1 := by simpa using ht
          have hns := not_mem_of_findWordEndAux_none s 0 (by simpa [findWordEnd] using hw)
          rw [ht2]
          exact fun hm => hns (List.mem_of_mem_drop hm)
      | some idx =>
        simp only [removeHashTags_start, hp, hw, if_true]
        apply ih
        intro t ht
        rcases List.mem_append.mp ht with ht | ht
        · exact h t ht
        · have ht2 : t = (s.take (idx - 1)).drop 1 := by simpa using ht
          obtain ⟨w, rest, hs, hw2, hk⟩ :=
            findWordEndAux_some s 0 idx (by simpa [findWordEnd] using hw)
          have htake : s.take (idx - 1) = w := by
            rw [hs, hk]
            simp
          rw [ht2, htake]
          exact fun hm => hw2 (List.mem_of_mem_drop hm)
    · have hp2 : strings.HasPrefix s "#".toList = false := by simpa using hp
      simp only [removeHashTags_start, hp2, Bool.false_eq_true, if_false]
      exact h

/-- When every `#` begins a word, the leading loop collects no empty tag and
leaves a string in which every `#` begins a word. -/
theorem removeHashTags_start_nonempty (fuel : Nat) : ∀ (s : Str) (tags : List Str),
    hashesBeginWords s = true → (∀ t ∈ tags, t ≠ []) →
    (∀ t ∈ (removeHashTags_start fuel s tags).2.2, t ≠ []) ∧
    hashesBeginWords (removeHashTags_start fuel s tags).2.1 = true := by
  induction fuel with
  | zero => intro s tags hs h; exact ⟨h, hs⟩
  | succ f ih =>
    intro s tags hs h
    by_cases hp : strings.HasPrefix s "#".toList = true
    · obtain ⟨d, r, hsd, hd⟩ := hashesBeginWords_head s hs ((HasPrefix_hash s).mp hp)
      cases hw : findWordEnd s 0 with
      | none =>
        simp only [removeHashTags_start, hp, hw, if_true]
        refine ⟨?_, rfl⟩
        intro t ht
        rcases List.mem_append.mp ht with ht | ht
        · exact h t ht
        · have ht2 : t = s.drop 1 := by simpa using ht
          rw [ht2, hsd]
          simp
      | some idx =>
        simp only [removeHashTags_start, hp, hw, if_true]
        apply ih
        · refine hashesBeginWords_of_suffix _ s ?_ hs
          exact (List.dropWhile_suffix _).trans (List.drop_suffix _ _)
        · intro t ht
          rcases List.mem_append.mp ht with ht | ht
          · exact h t ht
          · have ht2 : t = (s.take (idx - 1)).drop 1 := by simpa using ht
            obtain ⟨w, rest, hs2, hw2, hk⟩ :=
              findWordEndAux_some s 0 idx (by simpa [findWordEnd] using hw)
            have htake : s.take (idx - 1) = w := by
              rw [hs2, hk]
              simp
            rw [ht2, htake]
            rw [hsd] at hs2
            cases w with
            | nil => simp at hs2
            | cons a w1 =>
              cases w1 with
              | nil =>
                simp only [List.cons_append, List.nil_append, List.cons.injEq] at hs2
                exact absurd hs2.2.1 hd
              | cons b w2 => simp
    · have hp2 : strings.HasPrefix s "#".toList = false := by simpa using hp
      simp only [removeHashTags_start, hp2, Bool.false_eq_true, if_false]
      exact ⟨h, hs⟩

/-- The tags the trailing loop collects hold no space. -/
theorem removeHashTags_end_no_space (fuel : Nat) : ∀ (x : Str) (tags : List Str),
    (∀ t ∈ tags, ' ' ∉ t) → ∀ t ∈ (removeHashTags_end fuel x tags).2, ' ' ∉ t := by
  induction fuel with
  | zero => intro x tags h; exact h
  | succ f ih =>
    intro x tags h
    cases hl : strings.LastIndex x '#' with
    | none =>
      simp only [removeHashTags_end, hl]
      exact h
    | some idx =>
      by_cases hstop : (findWordEnd x idx).isSome = true ∨ (0 < idx ∧ x[idx - 1]? ≠ some ' ')
      · have hst : trailingLoopStops x := by simpa [trailingLoopStops, hl] using hstop
        rw [removeHashTags_end_of_stops f x tags hst]
        exact h
      · simp only [not_or] at hstop
        have hstep : removeHashTags_end (f + 1) x tags =
            removeHashTags_end f (strings.TrimRight (x.take idx) " ".toList)
              (tags ++ [x.drop (idx + 1)]) := by
          simp only [removeHashTags_end, hl, hstop.1, Bool.false_eq_true, if_false, hstop.2]
        rw [hstep]
        apply ih
        intro t ht
        rcases List.mem_append.mp ht with ht | ht
        · exact h t ht
        · have ht2 : t = x.drop (idx + 1) := by simpa using ht
          have hnone : findWordEnd x idx = none := by
            cases hf : findWordEnd x idx with
            | none => rfl
            | some k => exact absurd (by simp [hf]) hstop.1
          have hns := not_mem_of_findWordEndAux_none (x.drop idx) idx
            (by simpa [findWordEnd] using hnone)
          rw [ht2]
          intro hm
          apply hns
          have : x.drop (idx + 1) = (x.drop idx).drop 1 := by simp [List.drop_drop]
          rw [this] at hm
          exact List.mem_of_mem_drop hm

/-- When every `#` begins a word, the trailing loop collects no empty tag. -/
theorem removeHashTags_end_nonempty (fuel : Nat) : ∀ (x : Str) (tags : List Str),
    hashesBeginWords x = true → (∀ t ∈ tags, t ≠ []) →
    ∀ t ∈ (removeHashTags_end fuel x tags).2, t ≠ [] := by
  induction fuel with
  | zero => intro x tags _ h; exact h
  | succ f ih =>
    intro x tags hx h
    cases hl : strings.LastIndex x '#' with
    | none =>
      simp only [removeHashTags_end, hl]
      exact h
    | some idx =>
      by_cases hstop : (findWordEnd x idx).isSome = true ∨ (0 < idx ∧ x[idx - 1]? ≠ some ' ')
      · have hst : trailingLoopStops x := by simpa [trailingLoopStops, hl] using hstop
        rw [removeHashTags_end_of_stops f x tags hst]
        exact h
      · simp only [not_or] at hstop
        have hstep : removeHashTags_end (f + 1) x tags =
            removeHashTags_end f (strings.TrimRight (x.take idx) " ".toList)
              (tags ++ [x.drop (idx + 1)]) := by
          simp only [removeHashTags_end, hl, hstop.1, Bool.false_eq_true, if_false, hstop.2]
        rw [hstep]
        have hlt := LastIndex_lt x '#' idx hl
        have hget := LastIndex_getElem '#' x idx hl
        apply ih
        · apply hashesBeginWords_TrimRight
          refine hashesBeginWords_of_prefix (x.take idx) (x.drop idx) ?_ (Or.inl ?_)
          · rw [List.take_append_drop]; exact hx
          · rcases Nat.eq_zero_or_pos idx with h0 | hpos
            · simp [h0]
            · have hprev : x[idx - 1]? = some ' ' := by
                by_contra hc
                exact hstop.2 ⟨hpos, hc⟩
              obtain ⟨j, rfl⟩ : ∃ j, idx = j + 1 := ⟨idx - 1, by omega⟩
              simp only [Nat.add_sub_cancel] at hprev
              rw [List.take_succ, hprev]
              simp
        · intro t ht
          rcases List.mem_append.mp ht with ht | ht
          · exact h t ht
          · have ht2 : t = x.drop (idx + 1) := by simpa using ht
            have hsuf : hashesBeginWords (x.drop idx) = true :=
              hashesBeginWords_of_suffix _ x (List.drop_suffix _ _) hx
            have hhead : (x.drop idx).head? = some '#' := by
              rw [List.head?_drop]; exact hget
            obtain ⟨d, r, hd, _⟩ := hashesBeginWords_head _ hsuf hhead
            have : x.drop (idx + 1) = (x.drop idx).drop 1 := by simp [List.drop_drop]
            rw [ht2, this, hd]
            simp

/-- The lower casing of package `unicode` in its ASCII form makes no space. -/
theorem asciiToLower_eq_space (c : Char) (h : Char.toLower c = ' ') : c = ' ' := by
  by_cases hr : 65 ≤ c.toNat ∧ c.toNat ≤ 90
  · obtain ⟨h1, h2⟩ := hr
    have hc : c = Char.ofNat c.toNat := (Char.ofNat_toNat c).symm
    rw [hc] at h
    generalize c.toNat = n at h1 h2 h
    exfalso
    revert h
    interval_cases n <;> decide
  · have h1 : Char.toLower c = c := by
      simp only [Char.toLower, ge_iff_le, hr, if_false]
    rw [h1] at h
    exact h

/-- C23 (counterexample): the lines `#` and `# Heading` each yield one tag, the
empty string, and so does the line `note #`. -/
theorem removeHashTags_yields_empty_tag :
    removeHashTags demoEnv "#".toList = ([], [[]]) ∧
    removeHashTags demoEnv "# Heading".toList = ("Heading".toList, [[]]) ∧
    removeHashTags demoEnv "note #".toList = ("note".toList, [[]]) := by
  decide

/-- C23 (amended): every tag `removeHashTags` returns holds no space, and when
every `#` of the input is followed by a character other than a space no tag is
empty; this assumes of the library that lower casing makes no space of another
character. -/
theorem removeHashTags_tags_wellformed (env : Env) (s : Str)
    (hlow : ∀ c, env.toLower c = ' ' → c = ' ') :
    ∀ tag ∈ (removeHashTags env s).2,
      ' ' ∉ tag ∧ (hashesBeginWords s = true → tag ≠ []) := by
  have hmap : ∀ raw : List Str, (∀ t ∈ raw, ' ' ∉ t) →
      (hashesBeginWords s = true → ∀ t ∈ raw, t ≠ []) →
      ∀ tag ∈ raw.map (strings.ToLower env),
        ' ' ∉ tag ∧ (hashesBeginWords s = true → tag ≠ []) := by
    intro raw h1 h2 tag htag
    obtain ⟨t, ht, rfl⟩ := List.mem_map.mp htag
    constructor
    · intro hm
      obtain ⟨c, hc, hcs⟩ := List.mem_map.mp hm
      have := hlow c hcs
      subst this
      exact h1 t ht hc
    · intro hs hnil
      apply h2 hs t ht
      simpa [strings.ToLower] using hnil
  have hs1 := removeHashTags_start_no_space (s.length + 1) s [] (by simp)
  have hs2 := removeHashTags_start_nonempty (s.length + 1) s []
  rcases hr : removeHashTags_start (s.length + 1) s [] with ⟨flag, s1, tags⟩
  rw [hr] at hs1 hs2
  cases flag with
  | true =>
    have he : (removeHashTags env s).2 = tags.map (strings.ToLower env) := by
      simp only [removeHashTags, hr]
    rw [he]
    exact hmap tags hs1 (fun hs => (hs2 hs (by simp)).1)
  | false =>
    have he : (removeHashTags env s).2 =
        (removeHashTags_end ((strings.TrimRight s1 " ".toList).length + 1)
          (strings.TrimRight s1 " ".toList) tags).2.map (strings.ToLower env) := by
      simp only [removeHashTags, hr]
    rw [he]
    refine hmap _ (removeHashTags_end_no_space _ _ _ hs1) ?_
    intro hs
    obtain ⟨ht, hs1w⟩ := hs2 hs (by simp)
    exact removeHashTags_end_nonempty _ _ _ (hashesBeginWords_TrimRight _ hs1w) ht

/-- C23 (witness): the line `#Work some text #Later` yields the tags `work` and
`later`. -/
theorem removeHashTags_tags_wellformed_witness :
    (∀ c, demoEnv.toLower c = ' ' → c = ' ') ∧
    hashesBeginWords "#Work some text #Later".toList = true ∧
    (removeHashTags demoEnv "#Work some text #Later".toList).2 =
      ["work".toList, "later".toList] ∧
    ∀ tag ∈ (removeHashTags demoEnv "#Work some text #Later".toList).2,
      ' ' ∉ tag ∧ (hashesBeginWords "#Work some text #Later".toList = true → tag ≠ []) :=
  ⟨asciiToLower_eq_space, by decide, by decide,
    removeHashTags_tags_wellformed demoEnv "#Work some text #Later".toList
      asciiToLower_eq_space⟩

/-! ## The lines the scanner yields for the written file -/

theorem scanLinesAux_append (l : Str) (hl : '\n' ∉ l) (rest : Str) :
    ∀ curr : Str, scanLinesAux (l ++ rest) curr = scanLinesAux rest (curr ++ l) := by
  induction l with
  | nil => intro curr; simp
  | cons c cs ih =>
    intro curr
    have hc : c ≠ '\n' := fun h => hl (by rw [h]; exact List.mem_cons_self _ _)
    have hcs : '\n' ∉ cs := fun h => hl (List.mem_cons_of_mem _ h)
    rw [List.cons_append, scanLinesAux, if_neg hc, ih hcs]
    simp

/-- The scanner reads the joined lines back, without a final empty line and
without a trailing carriage return of a line. -/
theorem scanLines_join (lines : List Str) (h : ∀ l ∈ lines, '\n' ∉ l) :
    scanLines (strings.Join lines "\n".toList) = (dropFinalEmpty lines).map dropCR := by
  induction lines with
  | nil => rfl
  | cons l rest ih =>
    have hl := h l (List.mem_cons_self _ _)
    cases rest with
    | nil =>
      rw [strings.Join, intercalate_singleton, scanLines]
      have := scanLinesAux_append l hl [] []
      rw [List.append_nil, List.nil_append] at this
      rw [this, scanLinesAux]
      by_cases hn : l = []
      · simp [hn, dropFinalEmpty]
      · have hne : ¬ (some l = some ([] : Str)) := by simpa using hn
        simp [hn, dropFinalEmpty, hne]
    | cons l2 rest2 =>
      have ih2 := ih (fun x hx => h x (List.mem_cons_of_mem _ hx))
      rw [strings.Join, intercalate_cons_cons, scanLines, List.append_assoc,
        scanLinesAux_append l hl, List.nil_append]
      have hstep : scanLinesAux ("\n".toList ++ List.intercalate "\n".toList (l2 :: rest2)) l =
          dropCR l :: scanLinesAux (List.intercalate "\n".toList (l2 :: rest2)) [] := by
        show scanLinesAux ('\n' :: _) l = _
        rw [scanLinesAux, if_pos rfl]
        rfl
      rw [hstep]
      rw [strings.Join, scanLines] at ih2
      rw [ih2]
      simp only [dropFinalEmpty, List.getLast?_cons_cons]
      split_ifs with hlast
      · simp [List.dropLast]
      · simp

theorem scanTrim_dropCR (t : Str) : scanTrim (dropCR t) = scanTrim t := by
  unfold dropCR
  split_ifs with h
  · obtain ⟨t1, rfl⟩ : ∃ t1, t = t1 ++ ['\r'] := by
      rcases List.eq_nil_or_concat t with h0 | ⟨t1, c, rfl⟩
      · simp [h0] at h
      · rw [List.concat_eq_append, List.getLast?_concat] at h
        exact ⟨t1, by rw [List.concat_eq_append, Option.some.inj h]⟩
    rw [List.dropLast_concat, scanTrim, scanTrim, strings.TrimRight, strings.TrimRight,
      List.rdropWhile_concat_pos]
    decide
  · rfl

theorem dayGroupsAux_map_dropCR (lines : List Str) :
    ∀ (curr : Option (Str × Time)) (acc : List Str),
      dayGroupsAux (lines.map dropCR) curr acc = dayGroupsAux lines curr acc := by
  induction lines with
  | nil => intro curr acc; rfl
  | cons t rest ih =>
    intro curr acc
    simp only [List.map_cons, dayGroupsAux, scanTrim_dropCR, ih]

theorem dayGroupsAux_all (P : Str → Prop) (fileLines : List Str) :
    ∀ (curr : Option (Str × Time)) (lines : List Str),
      (∀ t ∈ fileLines, P (scanTrim t)) → (∀ c ∈ curr, P c.1) → (∀ l ∈ lines, P l) →
      ∀ g ∈ dayGroupsAux fileLines curr lines, P g.1.1 ∧ ∀ l ∈ g.2, P l := by
  induction fileLines with
  | nil =>
    intro curr lines _ hc hl g hg
    cases curr with
    | none => simp [dayGroupsAux] at hg
    | some c =>
      simp only [dayGroupsAux, List.mem_singleton] at hg
      subst hg
      exact ⟨hc c rfl, hl⟩
  | cons text rest ih =>
    intro curr lines hf hc hl g hg
    have hrest : ∀ t ∈ rest, P (scanTrim t) := fun t ht => hf t (List.mem_cons_of_mem _ ht)
    have htext := hf text (List.mem_cons_self _ _)
    cases hp : timeParse (scanTrim text) with
    | none =>
      simp only [dayGroupsAux, hp] at hg
      refine ih curr (lines ++ [scanTrim text]) hrest hc ?_ g hg
      intro l hlm
      rcases List.mem_append.mp hlm with h | h
      · exact hl l h
      · rw [List.mem_singleton] at h
        subst h
        exact htext
    | some day =>
      simp only [dayGroupsAux, hp, List.mem_append] at hg
      rcases hg with hg | hg
      · cases curr with
        | none => simp at hg
        | some c =>
          simp only [List.mem_singleton] at hg
          subst hg
          exact ⟨hc c rfl, hl⟩
      · refine ih (some (scanTrim text, day)) [] hrest ?_ (by simp) g hg
        intro c hcm
        simp only [Option.mem_def, Option.some.injEq] at hcm
        subst hcm
        exact htext

/-- What holds of every line of a file as the parser reads it holds of every
day header and of every raw line of the parsed notes. -/
theorem readNotesFoDay_lines_all (P : Str → Prop) (env : Env) (fileLines : List Str)
    (w w1 : World) (days : List notesForDay)
    (h : readNotesFoDay env fileLines w = some (days, w1))
    (hP : ∀ t ∈ fileLines, P (scanTrim t)) :
    ∀ d ∈ days, P d.DayStr ∧ ∀ n ∈ d.Notes, ∀ l ∈ n.rawLines, P l := by
  intro d hd
  obtain ⟨g, hg, hd1, _, _, hnotes⟩ :=
    forall₂_exists_of_mem (readNotesFoDay_groups env fileLines w w1 days h) d hd
  obtain ⟨h1, h3⟩ := dayGroupsAux_all P fileLines none [] hP (by simp) (by simp) g hg
  refine ⟨by rw [hd1]; exact h1, ?_⟩
  intro n hn
  obtain ⟨run, hrun, w2, w3, hbuilt⟩ := forall₂_exists_of_mem hnotes n hn
  have hraw := (newNote_rawLines env run w2 w3 n hbuilt).1
  have := noteRunsAux_ok P g.2 [] (by simp) h3 run hrun
  rw [hraw]
  exact fun l hl => (this.2 l hl).1

theorem removeHashTags_nil (env : Env) : removeHashTags env [] = ([], []) := by
  simp [removeHashTags, removeHashTags_start, removeHashTags_end, strings.HasPrefix,
    strings.TrimRight, strings.LastIndex, strings.ToLower]

theorem isMetaDataLine_nil (env : Env) : isMetaDataLine env [] = false := by
  simp [isMetaDataLine, strings.Index]

/-- No note is built from empty lines only. -/
theorem newNote_of_all_blank (env : Env) (run : List Str) (w : World)
    (h : ∀ l ∈ run, l = []) : newNote env run w = none := by
  have hmeta : ∀ l ∈ (extractMetaDataFromLines env run).1, l = [] := by
    intro l hl
    rw [extractMetaDataFromLines_eq] at hl
    exact h l (List.mem_of_mem_drop (List.mem_of_mem_filter hl))
  cases hs : newNote_snippets env run w with
  | none => simp only [newNote, hs]
  | some r =>
    obtain ⟨ls, cs, w2⟩ := r
    have hls : ls = (extractMetaDataFromLines env run).1 := by
      simp only [newNote_snippets, extractCodeSnippets] at hs
      generalize (extractMetaDataFromLines env run).1 = L at hs hmeta ⊢
      cases hloop : extractCodeSnippets_loop env L L 0
          { resLines := [], codeSnippets := [], codeLineStart := none,
            world := { w with nTotalNotes := w.nTotalNotes + 1 } } with
      | none => simp [hloop] at hs
      | some st =>
        obtain ⟨hres, _, _⟩ := extractCodeSnippets_loop_stream env L L 0 _ st hloop
        simp only [hloop] at hs
        cases hopen : st.codeLineStart with
        | some i => simp [hopen] at hs
        | none =>
          simp only [hopen, Option.some.injEq, Prod.mk.injEq] at hs
          have hout : ∀ s ∈ L, isFenceLine s = false := by
            intro s hsm
            rw [hmeta s hsm]
            decide
          have hrep := replaceBlocksAux_outside env.genRandomString L [] w.nRandom hout
          simp only [List.append_nil] at hrep
          rw [← hs.1, hres]
          simp only [List.nil_append, Option.isSome_none]
          rw [hrep]
          simp [replaceBlocksAux]
    have hbody : buildBodyFromLines env ls = none := by
      rw [buildBodyFromLines_eq, if_pos]
      rw [trimEmptyLines_loop_eq_nil_iff]
      intro x hx
      obtain ⟨l, hl, rfl⟩ := List.mem_map.mp hx
      rw [hls] at hl
      rw [hmeta l hl, removeHashTags_nil]
    simp only [newNote, hs, hbody]

/-- Every note of a parsed file has a raw line that is not empty. -/
theorem readNotesFoDay_notes_nonblank (env : Env) (fileLines : List Str) (w w1 : World)
    (days : List notesForDay) (h : readNotesFoDay env fileLines w = some (days, w1)) :
    ∀ d ∈ days, ∀ n ∈ d.Notes, trimEmptyLines n.rawLines ≠ [] := by
  intro d hd n hn
  obtain ⟨g, _, _, _, _, hnotes⟩ :=
    forall₂_exists_of_mem (readNotesFoDay_groups env fileLines w w1 days h) d hd
  obtain ⟨run, _, w2, w3, hbuilt⟩ := forall₂_exists_of_mem hnotes n hn
  have hraw := (newNote_rawLines env run w2 w3 n hbuilt).1
  by_contra hnil
  have hall : ∀ l ∈ run, l = [] := by
    intro l hl
    by_contra hne
    have := mem_trimEmptyLines_of_nonblank run l hne hl
    rw [← hraw, hnil] at this
    cases this
  rw [newNote_of_all_blank env run w2 hall] at hbuilt
  cases hbuilt

theorem rewrittenDays_eq_scanned (env : Env) (days : List notesForDay) :
    ∀ k : Nat, days ≠ [] → rewrittenDays env days k = scannedDays env days k ++ [[]] := by
  induction days with
  | nil => intro k h; exact absurd rfl h
  | cons d rest ih =>
    intro k _
    cases rest with
    | nil => simp [rewrittenDays, scannedDays]
    | cons d2 rest2 =>
      have ih2 := ih (xidAfter d.Notes k) (by simp)
      rw [rewrittenDays, ih2, scannedDays]
      simp

theorem dropFinalEmpty_concat (lines : List Str) : dropFinalEmpty (lines ++ [[]]) = lines := by
  simp [dropFinalEmpty]

theorem rewrittenDays_no_newline (env : Env) (hxid : ∀ k, '\n' ∉ env.xidNew k)
    (days : List notesForDay) :
    (∀ d ∈ days, '\n' ∉ d.DayStr ∧ ∀ n ∈ d.Notes, ∀ l ∈ n.rawLines, '\n' ∉ l) →
    ∀ (k : Nat), ∀ l ∈ rewrittenDays env days k, '\n' ∉ l := by
  induction days with
  | nil => intro _ k l hl; simp [rewrittenDays] at hl
  | cons d rest ih =>
    intro hdays k l hl
    obtain ⟨hstr, hnotes⟩ := hdays d (List.mem_cons_self _ _)
    simp only [rewrittenDays, List.cons_append, List.mem_cons, List.mem_append,
      List.mem_singleton] at hl
    rcases hl with h | (h | h | h) | h
    · rw [h]; exact hstr
    · rcases mem_joinBlocks _ l h with h1 | h1 | ⟨b, hb, hlb⟩
      · rw [h1]; simp
      · rw [h1]; decide
      · obtain ⟨n, hn, j, rfl⟩ := mem_rewrittenNotes env d.Notes k b hb
        simp only [rewrittenNote, List.mem_append] at hlb
        rcases hlb with h2 | h2
        · split_ifs at h2 with hid
          · simp only [List.mem_singleton] at h2
            rw [h2, idLineOf]
            intro hm
            rcases List.mem_append.mp hm with h3 | h3
            · revert h3; decide
            · exact hxid j h3
          · cases h2
        · exact hnotes n hn l (trimEmptyLines_subset _ l h2)
    · rw [h]; simp
    · cases h
    · exact ih (fun x hx => hdays x (List.mem_cons_of_mem _ hx)) _ l h

/-- The lines the scanner yields for the written file, in closed form. -/
theorem writtenFileLines_eq (env : Env) (hxid : ∀ k, '\n' ∉ env.xidNew k)
    (days : List notesForDay) (w : World)
    (hdays : ∀ d ∈ days, '\n' ∉ d.DayStr ∧ ∀ n ∈ d.Notes, ∀ l ∈ n.rawLines, '\n' ∉ l) :
    writtenFileLines env days w = (scannedDays env days w.nXid).map dropCR := by
  rw [writtenFileLines, notesGenIDIfNecessary_lines_eq,
    scanLines_join _ (rewrittenDays_no_newline env hxid days hdays w.nXid)]
  by_cases hne : days = []
  · subst hne; rfl
  · rw [rewrittenDays_eq_scanned env days w.nXid hne, dropFinalEmpty_concat]

theorem joinBlocks_body (env : Env) (d : notesForDay) (hd : GoodDay d) (k : Nat) :
    ∀ l ∈ joinBlocks (rewrittenNotes env d.Notes k), timeParse (scanTrim l) = none := by
  intro l h
  rcases mem_joinBlocks _ l h with h1 | h1 | ⟨b, hb, hlb⟩
  · subst h1; decide
  · subst h1; decide
  · obtain ⟨n, hn, j, hj⟩ := mem_rewrittenNotes env d.Notes k b hb
    subst hj
    exact (rewrittenNote_lines env d hd n hn j l hlb).1

theorem expectedGroupsScanned_eq (env : Env) (days : List notesForDay)
    (hgood : ∀ d ∈ days, GoodDay d) :
    ∀ (k : Nat) (curr : Option (Str × Time)) (lines : List Str),
      dayGroupsAux (scannedDays env days k) curr lines =
        (match curr with
          | none => []
          | some c => [(c, lines)]) ++ expectedGroupsScanned env days k := by
  induction days with
  | nil =>
    intro k curr lines
    cases curr <;> simp [scannedDays, dayGroupsAux, expectedGroupsScanned]
  | cons d rest ih =>
    intro k curr lines
    have hd := hgood d (List.mem_cons_self _ _)
    have hhdr : timeParse (scanTrim d.DayStr) = some d.Day := by rw [hd.2.1]; exact hd.1
    have hbody := joinBlocks_body env d hd k
    cases rest with
    | nil =>
      rw [scannedDays]
      simp only [dayGroupsAux, hhdr]
      have := dayGroupsAux_append (joinBlocks (rewrittenNotes env d.Notes k)) []
        (some (scanTrim d.DayStr, d.Day)) [] hbody
      rw [List.append_nil] at this
      rw [this, hd.2.1]
      cases curr <;> simp [dayGroupsAux, expectedGroupsScanned]
    | cons d2 rest2 =>
      have hbody2 : ∀ l ∈ joinBlocks (rewrittenNotes env d.Notes k) ++ [[]],
          timeParse (scanTrim l) = none := by
        intro l hl
        rcases List.mem_append.mp hl with h | h
        · exact hbody l h
        · simp only [List.mem_singleton] at h
          subst h
          decide
      rw [scannedDays, List.cons_append]
      simp only [dayGroupsAux, hhdr]
      rw [hd.2.1, dayGroupsAux_append _ _ _ _ hbody2,
        ih (fun x hx => hgood x (List.mem_cons_of_mem _ hx))]
      cases curr <;> simp [expectedGroupsScanned]

theorem expectedRunsLast_eq (blocks : List (List Str)) :
    (∀ b ∈ blocks, ∀ l ∈ b, l ≠ noteSeparator) →
    ∀ curr : List Str, noteRunsAux (joinBlocks blocks) curr = expectedRunsLast blocks curr := by
  induction blocks with
  | nil =>
    intro _ curr
    simp only [joinBlocks, expectedRunsLast, noteRunsAux]
  | cons b bs ih =>
    intro h curr
    have hb := h b (List.mem_cons_self _ _)
    cases bs with
    | nil =>
      simp only [joinBlocks, expectedRunsLast]
      have := noteRunsAux_append b [] curr hb
      rw [List.append_nil] at this
      rw [this, noteRunsAux]
    | cons b2 bs =>
      have hne : ¬ (([] : Str) = noteSeparator) := by decide
      have ih2 := ih (fun x hx => h x (List.mem_cons_of_mem _ hx)) [[]]
      simp only [joinBlocks, expectedRunsLast, List.append_assoc]
      rw [noteRunsAux_append b _ _ hb]
      simp only [List.cons_append, List.nil_append, noteRunsAux, hne, if_false, if_true,
        List.length_append, List.length_cons, List.length_nil]
      have hpos : 0 < curr.length + b.length + (0 + 1) := by omega
      rw [if_pos hpos, ← ih2, List.singleton_append, List.append_assoc]
      rfl

theorem map_scanTrim_joinBlocks_last (blocks : List (List Str)) :
    (joinBlocks blocks).map scanTrim = joinBlocks (blocks.map (List.map scanTrim)) := by
  have h := map_scanTrim_joinBlocks blocks
  have h1 : scanTrim [] = [] := by decide
  rw [List.map_append, List.map_singleton, h1] at h
  exact List.append_cancel_right h

theorem notes_kept_last (env : Env) (d : notesForDay) (hd : GoodDay d) (notes : List note) :
    (∀ n ∈ notes, n ∈ d.Notes) → (∀ n ∈ notes, trimEmptyLines n.rawLines ≠ []) → notes ≠ [] →
    ∀ (k : Nat) (curr : List Str), (curr = [] ∨ curr = [[]]) →
    ∀ notes2 : List note,
      List.Forall₂ (BuiltFrom env) notes2
        (expectedRunsLast ((rewrittenNotes env notes k).map (List.map scanTrim)) curr) →
      List.Forall₂ (NoteKept env) notes2 notes := by
  induction notes with
  | nil => intro _ _ h; exact absurd rfl h
  | cons n rest ih =>
    intro hsub hnb _ k curr hcurr notes2 hb
    have hn : n ∈ d.Notes := hsub n (List.mem_cons_self _ _)
    cases rest with
    | nil =>
      have hpos : 0 < (curr ++ (rewrittenNote env n k).map scanTrim).length := by
        have h1 : trimEmptyLines n.rawLines ≠ [] := hnb n (List.mem_cons_self _ _)
        have h2 : 0 < (trimEmptyLines n.rawLines).length := List.length_pos.mpr h1
        simp only [rewrittenNote, List.length_append, List.length_map]
        omega
      simp only [rewrittenNotes, List.map_cons, List.map_nil, expectedRunsLast, hpos,
        if_true] at hb
      obtain ⟨n2, rest2, hbuilt, hrest, rfl⟩ := List.forall₂_cons_right_iff.mp hb
      obtain ⟨w1, w2, hnew⟩ := hbuilt
      have hraw := (newNote_rawLines env _ w1 w2 n2 hnew).1
      rw [List.forall₂_nil_right_iff.mp hrest]
      refine List.Forall₂.cons ⟨k, ?_⟩ List.Forall₂.nil
      rw [hraw, ← trimEmptyLines_concat_blank]
      exact trimEmptyLines_run env d hd n hn k curr hcurr
    | cons m ms =>
      simp only [rewrittenNotes, List.map_cons, expectedRunsLast] at hb
      obtain ⟨n2, rest2, hbuilt, hrest, rfl⟩ := List.forall₂_cons_right_iff.mp hb
      obtain ⟨w1, w2, hnew⟩ := hbuilt
      have hraw := (newNote_rawLines env _ w1 w2 n2 hnew).1
      have ih2 := ih (fun x hx => hsub x (List.mem_cons_of_mem _ hx))
        (fun x hx => hnb x (List.mem_cons_of_mem _ hx)) (by simp)
        (if n.ID = [] then k + 1 else k) [[]] (Or.inr rfl) rest2
        (by simpa only [rewrittenNotes, List.map_cons] using hrest)
      refine List.Forall₂.cons ⟨k, ?_⟩ ih2
      rw [hraw]
      exact trimEmptyLines_run env d hd n hn k curr hcurr

theorem days_kept_scanned (env : Env) (days : List notesForDay) :
    (∀ d ∈ days, GoodDay d) → (∀ d ∈ days, ∀ n ∈ d.Notes, trimEmptyLines n.rawLines ≠ []) →
    ∀ (k : Nat) (days2 : List notesForDay),
      List.Forall₂ (DayBuiltFrom env) days2 (expectedGroupsScanned env days k) →
      List.Forall₂ (DayKept env) days2 days := by
  induction days with
  | nil =>
    intro _ _ k days2 h
    simp only [expectedGroupsScanned] at h
    rw [List.forall₂_nil_right_iff.mp h]
    exact List.Forall₂.nil
  | cons d rest ih =>
    intro hgood hnb k days2 h
    have hd := hgood d (List.mem_cons_self _ _)
    have hnosep : ∀ b ∈ (rewrittenNotes env d.Notes k).map (List.map scanTrim),
        ∀ l ∈ b, l ≠ noteSeparator := by
      intro b hb l hl
      obtain ⟨b0, hb0, rfl⟩ := List.mem_map.mp hb
      obtain ⟨l0, hl0, rfl⟩ := List.mem_map.mp hl
      obtain ⟨n, hn, j, rfl⟩ := mem_rewrittenNotes env d.Notes k b0 hb0
      exact (rewrittenNote_lines env d hd n hn j l0 hl0).2
    cases rest with
    | nil =>
      simp only [expectedGroupsScanned] at h
      obtain ⟨d2, rest2, hbuilt, hrest, rfl⟩ := List.forall₂_cons_right_iff.mp h
      obtain ⟨h1, h2, _, hnotes⟩ := hbuilt
      rw [List.forall₂_nil_right_iff.mp hrest]
      refine List.Forall₂.cons ⟨h1, h2, ?_⟩ List.Forall₂.nil
      simp only [noteRuns, map_scanTrim_joinBlocks_last] at hnotes
      rw [expectedRunsLast_eq _ hnosep] at hnotes
      by_cases hne : d.Notes = []
      · rw [hne] at hnotes ⊢
        simp only [rewrittenNotes, List.map_nil, expectedRunsLast, List.length_nil,
          lt_self_iff_false, if_false] at hnotes
        rw [List.forall₂_nil_right_iff.mp hnotes]
        exact List.Forall₂.nil
      · exact notes_kept_last env d hd d.Notes (fun _ h => h)
          (hnb d (List.mem_cons_self _ _)) hne k [] (Or.inl rfl) d2.Notes hnotes
    | cons d3 rest3 =>
      simp only [expectedGroupsScanned] at h
      obtain ⟨d2, rest2, hbuilt, hrest, rfl⟩ := List.forall₂_cons_right_iff.mp h
      obtain ⟨h1, h2, _, hnotes⟩ := hbuilt
      simp only [noteRuns, map_scanTrim_joinBlocks] at hnotes
      rw [expectedRuns_eq _ hnosep] at hnotes
      refine List.Forall₂.cons ⟨h1, h2, ?_⟩
        (ih (fun x hx => hgood x (List.mem_cons_of_mem _ hx))
          (fun x hx => hnb x (List.mem_cons_of_mem _ hx)) _ rest2 hrest)
      by_cases hne : d.Notes = []
      · rw [hne] at hnotes
        simp only [rewrittenNotes, List.map_nil, expectedRuns, List.nil_append] at hnotes
        obtain ⟨n2, _, ⟨w1, w2, hnew⟩, _, _⟩ := List.forall₂_cons_right_iff.mp hnotes
        rw [newNote_blank] at hnew
        cases hnew
      · exact notes_kept env d hd d.Notes (fun _ h => h) hne k [] (Or.inl rfl) d2.Notes hnotes

theorem not_mem_scanTrim (c : Char) (t : Str) (h : c ∉ t) : c ∉ scanTrim t :=
  fun hm => h ((List.rdropWhile_prefix _ _).subset hm)

/-- C6 (counterexample): the note `first`, `x`, two empty lines, `y` has no ID,
so the back-fill pass writes the file; the lines written hold one empty line
between `x` and `y`, and the note parsed from the lines the scanner yields for
the written file has the raw lines `Id: xid0`, `first`, `x`, one empty line,
`y`: without the `Id:` line this is not the original note, and the difference
is inside the note, not at its start or end. -/
theorem backfill_collapses_inner_blank_lines :
    parsedRawLines (readNotesFoDay demoEnv corpusDoubleBlank world0) =
      some [[["first".toList, "x".toList, [], [], "y".toList]]] ∧
    backfillLines demoEnv corpusDoubleBlank world0 =
      some ["2020-01-01".toList, "Id: xid0".toList, "first".toList, "x".toList, [],
        "y".toList, []] ∧
    scanLines (strings.Join ["2020-01-01".toList, "Id: xid0".toList, "first".toList,
        "x".toList, [], "y".toList, []] "\n".toList) =
      ["2020-01-01".toList, "Id: xid0".toList, "first".toList, "x".toList, [], "y".toList] ∧
    parsedRawLines (readNotesFoDay demoEnv
      ["2020-01-01".toList, "Id: xid0".toList, "first".toList, "x".toList, [],
        "y".toList] world0) =
      some [[["Id: xid0".toList, "first".toList, "x".toList, [], "y".toList]]] ∧
    ((["first".toList, "x".toList, [], "y".toList] : List Str).dropWhile isBlank).rdropWhile
        isBlank ≠
      ((["first".toList, "x".toList, [], [], "y".toList] : List Str).dropWhile isBlank).rdropWhile
        isBlank := by
  decide

/-- C6 (amended): when a file, whose lines hold no newline, parses into `days`
and the lines the scanner yields for the file that the back-fill pass writes
for `days` parse again into `days2`, then `days2` has the same day headers in
the same order and the same number of notes per day, and the raw lines of each
re-parsed note, with empty lines trimmed by `trimEmptyLines`, are the trimmed
raw lines of the original note, preceded by the synthesized `Id:` line (as the
parser reads it) exactly when the original note had no ID.  This assumes of
the library that a generated id holds no newline. -/
theorem backfill_preserves_corpus (env : Env) (fileLines : List Str) (w w1 w2 w3 : World)
    (days days2 : List notesForDay)
    (hfile : ∀ l ∈ fileLines, '\n' ∉ l)
    (hxid : ∀ k, '\n' ∉ env.xidNew k)
    (h1 : readNotesFoDay env fileLines w = some (days, w1))
    (h2 : readNotesFoDay env (writtenFileLines env days w1) w2 = some (days2, w3)) :
    writtenFileLines env days w1 =
      scanLines (strings.Join (notesGenIDIfNecessary_lines env days w1).1 "\n".toList) ∧
    List.Forall₂ (DayKept env) days2 days := by
  refine ⟨rfl, ?_⟩
  have hgood := readNotesFoDay_good env fileLines w w1 days h1
  have hnb := readNotesFoDay_notes_nonblank env fileLines w w1 days h1
  have hnl := readNotesFoDay_lines_all (fun l => '\n' ∉ l) env fileLines w w1 days h1
    (fun t ht => not_mem_scanTrim '\n' t (hfile t ht))
  have hgroups := readNotesFoDay_groups env _ w2 w3 days2 h2
  rw [writtenFileLines_eq env hxid days w1 hnl, dayGroupsAux_map_dropCR,
    expectedGroupsScanned_eq env days hgood] at hgroups
  exact days_kept_scanned env days hgood hnb w1.nXid days2 (by simpa using hgroups)

theorem toDigitsCore_no_newline (fuel : Nat) : ∀ (n : Nat) (ds : List Char),
    '\n' ∉ ds → '\n' ∉ Nat.toDigitsCore 10 fuel n ds := by
  induction fuel with
  | zero => intro n ds h; exact h
  | succ f ih =>
    intro n ds h
    have hd : '\n' ∉ Nat.digitChar (n % 10) :: ds := by
      have hlt : n % 10 < 10 := Nat.mod_lt _ (by decide)
      intro hm
      rcases List.mem_cons.mp hm with h1 | h1
      · generalize n % 10 = m at hlt h1
        revert h1
        interval_cases m <;> decide
      · exact h h1
    rw [toDigitsCore_succ]
    split_ifs
    · exact hd
    · exact ih _ _ hd

/-- The ids of the example environment hold no newline. -/
theorem demoEnv_xidNew_no_newline (k : Nat) : '\n' ∉ demoEnv.xidNew k := by
  show '\n' ∉ "xid".toList ++ (Nat.repr k).toList
  intro hm
  rcases List.mem_append.mp hm with h | h
  · revert h; decide
  · exact toDigitsCore_no_newline _ _ _ (by simp) h

/-- C6 (witness): a corpus of two days and three notes, two of them without
ID, one with two empty lines in its middle; and a corpus whose last day has no
note, for which the file written ends with the header of that day and an
empty line. -/
theorem backfill_preserves_corpus_witness :
    (∀ l ∈ corpusTwoDays, '\n' ∉ l) ∧
    readNotesFoDay demoEnv corpusTwoDays world0 = some parsedTwoDays ∧
    readNotesFoDay demoEnv (writtenFileLines demoEnv parsedTwoDays.1 parsedTwoDays.2) world0 =
      some reparsedTwoDays ∧
    List.Forall₂ (DayKept demoEnv) reparsedTwoDays.1 parsedTwoDays.1 ∧
    (∀ l ∈ corpusLastDayEmpty, '\n' ∉ l) ∧
    readNotesFoDay demoEnv corpusLastDayEmpty world0 = some parsedLastDayEmpty ∧
    writtenFileLines demoEnv parsedLastDayEmpty.1 parsedLastDayEmpty.2 =
      ["2020-01-02".toList, "Id: xid0".toList, "a".toList, "b".toList, [],
        "2020-01-01".toList] ∧
    readNotesFoDay demoEnv
        (writtenFileLines demoEnv parsedLastDayEmpty.1 parsedLastDayEmpty.2) world0 =
      some reparsedLastDayEmpty ∧
    List.Forall₂ (DayKept demoEnv) reparsedLastDayEmpty.1 parsedLastDayEmpty.1 :=
  ⟨by decide, by decide, by decide,
    (backfill_preserves_corpus demoEnv corpusTwoDays world0 parsedTwoDays.2 world0
      reparsedTwoDays.2 parsedTwoDays.1 reparsedTwoDays.1 (by decide)
      demoEnv_xidNew_no_newline (by decide) (by decide)).2,
    by decide, by decide, by decide, by decide,
    (backfill_preserves_corpus demoEnv corpusLastDayEmpty world0 parsedLastDayEmpty.2 world0
      reparsedLastDayEmpty.2 parsedLastDayEmpty.1 reparsedLastDayEmpty.1 (by decide)
      demoEnv_xidNew_no_newline (by decide) (by decide)).2⟩

/-- The file written by the back-fill pass need not parse again: a day without
notes that is not the last day is written as its header and an empty line, and
`newNote` aborts on the note made of that empty line. -/
theorem backfill_reparse_may_abort :
    parsedRawLines (readNotesFoDay demoEnv corpusEmptyDay world0) =
      some [[], [["a".toList, "b".toList]]] ∧
    backfillLines demoEnv corpusEmptyDay world0 =
      some ["2020-01-02".toList, [], "2020-01-01".toList, "Id: xid0".toList, "a".toList,
        "b".toList, []] ∧
    scanLines (strings.Join ["2020-01-02".toList, [], "2020-01-01".toList, "Id: xid0".toList,
        "a".toList, "b".toList, []] "\n".toList) =
      ["2020-01-02".toList, [], "2020-01-01".toList, "Id: xid0".toList, "a".toList,
        "b".toList] ∧
    readNotesFoDay demoEnv
      ["2020-01-02".toList, [], "2020-01-01".toList, "Id: xid0".toList, "a".toList,
        "b".toList] world0 = none := by
  decide

/-! ## Replacing next to a separator -/

theorem endsWithStartOf_false (old sep : Str) (h : endsWithStartOf old sep = false) :
    ∀ x : Str, x ≠ [] → x <+: sep → ¬ x <:+ old := by
  intro x hx hpre hsuf
  have hlen : x.length ≤ sep.length := hpre.length_le
  have hpos : 0 < x.length := List.length_pos.mpr hx
  have hx2 : x = sep.take (x.length - 1 + 1) := by
    have := List.prefix_iff_eq_take.mp hpre
    rw [Nat.sub_add_cancel hpos]
    exact this
  have : endsWithStartOf old sep = true := by
    rw [endsWithStartOf, List.any_eq_true]
    refine ⟨x.length - 1, List.mem_range.mpr (by omega), ?_⟩
    rw [← hx2]
    exact decide_eq_true hsuf
  rw [h] at this
  exact Bool.noConfusion this

theorem startsWithEndOf_false (old sep : Str) (h : startsWithEndOf old sep = false) :
    ∀ x : Str, x ≠ [] → x <:+ sep → ¬ x <+: old := by
  intro x hx hsuf hpre
  have hlen : x.length ≤ sep.length := hsuf.length_le
  have hpos : 0 < x.length := List.length_pos.mpr hx
  have hx2 : x = sep.drop (sep.length - x.length) := List.suffix_iff_eq_drop.mp hsuf
  have : startsWithEndOf old sep = true := by
    rw [startsWithEndOf, List.any_eq_true]
    refine ⟨sep.length - x.length, List.mem_range.mpr (by omega), ?_⟩
    rw [← hx2]
    exact decide_eq_true hpre
  rw [h] at this
  exact Bool.noConfusion this

/-- What `apart` says, for use in proofs. -/
theorem apart_spec (old sep : Str) (h : apart old sep = true) :
    (∀ x : Str, x ≠ [] → x <+: sep → ¬ x <:+ old) ∧
    (∀ x : Str, x ≠ [] → x <:+ sep → ¬ x <+: old) ∧
    ¬ sep <:+: old ∧ ¬ old <:+: sep := by
  simp only [apart, Bool.and_eq_true, Bool.not_eq_true', decide_eq_false_iff_not] at h
  obtain ⟨⟨⟨h1, h2⟩, h3⟩, h4⟩ := h
  exact ⟨endsWithStartOf_false old sep h1, startsWithEndOf_false old sep h2, h3, h4⟩

/-- An occurrence of `old` that begins before a separator apart from it ends
before the separator. -/
theorem isPrefixOf_append_apart (old sep : Str) (h : apart old sep = true) (g Y : Str) :
    old.isPrefixOf (g ++ (sep ++ Y)) = old.isPrefixOf g := by
  obtain ⟨h1, _, h3, _⟩ := apart_spec old sep h
  cases hg : old.isPrefixOf g with
  | true =>
    have hp : old <+: g := List.isPrefixOf_iff_prefix.mp hg
    exact List.isPrefixOf_iff_prefix.mpr (hp.trans (List.prefix_append _ _))
  | false =>
    cases hw : old.isPrefixOf (g ++ (sep ++ Y)) with
    | false => rfl
    | true =>
      exfalso
      have hp : old <+: g ++ (sep ++ Y) := List.isPrefixOf_iff_prefix.mp hw
      have hng : ¬ old <+: g := fun hc => by
        rw [List.isPrefixOf_iff_prefix.mpr hc] at hg
        exact Bool.noConfusion hg
      rcases List.prefix_or_prefix_of_prefix hp (List.prefix_append g (sep ++ Y)) with h5 | h5
      · exact hng h5
      · obtain ⟨r, hr⟩ := h5
        rw [← hr] at hp
        have hr2 : r <+: sep ++ Y := (List.prefix_append_right_inj g).mp hp
        have hrne : r ≠ [] := by
          rintro rfl
          rw [List.append_nil] at hr
          exact hng (hr ▸ List.prefix_refl _)
        rcases List.prefix_or_prefix_of_prefix hr2 (List.prefix_append sep Y) with h6 | h6
        · exact h1 r hrne h6 ⟨g, hr⟩
        · obtain ⟨r2, hr3⟩ := h6
          exact h3 ⟨g, r2, by rw [← hr, ← hr3, List.append_assoc]⟩

/-- No occurrence of `old` begins inside a separator apart from it. -/
theorem ReplaceAux_sep_apart (old new sep : Str) (h : apart old sep = true) (Y : Str) :
    ∀ s2 : Str, s2 <:+ sep →
      strings.ReplaceAux old new (s2 ++ Y) 0 = s2 ++ strings.ReplaceAux old new Y 0 := by
  obtain ⟨_, h2, _, h4⟩ := apart_spec old sep h
  intro s2
  induction s2 with
  | nil => intro _; rfl
  | cons c cs ih =>
    intro hsuf
    have hno : old.isPrefixOf (c :: (cs ++ Y)) = false := by
      cases hw : old.isPrefixOf (c :: (cs ++ Y)) with
      | false => rfl
      | true =>
        exfalso
        have hp : old <+: (c :: cs) ++ Y := List.isPrefixOf_iff_prefix.mp hw
        rcases List.prefix_or_prefix_of_prefix hp (List.prefix_append (c :: cs) Y) with h5 | h5
        · exact h4 (h5.isInfix.trans hsuf.isInfix)
        · exact h2 (c :: cs) (by simp) hsuf h5
    rw [List.cons_append, strings.ReplaceAux, hno]
    simp only [Bool.false_eq_true, if_false]
    rw [ih ((List.suffix_cons c cs).trans hsuf)]
    rfl

/-- Replacing `old` passes over a separator apart from it: the occurrences lie
before it or after it. -/
theorem ReplaceAux_append_apart (old new sep : Str) (h : apart old sep = true) (X : Str)
    (g : Str) :
    ∀ k, k ≤ g.length →
      strings.ReplaceAux old new (g ++ (sep ++ X)) k =
        strings.ReplaceAux old new g k ++ (sep ++ strings.ReplaceAux old new X 0) := by
  induction g with
  | nil =>
    intro k hk
    have : k = 0 := by simpa using hk
    subst this
    rw [List.nil_append, ReplaceAux_sep_apart old new sep h X sep (List.suffix_refl _)]
    rfl
  | cons c cs ih =>
    intro k hk
    cases k with
    | succ k =>
      rw [List.cons_append, strings.ReplaceAux, strings.ReplaceAux]
      exact ih k (by simpa using hk)
    | zero =>
      have hpre := isPrefixOf_append_apart old sep h (c :: cs) X
      rw [List.cons_append] at hpre
      rw [List.cons_append, strings.ReplaceAux, strings.ReplaceAux, hpre]
      by_cases hm : old.isPrefixOf (c :: cs) = true
      · have hl := isPrefixOf_length_le _ _ hm
        simp only [hm, if_true]
        have hold : 0 < old.length := by
          cases old with
          | nil =>
            have := (apart_spec [] sep h).2.2.2
            exact absurd List.nil_infix this
          | cons a as => simp
        rw [ih (old.length - 1) (by simp only [List.length_cons] at hl; omega), List.append_assoc]
      · simp only [hm, if_false, List.cons_append]
        rw [ih 0 (Nat.zero_le _)]
        simp

theorem apart_ne_nil (old sep : Str) (h : apart old sep = true) : old ≠ [] := by
  rintro rfl
  exact (apart_spec [] sep h).2.2.2 List.nil_infix

theorem Replace_intercalate_apart (old new sep : Str) (h : apart old sep = true)
    (gaps : List Str) :
    strings.Replace (sep.intercalate gaps) old new =
      sep.intercalate (gaps.map fun g => strings.Replace g old new) := by
  simp only [strings.Replace, if_neg (apart_ne_nil old sep h)]
  induction gaps with
  | nil => rfl
  | cons g rest ih =>
    cases rest with
    | nil => simp [intercalate_singleton]
    | cons g2 rest =>
      rw [intercalate_cons_cons, List.map_cons, List.map_cons, intercalate_cons_cons,
        List.append_assoc, ReplaceAux_append_apart old new sep h _ g 0 (Nat.zero_le _), ih]
      simp

/-- A text in which `old` does not occur is left as it is. -/
theorem ReplaceAux_no_occurrence (old new : Str) (g : Str) (h : ¬ old <:+: g) :
    strings.ReplaceAux old new g 0 = g := by
  induction g with
  | nil => rfl
  | cons c cs ih =>
    have hno : old.isPrefixOf (c :: cs) = false := by
      cases hw : old.isPrefixOf (c :: cs) with
      | false => rfl
      | true => exact absurd (List.isPrefixOf_iff_prefix.mp hw).isInfix h
    rw [strings.ReplaceAux, hno]
    simp only [Bool.false_eq_true, if_false, List.cons.injEq, true_and]
    exact ih (fun hc => h (hc.trans (List.suffix_cons c cs).isInfix))

theorem ReplaceAux_gap_then_sep_only (a new : Str) (ha : a ≠ []) (X : Str) (g : Str)
    (h : ¬ a <:+: g ++ a.dropLast) :
    strings.ReplaceAux a new (g ++ (a ++ X)) 0 =
      g ++ (new ++ strings.ReplaceAux a new X 0) := by
  induction g with
  | nil =>
    cases a with
    | nil => exact absurd rfl ha
    | cons hd tl =>
      have hyes : (hd :: tl).isPrefixOf (hd :: (tl ++ X)) = true := by
        simp [List.isPrefixOf]
      rw [List.nil_append, List.cons_append, strings.ReplaceAux, hyes]
      simp only [if_true, List.length_cons, Nat.add_sub_cancel, List.nil_append]
      rw [ReplaceAux_skip]
  | cons c cs ih =>
    have hno : a.isPrefixOf (c :: (cs ++ (a ++ X))) = false := by
      cases hw : a.isPrefixOf (c :: (cs ++ (a ++ X))) with
      | false => rfl
      | true =>
        exfalso
        have hp : a <+: (c :: cs) ++ (a ++ X) := List.isPrefixOf_iff_prefix.mp hw
        have hq : (c :: cs) ++ a.dropLast <+: (c :: cs) ++ (a ++ X) :=
          (List.prefix_append_right_inj _).mpr
            ((List.dropLast_prefix a).trans (List.prefix_append a X))
        have hlen : a.length ≤ ((c :: cs) ++ a.dropLast).length := by
          simp only [List.length_append, List.length_cons, List.length_dropLast]
          have : 0 < a.length := List.length_pos.mpr ha
          omega
        exact h (List.prefix_of_prefix_length_le hp hq hlen).isInfix
    rw [List.cons_append, strings.ReplaceAux, hno]
    simp only [Bool.false_eq_true, if_false, List.cons_append, List.cons.injEq, true_and]
    exact ih (fun hc => h (hc.trans (List.suffix_cons c _).isInfix))

/-- Replacing a separator that occurs only as the separator puts the new text
between the gaps. -/
theorem Replace_intercalate_sepOnly (a new : Str) (ha : a ≠ []) (gaps : List Str)
    (hgaps : SepOnly a gaps) :
    strings.Replace (a.intercalate gaps) a new = new.intercalate gaps := by
  simp only [strings.Replace, if_neg ha]
  induction gaps with
  | nil => rfl
  | cons g rest ih =>
    cases rest with
    | nil =>
      rw [intercalate_singleton, intercalate_singleton]
      exact ReplaceAux_no_occurrence a new g hgaps
    | cons g2 rest =>
      obtain ⟨h1, h2⟩ := hgaps
      rw [intercalate_cons_cons, intercalate_cons_cons, List.append_assoc,
        ReplaceAux_gap_then_sep_only a new ha _ g h1, ih h2, List.append_assoc]

/-- An occurrence in two texts put together lies in the first, in the second,
or holds the last character of the first and the first of the second. -/
theorem infix_append_cases (b U V : Str) (h : b <:+: U ++ V) :
    b <:+: U ∨ b <:+: V ∨
      ∃ c d, U.getLast? = some c ∧ V.head? = some d ∧ c ∈ b ∧ d ∈ b := by
  obtain ⟨s, t, hst⟩ := h
  rcases List.append_eq_append_iff.mp hst with ⟨a1, hU, ht⟩ | ⟨c1, hsb, hV⟩
  · exact Or.inl ⟨s, a1, hU.symm⟩
  · rcases List.append_eq_append_iff.mp hsb with ⟨a2, hU2, hb⟩ | ⟨c2, hs2, hc1⟩
    · by_cases ha2 : a2 = []
      · subst ha2
        rw [List.nil_append] at hb
        right; left
        exact ⟨[], t, by rw [List.nil_append, hb]; exact hV.symm⟩
      · by_cases hc1 : c1 = []
        · subst hc1
          rw [List.append_nil] at hb
          left
          exact ⟨s, [], by rw [List.append_nil, hb]; exact hU2.symm⟩
        · right; right
          obtain ⟨a3, c, rfl⟩ : ∃ a3 c, a2 = a3 ++ [c] := by
            rcases List.eq_nil_or_concat a2 with h0 | ⟨a3, c, h0⟩
            · exact absurd h0 ha2
            · exact ⟨a3, c, by rw [h0, List.concat_eq_append]⟩
          obtain ⟨d, c3, rfl⟩ : ∃ d c3, c1 = d :: c3 := by
            cases c1 with
            | nil => exact absurd rfl hc1
            | cons d c3 => exact ⟨d, c3, rfl⟩
          refine ⟨c, d, ?_, ?_, ?_, ?_⟩
          · rw [hU2, ← List.append_assoc, List.getLast?_concat]
          · rw [hV]; rfl
          · rw [hb]; simp
          · rw [hb]; simp
    · right; left
      exact ⟨c2, t, by rw [hV, hc1, List.append_assoc]⟩

/-! ## Delimited URL occurrences -/

theorem edge_of_edgeOK (anchors : List Str) (l r : Bool) (f : Str)
    (h : edgeOK anchors l r f = true) : Edge anchors l r f := by
  cases f with
  | nil =>
    simp only [edgeOK, List.head?_nil, Bool.not_eq_true', Bool.and_eq_false_imp] at h
    refine ⟨fun _ hlr => ?_, fun _ c hc => by simp at hc, fun _ c hc => by simp at hc⟩
    have := h hlr.1
    rw [hlr.2] at this
    exact Bool.noConfusion this
  | cons a as =>
    obtain ⟨d, hd⟩ : ∃ d, (a :: as).getLast? = some d :=
      ⟨(a :: as).getLast (by simp), List.getLast?_eq_getLast _ _⟩
    simp only [edgeOK, List.head?_cons, hd, Bool.and_eq_true, Bool.or_eq_true,
      Bool.not_eq_true'] at h
    refine ⟨fun h0 => by simp at h0, fun hl c hc => ?_, fun hr c hc => ?_⟩
    · simp only [List.head?_cons, Option.some.injEq] at hc
      subst hc
      rcases h.1 with h1 | h1
      · rw [hl] at h1; exact Bool.noConfusion h1
      · exact h1
    · rw [hd] at hc
      simp only [Option.some.injEq] at hc
      subst hc
      rcases h.2 with h1 | h1
      · rw [hr] at h1; exact Bool.noConfusion h1
      · exact h1

theorem edgeList_map (anchors : List Str) (D : Bool → Bool → Str → Bool) (f : Str → Str)
    (P : List Str) :
    (∀ l r p, p ∈ P → D l r p = true → Edge anchors l r (f p)) →
    ∀ l r, edgesList D l r P = true → EdgeList anchors l r (P.map f) := by
  induction P with
  | nil => intro _ l r _; trivial
  | cons p rest ih =>
    intro hD l r h
    cases rest with
    | nil =>
      simp only [edgesList] at h
      exact hD l r p (List.mem_cons_self _ _) h
    | cons q qs =>
      simp only [edgesList, Bool.and_eq_true] at h
      exact ⟨hD l true p (List.mem_cons_self _ _) h.1,
        ih (fun l r x hx => hD l r x (List.mem_cons_of_mem _ hx)) true r h.2⟩

theorem edgesList_mem (D : Bool → Bool → Str → Bool) (P : List Str) :
    ∀ l r, edgesList D l r P = true → ∀ p ∈ P, ∃ l1 r1, D l1 r1 p = true := by
  induction P with
  | nil => intro _ _ _ p hp; cases hp
  | cons p rest ih =>
    intro l r h x hx
    cases rest with
    | nil =>
      simp only [edgesList] at h
      simp only [List.mem_singleton] at hx
      subst hx
      exact ⟨l, r, h⟩
    | cons q qs =>
      simp only [edgesList, Bool.and_eq_true] at h
      rcases List.mem_cons.mp hx with h1 | h1
      · subst h1
        exact ⟨l, true, h.1⟩
      · exact ih true r h.2 x h1

theorem soft_of_mem (anchors : List Str) (a : Str) (ha : a ∈ anchors) :
    ∀ c ∈ a, soft anchors c = true := by
  intro c hc
  rw [soft, List.any_eq_true]
  exact ⟨a, ha, decide_eq_true hc⟩

/-- The strings of a list with fit edges, joined with a placeholder, have fit
edges. -/
theorem edge_intercalate (anchors : List Str) (sep : Str) (hsep : sep ≠ []) (Xs : List Str) :
    ∀ l r, Xs ≠ [] → EdgeList anchors l r Xs → Edge anchors l r (sep.intercalate Xs) := by
  induction Xs with
  | nil => intro _ _ h; exact absurd rfl h
  | cons X rest ih =>
    intro l r _ h
    cases rest with
    | nil =>
      rw [intercalate_singleton]
      exact h
    | cons Y Ys =>
      obtain ⟨hX, hrest⟩ := h
      have hR := ih true r (by simp) hrest
      rw [intercalate_cons_cons]
      refine ⟨fun h0 => ?_, fun hl c hc => ?_, fun hr c hc => ?_⟩
      · have : sep = [] := by
          have h1 := List.append_eq_nil.mp h0
          exact (List.append_eq_nil.mp h1.1).2
        exact absurd this hsep
      · by_cases hXe : X = []
        · exact absurd ⟨hl, rfl⟩ (hX.1 hXe)
        · apply hX.2.1 hl c
          cases X with
          | nil => exact absurd rfl hXe
          | cons x xs => simpa using hc
      · by_cases hRe : sep.intercalate (Y :: Ys) = []
        · exact absurd ⟨rfl, hr⟩ (hR.1 hRe)
        · apply hR.2.2 hr c
          rw [List.getLast?_append_of_ne_nil _ hRe] at hc
          exact hc

theorem not_infix_of_length_lt (b X : Str) (h : X.length < b.length) : ¬ b <:+: X :=
  fun hc => absurd hc.length_le (by omega)

/-- A placeholder that occurs in none of the strings of a list with fit edges
and not in the separator does not occur in the strings joined. -/
theorem not_infix_intercalate (anchors : List Str) (b sep : Str) (hsep : sep ≠ [])
    (hb : ∀ c ∈ b, soft anchors c = true) (hbs : ¬ b <:+: sep) (Xs : List Str) :
    ∀ l r, EdgeList anchors l r Xs → (∀ X ∈ Xs, ¬ b <:+: X) →
      Xs ≠ [] → ¬ b <:+: sep.intercalate Xs := by
  induction Xs with
  | nil => intro _ _ _ _ h; exact absurd rfl h
  | cons X rest ih =>
    intro l r h hX _
    cases rest with
    | nil =>
      rw [intercalate_singleton]
      exact hX X (List.mem_cons_self _ _)
    | cons Y Ys =>
      obtain ⟨hE, hrest⟩ := h
      have hR := edge_intercalate anchors sep hsep (Y :: Ys) true r (by simp) hrest
      have hRb := ih true r hrest (fun Z hZ => hX Z (List.mem_cons_of_mem _ hZ)) (by simp)
      rw [intercalate_cons_cons, List.append_assoc]
      intro hc
      rcases infix_append_cases b X _ hc with h1 | h1 | ⟨c, d, hc1, _, hc3, _⟩
      · exact hX X (List.mem_cons_self _ _) h1
      · rcases infix_append_cases b sep _ h1 with h2 | h2 | ⟨c, d, _, hd2, _, hd4⟩
        · exact hbs h2
        · exact hRb h2
        · have := hR.2.1 rfl d hd2
          rw [hb d hd4] at this
          exact Bool.noConfusion this
      · have := hE.2.2 rfl c hc1
        rw [hb c hc3] at this
        exact Bool.noConfusion this

theorem mem_infix_intercalate (sep : Str) (Xs : List Str) :
    ∀ X ∈ Xs, X <:+: sep.intercalate Xs := by
  induction Xs with
  | nil => intro X h; cases h
  | cons Y rest ih =>
    intro X hX
    cases rest with
    | nil =>
      simp only [List.mem_singleton] at hX
      subst hX
      rw [intercalate_singleton]
    | cons Z Zs =>
      rw [intercalate_cons_cons]
      rcases List.mem_cons.mp hX with h1 | h1
      · subst h1
        exact ⟨[], sep ++ sep.intercalate (Z :: Zs), by simp⟩
      · exact (ih X h1).trans (List.suffix_append _ _).isInfix

/-- Every piece of a text is part of the text. -/
theorem mem_pieces_occurs (u text : Str) (hu : u ≠ []) : ∀ p ∈ pieces u text, p <:+: text := by
  intro p hp
  have h := mem_infix_intercalate u (pieces u text) p hp
  have hj := pieces_join u text hu
  rw [strings.Join] at hj
  rw [hj] at h
  exact h

theorem toAnchorsPairs_intercalate_apart (rest : List (Str × Str)) (A : Str)
    (hrest : ∀ q ∈ rest, apart q.1 A = true) :
    ∀ gaps : List Str, toAnchorsPairs rest (A.intercalate gaps) =
      A.intercalate (gaps.map (toAnchorsPairs rest)) := by
  induction rest with
  | nil =>
    intro gaps
    have hid : gaps.map (toAnchorsPairs []) = gaps := List.map_id _
    rw [hid]
    rfl
  | cons q rest ih =>
    intro gaps
    have hq := hrest q (List.mem_cons_self _ _)
    have h1 : toAnchorsPairs (q :: rest) (A.intercalate gaps) =
        toAnchorsPairs rest (strings.Replace (A.intercalate gaps) q.1 q.2) := rfl
    rw [h1, Replace_intercalate_apart q.1 q.2 A hq gaps,
      ih (fun r hr => hrest r (List.mem_cons_of_mem _ hr)), List.map_map]
    rfl

theorem toLinksPairs_intercalate_apart (rest : List (Str × Str)) (M : Str)
    (hrest : ∀ q ∈ rest, apart q.2 M = true) :
    ∀ gaps : List Str, toLinksPairs rest (M.intercalate gaps) =
      M.intercalate (gaps.map (toLinksPairs rest)) := by
  induction rest with
  | nil =>
    intro gaps
    have hid : gaps.map (toLinksPairs []) = gaps := List.map_id _
    rw [hid]
    rfl
  | cons q rest ih =>
    intro gaps
    have hq := hrest q (List.mem_cons_self _ _)
    have h1 : toLinksPairs (q :: rest) (M.intercalate gaps) =
        toLinksPairs rest (strings.Replace (M.intercalate gaps) q.2 (linkMarkup q.1)) := rfl
    rw [h1, Replace_intercalate_apart q.2 (linkMarkup q.1) M hq gaps,
      ih (fun r hr => hrest r (List.mem_cons_of_mem _ hr)), List.map_map]
    rfl

/-- The first loop on a text cut at the first URL: the pieces, each with the
other URLs replaced, joined with the placeholder of the first URL. -/
theorem toAnchorsPairs_cons (u a : Str) (rest : List (Str × Str)) (text : Str) (hu : u ≠ [])
    (hrest : ∀ q ∈ rest, apart q.1 a = true) :
    toAnchorsPairs ((u, a) :: rest) text =
      a.intercalate ((pieces u text).map (toAnchorsPairs rest)) := by
  have h1 : toAnchorsPairs ((u, a) :: rest) text =
      toAnchorsPairs rest (strings.Replace text u a) := rfl
  rw [h1, Replace_eq_join text u a hu, strings.Join,
    toAnchorsPairs_intercalate_apart rest a hrest]

/-- After the first loop the text has fit edges, and a placeholder that was
not in the text and is not part of a placeholder put in is not in it. -/
theorem toAnchorsPairs_edge (anchors : List Str) (ps : List (Str × Str)) :
    (∀ p ∈ ps, p.1 ≠ [] ∧ p.2 ≠ [] ∧ p.2 ∈ anchors) →
    ps.Pairwise (fun p q => apart q.1 p.2 = true) →
    ∀ (l r : Bool) (text : Str), delimited anchors (ps.map Prod.fst) l r text = true →
      Edge anchors l r (toAnchorsPairs ps text) ∧
      ∀ b, b ∈ anchors → ¬ b <:+: text → (∀ q ∈ ps, ¬ b <:+: q.2) →
        ¬ b <:+: toAnchorsPairs ps text := by
  induction ps with
  | nil =>
    intro _ _ l r text h
    exact ⟨edge_of_edgeOK anchors l r text h, fun b _ hb _ => hb⟩
  | cons p rest ih =>
    intro hps hpw l r text h
    obtain ⟨u, a⟩ := p
    obtain ⟨hu, ha, hmem⟩ := hps (u, a) (List.mem_cons_self _ _)
    have hpw2 := List.pairwise_cons.mp hpw
    have hrest : ∀ q ∈ rest, apart q.1 a = true := fun q hq => hpw2.1 q hq
    have ih2 := ih (fun q hq => hps q (List.mem_cons_of_mem _ hq)) hpw2.2
    have hdel : edgesList (delimited anchors (rest.map Prod.fst)) l r (pieces u text) = true := h
    have hEL : EdgeList anchors l r ((pieces u text).map (toAnchorsPairs rest)) :=
      edgeList_map anchors _ _ _ (fun l1 r1 x _ hx => (ih2 l1 r1 x hx).1) l r hdel
    have hne : (pieces u text).map (toAnchorsPairs rest) ≠ [] := by
      simp only [ne_eq, List.map_eq_nil_iff]
      exact piecesAux_ne_nil u text 0
    rw [toAnchorsPairs_cons u a rest text hu hrest]
    refine ⟨edge_intercalate anchors a ha _ l r hne hEL, ?_⟩
    intro b hb hbt hbq
    refine not_infix_intercalate anchors b a ha (soft_of_mem anchors b hb)
      (hbq (u, a) (List.mem_cons_self _ _)) _ l r hEL ?_ hne
    intro X hX
    obtain ⟨x, hx, rfl⟩ := List.mem_map.mp hX
    obtain ⟨l1, r1, hd1⟩ := edgesList_mem _ _ l r hdel x hx
    exact (ih2 l1 r1 x hd1).2 b hb
      (fun hc => hbt (hc.trans (mem_pieces_occurs u text hu x hx)))
      (fun q hq => hbq q (List.mem_cons_of_mem _ hq))

theorem sepOnly_of_edgeList (anchors : List Str) (a : Str) (ha : a ≠ [])
    (hsoft : ∀ c ∈ a, soft anchors c = true) (Q : List Str) :
    ∀ l r, EdgeList anchors l r Q → (∀ X ∈ Q, ¬ a <:+: X) → SepOnly a Q := by
  induction Q with
  | nil => intro _ _ _ _; trivial
  | cons X rest ih =>
    intro l r h hX
    cases rest with
    | nil => exact hX X (List.mem_cons_self _ _)
    | cons Y Ys =>
      obtain ⟨hE, hrest⟩ := h
      refine ⟨?_, ih true r hrest (fun Z hZ => hX Z (List.mem_cons_of_mem _ hZ))⟩
      intro hc
      rcases infix_append_cases a X _ hc with h1 | h1 | ⟨c, d, hc1, _, hc3, _⟩
      · exact hX X (List.mem_cons_self _ _) h1
      · refine not_infix_of_length_lt a _ ?_ h1
        have : 0 < a.length := List.length_pos.mpr ha
        rw [List.length_dropLast]
        omega
      · have := hE.2.2 rfl c hc1
        rw [hsoft c hc3] at this
        exact Bool.noConfusion this

/-- With inert placeholders the two loops make every URL of the list a link,
the first URL first. -/
theorem toLinksPairs_toAnchorsPairs_inert (anchors : List Str) (ps : List (Str × Str)) :
    (∀ p ∈ ps, p.1 ≠ [] ∧ p.2 ≠ [] ∧ p.2 ∈ anchors) →
    ps.Pairwise (fun p q =>
      apart q.1 p.2 = true ∧ apart q.2 (linkMarkup p.1) = true ∧ ¬ p.2 <:+: q.2) →
    ∀ (l r : Bool) (text : Str), (∀ p ∈ ps, ¬ p.2 <:+: text) →
      delimited anchors (ps.map Prod.fst) l r text = true →
      toLinksPairs ps (toAnchorsPairs ps text) = linkAll (ps.map Prod.fst) text := by
  induction ps with
  | nil => intro _ _ _ _ _ _ _; rfl
  | cons p rest ih =>
    intro hps hpw l r text htext h
    obtain ⟨u, a⟩ := p
    obtain ⟨hu, ha, hmem⟩ := hps (u, a) (List.mem_cons_self _ _)
    have hpw2 := List.pairwise_cons.mp hpw
    have hrest : ∀ q ∈ rest, apart q.1 a = true := fun q hq => (hpw2.1 q hq).1
    have hps2 : ∀ q ∈ rest, q.1 ≠ [] ∧ q.2 ≠ [] ∧ q.2 ∈ anchors :=
      fun q hq => hps q (List.mem_cons_of_mem _ hq)
    have hpw3 : rest.Pairwise (fun p q => apart q.1 p.2 = true) :=
      hpw2.2.imp (fun hpq => hpq.1)
    have hsoft := soft_of_mem anchors a hmem
    have hdel : edgesList (delimited anchors (rest.map Prod.fst)) l r (pieces u text) = true := h
    have hEL : EdgeList anchors l r ((pieces u text).map (toAnchorsPairs rest)) :=
      edgeList_map anchors _ _ _
        (fun l1 r1 x _ hx => (toAnchorsPairs_edge anchors rest hps2 hpw3 l1 r1 x hx).1) l r hdel
    have hfree : ∀ X ∈ (pieces u text).map (toAnchorsPairs rest), ¬ a <:+: X := by
      intro X hX
      obtain ⟨x, hx, rfl⟩ := List.mem_map.mp hX
      obtain ⟨l1, r1, hd1⟩ := edgesList_mem _ _ l r hdel x hx
      exact (toAnchorsPairs_edge anchors rest hps2 hpw3 l1 r1 x hd1).2 a hmem
        (fun hc => htext (u, a) (List.mem_cons_self _ _)
          (hc.trans (mem_pieces_occurs u text hu x hx)))
        (fun q hq => (hpw2.1 q hq).2.2)
    have hstep2 : ∀ S, toLinksPairs ((u, a) :: rest) S =
        toLinksPairs rest (strings.Replace S a (linkMarkup u)) := fun _ => rfl
    rw [toAnchorsPairs_cons u a rest text hu hrest, hstep2,
      Replace_intercalate_sepOnly a (linkMarkup u) ha _
        (sepOnly_of_edgeList anchors a ha hsoft _ l r hEL hfree),
      toLinksPairs_intercalate_apart rest (linkMarkup u) (fun q hq => (hpw2.1 q hq).2.1),
      List.map_map]
    show _ = strings.Join ((pieces u text).map (linkAll (rest.map Prod.fst))) (linkMarkup u)
    rw [strings.Join]
    congr 1
    apply List.map_congr_left
    intro x hx
    obtain ⟨l1, r1, hd1⟩ := edgesList_mem _ _ l r hdel x hx
    exact ih hps2 hpw2.2 l1 r1 x
      (fun q hq hc => htext q (List.mem_cons_of_mem _ hq)
        (hc.trans (mem_pieces_occurs u text hu x hx))) hd1

/-- A list sorted by strictly descending length is the only arrangement of
its strings by descending length: the order that `sort.Slice` gives to strings
of pairwise different lengths is fixed. -/
theorem longestFirst_unique (l m : List Str) (hp : l.Perm m)
    (hl : l.Pairwise (fun a b => a.length ≥ b.length))
    (hm : m.Pairwise (fun a b => a.length > b.length)) : l = m := by
  have hml : (m.map List.length).Nodup := by
    rw [List.Nodup, List.pairwise_map]
    exact hm.imp (fun h => Nat.ne_of_gt h)
  have hll : (l.map List.length).Nodup := (hp.map List.length).nodup_iff.mpr hml
  have hl2 : l.Pairwise (fun a b => a.length > b.length) := by
    rw [List.Nodup, List.pairwise_map] at hll
    exact (hl.and hll).imp (fun h => lt_of_le_of_ne h.1 (Ne.symm h.2))
  haveI : IsAntisymm Str (fun a b => a.length > b.length) :=
    ⟨fun a b h1 h2 => absurd h1 (not_lt_of_gt h2)⟩
  exact List.eq_of_perm_of_sorted hp hl2 hm

set_option maxRecDepth 100000 in
/-- C12 (counterexample): the text holds three detected URLs, each standing
alone and each a proper prefix of the next, so their order longest first is
fixed.  The URL `http://foo.com/longer` occurs twice in the text, alone and at
the start of `http://foo.com/longer/more`.  The placeholders are forty
hexadecimal digits each, occur neither in the text nor in a URL nor in one
another, and are inert; the result holds the anchor markup of
`http://foo.com/longer` once: its occurrence inside the longer URL is part of
the markup of that URL, as the order longest first is meant to have it. -/
theorem noteToHTML_substitute_longest_url_wins :
    (∀ l : List Str,
      l.Perm ["http://foo.com".toList, "http://foo.com/longer".toList,
        "http://foo.com/longer/more".toList] →
      l.Pairwise (fun a b => a.length ≥ b.length) →
      l = ["http://foo.com/longer/more".toList, "http://foo.com/longer".toList,
        "http://foo.com".toList]) ∧
    "http://foo.com".toList <+: "http://foo.com/longer".toList ∧
    (∀ a ∈ hexAnchors, a.length = 40 ∧ ¬ a <:+: textThreeURLs) ∧
    (∀ a ∈ hexAnchors, ∀ u ∈ ["http://foo.com".toList, "http://foo.com/longer".toList,
        "http://foo.com/longer/more".toList], ¬ a <:+: u) ∧
    hexAnchors.Pairwise (fun a b => ¬ a <:+: b ∧ ¬ b <:+: a) ∧
    Inert (["http://foo.com/longer/more".toList, "http://foo.com/longer".toList,
        "http://foo.com".toList].zip hexAnchors) textThreeURLs ∧
    (noteToHTML (linkEnv ["http://foo.com".toList, "http://foo.com/longer".toList,
        "http://foo.com/longer/more".toList] hexAnchors) textThreeURLs world0).1 =
      noteToHTML_substitute (linkEnv ["http://foo.com".toList, "http://foo.com/longer".toList,
        "http://foo.com/longer/more".toList] hexAnchors)
        ["http://foo.com/longer/more".toList, "http://foo.com/longer".toList,
          "http://foo.com".toList] textThreeURLs world0 ∧
    noteToHTML_substitute (linkEnv ["http://foo.com".toList, "http://foo.com/longer".toList,
        "http://foo.com/longer/more".toList] hexAnchors)
        ["http://foo.com/longer/more".toList, "http://foo.com/longer".toList,
          "http://foo.com".toList] textThreeURLs world0 =
      linkMarkup "http://foo.com".toList ++ " ".toList ++
        linkMarkup "http://foo.com/longer".toList ++ " ".toList ++
        linkMarkup "http://foo.com/longer/more".toList ∧
    (pieces "http://foo.com/longer".toList textThreeURLs).length = 3 ∧
    (pieces (linkMarkup "http://foo.com/longer".toList)
      (noteToHTML_substitute (linkEnv ["http://foo.com".toList, "http://foo.com/longer".toList,
        "http://foo.com/longer/more".toList] hexAnchors)
        ["http://foo.com/longer/more".toList, "http://foo.com/longer".toList,
          "http://foo.com".toList] textThreeURLs world0)).length = 2 := by
  refine ⟨fun l hp hl => longestFirst_unique l _ (hp.trans (by decide)) hl (by decide),
    by decide, by decide, by decide, by decide, ⟨by decide, by decide, by decide⟩, by decide,
    by decide, by decide, by decide⟩

/-- C12 (amended): for a text and its detected URLs in the order in which
`noteToHTML` replaces them (distinct, longest first, so a URL `v` comes before
every shorter one, in particular before every proper prefix `u` of it), with
placeholders that are inert in the text, the two loops of `noteToHTML` give,
before sanitizing, the text with the URLs made links one after the other: the
text is cut at the occurrences, from the left and without overlap, of the
first URL, every such occurrence becomes exactly the markup of that URL, and
the pieces between them are treated in the same way with the other URLs.  So
for exactly two URLs `v` and `u`, every occurrence of `v` becomes the markup
of `v`, and in the pieces between them every occurrence of `u` becomes the
markup of `u`.  This assumes of the libraries that `RemoveDuplicateStrings`
returns distinct strings and that the sort returns its argument reordered,
longer strings first. -/
theorem noteToHTML_substitute_links (env : Env) (text : Str) (w : World) (urls : List Str)
    (hdedup : ∀ l, (env.removeDuplicateStrings l).Nodup)
    (hsort : ∀ l, (env.sortLongestFirst l).Perm l ∧
      (env.sortLongestFirst l).Pairwise (fun a b => a.length ≥ b.length))
    (hurls : urls = env.sortLongestFirst (env.removeDuplicateStrings (env.findAllURLs text)))
    (hinert : Inert (urls.zip (anchorsFrom env w.nRandom urls.length)) text) :
    (noteToHTML env text w).1 = env.sanitize (noteToHTML_substitute env urls text w) ∧
    noteToHTML_substitute env urls text w = linkAll urls text ∧
    (∀ u v, u ∈ urls → v ∈ urls → u.length < v.length → [v, u].Sublist urls) ∧
    (∀ url s, url ∈ urls → strings.Join (pieces url s) url = s) ∧
    ∀ u v, urls = [v, u] →
      linkAll urls text =
        strings.Join ((pieces v text).map fun g => strings.Join (pieces u g) (linkMarkup u))
          (linkMarkup v) := by
  have hnd : urls.Nodup := by
    rw [hurls]
    exact (hsort _).1.nodup_iff.mpr (hdedup _)
  have hfst : (urls.zip (anchorsFrom env w.nRandom urls.length)).map Prod.fst = urls :=
    List.map_fst_zip _ _ (by simp [anchorsFrom])
  obtain ⟨h1, h2, h3⟩ := hinert
  refine ⟨by rw [hurls]; rfl, ?_, ?_, ?_, ?_⟩
  · rw [noteToHTML_substitute_eq env urls text w hnd,
      toLinksPairs_toAnchorsPairs_inert _ _
        (fun p hp => ⟨(h1 p hp).1, (h1 p hp).2.1, List.mem_map.mpr ⟨p, hp, rfl⟩⟩) h2
        false false text (fun p hp => (h1 p hp).2.2) h3, hfst]
  · intro u v hu hv hlt
    have hne : u ≠ v := by rintro rfl; exact absurd hlt (lt_irrefl _)
    rcases sublist_pair_of_mem urls u v hu hv hne with h | h
    · have hs : urls.Pairwise (fun a b => a.length ≥ b.length) := by
        rw [hurls]; exact (hsort _).2
      have := (hs.sublist h)
      simp only [List.pairwise_cons, List.mem_singleton, forall_eq] at this
      omega
    · exact h
  · intro url s hurl
    have hne : url ≠ [] := by
      have hm : url ∈ (urls.zip (anchorsFrom env w.nRandom urls.length)).map Prod.fst := by
        rw [hfst]; exact hurl
      obtain ⟨p, hp, rfl⟩ := List.mem_map.mp hm
      exact (h1 p hp).1
    exact pieces_join url s hne
  · intro u v huv
    rw [huv]
    exact linkAll_pair u v text

set_option maxRecDepth 100000 in
/-- C12 (witness): the text `http://foo.com http://foo.com/longer` with two
placeholders of forty hexadecimal digits. -/
theorem noteToHTML_substitute_links_witness :
    (linkEnv ["http://foo.com".toList, "http://foo.com/longer".toList]
        hexAnchors).sortLongestFirst
      ((linkEnv ["http://foo.com".toList, "http://foo.com/longer".toList]
        hexAnchors).removeDuplicateStrings
        ((linkEnv ["http://foo.com".toList, "http://foo.com/longer".toList]
          hexAnchors).findAllURLs textTwoURLs)) =
      ["http://foo.com/longer".toList, "http://foo.com".toList] ∧
    Inert (["http://foo.com/longer".toList, "http://foo.com".toList].zip
      (anchorsFrom (linkEnv ["http://foo.com".toList, "http://foo.com/longer".toList]
        hexAnchors) world0.nRandom 2)) textTwoURLs ∧
    linkAll ["http://foo.com/longer".toList, "http://foo.com".toList] textTwoURLs =
      "<a href=\"http://foo.com\">http://foo.com</a> <a href=\"http://foo.com/longer\">http://foo.com/longer</a>".toList ∧
    (noteToHTML (linkEnv ["http://foo.com".toList, "http://foo.com/longer".toList] hexAnchors)
        textTwoURLs world0).1 =
      linkAll ["http://foo.com/longer".toList, "http://foo.com".toList] textTwoURLs ∧
    noteToHTML_substitute
        (linkEnv ["http://foo.com".toList, "http://foo.com/longer".toList] hexAnchors)
        ["http://foo.com/longer".toList, "http://foo.com".toList] textTwoURLs world0 =
      linkAll ["http://foo.com/longer".toList, "http://foo.com".toList] textTwoURLs :=
  ⟨by decide, ⟨by decide, by decide, by decide⟩, by decide, by decide,
    (noteToHTML_substitute_links
      (linkEnv ["http://foo.com".toList, "http://foo.com/longer".toList] hexAnchors)
      textTwoURLs world0 ["http://foo.com/longer".toList, "http://foo.com".toList]
      (fun l => dedupFirst_nodup l)
      (fun l => ⟨List.perm_insertionSort _ l, demoSortLongestFirst_sorted l⟩)
      (by decide) ⟨by decide, by decide, by decide⟩).2.1⟩

end Notes
